import Mathlib

/-! # pistis-config-parser: a verification development

A shallow embedding of the configuration-file front end of
`pistis::config_parser` (lexer, value processor, parser, property store and
property registry / binder) together with theorems about it.

Conventions of the embedding:

* a `std::string` is the list of its characters (`Str`); `operator<` on
  strings is the lexicographic order `strLt`;
* a `std::map<std::string, T>` is its list of entries in ascending key order;
  an iterator into the map is the suffix of that list that starts at the
  iterator's position (`end()` is the empty suffix);
* a function that throws returns `Except`; the exception object is the error
  value; where a theorem speaks of the object after a call that throws, or of
  the calls a function makes, the function is also given as a transition of
  the member it writes (`registerPropertyState_`) or with the list of its
  calls (`applyHandlerTraced_`, `encodeCalls`, `parseLoopBraces`), and shown
  to agree with the other form; a part of a function that a theorem speaks
  of is a definition of its own (`mergeIncluded`, `includedProperties_`);
* a loop whose passes cannot be counted off a list is run for a stated number
  of passes and returns an `Option`: `none` says the passes did not suffice,
  and theorems show that they always do; the loop of `parse` is also given
  pass by pass (`parsePass`, `parseLoopPasses`) and shown to agree;
* an `int` member of the lexer is an integer that every operation stores
  through `wrapInt`, the value of its 32 bits in two's complement;
* an iterator into a `std::string` is its offset from `begin()`; a state
  whose offset lies beyond the text stands for an iterator that has been
  invalidated, and the theorems about the lexer say for which states they
  hold (`ConfigFileLexer.Attached`);
* the parts of the surrounding libraries that the code calls (`startsWith`,
  `rstrip`, `join`, path handling, the file system, the process
  environment) are small definitions or parameters, named after the calls;
* `std::regex_match` against `LEGAL_NAME_REX_` is computed by the recognizer
  `isLegalName`; the regular expression itself is `LEGAL_NAME_REX_`, matched
  by derivatives, and the two are shown to agree;
* a definition that states a specification rather than code (a reference
  binder, a grammar in words, a UTF-8 decoder) says so in its comment.
-/

namespace Pistis

deriving instance DecidableEq for Except

/-! ## Strings -/

/-- A `std::string`: its sequence of characters. -/
abbrev Str := List Char

/-- The character that `s[i]` / `*it` yields at the end of a string. -/
def NUL : Char := Char.ofNat 0

/-- Lexicographic `operator<` of `std::string`. -/
def strLt : Str → Str → Bool
  | [], [] => false
  | [], _ :: _ => true
  | _ :: _, [] => false
  | a :: as, b :: bs =>
    if a.toNat < b.toNat then true
    else if b.toNat < a.toNat then false
    else strLt as bs

/-- Embeds `pistis::util::startsWith(s, p)`: does `s` begin with `p`? -/
def startsWith (s p : Str) : Bool := List.isPrefixOf p s

/-- Embeds `pistis::util::join(begin, end, sep)`. -/
def join : List Str → Str → Str
  | [], _ => []
  | [s], _ => s
  | s :: t :: rest, sep => s ++ sep ++ join (t :: rest) sep

/-- Embeds `isalpha` in the C locale. -/
def isAlpha (c : Char) : Bool :=
  (65 ≤ c.toNat && c.toNat ≤ 90) || (97 ≤ c.toNat && c.toNat ≤ 122)

/-- Embeds `isdigit`. -/
def isDigit (c : Char) : Bool := 48 ≤ c.toNat && c.toNat ≤ 57

/-- Embeds `isalnum` in the C locale. -/
def isAlnum (c : Char) : Bool := isAlpha c || isDigit c

/-- Embeds `isspace` in the C locale: space, `\t`, `\n`, `\v`, `\f`, `\r`. -/
def isSpace (c : Char) : Bool := c.toNat = 32 || (9 ≤ c.toNat && c.toNat ≤ 13)

/-- Embeds `pistis::util::rstrip`: drop trailing whitespace. -/
def rstrip (s : Str) : Str := (s.reverse.dropWhile isSpace).reverse

/-- What `operator<<` prints for an `int`. -/
def showInt (n : Int) : Str := (toString n).toList

/-! ## ConfigurationProperty -/

/-- Class `ConfigurationProperty`. -/
structure ConfigurationProperty where
  name : Str
  value : Str
  source : Str
  line : Int
  deriving DecidableEq, Repr

/-- The class `[A-Za-z0-9_]` of `LEGAL_NAME_REX_`. -/
def isWordChar (c : Char) : Bool := isAlnum c || c = '_'

/-- Matches `[A-Za-z0-9_]*(?:\.[A-Za-z0-9_]+)*$`, the part of
`LEGAL_NAME_REX_` after the first letter: every character is a word character
or a dot, and every dot is followed by a word character. -/
def legalNameRest : Str → Bool
  | [] => true
  | c :: cs =>
    if isWordChar c then legalNameRest cs
    else c = '.' && (match cs with
                     | [] => false
                     | d :: _ => isWordChar d) && legalNameRest cs

/-- Embeds `ConfigurationProperty::isLegalName`: `std::regex_match` of the name
against `[A-Za-z][A-Za-z0-9_]*(?:\.[A-Za-z0-9_]+)*$`. -/
def isLegalName : Str → Bool
  | [] => false
  | c :: cs => isAlpha c && legalNameRest cs

/-! ## ConfigurationPropertyMap -/

/-- The `std::map<std::string, ConfigurationProperty> properties_` of a
`ConfigurationPropertyMap`: entries in ascending key order. -/
structure ConfigurationPropertyMap where
  properties_ : List (Str × ConfigurationProperty)
  deriving DecidableEq, Repr

namespace ConfigurationPropertyMap

/-- The default constructor: an empty store. -/
def empty : ConfigurationPropertyMap := ⟨[]⟩

/-- Embeds `properties_.find(key)`: the entry with that key, if any. -/
def find (m : ConfigurationPropertyMap) (key : Str) : Option ConfigurationProperty :=
  (m.properties_.find? (fun e => e.1 = key)).map Prod.snd

/-- Embeds `ConfigurationPropertyMap::hasKey`. -/
def hasKey (m : ConfigurationPropertyMap) (key : Str) : Bool := (m.find key).isSome

/-- Embeds `ConfigurationPropertyMap::size`. -/
def size (m : ConfigurationPropertyMap) : Nat := m.properties_.length

/-- The sequence visited by iterating from `begin()` to `end()`. -/
def toList (m : ConfigurationPropertyMap) : List ConfigurationProperty :=
  m.properties_.map Prod.snd

/-- The entries after `add(p)`: an entry with `p`'s name is assigned `p`,
otherwise `(p.name, p)` is inserted at its place in key order. -/
def addEntries (p : ConfigurationProperty) :
    List (Str × ConfigurationProperty) → List (Str × ConfigurationProperty)
  | [] => [(p.name, p)]
  | e :: rest =>
    if e.1 = p.name then (e.1, p) :: rest
    else if strLt p.name e.1 then (p.name, p) :: e :: rest
    else e :: addEntries p rest

/-- Embeds `ConfigurationPropertyMap::add`. -/
def add (m : ConfigurationPropertyMap) (p : ConfigurationProperty) : ConfigurationPropertyMap :=
  ⟨addEntries p m.properties_⟩

end ConfigurationPropertyMap

/-! ## ApplicationConfiguration: the property registry and binder -/

/-- What a call of `PropertyHandler::handle` does: return normally or throw. -/
inductive HandlerOutcome
  | ok
  | propertyFormatError (value description : Str)
  | invalidPropertyValueError (property : ConfigurationProperty) (value details : Str)
  | stdException (what : Str)
  | unknownException
  deriving DecidableEq, Repr

/-- Class `ApplicationConfiguration::PropertyInfo`.  The owned
`PropertyHandler` object is identified by a number (`none` is the null
pointer); what its `handle` does is given separately. -/
structure PropertyInfo where
  name_ : Str
  prefix_ : Bool
  required_ : Bool
  allowEmpty_ : Bool
  found_ : Bool
  handler_ : Option Nat
  deriving DecidableEq, Repr

namespace PropertyInfo

/-- The constructor `PropertyInfo(name, isPrefix, isRequired, allowEmpty,
handler)`; `found_` starts false. -/
def create (name : Str) (isPfx isRequired allowEmpty : Bool) (handler : Option Nat) :
    PropertyInfo :=
  ⟨name, isPfx, isRequired, allowEmpty, false, handler⟩

/-- Embeds `PropertyInfo::setFound`. -/
def setFound (info : PropertyInfo) (v : Bool) : PropertyInfo := { info with found_ := v }

end PropertyInfo

/-- Embeds `PropertyInfoMap`, the type of `handlers_`. -/
abbrev PropertyInfoMap := List (Str × PropertyInfo)

/-- Embeds `ApplicationConfigurationError(details)`. -/
structure ApplicationConfigurationError where
  details : Str
  deriving DecidableEq, Repr

/-- Embeds `std::map::lower_bound(key)`: the position of the first entry whose
key is not less than `key`. -/
def lowerBound {V : Type} (key : Str) : List (Str × V) → List (Str × V)
  | [] => []
  | e :: rest => if strLt e.1 key then lowerBound key rest else e :: rest

/-- Embeds `std::map::insert`: put the entry at its place in key order; an entry
that is already there under that key is kept. -/
def mapInsert {V : Type} (k : Str) (v : V) : List (Str × V) → List (Str × V)
  | [] => [(k, v)]
  | e :: rest =>
    if strLt e.1 k then e :: mapInsert k v rest
    else if e.1 = k then e :: rest
    else (k, v) :: e :: rest

/-- The file-static `isLegalPropertyName(name, nameLen)` of
ApplicationConfiguration.cpp. -/
def isLegalPropertyName (name : Str) : Bool :=
  if name.getLast? = some '.' then isLegalName name.dropLast else isLegalName name

/-- The first loop of `registerProperty_`: from position `k`, while the key
starts with `firstChar`, look for a key that begins with the new prefix. -/
def findHandlerWithPrefix (name : Str) (firstChar : Char) : PropertyInfoMap → Option Str
  | [] => none
  | k :: rest =>
    if k.1.headD NUL = firstChar then
      if startsWith k.1 name then some k.1
      else findHandlerWithPrefix name firstChar rest
    else none

/-- The second loop of `registerProperty_`: from position `j` up to (not
including) position `i`, given by the number of entries from `i` to the end,
look for a prefix handler whose key is a prefix of the new name. -/
def findPrefixOf (name : Str) (iLen : Nat) : PropertyInfoMap → Option Str
  | [] => none
  | j :: rest =>
    if (j :: rest).length = iLen then none
    else if j.2.prefix_ && startsWith name j.1 then some j.2.name_
    else findPrefixOf name iLen rest

/-- Short for a quoted string literal of the source. -/
def lit (s : String) : Str := s.toList

/-- Embeds `ApplicationConfiguration::registerProperty_(PropertyInfo&&)`: the new
`handlers_`, or the error thrown (and then `handlers_` is untouched). -/
def registerProperty_ (handlers_ : PropertyInfoMap) (info : PropertyInfo) :
    Except ApplicationConfigurationError PropertyInfoMap :=
  if info.prefix_ && (info.name_.length = 0 || !isLegalPropertyName info.name_) then
    .error ⟨lit "Cannot register property prefix for invalid prefix \"" ++ info.name_ ++ lit "\""⟩
  else if !info.prefix_ && !isLegalName info.name_ then
    .error ⟨lit "Cannot register property with invalid name \"" ++ info.name_ ++ lit "\""⟩
  else if info.handler_.isNone then
    .error ⟨lit "Cannot register property \"" ++ info.name_ ++ lit "\" with no handler"⟩
  else
    let i := lowerBound info.name_ handlers_
    if (i.head?.map Prod.fst) = some info.name_ then
      .error ⟨lit "Property \"" ++ info.name_ ++ lit "\" has already been registered"⟩
    else
      match (if info.prefix_ then findHandlerWithPrefix info.name_ (info.name_.headD NUL) i
             else none) with
      | some k =>
        .error ⟨lit "Cannot register handler for prefix \"" ++ info.name_ ++
                lit "\" because a previously-registered property (\"" ++ k ++
                lit "\") begins with that prefix"⟩
      | none =>
        let j := lowerBound (info.name_.take 1) handlers_
        match (if (j.head?.map (fun e => e.1.headD NUL)) = some (info.name_.headD NUL)
               then findPrefixOf info.name_ i.length j else none) with
        | some p =>
          .error ⟨lit "Cannot register handler for property \"" ++ info.name_ ++
                  lit "\" because a handler for properties with prefix \"" ++ p ++
                  lit "\" has already been registered"⟩
        | none => .ok (mapInsert info.name_ info handlers_)

/-- Embeds `InvalidPropertyValueError(property, value, details)`; the one-argument
constructor leaves `value` and `details` empty. -/
structure InvalidPropertyValueError where
  property : ConfigurationProperty
  value : Str
  details : Str
  deriving DecidableEq, Repr

/-- The exceptions that `load_` lets escape. -/
inductive BindError
  | requiredPropertyMissing (sourceName propertyName : Str)
  | unknownProperty (source : Str) (line : Int) (name : Str)
  | invalidPropertyValue (e : InvalidPropertyValueError)
  deriving DecidableEq, Repr

/-- Embeds `ApplicationConfiguration::applyHandler_`: `none` when the handler was
invoked and returned, otherwise the `InvalidPropertyValueError` thrown.
`handle h p` is what `handle(p)` of handler object `h` does. -/
def applyHandler_ (handle : Nat → ConfigurationProperty → HandlerOutcome)
    (info : PropertyInfo) (property : ConfigurationProperty) :
    Option InvalidPropertyValueError :=
  if !info.allowEmpty_ && property.value.isEmpty then
    some ⟨property, [], lit "Value is empty"⟩
  else
    match info.handler_ with
    | none => none
    | some h =>
      match handle h property with
      | .ok => none
      | .propertyFormatError v d =>
        some ⟨property, if v.isEmpty then property.value else v, d⟩
      | .invalidPropertyValueError p v d => some ⟨p, v, d⟩
      | .stdException w => some ⟨property, property.value, w⟩
      | .unknownException => some ⟨property, [], []⟩

/-- One handler application performed by `load_`: the key of the handler
entry and the property it was applied to. -/
abbrev Application := Str × ConfigurationProperty

/-- The state in which `load_` ends: `handlers_` (with the `found_` flags it
set), the handler applications that completed, in order, and the exception
thrown, if any. -/
structure LoadResult where
  handlers : PropertyInfoMap
  applied : List Application
  error : Option BindError
  deriving DecidableEq, Repr

/-- The first loop of `load_`: `setFound(false)` on every handler. -/
def resetFound (handlers_ : PropertyInfoMap) : PropertyInfoMap :=
  handlers_.map (fun e => (e.1, e.2.setFound false))

/-- The loop after the merge in `load_`: from position `j`, the first
required handler raises `RequiredPropertyMissingError`. -/
def firstRequired : PropertyInfoMap → Option Str
  | [] => none
  | j :: rest => if j.2.required_ then some j.1 else firstRequired rest

/-- The end of `load_`, entered with the property cursor at `i` and the
handler cursor at `j` (`done` holds the handlers before `j`, last first). -/
def loadFinish (ignoreUnknownProperties_ : Bool) (sourceName : Str)
    (i : List ConfigurationProperty) (done j : PropertyInfoMap)
    (applied : List Application) : LoadResult :=
  match firstRequired j with
  | some key => ⟨done.reverse ++ j, applied, some (.requiredPropertyMissing sourceName key)⟩
  | none =>
    match i with
    | p :: _ =>
      if !ignoreUnknownProperties_ then
        ⟨done.reverse ++ j, applied, some (.unknownProperty p.source p.line p.name)⟩
      else ⟨done.reverse ++ j, applied, none⟩
    | [] => ⟨done.reverse ++ j, applied, none⟩

/-- How the iterations of the merge loop of `load_` that look at one
property end. -/
inductive SeekResult
  /-- The property was handled or skipped, `++i`; the handler cursor is at
  the head of the second list. -/
  | advance (done j : PropertyInfoMap) (applied : Option Application)
  /-- An exception left the loop. -/
  | raise (done j : PropertyInfoMap) (applied : Option Application) (e : BindError)
  /-- The handler cursor reached `handlers_.end()`. -/
  | exhausted (done : PropertyInfoMap)

/-- The iterations of the merge loop of `load_` for the property `p` at the
property cursor: the handler cursor moves forward from `j` until `p` is
applied, skipped or an exception is thrown. -/
def seek (handle : Nat → ConfigurationProperty → HandlerOutcome) (ignoreUnknownProperties_ : Bool)
    (sourceName : Str) (p : ConfigurationProperty) :
    PropertyInfoMap → PropertyInfoMap → SeekResult
  | done, [] => .exhausted done
  | done, j :: rest =>
    if p.name = j.1 then
      match applyHandler_ handle j.2 p with
      | some e => .raise done (j :: rest) none (.invalidPropertyValue e)
      | none =>
        let j1 := (j.1, j.2.setFound true)
        if !j.2.prefix_ then .advance (j1 :: done) rest (some (j.1, p))
        else .advance done (j1 :: rest) (some (j.1, p))
    else if j.2.prefix_ && startsWith p.name j.1 then
      match applyHandler_ handle j.2 p with
      | some e => .raise done (j :: rest) none (.invalidPropertyValue e)
      | none => .advance done ((j.1, j.2.setFound true) :: rest) (some (j.1, p))
    else if strLt j.1 p.name then
      if j.2.required_ then
        .raise done (j :: rest) none (.requiredPropertyMissing sourceName j.1)
      else seek handle ignoreUnknownProperties_ sourceName p (j :: done) rest
    else if !ignoreUnknownProperties_ then
      .raise done (j :: rest) none (.unknownProperty p.source p.line p.name)
    else .advance done (j :: rest) none

/-- The merge loop of `load_` and what follows it, entered with the property
cursor at `i` and the handler cursor at `j`. -/
def loadLoop (handle : Nat → ConfigurationProperty → HandlerOutcome)
    (ignoreUnknownProperties_ : Bool) (sourceName : Str) :
    List ConfigurationProperty → PropertyInfoMap → PropertyInfoMap → List Application →
      LoadResult
  | [], done, j, applied => loadFinish ignoreUnknownProperties_ sourceName [] done j applied
  | p :: ps, done, j, applied =>
    match seek handle ignoreUnknownProperties_ sourceName p done j with
    | .advance done1 j1 a =>
      loadLoop handle ignoreUnknownProperties_ sourceName ps done1 j1 (applied ++ a.toList)
    | .raise done1 j1 a e => ⟨done1.reverse ++ j1, applied ++ a.toList, some e⟩
    | .exhausted done1 =>
      loadFinish ignoreUnknownProperties_ sourceName (p :: ps) done1 [] applied

/-- Embeds `ApplicationConfiguration::load_(sourceName, properties)`. -/
def load_ (handle : Nat → ConfigurationProperty → HandlerOutcome)
    (ignoreUnknownProperties_ : Bool) (handlers_ : PropertyInfoMap) (sourceName : Str)
    (properties : ConfigurationPropertyMap) : LoadResult :=
  loadLoop handle ignoreUnknownProperties_ sourceName properties.toList [] (resetFound handlers_) []

/-- The table `handlers_` after a sequence of `registerProperty_` calls on a
new `ApplicationConfiguration`; a call that throws leaves the table as it
was. -/
def registerAll (infos : List PropertyInfo) : PropertyInfoMap :=
  infos.foldl (fun t info => match registerProperty_ t info with
                             | .ok t1 => t1
                             | .error _ => t) []

/-- A handler entry matches a property name: the names are equal, or the
handler is a prefix handler and the property name starts with its key. -/
def handlerMatches (e : Str × PropertyInfo) (name : Str) : Bool :=
  name = e.1 || (e.2.prefix_ && startsWith name e.1)

/-- The reference binder: every property, in store order, is checked against
every handler of the table. -/
def naiveApplications (handlers : PropertyInfoMap) : List ConfigurationProperty → List Application
  | [] => []
  | p :: ps =>
    (handlers.filter (fun e => handlerMatches e p.name)).map (fun e => (e.1, p)) ++
      naiveApplications handlers ps

/-- No two distinct handlers overlap: a prefix handler's key is not a prefix
of another handler's key. -/
def NoOverlap (t : PropertyInfoMap) : Prop :=
  ∀ e1 ∈ t, ∀ e2 ∈ t, e1 ≠ e2 → e1.2.prefix_ = true → startsWith e2.1 e1.1 = false

/-- Keys of a `std::map` are strictly ascending. -/
def SortedKeys {V : Type} (t : List (Str × V)) : Prop :=
  t.Pairwise (fun a b => strLt a.1 b.1 = true)

/-- A well-formed store: keys ascend strictly and every property is held
under its own name. -/
def ConfigurationPropertyMap.WF (m : ConfigurationPropertyMap) : Prop :=
  SortedKeys m.properties_ ∧ ∀ e ∈ m.properties_, e.1 = e.2.name

/-- The invariant of `handlers_`: keys ascend strictly, every handler is held
under its own non-empty name, and no two handlers overlap. -/
structure TableInv (t : PropertyInfoMap) : Prop where
  sorted : SortedKeys t
  keyName : ∀ e ∈ t, e.1 = e.2.name_
  nonempty : ∀ e ∈ t, e.1 ≠ []
  noOverlap : NoOverlap t

/-- The order of the handler table as the merge uses it: a handler sorts
before every later one, and a prefix handler's key is not a prefix of a later
handler's key. -/
def MergeOrdered (j : PropertyInfoMap) : Prop :=
  j.Pairwise (fun a b => strLt a.1 b.1 = true ∧ (a.2.prefix_ = true → startsWith b.1 a.1 = false))

/-! ## detail::ValueProcessor

Each `Char` of a `Str` stands for one `char` of the `std::string`; the bytes
that `encodeUtf8_` appends are the characters `Char.ofNat b`. -/

/-- Embeds `PropertyFormatError(value, description)`; the one-argument constructor
leaves `value` empty. -/
structure PropertyFormatError where
  value : Str
  description : Str
  deriving DecidableEq, Repr

/-- Embeds `ConfigFileLexer::isNameChar(ch, prev)`. -/
def isNameChar (ch prev : Char) : Bool :=
  isAlnum ch || ch = '_' || (ch = '.' && isAlnum prev)

/-- Embeds `ValueProcessor::isHexDigit_`. -/
def isHexDigit_ (ch : Char) : Bool :=
  (48 ≤ ch.toNat && ch.toNat ≤ 57) || (65 ≤ ch.toNat && ch.toNat ≤ 70) ||
    (97 ≤ ch.toNat && ch.toNat ≤ 102)

/-- Embeds `ValueProcessor::hexValue_`, in `unsigned int` arithmetic. -/
def hexValue_ (ch : Char) : Nat :=
  let v := (ch.toNat + 4294967296 - 48) % 4294967296
  if 97 ≤ ch.toNat then (v + 4294967296 - 39) % 4294967296
  else if 65 ≤ ch.toNat then (v + 4294967296 - 7) % 4294967296
  else v

/-- The cast `(char)x` of an `unsigned int`. -/
def toChar (x : Nat) : Char := Char.ofNat (x % 256)

/-- Embeds `ValueProcessor::encodeUtf8_(unicodeChar, output)`: the new `output`. -/
def encodeUtf8_ (unicodeChar : Nat) (output : Str) : Str :=
  if unicodeChar ≤ 0x7F then
    output ++ [toChar unicodeChar]
  else if unicodeChar ≤ 0x7FF then
    output ++ [toChar (0xC0 ||| (unicodeChar >>> 6)),
               toChar (0x80 ||| (unicodeChar &&& 0x3F))]
  else if unicodeChar ≤ 0xFFFF then
    output ++ [toChar (0xE0 ||| (unicodeChar >>> 12)),
               toChar (0x80 ||| ((unicodeChar >>> 6) &&& 0x3F)),
               toChar (0x80 ||| (unicodeChar &&& 0x3F))]
  else if unicodeChar ≤ 0x1FFFFF then
    output ++ [toChar (0xF0 ||| (unicodeChar >>> 18)),
               toChar (0x80 ||| ((unicodeChar >>> 12) &&& 0x3F)),
               toChar (0x80 ||| ((unicodeChar >>> 6) &&& 0x3F)),
               toChar (0x80 ||| (unicodeChar &&& 0x3F))]
  else if unicodeChar ≤ 0x3FFFFFF then
    output ++ [toChar (0xF8 ||| (unicodeChar >>> 24)),
               toChar (0x80 ||| ((unicodeChar >>> 18) &&& 0x3F)),
               toChar (0x80 ||| ((unicodeChar >>> 12) &&& 0x3F)),
               toChar (0x80 ||| ((unicodeChar >>> 6) &&& 0x3F)),
               toChar (0x80 ||| (unicodeChar &&& 0x3F))]
  else if unicodeChar ≤ 0x7FFFFFFF then
    output ++ [toChar (0xFC ||| (unicodeChar >>> 30)),
               toChar (0x80 ||| ((unicodeChar >>> 24) &&& 0x3F)),
               toChar (0x80 ||| ((unicodeChar >>> 18) &&& 0x3F)),
               toChar (0x80 ||| ((unicodeChar >>> 12) &&& 0x3F)),
               toChar (0x80 ||| ((unicodeChar >>> 6) &&& 0x3F)),
               toChar (0x80 ||| (unicodeChar &&& 0x3F))]
  else output

/-- Embeds `ValueProcessor::resolveVariable_(name)`; `getenv` is the process
environment. -/
def resolveVariable_ (getenv : Str → Option Str) (properties : ConfigurationPropertyMap)
    (useEnvVars_ : Bool) (name : Str) : Except PropertyFormatError Str :=
  match properties.find name with
  | some p => .ok p.value
  | none =>
    match (if useEnvVars_ then getenv name else none) with
    | some envValue => .ok envValue
    | none =>
      .error ⟨[], lit "Cannot resolve referenced property \"$\x7b" ++ name ++ lit "\x7d\""⟩

/-- The local variables of `ValueProcessor::processValue`.  `i` is the text
from iterator `i` to the end of the value, `name` the text from iterator `j`
up to `i`. -/
structure ValueState where
  i : Str
  name : Str
  state : Nat
  prepared : Str
  unicodeChar : Nat
  nameIsLegal : Bool
  deriving DecidableEq, Repr

/-- Embeds `unicodeChar = (unicodeChar << 4) | hexValue_(ch)` in `unsigned int`. -/
def shiftInHex (unicodeChar : Nat) (ch : Char) : Nat :=
  ((unicodeChar <<< 4) % 4294967296) ||| hexValue_ ch

/-- The message `"Invalid hex digit '" << ch << "' in \\u{} escape sequence"`. -/
def invalidHexDigit (ch : Char) : PropertyFormatError :=
  ⟨[], lit "Invalid hex digit '" ++ [ch] ++ lit "' in \\u\x7b\x7d escape sequence"⟩

/-- The message `"Incomplete \\u{} escape sequence at end of line"`. -/
def incompleteBraced : PropertyFormatError :=
  ⟨[], lit "Incomplete \\u\x7b\x7d escape sequence at end of line"⟩

/-- One pass through the body of the `while (state)` loop of
`processValue`: the `switch` on `state`, with `ch` the character at `i`
(`0` at the end of the value). -/
def processStep (resolve : Str → Except PropertyFormatError Str) (s : ValueState) :
    Except PropertyFormatError ValueState :=
  let ch := s.i.headD NUL
  match s.state with
  | 0 => .ok s
  | 1 =>
    if ch = NUL then .ok { s with state := 0, i := s.i.tail }
    else if ch = '$' then .ok { s with state := 2, i := s.i.tail }
    else if ch = '\\' then .ok { s with state := 3, i := s.i.tail }
    else .ok { s with prepared := s.prepared ++ [ch], i := s.i.tail }
  | 2 =>
    if ch = '{' then .ok { s with state := 4, i := s.i.tail }
    else .ok { s with prepared := s.prepared ++ ['$'], state := 1 }
  | 3 =>
    if ch = NUL then .ok { s with prepared := s.prepared ++ ['\\'], state := 0 }
    else if ch = 'n' then .ok { s with prepared := s.prepared ++ ['\n'], state := 1, i := s.i.tail }
    else if ch = 't' then .ok { s with prepared := s.prepared ++ ['\t'], state := 1, i := s.i.tail }
    else if ch = 'r' then .ok { s with prepared := s.prepared ++ ['\r'], state := 1, i := s.i.tail }
    else if ch = 'u' then .ok { s with unicodeChar := 0, state := 5, i := s.i.tail }
    else .ok { s with prepared := s.prepared ++ [ch], state := 1, i := s.i.tail }
  | 4 =>
    if ch = NUL then .error ⟨[], lit "Incomplete property reference \"$\x7b\""⟩
    else if ch = '}' then .error ⟨[], lit "Invalid property reference \"$\x7b\x7d\""⟩
    else .ok { s with nameIsLegal := isNameChar ch NUL, state := 6, name := [ch], i := s.i.tail }
  | 5 =>
    if ch = NUL then
      .error ⟨[], lit "Incomplete escape sequence \"\\u\" at end of line"⟩
    else if ch = '{' then .ok { s with state := 12, i := s.i.tail }
    else if isHexDigit_ ch then
      .ok { s with unicodeChar := hexValue_ ch, state := 7, i := s.i.tail }
    else .error ⟨[], lit "Invalid escape sequence \"\\u" ++ [ch] ++ lit "\""⟩
  | 6 =>
    if ch = NUL then
      .error ⟨[], lit "Incomplete property reference \"$\x7b" ++ s.name ++ lit "\""⟩
    else if ch = '}' then
      if !s.nameIsLegal then
        .error ⟨[], lit "\"$\x7b" ++ s.name ++ lit "\x7d\" does not contain a legal property name"⟩
      else
        match resolve s.name with
        | .error e => .error e
        | .ok v => .ok { s with prepared := s.prepared ++ v, state := 1, i := s.i.tail }
    else
      .ok { s with nameIsLegal := isNameChar (s.name.getLastD NUL) ch,
                   name := s.name ++ [ch], i := s.i.tail }
  | 11 =>
    let u := if isHexDigit_ ch then shiftInHex s.unicodeChar ch else s.unicodeChar
    .ok { s with unicodeChar := u, i := if isHexDigit_ ch then s.i.tail else s.i,
                 prepared := encodeUtf8_ u s.prepared, state := if ch = NUL then 0 else 1 }
  | 12 =>
    if ch = NUL then .error incompleteBraced
    else if ch = '}' then .error ⟨[], lit "Invalid escape sequence \"\\u\x7b\x7d\""⟩
    else if !isHexDigit_ ch then .error (invalidHexDigit ch)
    else .ok { s with unicodeChar := hexValue_ ch, state := 13, i := s.i.tail }
  | 18 =>
    if ch = NUL then .error incompleteBraced
    else if ch = '}' then
      .ok { s with prepared := encodeUtf8_ s.unicodeChar s.prepared, state := 1, i := s.i.tail }
    else if isHexDigit_ ch then
      .error ⟨[], lit "Too many hex digits in \\u\x7b\x7d escape sequence"⟩
    else .error (invalidHexDigit ch)
  | st =>
    if 7 ≤ st ∧ st ≤ 10 then
      if isHexDigit_ ch then
        .ok { s with unicodeChar := shiftInHex s.unicodeChar ch, state := st + 1, i := s.i.tail }
      else
        .ok { s with prepared := encodeUtf8_ s.unicodeChar s.prepared,
                     state := if ch = NUL then 0 else 1 }
    else if 13 ≤ st ∧ st ≤ 17 then
      if ch = NUL then .error incompleteBraced
      else if ch = '}' then
        .ok { s with prepared := encodeUtf8_ s.unicodeChar s.prepared, state := 1, i := s.i.tail }
      else if isHexDigit_ ch then
        .ok { s with unicodeChar := shiftInHex s.unicodeChar ch, state := st + 1, i := s.i.tail }
      else .error (invalidHexDigit ch)
    else .error ⟨[], lit "Illegal state while preparing value"⟩

/-- The `while (state)` loop of `processValue`, run for at most `fuel`
passes; `none` when the passes do not suffice. -/
def processLoop (resolve : Str → Except PropertyFormatError Str) :
    Nat → ValueState → Option (Except PropertyFormatError Str)
  | 0, _ => none
  | fuel + 1, s =>
    if s.state = 0 then some (.ok s.prepared)
    else
      match processStep resolve s with
      | .error e => some (.error e)
      | .ok s1 => processLoop resolve fuel s1

/-- Embeds `ValueProcessor::processValue(value)` for a processor constructed on
`properties` with `useEnvVars_`: `some (.ok text)` when it returns `text`,
`some (.error e)` when it throws `e`.  Two passes of the loop per character of
`value` and two more always suffice (`processValue_returns`). -/
def processValue (getenv : Str → Option Str) (properties : ConfigurationPropertyMap)
    (useEnvVars_ : Bool) (value : Str) : Option (Except PropertyFormatError Str) :=
  processLoop (resolveVariable_ getenv properties useEnvVars_) (2 * value.length + 2)
    ⟨value, [], 1, [], 0, false⟩

/-- A bound on the passes of the loop of `processValue` that remain: two for
each unread character, and up to two more. -/
def ValueState.passes (s : ValueState) : Nat :=
  if s.state = 0 then 0 else 2 * s.i.length + (if s.state = 1 then 1 else 2)

/-! ## detail::ConfigFileLexer -/

/-- Embeds `enum class TokenType`. -/
inductive TokenType
  | NAME
  | VALUE
  | COMMENT
  | PUNCTUATION
  | END_OF_FILE
  deriving DecidableEq, Repr

/-- Class `Token`. -/
structure Token where
  type : TokenType
  value : Str
  line : Int
  column : Int
  deriving DecidableEq, Repr

/-- A `std::istream` as `std::getline` sees it: the lines still to be read,
whether the last of them lacks its newline, and `good()`. -/
structure IStream where
  lines : List Str
  unterminated : Bool
  good : Bool
  deriving DecidableEq, Repr

/-- The successive results of `std::getline` on a text. -/
def splitLines : Str → List Str
  | [] => []
  | c :: cs =>
    if c = '\n' then [] :: splitLines cs
    else
      match splitLines cs with
      | [] => [[c]]
      | l :: ls => (c :: l) :: ls

/-- A stream opened on a text (`std::istringstream(text)`, or a file with that
content). -/
def IStream.ofText (text : Str) : IStream :=
  ⟨splitLines text, text.getLast? ≠ some '\n' && !text.isEmpty, true⟩

/-- Embeds `std::getline(input, text)`: success flag, the stream afterwards and the
new `text`.  A stream that is not `good()` fails and leaves `text`; a good
stream with nothing left clears `text`, sets `eofbit` and fails; reading a
last line that has no newline sets `eofbit`. -/
def getline (input : IStream) (text : Str) : Bool × IStream × Str :=
  if !input.good then (false, input, text)
  else
    match input.lines with
    | [] => (false, { input with good := false }, [])
    | l :: ls =>
      (true, { input with lines := ls, good := !(ls.isEmpty && input.unterminated) }, l)

/-- The value that an `int` holds when the result `x` of an arithmetic
operation or of a conversion is stored in it: the 32 bits of `x` in two's
complement, that is `x` modulo `2^32`, read as negative from `2^31` on. -/
def wrapInt (x : Int) : Int :=
  match x % 4294967296 with
  | Int.ofNat r => if 2147483648 ≤ r then Int.negSucc (4294967295 - r) else Int.ofNat r
  | Int.negSucc _ => 0

/-- The value of an `int` after `n` executions of `++x`. -/
def incInt (x : Int) : Nat → Int
  | 0 => x
  | n + 1 => wrapInt (incInt x n + 1)

/-- Embeds `ConfigFileLexer::State`. -/
inductive LexerState
  | AT_START
  | AT_TEXT
  | AT_VALUE
  | AT_QT_STRING
  | AT_EOF
  deriving DecidableEq, Repr

/-- Class `ConfigFileLexer`.  `current_` is the offset of the iterator from
`text_.begin()`.  The `int` members `line_` and `column_` are integers that
every operation of the lexer stores through `wrapInt`.  A state with
`current_ > text_.length` stands for an iterator that a later change of
`text_` has invalidated (a failed `std::getline` clears `text_` and leaves
`current_`): what the functions below give for such a state says nothing
about the code, whose behaviour is then undefined; see `Attached`. -/
structure ConfigFileLexer where
  input_ : IStream
  line_ : Int
  column_ : Int
  text_ : Str
  current_ : Nat
  state_ : LexerState
  deriving DecidableEq, Repr

namespace ConfigFileLexer

/-- The constructor `ConfigFileLexer(input, initialLine, initialColumn)`. -/
def create (input : IStream) (initialLine initialColumn : Int) : ConfigFileLexer :=
  let r := getline input []
  ⟨r.2.1, initialLine, initialColumn, r.2.2, 0, if r.1 then .AT_START else .AT_EOF⟩

/-- The text from `current_` to `text_.end()`. -/
def remaining (lx : ConfigFileLexer) : Str := lx.text_.drop lx.current_

/-- Embeds `*current_`; at `text_.end()` it is the terminating `0`. -/
def currentChar (lx : ConfigFileLexer) : Char := lx.remaining.headD NUL

/-- Embeds `parseNextAsValue()`. -/
def parseNextAsValue (lx : ConfigFileLexer) : ConfigFileLexer := { lx with state_ := .AT_VALUE }

/-- Embeds `parseNextAsQuotedString()`. -/
def parseNextAsQuotedString (lx : ConfigFileLexer) : ConfigFileLexer :=
  { lx with state_ := .AT_QT_STRING }

/-- Embeds `readNextLine_()`. -/
def readNextLine_ (lx : ConfigFileLexer) : Bool × ConfigFileLexer :=
  let r := getline lx.input_ lx.text_
  if r.1 then
    (true, { lx with input_ := r.2.1, text_ := r.2.2, state_ := .AT_START, current_ := 0,
                     line_ := incInt lx.line_ 1, column_ := 1 })
  else (false, { lx with input_ := r.2.1, text_ := r.2.2, state_ := .AT_EOF })

/-- Embeds `skipWhitespaceInLine_()`. -/
def skipWhitespaceInLine_ (lx : ConfigFileLexer) : Bool × ConfigFileLexer :=
  let n := (lx.remaining.takeWhile isSpace).length
  let lx1 := { lx with current_ := lx.current_ + n, column_ := incInt lx.column_ n }
  (!lx1.remaining.isEmpty, lx1)

/-- The loop of `skipWhitespace_()` after a line without a further token:
read lines until one holds a non-blank character or `readNextLine_` fails.
`lines` is the list of lines still in the stream, one for each possible
pass. -/
def skipWhitespaceLoop : List Str → ConfigFileLexer → Bool × ConfigFileLexer
  | [], lx => (false, (readNextLine_ lx).2)
  | _ :: lines, lx =>
    let r := readNextLine_ lx
    if !r.1 then (false, r.2)
    else
      let s := skipWhitespaceInLine_ r.2
      if s.1 then (true, s.2) else skipWhitespaceLoop lines s.2

/-- Embeds `skipWhitespace_()`. -/
def skipWhitespace_ (lx : ConfigFileLexer) : Bool × ConfigFileLexer :=
  let s := skipWhitespaceInLine_ lx
  if s.1 then (true, s.2) else skipWhitespaceLoop s.2.input_.lines s.2

/-- The number of characters the name loop of `parseText_` passes over:
`while (isNameChar(*current_, prev))`. -/
def nameLength (prev : Char) : Str → Nat
  | [] => 0
  | c :: cs => if isNameChar c prev then nameLength c cs + 1 else 0

/-- Embeds `parseText_()`. -/
def parseText_ (lx : ConfigFileLexer) : Token × ConfigFileLexer :=
  let s := skipWhitespace_ lx
  let lx := s.2
  if !s.1 then (⟨.END_OF_FILE, [], lx.line_, lx.column_⟩, lx)
  else if isNameChar lx.currentChar '.' then
    let n := 1 + nameLength lx.currentChar (lx.remaining.drop 1)
    (⟨.NAME, lx.remaining.take n, lx.line_, lx.column_⟩,
     { lx with current_ := lx.current_ + n, column_ := incInt lx.column_ n, state_ := .AT_TEXT })
  else if lx.currentChar = '#' && lx.state_ = .AT_START then
    let lx1 := (skipWhitespaceInLine_
      { lx with current_ := lx.current_ + 1, column_ := incInt lx.column_ 1 }).2
    (⟨.COMMENT, rstrip lx1.remaining, lx1.line_, lx1.column_⟩,
     { lx1 with current_ := lx1.text_.length, column_ := wrapInt (lx1.text_.length + 1),
                state_ := .AT_TEXT })
  else
    (⟨.PUNCTUATION, [lx.currentChar], lx.line_, wrapInt (incInt lx.column_ 1 - 1)⟩,
     { lx with state_ := .AT_TEXT, current_ := lx.current_ + 1,
               column_ := incInt lx.column_ 1 })

/-- The `while (readNextLine_())` loop of `parseValue_`, with `value` the
text collected so far; `lines` is the list of lines still in the stream. -/
def continueValue : List Str → Str → ConfigFileLexer → Str × ConfigFileLexer
  | [], value, lx => (value, (readNextLine_ lx).2)
  | _ :: lines, value, lx =>
    let r := readNextLine_ lx
    let lx := r.2
    if !r.1 then (value, lx)
    else if lx.text_.isEmpty || lx.text_.getLast? ≠ some '\\' then
      (value ++ ['\n'] ++ lx.text_,
       { lx with state_ := .AT_TEXT, current_ := lx.text_.length,
                 column_ := wrapInt (lx.text_.length + 1) })
    else
      let lx := { lx with text_ := lx.text_.dropLast }
      continueValue lines (value ++ ['\n'] ++ lx.text_) lx

/-- Embeds `parseValue_(singleLine)`. -/
def parseValue_ (lx : ConfigFileLexer) (singleLine : Bool) : Token × ConfigFileLexer :=
  let lx := (skipWhitespaceInLine_ lx).2
  let start := lx.current_
  let col := lx.column_
  let lx := { lx with current_ := lx.text_.length,
                      column_ := wrapInt (lx.text_.length + 1), state_ := .AT_TEXT }
  if singleLine || lx.current_ = start || lx.text_.getLast? ≠ some '\\' then
    (⟨.VALUE, rstrip (lx.text_.drop start), lx.line_, col⟩, lx)
  else
    let line := lx.line_
    let lx := { lx with current_ := lx.current_ - 1 }
    let r := continueValue lx.input_.lines ((lx.text_.take lx.current_).drop start) lx
    (⟨.VALUE, rstrip r.1, line, col⟩, r.2)

/-- Embeds `parseQuotedString_()`. -/
def parseQuotedString_ (lx : ConfigFileLexer) : Token × ConfigFileLexer :=
  let n := (lx.remaining.takeWhile (fun c => c ≠ '"')).length
  (⟨.VALUE, lx.remaining.take n, lx.line_, lx.column_⟩,
   { lx with current_ := lx.current_ + n, column_ := incInt lx.column_ n, state_ := .AT_TEXT })

/-- Embeds `next()`. -/
def next (lx : ConfigFileLexer) : Token × ConfigFileLexer :=
  match lx.state_ with
  | .AT_START => parseText_ lx
  | .AT_TEXT => parseText_ lx
  | .AT_VALUE => parseValue_ lx false
  | .AT_QT_STRING => parseQuotedString_ lx
  | .AT_EOF => (⟨.END_OF_FILE, [], lx.line_, lx.column_⟩, lx)

end ConfigFileLexer

/-! ## ConfigFileParser -/

/-- Embeds `ConfigFileParser::DuplicatePropertyMode`. -/
inductive DuplicatePropertyMode
  | DUP_ERROR
  | DUP_IGNORE
  | DUP_OVERWRITE
  deriving DecidableEq, Repr

/-- Embeds `ConfigFileParseError(sourceName, line, column, description)`; the
three-argument constructor passes column `0`. -/
structure ConfigFileParseError where
  sourceName : Str
  line : Int
  column : Int
  description : Str
  deriving DecidableEq, Repr

/-- What the parser reaches outside the program: the process environment,
the files that `std::ifstream` can open (their content, or the text of
`strerror(errno)`), and `pistis::filesystem::path`. -/
structure World where
  getenv : Str → Option Str
  openFile : Str → Except Str Str
  isAbsolute : Str → Bool
  splitFile : Str → Str × Str
  pathJoin : Str → Str → Str

/-- Embeds `ConfigFileParser::MAX_INCLUDE_DEPTH_`. -/
def MAX_INCLUDE_DEPTH_ : Nat := 128

/-- The data members of class `ConfigFileParser`. -/
structure ConfigFileParser where
  useEnvVars_ : Bool
  duplicatePropertyAction_ : DuplicatePropertyMode
  includedPropertyAction_ : DuplicatePropertyMode
  context_ : List Str
  contextPrefix_ : Str
  includedFrom_ : List Str
  deriving DecidableEq, Repr

namespace ConfigFileParser

/-- The public constructor (defaults: `true`, `DUP_ERROR`, `DUP_IGNORE`). -/
def create (useEnvironmentVars : Bool) (duplicatePropertyAction : DuplicatePropertyMode)
    (includedPropertyAction : DuplicatePropertyMode) : ConfigFileParser :=
  ⟨useEnvironmentVars, duplicatePropertyAction, includedPropertyAction, [], [], []⟩

/-- The protected constructor used for an included file: `includedFrom_` is
`includedFiles` with `includedFrom` pushed at the back. -/
def createIncluded (useEnvironmentVars : Bool) (duplicatePropertyAction : DuplicatePropertyMode)
    (includedPropertyAction : DuplicatePropertyMode) (includedFiles : List Str)
    (includedFrom : Str) : ConfigFileParser :=
  ⟨useEnvironmentVars, duplicatePropertyAction, includedPropertyAction, [], [],
   includedFiles ++ [includedFrom]⟩

/-- Embeds `getFullName_(name)`. -/
def getFullName_ (p : ConfigFileParser) (name : Str) : Str := p.contextPrefix_ ++ name

/-- Embeds `beginBlock_(blockName)`. -/
def beginBlock_ (p : ConfigFileParser) (blockName : Str) : ConfigFileParser :=
  { p with context_ := p.context_ ++ [blockName],
           contextPrefix_ := p.contextPrefix_ ++ blockName ++ ['.'] }

/-- The loop of `endBlock_`: erase the last character while the string is
not empty and does not end in `'.'` (the argument is the string reversed). -/
def eraseToDot : Str → Str
  | [] => []
  | c :: cs => if c = '.' then c :: cs else eraseToDot cs

/-- Embeds `endBlock_()`. -/
def endBlock_ (p : ConfigFileParser) : ConfigFileParser :=
  { p with context_ := p.context_.dropLast,
           contextPrefix_ := (eraseToDot p.contextPrefix_.dropLast.reverse).reverse }

/-- Embeds `isIncludedFrom_(filename)`. -/
def isIncludedFrom_ (p : ConfigFileParser) (filename : Str) : Bool :=
  p.includedFrom_.contains filename

end ConfigFileParser

/-- How a `parse` call ends: the parser object afterwards, and the store
returned or the exception thrown. -/
structure ParseResult where
  parser : ConfigFileParser
  outcome : Except ConfigFileParseError ConfigurationPropertyMap
  deriving DecidableEq, Repr

/-- The parse of an included file as `parseIncludeDirective_` sees it: the
sub-parser and the path go in, the store or the exception comes out (`none`:
the budget of the model did not suffice). -/
abbrev SubParse := ConfigFileParser → Str → Option (Except ConfigFileParseError ConfigurationPropertyMap)

/-- The text `"\n  "`-joined include file list that both include errors end
with. -/
def includeFileList (p : ConfigFileParser) (sourceName : Str) : Str :=
  join p.includedFrom_ (lit "\n  ") ++ lit "\n  " ++ sourceName

/-- The loop at the end of `parseIncludeDirective_` that merges the included
properties, from the one at the iterator on. -/
def mergeIncluded (includedPropertyAction : DuplicatePropertyMode) :
    List ConfigurationProperty → ConfigurationPropertyMap →
      Except ConfigFileParseError ConfigurationPropertyMap
  | [], properties => .ok properties
  | i :: rest, properties =>
    match properties.find i.name with
    | none => mergeIncluded includedPropertyAction rest (properties.add i)
    | some original =>
      if includedPropertyAction = .DUP_OVERWRITE then
        mergeIncluded includedPropertyAction rest (properties.add i)
      else if includedPropertyAction = .DUP_ERROR then
        .error ⟨i.source, i.line, 0,
          lit "Duplicate property \"" ++ i.name ++ lit "\" (Originally defined at " ++
            original.source ++ lit ":" ++ showInt original.line ++ lit ")"⟩
      else mergeIncluded includedPropertyAction rest properties

/-- The path that `parseIncludeDirective_` opens for the quoted file name
`path`: a path that is not absolute is joined to the directory of the
including source. -/
def resolveIncludePath (w : World) (sourceName path : Str) : Str :=
  if !w.isAbsolute path then w.pathJoin (w.splitFile sourceName).1 path else path

/-- Embeds `ConfigFileParser::parseIncludeDirective_`: the lexer and the store
afterwards, or the exception. -/
def parseIncludeDirective_ (w : World) (sub : SubParse) (p : ConfigFileParser)
    (sourceName : Str) (lexer : ConfigFileLexer) (properties : ConfigurationPropertyMap) :
    Option (Except ConfigFileParseError (ConfigFileLexer × ConfigurationPropertyMap)) :=
  let line := lexer.line_
  let col := lexer.column_
  let r := lexer.next
  let t := r.1
  let lexer := r.2
  if t.type ≠ .PUNCTUATION || t.value ≠ lit "\"" || t.line ≠ line then
    some (.error ⟨sourceName, line, col, lit "'\"' expected"⟩)
  else
    let r := lexer.parseNextAsQuotedString.next
    let t := r.1
    let lexer := r.2
    if t.type ≠ .VALUE || t.value.isEmpty then
      some (.error ⟨sourceName, line, t.column, lit "File name missing"⟩)
    else
      let includeFilePath := resolveIncludePath w sourceName t.value
      let col := lexer.column_
      let r := lexer.next
      let t := r.1
      let lexer := r.2
      if t.type ≠ .PUNCTUATION || t.value ≠ lit "\"" || t.line ≠ line then
        some (.error ⟨sourceName, line, col, lit "'\"' expected"⟩)
      else if p.context_.length ≠ 0 then
        some (.error ⟨sourceName, t.line, t.column,
          lit "Cannot include a file from within a block"⟩)
      else if p.isIncludedFrom_ includeFilePath then
        some (.error ⟨sourceName, t.line, col,
          lit "Including \"" ++ includeFilePath ++
            lit "\" would produce an include file loop.  The include file list is:" ++
            includeFileList p sourceName⟩)
      else if p.includedFrom_.length > MAX_INCLUDE_DEPTH_ then
        some (.error ⟨sourceName, t.line, col,
          lit "Maximum inclusion depth exceeded.  The include file list is:" ++
            includeFileList p sourceName⟩)
      else
        let includeFileParser := ConfigFileParser.createIncluded p.useEnvVars_
          p.duplicatePropertyAction_ p.includedPropertyAction_ p.includedFrom_ sourceName
        match sub includeFileParser includeFilePath with
        | none => none
        | some (.error e) => some (.error e)
        | some (.ok includedProperties) =>
          match mergeIncluded p.includedPropertyAction_ includedProperties.toList properties with
          | .error e => some (.error e)
          | .ok properties => some (.ok (lexer, properties))

/-- Embeds `ConfigFileParser::parseAssignment_`; `useEnvVars` is the setting the
value processor of this parse was created with. -/
def parseAssignment_ (w : World) (useEnvVars : Bool) (p : ConfigFileParser) (sourceName : Str)
    (name : Token) (lexer : ConfigFileLexer) (properties : ConfigurationPropertyMap) :
    Option (Except ConfigFileParseError (ConfigFileLexer × ConfigurationPropertyMap)) :=
  let col := lexer.column_
  let r := lexer.parseNextAsValue.next
  let t := r.1
  let lexer := r.2
  if t.type ≠ .VALUE then
    some (.error ⟨sourceName, name.line, col, lit "Property value expected"⟩)
  else
    let fullName := p.getFullName_ name.value
    match processValue w.getenv properties useEnvVars t.value with
    | none => none
    | some (.error e) =>
      some (.error ⟨sourceName, name.line, col,
        lit "Invalid property value (" ++ e.description ++ lit ")"⟩)
    | some (.ok value) =>
      match properties.find fullName with
      | none => some (.ok (lexer, properties.add ⟨fullName, value, sourceName, name.line⟩))
      | some original =>
        let mode := if original.source = sourceName then p.duplicatePropertyAction_
                    else p.includedPropertyAction_
        match mode with
        | .DUP_OVERWRITE =>
          some (.ok (lexer, properties.add ⟨fullName, value, sourceName, name.line⟩))
        | .DUP_IGNORE => some (.ok (lexer, properties))
        | .DUP_ERROR =>
          some (.error ⟨sourceName, name.line, name.column,
            lit "Property \"" ++ fullName ++ lit "\" defined twice; original definition at " ++
              original.source ++ lit ":" ++ showInt original.line⟩)

/-- Embeds `ConfigFileParser::parseAssignmentOrBlock_`: the parser (its block
context), the lexer and the store afterwards, or the exception. -/
def parseAssignmentOrBlock_ (w : World) (useEnvVars : Bool) (p : ConfigFileParser)
    (sourceName : Str) (name : Token) (lexer : ConfigFileLexer)
    (properties : ConfigurationPropertyMap) :
    Option (Except ConfigFileParseError
      (ConfigFileParser × ConfigFileLexer × ConfigurationPropertyMap)) :=
  let col := lexer.column_
  let r := lexer.next
  let t := r.1
  let lexer := r.2
  if t.type ≠ .PUNCTUATION || t.line ≠ name.line then
    some (.error ⟨sourceName, name.line, col, lit "'=' expected"⟩)
  else if t.value = lit "\x7b" then
    some (.ok (p.beginBlock_ name.value, lexer, properties))
  else if t.value = lit "=" then
    match parseAssignment_ w useEnvVars p sourceName name lexer properties with
    | none => none
    | some (.error e) => some (.error e)
    | some (.ok r) => some (.ok (p, r.1, r.2))
  else some (.error ⟨sourceName, name.line, col, lit "'=' expected"⟩)

/-- The `while (true)` loop of `parse(sourceName, input, initialLine,
initialColumn)`, run for at most `fuel` passes (`none` when they do not
suffice). -/
def parseLoop (w : World) (sub : SubParse) (useEnvVars : Bool) (sourceName : Str) :
    Nat → ConfigFileParser → ConfigFileLexer → ConfigurationPropertyMap → Option ParseResult
  | 0, _, _, _ => none
  | fuel + 1, p, lexer, properties =>
    let r := lexer.next
    let t := r.1
    let lexer := r.2
    if t.type = .END_OF_FILE then
      if !p.context_.isEmpty then
        some ⟨p, .error ⟨sourceName, t.line, t.column, lit "'\x7d' expected"⟩⟩
      else some ⟨p, .ok properties⟩
    else if t.type = .COMMENT then
      parseLoop w sub useEnvVars sourceName fuel p lexer properties
    else if t.type = .PUNCTUATION && t.value = lit "\x7d" then
      if p.context_.isEmpty then
        some ⟨p, .error ⟨sourceName, t.line, t.column, lit "Syntax error ('\x7d' unexpected)"⟩⟩
      else parseLoop w sub useEnvVars sourceName fuel p.endBlock_ lexer properties
    else if t.type ≠ .NAME then
      some ⟨p, .error ⟨sourceName, t.line, t.column,
        lit "Syntax error (property name expected)"⟩⟩
    else if t.value = lit "include" then
      match parseIncludeDirective_ w sub p sourceName lexer properties with
      | none => none
      | some (.error e) => some ⟨p, .error e⟩
      | some (.ok r) => parseLoop w sub useEnvVars sourceName fuel p r.1 r.2
    else if isLegalName t.value then
      match parseAssignmentOrBlock_ w useEnvVars p sourceName t lexer properties with
      | none => none
      | some (.error e) => some ⟨p, .error e⟩
      | some (.ok r) => parseLoop w sub useEnvVars sourceName fuel r.1 r.2.1 r.2.2
    else
      some ⟨p, .error ⟨sourceName, t.line, t.column,
        lit "\"" ++ t.value ++ lit "\" is not a legal property name"⟩⟩

/-- A bound on the characters a lexer has still to pass: the rest of the
current line, and every line still in the stream with its newline. -/
def ConfigFileLexer.budget (lx : ConfigFileLexer) : Nat :=
  (lx.text_.length - lx.current_) + (lx.input_.lines.map (fun l => l.length + 1)).sum

/-- Embeds `parse(sourceName, input, initialLine, initialColumn)`, with `sub` the
parse of included files.  Every pass of the loop that does not end it takes
at least one character from the lexer, so `budget + 1` passes suffice. -/
def parseStreamWith (w : World) (sub : SubParse) (p : ConfigFileParser) (sourceName : Str)
    (input : IStream) (initialLine initialColumn : Int) : Option ParseResult :=
  let lexer := ConfigFileLexer.create input initialLine initialColumn
  parseLoop w sub p.useEnvVars_ sourceName (lexer.budget + 1) p lexer .empty

/-- Embeds `parse(filename)`, with `sub` the parse of included files. -/
def parseFileWith (w : World) (sub : SubParse) (p : ConfigFileParser) (filename : Str) :
    Option ParseResult :=
  match w.openFile filename with
  | .ok content => parseStreamWith w sub p filename (IStream.ofText content) 1 1
  | .error msg =>
    some ⟨p, .error ⟨filename, 0, 0, lit "Cannot open file (" ++ msg ++ lit ")"⟩⟩

/-- The parse of included files, nested at most `depth` levels deep. -/
def subParseAt (w : World) : Nat → SubParse
  | 0 => fun _ _ => none
  | depth + 1 => fun q filename =>
    (parseFileWith w (subParseAt w depth) q filename).map (fun r => r.outcome)

/-- The levels of inclusion that a parser with this `includedFrom_` can
still open: an include is refused once `includedFrom_` has more than
`MAX_INCLUDE_DEPTH_` entries. -/
def ConfigFileParser.levels (p : ConfigFileParser) : Nat :=
  MAX_INCLUDE_DEPTH_ + 1 - p.includedFrom_.length

/-- Embeds `ConfigFileParser::parse(filename)`. -/
def ConfigFileParser.parse (w : World) (p : ConfigFileParser) (filename : Str) :
    Option ParseResult :=
  parseFileWith w (subParseAt w p.levels) p filename

/-- Embeds `ConfigFileParser::parse(sourceName, input, initialLine, initialColumn)`. -/
def ConfigFileParser.parseStream (w : World) (p : ConfigFileParser) (sourceName : Str)
    (input : IStream) (initialLine initialColumn : Int) : Option ParseResult :=
  parseStreamWith w (subParseAt w p.levels) p sourceName input initialLine initialColumn

/-- Embeds `ConfigFileParser::parseText(sourceName, text, initialLine,
initialColumn)`. -/
def ConfigFileParser.parseText (w : World) (p : ConfigFileParser) (sourceName text : Str)
    (initialLine initialColumn : Int) : Option ParseResult :=
  p.parseStream w sourceName (IStream.ofText text) initialLine initialColumn

/-! ## Worlds for the concrete cases -/

/-- A world without environment variables in which every include path is
relative and is resolved to itself (the including file has no directory
part). -/
def plainWorld (files : Str → Except Str Str) : World :=
  ⟨fun _ => none, files, fun _ => false, fun _ => ([], []), fun _ f => f⟩

/-- A file system without files. -/
def noFiles : Str → Except Str Str := fun _ => .error (lit "No such file or directory")

/-- A file system that holds the listed files. -/
def filesOf (l : List (Str × Str)) : Str → Except Str Str := fun f =>
  match l.find? (fun e => e.1 = f) with
  | some e => .ok e.2
  | none => .error (lit "No such file or directory")

/-- What the store holds under `n` after an include has been merged, in the
words of the specification: a name that only the including file defines keeps
its property; a name that only the included file defines gets the included
property; for a name that both define, `DUP_OVERWRITE` takes the included
property and the other modes keep the existing one. -/
def mergedLookup (includedPropertyAction : DuplicatePropertyMode)
    (included : List ConfigurationProperty) (properties : ConfigurationPropertyMap)
    (n : Str) : Option ConfigurationProperty :=
  match included.find? (fun q => q.name = n), properties.find n with
  | none, r => r
  | some q, none => some q
  | some q, some o => if includedPropertyAction = .DUP_OVERWRITE then some q else some o

/-- The message of the duplicate error that the merge of an include raises
for the included property `i` when `original` is already in the store. -/
def duplicateIncludedError (i original : ConfigurationProperty) : ConfigFileParseError :=
  ⟨i.source, i.line, 0,
    lit "Duplicate property \"" ++ i.name ++ lit "\" (Originally defined at " ++
      original.source ++ lit ":" ++ showInt original.line ++ lit ")"⟩

/-- The iterator `current_` lies within `text_`, or `text_` has been cleared
by a read at the end of the stream. -/
def ConfigFileLexer.Valid (lx : ConfigFileLexer) : Prop :=
  lx.current_ ≤ lx.text_.length ∨ lx.text_ = []

/-- The iterator `current_` lies within `text_`: it has been set, or moved
within the line, since `text_` last changed.  The states of a lexer from its
construction up to the call that reaches the end of the input satisfy it. -/
def ConfigFileLexer.Attached (lx : ConfigFileLexer) : Prop :=
  lx.current_ ≤ lx.text_.length

/-- The values of an `int`. -/
def InIntRange (x : Int) : Prop := -2147483648 ≤ x ∧ x ≤ 2147483647

/-- The lexer `lx1` is `lx` after `k` more lines have been read from the
stream: each read executes `++line_`. -/
def ConfigFileLexer.LinesRead (lx lx1 : ConfigFileLexer) (k : Nat) : Prop :=
  lx1.line_ = incInt lx.line_ k ∧ lx1.input_.lines.length + k = lx.input_.lines.length

/-- The line numbers of the lines still in the stream are values of an
`int`: `line_` is one, and so is `line_` plus the number of those lines. -/
def ConfigFileLexer.LinesInRange (lx : ConfigFileLexer) : Prop :=
  InIntRange lx.line_ ∧ lx.line_ + (lx.input_.lines.length : Int) ≤ 2147483647

/-! ## detail::ValueProcessor: the loop of `processValue` from a state, and
the values of escapes -/

/-- The loop of `processValue` entered in state 1 with `prepared = out` and
the iterator `i` at the start of `rest`. -/
def processFrom (resolve : Str → Except PropertyFormatError Str) (out rest : Str) :
    Option (Except PropertyFormatError Str) :=
  processLoop resolve (2 * rest.length + 2) ⟨rest, [], 1, out, 0, false⟩

/-- The loop of `processValue` continued from the state `s`, with the passes
that `ValueState.passes` allots. -/
def runState (resolve : Str → Except PropertyFormatError Str) (s : ValueState) :
    Option (Except PropertyFormatError Str) :=
  processLoop resolve (s.passes + 1) s

/-- Two states of the loop of `processValue` that differ only in variables
the loop assigns before it reads them: `j` and `nameIsLegal` are read in
state 6 only, `unicodeChar` in the states 7 to 11 and 13 to 18. -/
def ValueState.Agree (s t : ValueState) : Prop :=
  s.i = t.i ∧ s.state = t.state ∧ s.prepared = t.prepared ∧
  (s.state = 6 → s.name = t.name ∧ s.nameIsLegal = t.nameIsLegal) ∧
  (7 ≤ s.state ∧ s.state ≠ 12 → s.unicodeChar = t.unicodeChar)

/-- The value of a hexadecimal digit. -/
def hexDigitValue (c : Char) : Nat :=
  if c.toNat ≤ 57 then c.toNat - 48 else if c.toNat ≤ 70 then c.toNat - 55 else c.toNat - 87

/-- The number that the digits `d` denote in base 16 when they follow the
digits of `u`. -/
def hexFold (u : Nat) (d : Str) : Nat := d.foldl (fun acc c => 16 * acc + hexDigitValue c) u

/-- The number that a run of hexadecimal digits denotes. -/
def hexRunValue (d : Str) : Nat := hexFold 0 d

/-! ## Legacy UTF-8 decoding -/

/-- The continuation bytes of a legacy UTF-8 sequence: `k` bytes of the form
`10xxxxxx`, each adding six bits to `acc`. -/
def decodeContinuation : Nat → Nat → List Nat → Option (Nat × List Nat)
  | 0, acc, bytes => some (acc, bytes)
  | _ + 1, _, [] => none
  | k + 1, acc, b :: bytes =>
    if 0x80 ≤ b ∧ b < 0xC0 then decodeContinuation k (acc * 64 + (b - 0x80)) bytes else none

/-- A sequence decoded to less than `least` is overlong and rejected. -/
def rejectOverlong (least : Nat) : Option (Nat × List Nat) → Option (Nat × List Nat)
  | some (c, bytes) => if least ≤ c then some (c, bytes) else none
  | none => none

/-- A standard decoder of legacy UTF-8 (sequences of 1 to 6 bytes, code points
of up to 31 bits): the code point at the front of `bytes` and the bytes
behind it, or `none` for a malformed or overlong sequence. -/
def decodeUtf8 : List Nat → Option (Nat × List Nat)
  | [] => none
  | b :: bytes =>
    if b < 0x80 then some (b, bytes)
    else if b < 0xC0 then none
    else if b < 0xE0 then rejectOverlong 0x80 (decodeContinuation 1 (b - 0xC0) bytes)
    else if b < 0xF0 then rejectOverlong 0x800 (decodeContinuation 2 (b - 0xE0) bytes)
    else if b < 0xF8 then rejectOverlong 0x10000 (decodeContinuation 3 (b - 0xF0) bytes)
    else if b < 0xFC then rejectOverlong 0x200000 (decodeContinuation 4 (b - 0xF8) bytes)
    else if b < 0xFE then rejectOverlong 0x4000000 (decodeContinuation 5 (b - 0xFC) bytes)
    else none

/-- The length of the legacy UTF-8 encoding of a code point. -/
def utf8Length (c : Nat) : Nat :=
  if c ≤ 0x7F then 1 else if c ≤ 0x7FF then 2 else if c ≤ 0xFFFF then 3
  else if c ≤ 0x1FFFFF then 4 else if c ≤ 0x3FFFFFF then 5 else 6

/-! ## ConfigurationProperty::LEGAL_NAME_REX_ and the name grammar -/

/-- A range `lo-hi` of a bracket expression: the characters with the codes
from `lo` to `hi`. -/
def charRange (lo hi : Char) : Str :=
  (List.range (hi.toNat + 1 - lo.toNat)).map (fun i => Char.ofNat (lo.toNat + i))

/-- A bracket expression `[...]` over the characters `cs`: one of them. -/
def oneOf (cs : Str) : RegularExpression Char :=
  cs.foldr (fun c r => RegularExpression.char c + r) 0

/-- The bracket expression `[A-Za-z]`. -/
def alphaClass : Str := charRange 'A' 'Z' ++ charRange 'a' 'z'

/-- The bracket expression `[A-Za-z0-9_]`. -/
def wordClass : Str := charRange 'A' 'Z' ++ charRange 'a' 'z' ++ charRange '0' '9' ++ ['_']

/-- Embeds `ConfigurationProperty::LEGAL_NAME_REX_`, the regular expression
`[A-Za-z][A-Za-z0-9_]*(?:\.[A-Za-z0-9_]+)*$`; `X+` is `XX*`, and the final `$`
adds nothing to a match of the whole name. -/
def LEGAL_NAME_REX_ : RegularExpression Char :=
  oneOf alphaClass *
    (RegularExpression.star (oneOf wordClass) *
      RegularExpression.star
        (RegularExpression.char '.' *
          (oneOf wordClass * RegularExpression.star (oneOf wordClass))))

/-- The dotted-identifier grammar in the words of the specification: the name
is not empty, its first character is an ASCII letter, every character is an
ASCII letter, a digit, an underscore or a dot, no two dots are adjacent, and
the last character is not a dot. -/
def DottedIdentifier (n : Str) : Prop :=
  n ≠ [] ∧ (∀ c ∈ n.head?, isAlpha c = true) ∧
  (∀ c ∈ n, isAlpha c = true ∨ isDigit c = true ∨ c = '_' ∨ c = '.') ∧
  List.Chain' (fun a b => ¬(a = '.' ∧ b = '.')) n ∧ n.getLast? ≠ some '.'

/-- A segment `\.[A-Za-z0-9_]+` of a legal name. -/
def NameSegment (t : Str) : Prop :=
  ∃ (d : Char) (w : Str), t = '.' :: d :: w ∧ isWordChar d = true ∧ ∀ c ∈ w, isWordChar c = true

/-- The characters of `cs` pass the test of the name loop of `parseText_`,
`isNameChar(*current_, prev)`, when they follow the character `prev`. -/
def nameRun : Char → Str → Bool
  | _, [] => true
  | prev, c :: cs => isNameChar c prev && nameRun c cs

/-! ## ConfigurationPropertyMap: prefix query, names, lookup -/

namespace ConfigurationPropertyMap

/-- Embeds `ConfigurationPropertyMap::getPropertiesWithPrefix(prefix)`: from
`properties_.lower_bound(prefix)` on, the properties visited while the key
starts with `prefix`. -/
def getPropertiesWithPrefix (m : ConfigurationPropertyMap) (pfx : Str) :
    List ConfigurationProperty :=
  ((lowerBound pfx m.properties_).takeWhile (fun e => startsWith e.1 pfx)).map Prod.snd

/-- The sequence visited by iterating from `beginNames()` to `endNames()`. -/
def names (m : ConfigurationPropertyMap) : List Str := m.properties_.map Prod.fst

/-- Embeds `ConfigurationPropertyMap::operator[]`: the property under `key`, or
the `NoSuchItem` exception, given by its item description. -/
def get (m : ConfigurationPropertyMap) (key : Str) : Except Str ConfigurationProperty :=
  match m.find key with
  | some p => .ok p
  | none => .error (lit "Property with name \"" ++ key ++ lit "\"")

end ConfigurationPropertyMap

/-- The store of the prefix-query unit test, built by ten calls of `add`. -/
def prefixQueryStore : ConfigurationPropertyMap :=
  [(⟨lit "p1", lit "apple", lit "someSource", 1⟩ : ConfigurationProperty),
   ⟨lit "p2", lit "banana", lit "someSource", 2⟩,
   ⟨lit "p3", lit "cherry", lit "someSource", 3⟩,
   ⟨lit "p1.1", lit "lemon", lit "someSource", 4⟩,
   ⟨lit "p2.1", lit "lime", lit "someSource", 5⟩,
   ⟨lit "p4", lit "orange", lit "someSource", 1⟩,
   ⟨lit "p1.3", lit "pineapple", lit "someSource", 2⟩,
   ⟨lit "p1.2", lit "strawberry", lit "someSource", 3⟩,
   ⟨lit "p5", lit "kiwi", lit "someSource", 4⟩,
   ⟨lit "p5:1", lit "mango", lit "someSource", 5⟩].foldl
    ConfigurationPropertyMap.add ConfigurationPropertyMap.empty

/-! ## ApplicationConfiguration: traced and state-passing forms -/

/-- Embeds `ApplicationConfiguration::applyHandler_` together with the calls
of `PropertyHandler::handle` it makes, each given by the handler object and
the argument: the throw of the empty-value check comes before the call, and
the call is the one statement `info.handler()->handle(property)`. -/
def applyHandlerTraced_ (handle : Nat → ConfigurationProperty → HandlerOutcome)
    (info : PropertyInfo) (property : ConfigurationProperty) :
    List (Nat × ConfigurationProperty) × Option InvalidPropertyValueError :=
  if !info.allowEmpty_ && property.value.isEmpty then
    ([], some ⟨property, [], lit "Value is empty"⟩)
  else
    match info.handler_ with
    | none => ([], none)
    | some h =>
      ([(h, property)],
        match handle h property with
        | .ok => none
        | .propertyFormatError v d =>
          some ⟨property, if v.isEmpty then property.value else v, d⟩
        | .invalidPropertyValueError p v d => some ⟨p, v, d⟩
        | .stdException w => some ⟨property, property.value, w⟩
        | .unknownException => some ⟨property, [], []⟩)

/-- Embeds `ApplicationConfiguration::registerProperty_(PropertyInfo&&)` as a
transition of the member `handlers_`: the table when the call ends and the
exception it ends with, if any.  The body reads `handlers_` through
`lower_bound` and iterators and writes it in its last statement, the
`insert`. -/
def registerPropertyState_ (handlers_ : PropertyInfoMap) (info : PropertyInfo) :
    PropertyInfoMap × Option ApplicationConfigurationError :=
  if info.prefix_ && (info.name_.length = 0 || !isLegalPropertyName info.name_) then
    (handlers_,
      some ⟨lit "Cannot register property prefix for invalid prefix \"" ++ info.name_ ++ lit "\""⟩)
  else if !info.prefix_ && !isLegalName info.name_ then
    (handlers_,
      some ⟨lit "Cannot register property with invalid name \"" ++ info.name_ ++ lit "\""⟩)
  else if info.handler_.isNone then
    (handlers_,
      some ⟨lit "Cannot register property \"" ++ info.name_ ++ lit "\" with no handler"⟩)
  else
    let i := lowerBound info.name_ handlers_
    if (i.head?.map Prod.fst) = some info.name_ then
      (handlers_,
        some ⟨lit "Property \"" ++ info.name_ ++ lit "\" has already been registered"⟩)
    else
      match (if info.prefix_ then findHandlerWithPrefix info.name_ (info.name_.headD NUL) i
             else none) with
      | some k =>
        (handlers_,
          some ⟨lit "Cannot register handler for prefix \"" ++ info.name_ ++
                lit "\" because a previously-registered property (\"" ++ k ++
                lit "\") begins with that prefix"⟩)
      | none =>
        let j := lowerBound (info.name_.take 1) handlers_
        match (if (j.head?.map (fun e => e.1.headD NUL)) = some (info.name_.headD NUL)
               then findPrefixOf info.name_ i.length j else none) with
        | some p =>
          (handlers_,
            some ⟨lit "Cannot register handler for property \"" ++ info.name_ ++
                  lit "\" because a handler for properties with prefix \"" ++ p ++
                  lit "\" has already been registered"⟩)
        | none => (mapInsert info.name_ info handlers_, none)

/-- The `registerProperty(name, v)` of the registration unit tests: an exact
handler, not required, empty values not allowed. -/
def testProperty (name : String) : PropertyInfo :=
  PropertyInfo.create (lit name) false false false (some 0)

/-- The `registerPrefix(name, v)` of the registration unit tests: a prefix
handler, not required, empty values not allowed. -/
def testPrefix (name : String) : PropertyInfo :=
  PropertyInfo.create (lit name) true false false (some 1)

/-- Spec-level: the name with one trailing `.` removed, if it has one. -/
def stripOneTrailingDot (name : Str) : Str :=
  if name.getLast? = some '.' then name.dropLast else name

/-- Spec-level: the name check of a registration in the words of the
specification.  An exact name must satisfy `isLegalName`; a prefix must be
non-empty and satisfy `isLegalName` once one trailing `.` is removed. -/
def registrationNameLegal (isPfx : Bool) (name : Str) : Bool :=
  if isPfx then !name.isEmpty && isLegalName (stripOneTrailingDot name)
  else isLegalName name

/-- The errors that can end `load_` while the handler cursor has not passed
the handler `h`, with `pre` the handlers before `h` and `ps` the properties
not yet handled. -/
def EarlierError (handle : Nat → ConfigurationProperty → HandlerOutcome) (ign : Bool)
    (src : Str) (pre : PropertyInfoMap) (ps : List ConfigurationProperty) (e : BindError) :
    Prop :=
  (∃ x ∈ resetFound pre, x.2.required_ = true ∧ e = .requiredPropertyMissing src x.1) ∨
  (∃ x ∈ resetFound pre, ∃ q ∈ ps, ∃ err, handlerMatches x q.name = true ∧
    applyHandler_ handle x.2 q = some err ∧ e = .invalidPropertyValue err) ∨
  (ign = false ∧ ∃ q ∈ ps, e = .unknownProperty q.source q.line q.name)

/-! ## The lexer: token sequences -/

/-- The tokens that successive calls of `next()` return, up to and including
the first END_OF_FILE, for at most `n` calls. -/
def nextTokens : Nat → ConfigFileLexer → List Token
  | 0, _ => []
  | n + 1, lx =>
    if lx.next.1.type = .END_OF_FILE then [lx.next.1]
    else lx.next.1 :: nextTokens n lx.next.2

/-! ## detail::ValueProcessor: the calls of `encodeUtf8_` -/

/-- The argument of the call `encodeUtf8_(unicodeChar, prepared)` that the
pass of the loop of `processValue` from the state `s` makes, if it makes one:
in the states 7 to 10 before a character that is no hex digit, in state 11
(behind the sixth digit, if there is one), and in the states 13 to 18 before
the closing brace. -/
def encodeCall (s : ValueState) : Option Nat :=
  let ch := s.i.headD NUL
  if 7 ≤ s.state ∧ s.state ≤ 10 then
    if isHexDigit_ ch then none else some s.unicodeChar
  else if s.state = 11 then
    some (if isHexDigit_ ch then shiftInHex s.unicodeChar ch else s.unicodeChar)
  else if 13 ≤ s.state ∧ s.state ≤ 18 then
    if ch ≠ NUL ∧ ch = '\x7d' then some s.unicodeChar else none
  else none

/-- The arguments of the calls of `encodeUtf8_` that the loop of
`processValue` makes from the state `s` on, in at most `fuel` passes. -/
def encodeCalls (resolve : Str → Except PropertyFormatError Str) :
    Nat → ValueState → List Nat
  | 0, _ => []
  | fuel + 1, s =>
    if s.state = 0 then []
    else
      match processStep resolve s with
      | .error _ => []
      | .ok s1 => (encodeCall s).toList ++ encodeCalls resolve fuel s1

/-- The arguments of the calls of `encodeUtf8_` that `processValue(value)`
makes. -/
def processValueEncodeCalls (getenv : Str → Option Str) (properties : ConfigurationPropertyMap)
    (useEnvVars_ : Bool) (value : Str) : List Nat :=
  encodeCalls (resolveVariable_ getenv properties useEnvVars_) (2 * value.length + 2)
    ⟨value, [], 1, [], 0, false⟩

/-- The number of hex digits that the loop of `processValue` has read into
`unicodeChar` in the states of an escape; in the other states, the most it
can have read. -/
def escapeDigits (state : Nat) : Nat :=
  if 7 ≤ state ∧ state ≤ 11 then state - 6
  else if 13 ≤ state ∧ state ≤ 18 then state - 12
  else 6

/-! ## ConfigFileParser: the parse of an included file -/

/-- The statements of `parseIncludeDirective_` before the loop that merges the
included properties: the tokens of the directive, the checks, and the call
`includeFileParser.parse(includeFilePath)`.  Gives the lexer behind the
directive and the store that the call returned, or the exception.  None of
these statements reads `properties`, the store of the including file, so it
is no argument here. -/
def includedProperties_ (w : World) (sub : SubParse) (p : ConfigFileParser)
    (sourceName : Str) (lexer : ConfigFileLexer) :
    Option (Except ConfigFileParseError (ConfigFileLexer × ConfigurationPropertyMap)) :=
  let line := lexer.line_
  let col := lexer.column_
  let r := lexer.next
  let t := r.1
  let lexer := r.2
  if t.type ≠ .PUNCTUATION || t.value ≠ lit "\"" || t.line ≠ line then
    some (.error ⟨sourceName, line, col, lit "'\"' expected"⟩)
  else
    let r := lexer.parseNextAsQuotedString.next
    let t := r.1
    let lexer := r.2
    if t.type ≠ .VALUE || t.value.isEmpty then
      some (.error ⟨sourceName, line, t.column, lit "File name missing"⟩)
    else
      let includeFilePath := resolveIncludePath w sourceName t.value
      let col := lexer.column_
      let r := lexer.next
      let t := r.1
      let lexer := r.2
      if t.type ≠ .PUNCTUATION || t.value ≠ lit "\"" || t.line ≠ line then
        some (.error ⟨sourceName, line, col, lit "'\"' expected"⟩)
      else if p.context_.length ≠ 0 then
        some (.error ⟨sourceName, t.line, t.column,
          lit "Cannot include a file from within a block"⟩)
      else if p.isIncludedFrom_ includeFilePath then
        some (.error ⟨sourceName, t.line, col,
          lit "Including \"" ++ includeFilePath ++
            lit "\" would produce an include file loop.  The include file list is:" ++
            includeFileList p sourceName⟩)
      else if p.includedFrom_.length > MAX_INCLUDE_DEPTH_ then
        some (.error ⟨sourceName, t.line, col,
          lit "Maximum inclusion depth exceeded.  The include file list is:" ++
            includeFileList p sourceName⟩)
      else
        let includeFileParser := ConfigFileParser.createIncluded p.useEnvVars_
          p.duplicatePropertyAction_ p.includedPropertyAction_ p.includedFrom_ sourceName
        match sub includeFileParser includeFilePath with
        | none => none
        | some (.error e) => some (.error e)
        | some (.ok includedProperties) => some (.ok (lexer, includedProperties))

/-! ## ConfigFileParser: the braces of a parse -/

/-- The braces that the loop of `parse` reads as the start and the end of a
block, in the order it reads them, in at most `fuel` passes: `true` for a
`\x7b` behind a block name (where `parseAssignmentOrBlock_` calls
`beginBlock_`), `false` for a `\x7d` read by the loop (where it throws or
calls `endBlock_`).  The list ends where the loop ends. -/
def parseLoopBraces (w : World) (sub : SubParse) (useEnvVars : Bool) (sourceName : Str) :
    Nat → ConfigFileParser → ConfigFileLexer → ConfigurationPropertyMap → List Bool
  | 0, _, _, _ => []
  | fuel + 1, p, lexer, properties =>
    let r := lexer.next
    let t := r.1
    let lexer := r.2
    if t.type = .END_OF_FILE then []
    else if t.type = .COMMENT then
      parseLoopBraces w sub useEnvVars sourceName fuel p lexer properties
    else if t.type = .PUNCTUATION && t.value = lit "\x7d" then
      if p.context_.isEmpty then [false]
      else false :: parseLoopBraces w sub useEnvVars sourceName fuel p.endBlock_ lexer properties
    else if t.type ≠ .NAME then []
    else if t.value = lit "include" then
      match parseIncludeDirective_ w sub p sourceName lexer properties with
      | none => []
      | some (.error _) => []
      | some (.ok r) => parseLoopBraces w sub useEnvVars sourceName fuel p r.1 r.2
    else if isLegalName t.value then
      match parseAssignmentOrBlock_ w useEnvVars p sourceName t lexer properties with
      | none => []
      | some (.error _) => []
      | some (.ok r) =>
        if lexer.next.1.value = lit "\x7b" then
          true :: parseLoopBraces w sub useEnvVars sourceName fuel r.1 r.2.1 r.2.2
        else parseLoopBraces w sub useEnvVars sourceName fuel r.1 r.2.1 r.2.2
    else []

/-- The block braces that `parseText(sourceName, text, initialLine,
initialColumn)` reads. -/
def ConfigFileParser.parseTextBraces (w : World) (p : ConfigFileParser) (sourceName text : Str)
    (initialLine initialColumn : Int) : List Bool :=
  parseLoopBraces w (subParseAt w p.levels) p.useEnvVars_ sourceName
    ((ConfigFileLexer.create (IStream.ofText text) initialLine initialColumn).budget + 1) p
    (ConfigFileLexer.create (IStream.ofText text) initialLine initialColumn) .empty

/-- Balanced braces, in the words of the specification: read from left to
right with `depth` blocks open, no closing brace (`false`) comes while no
block is open, and no block is open at the end. -/
def balancedFrom : Nat → List Bool → Bool
  | depth, [] => depth == 0
  | depth, true :: rest => balancedFrom (depth + 1) rest
  | 0, false :: _ => false
  | depth + 1, false :: rest => balancedFrom depth rest

/-! ## Legal names in the store -/

/-- Every entry of the store is held under the name of its property, and
that name satisfies `isLegalName`. -/
def ConfigurationPropertyMap.NamesLegal (m : ConfigurationPropertyMap) : Prop :=
  ∀ e ∈ m.properties_, e.1 = e.2.name ∧ isLegalName e.2.name = true

/-- The name prefix of the parser is empty, or a legal name followed by a
dot: what `beginBlock_` and `endBlock_` make of the empty prefix of a new
parser. -/
def ConfigFileParser.PrefixLegal (p : ConfigFileParser) : Prop :=
  p.contextPrefix_ = [] ∨ ∃ L : Str, p.contextPrefix_ = L ++ ['.'] ∧ isLegalName L = true

/-! ## ConfigFileParser: the passes of the loop of `parse` -/

/-- What the loop of `parse` carries from one pass to the next: the parser
(its block context), the lexer and the store. -/
abbrev ParseState := ConfigFileParser × ConfigFileLexer × ConfigurationPropertyMap

/-- One pass of the `while (true)` loop of `parse(sourceName, input,
initialLine, initialColumn)`: the loop ends in this pass, with the store
returned or an exception thrown (left), or the pass leaves a state for the
next pass (right); `none` when the budget of an included file did not
suffice. -/
def parsePass (w : World) (sub : SubParse) (useEnvVars : Bool) (sourceName : Str)
    (p : ConfigFileParser) (lexer : ConfigFileLexer) (properties : ConfigurationPropertyMap) :
    Option (ParseResult ⊕ ParseState) :=
  let r := lexer.next
  let t := r.1
  let lexer := r.2
  if t.type = .END_OF_FILE then
    if !p.context_.isEmpty then
      some (.inl ⟨p, .error ⟨sourceName, t.line, t.column, lit "'\x7d' expected"⟩⟩)
    else some (.inl ⟨p, .ok properties⟩)
  else if t.type = .COMMENT then some (.inr (p, lexer, properties))
  else if t.type = .PUNCTUATION && t.value = lit "\x7d" then
    if p.context_.isEmpty then
      some (.inl ⟨p, .error ⟨sourceName, t.line, t.column,
        lit "Syntax error ('\x7d' unexpected)"⟩⟩)
    else some (.inr (p.endBlock_, lexer, properties))
  else if t.type ≠ .NAME then
    some (.inl ⟨p, .error ⟨sourceName, t.line, t.column,
      lit "Syntax error (property name expected)"⟩⟩)
  else if t.value = lit "include" then
    match parseIncludeDirective_ w sub p sourceName lexer properties with
    | none => none
    | some (.error e) => some (.inl ⟨p, .error e⟩)
    | some (.ok r) => some (.inr (p, r.1, r.2))
  else if isLegalName t.value then
    match parseAssignmentOrBlock_ w useEnvVars p sourceName t lexer properties with
    | none => none
    | some (.error e) => some (.inl ⟨p, .error e⟩)
    | some (.ok r) => some (.inr r)
  else
    some (.inl ⟨p, .error ⟨sourceName, t.line, t.column,
      lit "\"" ++ t.value ++ lit "\" is not a legal property name"⟩⟩)

/-- The states in which the passes of the loop of `parse` start, in order,
for at most `fuel` passes: the first is the state the loop is entered
with. -/
def parseLoopPasses (w : World) (sub : SubParse) (useEnvVars : Bool) (sourceName : Str) :
    Nat → ConfigFileParser → ConfigFileLexer → ConfigurationPropertyMap → List ParseState
  | 0, _, _, _ => []
  | fuel + 1, p, lexer, properties =>
    (p, lexer, properties) ::
      match parsePass w sub useEnvVars sourceName p lexer properties with
      | some (.inr s) => parseLoopPasses w sub useEnvVars sourceName fuel s.1 s.2.1 s.2.2
      | _ => []

/-- The states in which the passes of `parseText(sourceName, text,
initialLine, initialColumn)` start. -/
def ConfigFileParser.parseTextPasses (w : World) (p : ConfigFileParser) (sourceName text : Str)
    (initialLine initialColumn : Int) : List ParseState :=
  parseLoopPasses w (subParseAt w p.levels) p.useEnvVars_ sourceName
    ((ConfigFileLexer.create (IStream.ofText text) initialLine initialColumn).budget + 1) p
    (ConfigFileLexer.create (IStream.ofText text) initialLine initialColumn) .empty

/-- The lexer is where the loop of `parse` may call `next()`: in text mode
with its position within the current line, or at the end of the file. -/
def ConfigFileLexer.Ready (lx : ConfigFileLexer) : Prop :=
  (lx.Attached ∧ (lx.state_ = .AT_START ∨ lx.state_ = .AT_TEXT)) ∨ lx.state_ = .AT_EOF

/-- The description of an exception is not that of the check for a missing
value in `parseAssignment_`. -/
def NotValueExpected (e : ConfigFileParseError) : Prop :=
  e.description ≠ lit "Property value expected"

/-- The states in which the passes of `parse(filename)` start, with `sub`
the parse of included files; none when the file cannot be opened. -/
def parseFilePasses (w : World) (sub : SubParse) (p : ConfigFileParser) (filename : Str) :
    List ParseState :=
  match w.openFile filename with
  | .ok content =>
    parseLoopPasses w sub p.useEnvVars_ filename
      ((ConfigFileLexer.create (IStream.ofText content) 1 1).budget + 1) p
      (ConfigFileLexer.create (IStream.ofText content) 1 1) .empty
  | .error _ => []

/-- The states in which the passes of `ConfigFileParser::parse(filename)`
start. -/
def ConfigFileParser.parsePasses (w : World) (p : ConfigFileParser) (filename : Str) :
    List ParseState :=
  parseFilePasses w (subParseAt w p.levels) p filename

/-- The include directive that `parseIncludeDirective_` reads with `lexer`
(the lexer behind the NAME `include`) is well formed: an opening quote, a
file name that is not empty and a closing quote, all on the line of the
directive. -/
abbrev WellFormedInclude (lexer : ConfigFileLexer) : Prop :=
  (lexer.next.1.type = .PUNCTUATION ∧ lexer.next.1.value = lit "\"" ∧
    lexer.next.1.line = lexer.line_) ∧
  (lexer.next.2.parseNextAsQuotedString.next.1.type = .VALUE ∧
    lexer.next.2.parseNextAsQuotedString.next.1.value.isEmpty = false) ∧
  (lexer.next.2.parseNextAsQuotedString.next.2.next.1.type = .PUNCTUATION ∧
    lexer.next.2.parseNextAsQuotedString.next.2.next.1.value = lit "\"" ∧
    lexer.next.2.parseNextAsQuotedString.next.2.next.1.line = lexer.line_)

/-- The pass of the parse of `sourceName` that starts in state `s` executes
an include directive: the token is the NAME `include`, the directive is well
formed and stands outside every block, and its file name resolves to
`target`. -/
abbrev IncludesAt (w : World) (sourceName : Str) (s : ParseState) (target : Str) : Prop :=
  s.2.1.next.1.type = .NAME ∧ s.2.1.next.1.value = lit "include" ∧
  WellFormedInclude s.2.1.next.2 ∧ s.1.context_ = [] ∧
  resolveIncludePath w sourceName
    s.2.1.next.2.next.2.parseNextAsQuotedString.next.1.value = target

/-- The states in which the passes of `parse(sourceName, input, initialLine,
initialColumn)` start, with `sub` the parse of included files. -/
def parseStreamPasses (w : World) (sub : SubParse) (p : ConfigFileParser) (sourceName : Str)
    (input : IStream) (initialLine initialColumn : Int) : List ParseState :=
  parseLoopPasses w sub p.useEnvVars_ sourceName
    ((ConfigFileLexer.create input initialLine initialColumn).budget + 1) p
    (ConfigFileLexer.create input initialLine initialColumn) .empty

/-- The pass that starts in state `s` is an include directive: its token is
the NAME `include`. -/
abbrev IsIncludePass (s : ParseState) : Prop :=
  s.2.1.next.1.type = .NAME ∧ s.2.1.next.1.value = lit "include"

/-- The full name that the pass starting in state `s` assigns a value to, if
the pass is an assignment: its token is a legal NAME other than `include`,
followed on its line by the PUNCTUATION `=`, so that `parse` calls
`parseAssignmentOrBlock_` and that calls `parseAssignment_`. -/
def assignedName (s : ParseState) : Option Str :=
  if s.2.1.next.1.type = .NAME ∧ s.2.1.next.1.value ≠ lit "include" ∧
      isLegalName s.2.1.next.1.value = true ∧
      s.2.1.next.2.next.1.type = .PUNCTUATION ∧
      s.2.1.next.2.next.1.line = s.2.1.next.1.line ∧
      s.2.1.next.2.next.1.value = lit "=" then
    some (s.1.getFullName_ s.2.1.next.1.value)
  else none

/-- The `ConfigurationProperty` that `parseAssignment_` builds in the pass
starting in state `s`, if the pass is an assignment whose value is valid:
the full name, the processed value, the source and the line of the name
token. -/
def assignedProperty (w : World) (useEnvVars : Bool) (sourceName : Str) (s : ParseState) :
    Option ConfigurationProperty :=
  match assignedName s with
  | none => none
  | some fullName =>
    match processValue w.getenv s.2.2 useEnvVars
        (s.2.1.next.2.next.2.parseNextAsValue.next).1.value with
    | some (.ok value) => some ⟨fullName, value, sourceName, s.2.1.next.1.line⟩
    | _ => none

/-- Every property of the store was defined in the source `sourceName`. -/
def ConfigurationPropertyMap.OwnedBy (m : ConfigurationPropertyMap) (sourceName : Str) : Prop :=
  ∀ e ∈ m.properties_, e.2.source = sourceName

/-- The passes of the parse of the text `p=1`, `q=3`, `p=2` (three lines) as
the source `dup.cfg` under `DUP_IGNORE`, for the concrete cases. -/
def dupPasses : List ParseState :=
  parseStreamPasses (plainWorld noFiles) (fun _ _ => none)
    (ConfigFileParser.create true .DUP_IGNORE .DUP_IGNORE) (lit "dup.cfg")
    (IStream.ofText (lit "p=1\nq=3\np=2\n")) 1 1

/-- The pass of `dupPasses` with index `i`. -/
def dupPass (i : Nat) : ParseState :=
  dupPasses.getD i (ConfigFileParser.create true .DUP_IGNORE .DUP_IGNORE,
    ConfigFileLexer.create (IStream.ofText []) 1 1, .empty)

/-! # Theorems -/

theorem toNat_inj {a b : Char} (h : a.toNat = b.toNat) : a = b := by
  rw [← Char.ofNat_toNat a, ← Char.ofNat_toNat b, h]

theorem strLt_irrefl (s : Str) : strLt s s = false := by
  induction s with
  | nil => rfl
  | cons a as ih => simp [strLt, ih]

theorem strLt_trans : ∀ (a b c : Str), strLt a b = true → strLt b c = true → strLt a c = true
  | [], [], _, h, _ => by simp [strLt] at h
  | [], _ :: _, [], _, h => by simp [strLt] at h
  | [], _ :: _, _ :: _, _, _ => by simp [strLt]
  | _ :: _, [], _, h, _ => by simp [strLt] at h
  | _ :: _, _ :: _, [], _, h => by simp [strLt] at h
  | x :: xs, y :: ys, z :: zs, h1, h2 => by
    simp only [strLt] at h1 h2 ⊢
    by_cases hxy : x.toNat < y.toNat
    · by_cases hyz : y.toNat < z.toNat
      · have : x.toNat < z.toNat := by omega
        simp [this]
      · by_cases hzy : z.toNat < y.toNat
        · simp [hyz, hzy] at h2
        · have : x.toNat < z.toNat := by omega
          simp [this]
    · by_cases hyx : y.toNat < x.toNat
      · simp [hxy, hyx] at h1
      · simp only [hxy, hyx, if_false] at h1
        by_cases hyz : y.toNat < z.toNat
        · have : x.toNat < z.toNat := by omega
          simp [this]
        · by_cases hzy : z.toNat < y.toNat
          · simp [hyz, hzy] at h2
          · simp only [hyz, hzy, if_false] at h2
            have h3 : ¬ x.toNat < z.toNat := by omega
            have h4 : ¬ z.toNat < x.toNat := by omega
            simp only [h3, h4, if_false]
            exact strLt_trans xs ys zs h1 h2

theorem strLt_total : ∀ (a b : Str), strLt a b = true ∨ a = b ∨ strLt b a = true
  | [], [] => by simp
  | [], _ :: _ => by simp [strLt]
  | _ :: _, [] => by simp [strLt]
  | x :: xs, y :: ys => by
    simp only [strLt]
    by_cases hxy : x.toNat < y.toNat
    · simp [hxy]
    · by_cases hyx : y.toNat < x.toNat
      · simp [hyx]
      · have hxe : x = y := toNat_inj (by omega)
        subst hxe
        simp only [hxy, if_false, List.cons.injEq, true_and]
        exact strLt_total xs ys

theorem strLt_asymm (a b : Str) (h : strLt a b = true) : strLt b a = false := by
  cases hba : strLt b a with
  | false => rfl
  | true =>
    have := strLt_trans a b a h hba
    rw [strLt_irrefl] at this
    cases this

theorem strLt_ne {a b : Str} (h : strLt a b = true) : a ≠ b := by
  intro e; subst e; rw [strLt_irrefl] at h; cases h

/-- a proper prefix sorts before the string -/
theorem startsWith_le : ∀ (s p : Str), startsWith s p = true → p = s ∨ strLt p s = true
  | s, [] => by
    intro _
    cases s with
    | nil => simp
    | cons a as => simp [strLt]
  | [], _ :: _ => by simp [startsWith, List.isPrefixOf]
  | a :: as, b :: bs => by
    intro h
    simp only [startsWith, List.isPrefixOf, Bool.and_eq_true, beq_iff_eq] at h
    obtain ⟨hab, hrest⟩ := h
    subst hab
    rcases startsWith_le as bs hrest with h1 | h1
    · left; rw [h1]
    · right; simp [strLt, h1]

/-- the strings that begin with `p` form an interval of the order -/
theorem startsWith_convex : ∀ (p x s : Str), startsWith s p = true →
    (p = x ∨ strLt p x = true) → (x = s ∨ strLt x s = true) → startsWith x p = true
  | [], _, _, _, _, _ => by simp [startsWith, List.isPrefixOf]
  | b :: bs, [], _, _, h1, _ => by simp [strLt] at h1
  | b :: bs, _ :: _, [], h, _, _ => by simp [startsWith, List.isPrefixOf] at h
  | b :: bs, y :: ys, a :: as, h, h1, h2 => by
    simp only [startsWith, List.isPrefixOf, Bool.and_eq_true, beq_iff_eq] at h ⊢
    obtain ⟨hab, hrest⟩ := h
    subst hab
    simp only [strLt, List.cons.injEq] at h1 h2
    have hby : ¬ b.toNat < y.toNat := by
      intro hlt
      rcases h2 with h2 | h2
      · rw [h2.1] at hlt; omega
      · have : ¬ y.toNat < b.toNat := by omega
        simp [this] at h2
        omega
    have hyb : ¬ y.toNat < b.toNat := by
      intro hlt
      rcases h1 with h1 | h1
      · rw [h1.1] at hlt; omega
      · have : ¬ b.toNat < y.toNat := by omega
        simp [this, hlt] at h1
    have hyeq : b = y := toNat_inj (by omega)
    subst hyeq
    simp only [hby, if_false, true_and] at h1 h2
    refine ⟨rfl, ?_⟩
    exact startsWith_convex bs ys as hrest h1 h2

/-! ## The arithmetic of `int` -/

theorem wrapInt_eq (x : Int) :
    wrapInt x = (x + 2147483648) % 4294967296 - 2147483648 := by
  have h0 : 0 ≤ x % 4294967296 := Int.emod_nonneg x (by decide)
  have h1 : x % 4294967296 < 4294967296 := Int.emod_lt_of_pos x (by decide)
  unfold wrapInt
  cases h : x % 4294967296 with
  | ofNat r =>
    rw [h] at h0 h1
    simp only [Int.ofNat_eq_coe] at h h0 h1 ⊢
    split_ifs with hr
    · rw [Int.negSucc_eq]
      omega
    · omega
  | negSucc r =>
    rw [h] at h0
    exact absurd h0 (by simp [Int.negSucc_not_nonneg])

theorem wrapInt_of_inRange {x : Int} (h : InIntRange x) : wrapInt x = x := by
  rw [wrapInt_eq]
  unfold InIntRange at h
  omega

theorem wrapInt_inRange (x : Int) : InIntRange (wrapInt x) := by
  rw [wrapInt_eq]
  unfold InIntRange
  omega

theorem wrapInt_wrapInt_add (x y : Int) : wrapInt (wrapInt x + y) = wrapInt (x + y) := by
  rw [wrapInt_eq, wrapInt_eq, wrapInt_eq]
  omega

theorem incInt_zero (x : Int) : incInt x 0 = x := rfl

theorem incInt_succ (x : Int) (n : Nat) : incInt x (n + 1) = wrapInt (incInt x n + 1) := rfl

/-- From the first execution of `++x` on, the value is the wrapped sum. -/
theorem incInt_eq_wrapInt (x : Int) : ∀ n : Nat, 0 < n → incInt x n = wrapInt (x + n)
  | 0, h => absurd h (by decide)
  | 1, _ => by rw [incInt_succ, incInt_zero]; rfl
  | n + 2, _ => by
    rw [incInt_succ, incInt_eq_wrapInt x (n + 1) (Nat.succ_pos n), wrapInt_wrapInt_add]
    congr 1
    push_cast
    omega

theorem wrapInt_incInt (x : Int) (n : Nat) : wrapInt (incInt x n) = wrapInt (x + n) := by
  cases n with
  | zero => simp [incInt_zero]
  | succ k =>
    rw [incInt_eq_wrapInt x (k + 1) (Nat.succ_pos k)]
    rw [wrapInt_of_inRange (wrapInt_inRange _)]

theorem incInt_add (x : Int) (a : Nat) : ∀ b : Nat, incInt (incInt x a) b = incInt x (a + b)
  | 0 => rfl
  | b + 1 => by
    rw [incInt_succ, incInt_add x a b]
    rfl

/-- Without overflow `n` executions of `++x` add `n`. -/
theorem incInt_of_le {x : Int} {n : Nat} (h : InIntRange x) (hn : x + n ≤ 2147483647) :
    incInt x n = x + n := by
  cases n with
  | zero => simp [incInt_zero]
  | succ k =>
    rw [incInt_eq_wrapInt x (k + 1) (Nat.succ_pos k)]
    apply wrapInt_of_inRange
    unfold InIntRange at h ⊢
    omega

theorem incInt_inRange {x : Int} (h : InIntRange x) (n : Nat) : InIntRange (incInt x n) := by
  cases n with
  | zero => exact h
  | succ k =>
    rw [incInt_succ]
    exact wrapInt_inRange _

/-- The column of a PUNCTUATION token: `column_ - 1` behind `++column_`. -/
theorem wrapInt_incInt_sub_one (x : Int) : wrapInt (incInt x 1 - 1) = wrapInt x := by
  rw [incInt_succ, incInt_zero, wrapInt_eq, wrapInt_eq, wrapInt_eq]
  omega

theorem inIntRange_one : InIntRange 1 := by
  unfold InIntRange; omega

theorem lowerBound_split {V : Type} (k : Str) : ∀ (t : List (Str × V)),
    ∃ pre, t = pre ++ lowerBound k t ∧ ∀ e ∈ pre, strLt e.1 k = true
  | [] => ⟨[], by simp [lowerBound]⟩
  | x :: rest => by
    by_cases h : strLt x.1 k = true
    · obtain ⟨pre, h1, h2⟩ := lowerBound_split k rest
      refine ⟨x :: pre, ?_, ?_⟩
      · simp only [lowerBound, h, if_true, List.cons_append]
        rw [← h1]
      · intro e he
        rcases List.mem_cons.1 he with he | he
        · rw [he]; exact h
        · exact h2 e he
    · exact ⟨[], by simp [lowerBound, h]⟩

theorem SortedKeys.tail {V : Type} {x : Str × V} {t : List (Str × V)} (h : SortedKeys (x :: t)) :
    SortedKeys t := (List.pairwise_cons.1 h).2

theorem SortedKeys.head_lt {V : Type} {x : Str × V} {t : List (Str × V)} (h : SortedKeys (x :: t)) :
    ∀ e ∈ t, strLt x.1 e.1 = true := (List.pairwise_cons.1 h).1

theorem lowerBound_ge {V : Type} (k : Str) : ∀ (t : List (Str × V)), SortedKeys t →
    ∀ e ∈ lowerBound k t, strLt e.1 k = false
  | [], _ => by simp [lowerBound]
  | x :: rest, hs => by
    by_cases h : strLt x.1 k = true
    · simp only [lowerBound, h, if_true]
      exact lowerBound_ge k rest hs.tail
    · simp only [lowerBound, h]
      intro e he
      simp only [Bool.not_eq_true] at h
      rcases List.mem_cons.1 he with he | he
      · rw [he]; exact h
      · have hx := hs.head_lt e he
        cases hek : strLt e.1 k with
        | false => rfl
        | true =>
          have := strLt_trans _ _ _ hx hek
          rw [h] at this; cases this

theorem mem_lowerBound {V : Type} (k : Str) : ∀ (t : List (Str × V)) (e : Str × V),
    e ∈ t → strLt e.1 k = false → e ∈ lowerBound k t
  | [], _, h, _ => by cases h
  | x :: rest, e, he, hk => by
    by_cases h : strLt x.1 k = true
    · simp only [lowerBound, h, if_true]
      rcases List.mem_cons.1 he with he | he
      · rw [he, h] at hk; cases hk
      · exact mem_lowerBound k rest e he hk
    · simp only [lowerBound, h]
      exact he

theorem mem_mapInsert {V : Type} (k : Str) (v : V) : ∀ (t : List (Str × V)) (e : Str × V),
    e ∈ mapInsert k v t → e = (k, v) ∨ e ∈ t
  | [], e, h => by simpa [mapInsert] using h
  | x :: rest, e, h => by
    simp only [mapInsert] at h
    split at h
    · rcases List.mem_cons.1 h with h | h
      · right; rw [h]; exact List.mem_cons_self _ _
      · rcases mem_mapInsert k v rest e h with h | h
        · left; exact h
        · right; exact List.mem_cons_of_mem _ h
    · split at h
      · right; exact h
      · rcases List.mem_cons.1 h with h | h
        · left; exact h
        · right; exact h

theorem sortedKeys_mapInsert {V : Type} (k : Str) (v : V) : ∀ (t : List (Str × V)),
    SortedKeys t → SortedKeys (mapInsert k v t)
  | [], _ => by simp [mapInsert, SortedKeys]
  | x :: rest, hs => by
    simp only [mapInsert]
    split
    · rename_i hlt
      refine List.pairwise_cons.2 ⟨?_, sortedKeys_mapInsert k v rest hs.tail⟩
      intro e he
      rcases mem_mapInsert k v rest e he with he | he
      · rw [he]; exact hlt
      · exact hs.head_lt e he
    · split
      · exact hs
      · rename_i hnlt hne
        have hkx : strLt k x.1 = true := by
          rcases strLt_total k x.1 with h | h | h
          · exact h
          · exact absurd h.symm hne
          · exact absurd h hnlt
        refine List.pairwise_cons.2 ⟨?_, hs⟩
        intro e he
        rcases List.mem_cons.1 he with he | he
        · rw [he]; exact hkx
        · exact strLt_trans _ _ _ hkx (hs.head_lt e he)
theorem isLegalName_ne_nil {s : Str} (h : isLegalName s = true) : s ≠ [] := by
  intro e; subst e; simp [isLegalName] at h

theorem startsWith_head {s p : Str} {c : Char} {cs : Str} (hp : p = c :: cs)
    (h : startsWith s p = true) : s.headD NUL = c := by
  subst hp
  cases s with
  | nil => simp [startsWith, List.isPrefixOf] at h
  | cons a as =>
    simp only [startsWith, List.isPrefixOf, Bool.and_eq_true, beq_iff_eq] at h
    simp [h.1]

theorem not_lt_iff_ge {a b : Str} (h : strLt a b = false) : b = a ∨ strLt b a = true := by
  rcases strLt_total a b with h1 | h1 | h1
  · rw [h] at h1; cases h1
  · left; exact h1.symm
  · right; exact h1

theorem findHandlerWithPrefix_none (name : Str) (c : Char) (cs : Str) (hn : name = c :: cs) :
    ∀ (i : PropertyInfoMap), SortedKeys i → (∀ e ∈ i, strLt e.1 name = false) →
      findHandlerWithPrefix name c i = none → ∀ e ∈ i, startsWith e.1 name = false
  | [], _, _, _ => by simp
  | k :: rest, hs, hge, hnone => by
    intro e he
    simp only [findHandlerWithPrefix] at hnone
    by_cases hc : k.1.headD NUL = c
    · simp only [hc, if_true] at hnone
      by_cases hk : startsWith k.1 name = true
      · simp [hk] at hnone
      · simp only [hk] at hnone
        rcases List.mem_cons.1 he with he | he
        · rw [he]; simpa using hk
        · exact findHandlerWithPrefix_none name c cs hn rest hs.tail
            (fun e he => hge e (List.mem_cons_of_mem _ he)) hnone e he
    · cases hst : startsWith e.1 name with
      | false => rfl
      | true =>
        exfalso
        apply hc
        have hk1 : name = k.1 ∨ strLt name k.1 = true :=
          not_lt_iff_ge (hge k (List.mem_cons_self _ _))
        have hk2 : k.1 = e.1 ∨ strLt k.1 e.1 = true := by
          rcases List.mem_cons.1 he with he | he
          · left; rw [he]
          · right; exact hs.head_lt e he
        exact startsWith_head hn (startsWith_convex name k.1 e.1 hst hk1 hk2)

theorem findPrefixOf_none (name : Str) (i : PropertyInfoMap) :
    ∀ (pre : PropertyInfoMap), findPrefixOf name i.length (pre ++ i) = none →
      ∀ e ∈ pre, ¬ (e.2.prefix_ = true ∧ startsWith name e.1 = true)
  | [], _ => by simp
  | x :: pre, h => by
    intro e he
    have hlen : ((x :: pre) ++ i).length ≠ i.length := by
      simp only [List.length_append, List.length_cons]; omega
    rw [List.cons_append] at hlen h
    simp only [findPrefixOf, hlen, if_false] at h
    by_cases hx : (x.2.prefix_ && startsWith name x.1) = true
    · simp [hx] at h
    · simp only [hx] at h
      rcases List.mem_cons.1 he with he | he
      · rw [he]; simpa using hx
      · exact findPrefixOf_none name i pre h e he

theorem sortedKeys_append_right {V : Type} {a b : List (Str × V)} (h : SortedKeys (a ++ b)) :
    SortedKeys b := (List.pairwise_append.1 h).2.1

theorem sortedKeys_eq_of_key_eq {V : Type} : ∀ {t : List (Str × V)}, SortedKeys t →
    ∀ e1 ∈ t, ∀ e2 ∈ t, e1.1 = e2.1 → e1 = e2
  | [], _, _, h, _, _, _ => by cases h
  | x :: rest, hs, e1, h1, e2, h2, hk => by
    rcases List.mem_cons.1 h1 with h1 | h1
    · rcases List.mem_cons.1 h2 with h2 | h2
      · rw [h1, h2]
      · have := hs.head_lt e2 h2
        rw [← h1, hk, strLt_irrefl] at this; cases this
    · rcases List.mem_cons.1 h2 with h2 | h2
      · have := hs.head_lt e1 h1
        rw [← h2, hk, strLt_irrefl] at this; cases this
      · exact sortedKeys_eq_of_key_eq hs.tail e1 h1 e2 h2 hk

/-- What a successful `registerProperty_` has checked. -/
theorem registerProperty_ok {t t1 : PropertyInfoMap} {info : PropertyInfo}
    (hinv : TableInv t) (h : registerProperty_ t info = .ok t1) :
    t1 = mapInsert info.name_ info t ∧ info.name_ ≠ [] ∧
    (∀ e ∈ t, e.1 ≠ info.name_) ∧
    (info.prefix_ = true → ∀ e ∈ t, startsWith e.1 info.name_ = false) ∧
    (∀ e ∈ t, e.2.prefix_ = true → startsWith info.name_ e.1 = false) := by
  unfold registerProperty_ at h
  split at h
  · cases h
  rename_i hc1
  split at h
  · cases h
  rename_i hc2
  split at h
  · cases h
  rename_i hc3
  simp only at h
  split at h
  · cases h
  rename_i hc4
  split at h
  · cases h
  rename_i hc5
  split at h
  · cases h
  rename_i hc6
  have hne : info.name_ ≠ [] := by
    cases hp : info.prefix_ with
    | true =>
      intro e
      simp [hp, e] at hc1
    | false =>
      simp only [hp, Bool.not_false, Bool.true_and, Bool.not_eq_true', Bool.not_eq_false] at hc2
      exact isLegalName_ne_nil (by simpa using hc2)
  obtain ⟨c, cs, hn⟩ : ∃ c cs, info.name_ = c :: cs := by
    cases hname : info.name_ with
    | nil => exact absurd hname hne
    | cons c cs => exact ⟨c, cs, rfl⟩
  obtain ⟨pre, hsplit, hpre⟩ := lowerBound_split info.name_ t
  have hige := lowerBound_ge info.name_ t hinv.sorted
  have hi_sorted : SortedKeys (lowerBound info.name_ t) := by
    have := hinv.sorted
    rw [hsplit] at this
    exact sortedKeys_append_right this
  -- the name is not yet a key
  have hfresh : ∀ e ∈ t, e.1 ≠ info.name_ := by
    intro e he hek
    have hmem := mem_lowerBound info.name_ t e he (by rw [hek]; exact strLt_irrefl _)
    cases hi : lowerBound info.name_ t with
    | nil => rw [hi] at hmem; cases hmem
    | cons x rest =>
      rw [hi] at hmem hi_sorted hige
      rw [hi] at hc4
      simp only [List.head?_cons, Option.map_some', Option.some.injEq] at hc4
      rcases List.mem_cons.1 hmem with hm | hm
      · apply hc4; rw [← hm]; exact hek
      · have h1 := hi_sorted.head_lt e hm
        rw [hek] at h1
        have h2 := hige x (List.mem_cons_self _ _)
        rw [h1] at h2; cases h2
  refine ⟨by injection h with h; exact h.symm, hne, hfresh, ?_, ?_⟩
  · intro hp e he
    rw [hp] at hc5
    simp only [if_true] at hc5
    rw [hn] at hc5
    simp only [List.headD_cons] at hc5
    rw [← hn] at hc5
    cases hst : startsWith e.1 info.name_ with
    | false => rfl
    | true =>
      have hle := startsWith_le _ _ hst
      have hmem : e ∈ lowerBound info.name_ t := by
        apply mem_lowerBound _ _ _ he
        rcases hle with hle | hle
        · rw [hle]; exact strLt_irrefl _
        · exact strLt_asymm _ _ hle
      have := findHandlerWithPrefix_none info.name_ c cs hn _ hi_sorted hige hc5 e hmem
      rw [hst] at this; cases this
  · intro e he hp
    cases hst : startsWith info.name_ e.1 with
    | false => rfl
    | true =>
      exfalso
      -- e is a proper, non-empty prefix of the name
      have hene := hinv.nonempty e he
      obtain ⟨c1, cs1, he1⟩ : ∃ c1 cs1, e.1 = c1 :: cs1 := by
        cases hk : e.1 with
        | nil => exact absurd hk hene
        | cons a as => exact ⟨a, as, rfl⟩
      have hc1c : c1 = c := by
        have := startsWith_head he1 hst
        rw [hn] at this
        simpa using this.symm
      subst hc1c
      have hlt : strLt e.1 info.name_ = true := by
        rcases startsWith_le _ _ hst with h1 | h1
        · exact absurd h1 (hfresh e he)
        · exact h1
      have htake : info.name_.take 1 = [c1] := by rw [hn]; rfl
      have hst1 : startsWith e.1 [c1] = true := by
        rw [he1]; simp [startsWith, List.isPrefixOf]
      have hge1 : strLt e.1 [c1] = false := by
        rcases startsWith_le _ _ hst1 with h1 | h1
        · rw [← h1]; exact strLt_irrefl _
        · exact strLt_asymm _ _ h1
      have hmemj : e ∈ lowerBound [c1] t := mem_lowerBound _ _ _ he hge1
      obtain ⟨pre1, hsplit1, hpre1⟩ := lowerBound_split [c1] t
      have hj_sorted : SortedKeys (lowerBound [c1] t) := by
        have := hinv.sorted
        rw [hsplit1] at this
        exact sortedKeys_append_right this
      have hjge := lowerBound_ge [c1] t hinv.sorted
      -- i is a suffix of j
      obtain ⟨mid, hmid, hmidlt⟩ := lowerBound_split info.name_ (lowerBound [c1] t)
      have hii : lowerBound info.name_ (lowerBound [c1] t) = lowerBound info.name_ t := by
        have hle1 : strLt [c1] info.name_ = true ∨ [c1] = info.name_ := by
          rcases strLt_total [c1] info.name_ with h1 | h1 | h1
          · left; exact h1
          · right; exact h1
          · exfalso
            have := strLt_trans _ _ _ hlt h1
            rw [hge1] at this; cases this
        have hdrop : ∀ (l : PropertyInfoMap), (∀ x ∈ l, strLt x.1 info.name_ = true) →
            ∀ r, lowerBound info.name_ (l ++ r) = lowerBound info.name_ r := by
          intro l
          induction l with
          | nil => intro _ r; rfl
          | cons x l ih =>
            intro hl r
            simp only [List.cons_append, lowerBound, hl x (List.mem_cons_self _ _), if_true]
            exact ih (fun y hy => hl y (List.mem_cons_of_mem _ hy)) r
        conv_rhs => rw [hsplit1]
        rw [hdrop pre1 ?_ _]
        intro x hx
        rcases hle1 with h1 | h1
        · exact strLt_trans _ _ _ (hpre1 x hx) h1
        · rw [← h1]; exact hpre1 x hx
      rw [hii] at hmid
      rw [htake] at hc6
      -- the guard holds
      have hguard : ((lowerBound [c1] t).head?.map (fun e => e.1.headD NUL)) =
          some (info.name_.headD NUL) := by
        cases hj : lowerBound [c1] t with
        | nil => rw [hj] at hmemj; cases hmemj
        | cons x rest =>
          rw [hj] at hmemj hj_sorted hjge
          simp only [List.head?_cons, Option.map_some', Option.some.injEq]
          rw [hn]
          simp only [List.headD_cons]
          have hx1 : [c1] = x.1 ∨ strLt [c1] x.1 = true :=
            not_lt_iff_ge (hjge x (List.mem_cons_self _ _))
          have hx2 : x.1 = e.1 ∨ strLt x.1 e.1 = true := by
            rcases List.mem_cons.1 hmemj with hm | hm
            · left; rw [hm]
            · right; exact hj_sorted.head_lt e hm
          exact startsWith_head rfl (startsWith_convex [c1] x.1 e.1 hst1 hx1 hx2)
      rw [hguard] at hc6
      simp only [if_true] at hc6
      have hscan : findPrefixOf info.name_ (lowerBound info.name_ t).length
          (mid ++ lowerBound info.name_ t) = none := by
        rw [← hmid]
        exact hc6
      have hemid : e ∈ mid := by
        rw [hmid] at hmemj
        rcases List.mem_append.1 hmemj with hm | hm
        · exact hm
        · have := hige e hm
          rw [hlt] at this; cases this
      exact findPrefixOf_none _ _ mid hscan e hemid ⟨hp, hst⟩
theorem tableInv_nil : TableInv [] :=
  ⟨List.Pairwise.nil, by simp, by simp, by intro e1 h; cases h⟩

theorem tableInv_register {t t1 : PropertyInfoMap} {info : PropertyInfo}
    (hinv : TableInv t) (h : registerProperty_ t info = .ok t1) : TableInv t1 := by
  obtain ⟨ht1, hne, hfresh, hpre, hpost⟩ := registerProperty_ok hinv h
  subst ht1
  have hmem := mem_mapInsert info.name_ info t
  refine ⟨sortedKeys_mapInsert _ _ _ hinv.sorted, ?_, ?_, ?_⟩
  · intro e he
    rcases hmem e he with he | he
    · rw [he]
    · exact hinv.keyName e he
  · intro e he
    rcases hmem e he with he | he
    · rw [he]; exact hne
    · exact hinv.nonempty e he
  · intro e1 h1 e2 h2 hne12 hp
    rcases hmem e1 h1 with h1 | h1 <;> rcases hmem e2 h2 with h2 | h2
    · exact absurd (h1.trans h2.symm) hne12
    · rw [h1]; rw [h1] at hp; exact hpre hp e2 h2
    · rw [h2]; exact hpost e1 h1 hp
    · exact hinv.noOverlap e1 h1 e2 h2 hne12 hp

theorem tableInv_foldl (infos : List PropertyInfo) : ∀ (t : PropertyInfoMap), TableInv t →
    TableInv (infos.foldl (fun t info => match registerProperty_ t info with
                                         | .ok t1 => t1
                                         | .error _ => t) t) := by
  induction infos with
  | nil => intro t h; exact h
  | cons info rest ih =>
    intro t h
    simp only [List.foldl_cons]
    apply ih
    cases hr : registerProperty_ t info with
    | ok t1 => exact tableInv_register h hr
    | error e => exact h

theorem tableInv_registerAll (infos : List PropertyInfo) : TableInv (registerAll infos) :=
  tableInv_foldl infos [] tableInv_nil

theorem handlerMatches_unique {t : PropertyInfoMap} (hinv : TableInv t) (name : Str)
    (e1 e2 : Str × PropertyInfo) (h1 : e1 ∈ t) (h2 : e2 ∈ t)
    (m1 : handlerMatches e1 name = true) (m2 : handlerMatches e2 name = true) : e1 = e2 := by
  by_contra hne
  simp only [handlerMatches, Bool.or_eq_true, decide_eq_true_eq, Bool.and_eq_true] at m1 m2
  have hne' : e2 ≠ e1 := fun h => hne h.symm
  rcases m1 with m1 | ⟨p1, s1⟩
  · rcases m2 with m2 | ⟨p2, s2⟩
    · exact hne (sortedKeys_eq_of_key_eq hinv.sorted e1 h1 e2 h2 (m1.symm.trans m2))
    · have := hinv.noOverlap e2 h2 e1 h1 hne' p2
      rw [← m1, s2] at this; cases this
  · rcases m2 with m2 | ⟨p2, s2⟩
    · have := hinv.noOverlap e1 h1 e2 h2 hne p1
      rw [← m2, s1] at this; cases this
    · simp only [startsWith, List.isPrefixOf_iff_prefix] at s1 s2
      have hn1 := hinv.noOverlap e1 h1 e2 h2 hne p1
      have hn2 := hinv.noOverlap e2 h2 e1 h1 hne' p2
      rcases Nat.le_total e1.1.length e2.1.length with hl | hl
      · have := List.prefix_of_prefix_length_le s1 s2 hl
        rw [← List.isPrefixOf_iff_prefix] at this
        simp only [startsWith] at hn1
        rw [this] at hn1; cases hn1
      · have := List.prefix_of_prefix_length_le s2 s1 hl
        rw [← List.isPrefixOf_iff_prefix] at this
        simp only [startsWith] at hn2
        rw [this] at hn2; cases hn2

theorem mergeOrdered_of_tableInv {t : PropertyInfoMap} (hinv : TableInv t) : MergeOrdered t := by
  unfold MergeOrdered
  have hs := hinv.sorted
  unfold SortedKeys at hs
  have hall : ∀ a ∈ t, ∀ b ∈ t, strLt a.1 b.1 = true →
      (strLt a.1 b.1 = true ∧ (a.2.prefix_ = true → startsWith b.1 a.1 = false)) := by
    intro a ha b hb hlt
    refine ⟨hlt, fun hp => hinv.noOverlap a ha b hb ?_ hp⟩
    intro hab
    rw [hab, strLt_irrefl] at hlt; cases hlt
  exact List.Pairwise.imp_of_mem (fun {a b} ha hb h => hall a ha b hb h) hs

theorem handlerMatches_false_of_lt {e : Str × PropertyInfo} {name : Str}
    (h : strLt name e.1 = true) : handlerMatches e name = false := by
  cases hm : handlerMatches e name with
  | false => rfl
  | true =>
    simp only [handlerMatches, Bool.or_eq_true, decide_eq_true_eq, Bool.and_eq_true] at hm
    rcases hm with hm | ⟨_, hm⟩
    · rw [hm, strLt_irrefl] at h; cases h
    · rcases startsWith_le _ _ hm with h1 | h1
      · rw [h1, strLt_irrefl] at h; cases h
      · rw [strLt_asymm _ _ h1] at h; cases h

theorem naive_cons_skip (e : Str × PropertyInfo) (rest : PropertyInfoMap) :
    ∀ (ps : List ConfigurationProperty), (∀ q ∈ ps, handlerMatches e q.name = false) →
      naiveApplications (e :: rest) ps = naiveApplications rest ps
  | [], _ => rfl
  | p :: ps, h => by
    simp only [naiveApplications, List.filter_cons, h p (List.mem_cons_self _ _)]
    rw [naive_cons_skip e rest ps (fun q hq => h q (List.mem_cons_of_mem _ hq))]
    simp

theorem naive_cons_congr (e e1 : Str × PropertyInfo) (rest : PropertyInfoMap)
    (hk : e1.1 = e.1) (hp : e1.2.prefix_ = e.2.prefix_) :
    ∀ (ps : List ConfigurationProperty),
      naiveApplications (e1 :: rest) ps = naiveApplications (e :: rest) ps
  | [] => rfl
  | p :: ps => by
    have hm : handlerMatches e1 p.name = handlerMatches e p.name := by
      simp only [handlerMatches, hk, hp]
    simp only [naiveApplications, List.filter_cons, hm]
    rw [naive_cons_congr e e1 rest hk hp ps]
    cases handlerMatches e p.name <;> simp [hk]

theorem filter_matches_nil_of_lt (p : ConfigurationProperty) :
    ∀ (j : PropertyInfoMap), (∀ e ∈ j, strLt p.name e.1 = true) →
      j.filter (fun e => handlerMatches e p.name) = []
  | [], _ => rfl
  | e :: rest, h => by
    simp only [List.filter_cons, handlerMatches_false_of_lt (h e (List.mem_cons_self _ _))]
    exact filter_matches_nil_of_lt p rest (fun x hx => h x (List.mem_cons_of_mem _ hx))

theorem filter_matches_nil_of_head (p : ConfigurationProperty) (e : Str × PropertyInfo)
    (hm : handlerMatches e p.name = true) (hp : e.2.prefix_ = true ∨ p.name = e.1) :
    ∀ (rest : PropertyInfoMap),
      (∀ x ∈ rest, strLt e.1 x.1 = true ∧ (e.2.prefix_ = true → startsWith x.1 e.1 = false)) →
      rest.filter (fun x => handlerMatches x p.name) = []
  | [], _ => rfl
  | x :: rest, h => by
    have hx := h x (List.mem_cons_self _ _)
    have hxm : handlerMatches x p.name = false := by
      cases hxm : handlerMatches x p.name with
      | false => rfl
      | true =>
        exfalso
        have hxle : x.1 = p.name ∨ strLt x.1 p.name = true := by
          simp only [handlerMatches, Bool.or_eq_true, decide_eq_true_eq, Bool.and_eq_true] at hxm
          rcases hxm with hxm | ⟨_, hxm⟩
          · left; exact hxm.symm
          · exact startsWith_le _ _ hxm
        simp only [handlerMatches, Bool.or_eq_true, decide_eq_true_eq, Bool.and_eq_true] at hm
        rcases hm with hm | ⟨hpe, hm⟩
        · rcases hxle with h1 | h1
          · rw [hm] at h1; rw [h1, strLt_irrefl] at hx; cases hx.1
          · rw [hm] at h1; rw [strLt_asymm _ _ h1] at hx; cases hx.1
        · have := startsWith_convex e.1 x.1 p.name hm (Or.inr hx.1) hxle
          rw [hx.2 hpe] at this; cases this
    simp only [List.filter_cons, hxm]
    exact filter_matches_nil_of_head p e hm hp rest (fun y hy => h y (List.mem_cons_of_mem _ hy))

theorem seek_spec (handle : Nat → ConfigurationProperty → HandlerOutcome) (src : Str)
    (p : ConfigurationProperty) (ps : List ConfigurationProperty)
    (hps : ∀ q ∈ ps, strLt p.name q.name = true) :
    ∀ (j done : PropertyInfoMap), MergeOrdered j → (∀ e ∈ j, e.2.required_ = false) →
      (∀ e ∈ j, ∀ q ∈ p :: ps, handlerMatches e q.name = true →
        applyHandler_ handle e.2 q = none) →
      ∃ done1 j1 a,
        (seek handle true src p done j = .advance done1 j1 a ∨
          (seek handle true src p done j = .exhausted done1 ∧ j1 = [] ∧ a = none)) ∧
        MergeOrdered j1 ∧ (∀ e ∈ j1, e.2.required_ = false) ∧
        (∀ e ∈ j1, ∀ q ∈ ps, handlerMatches e q.name = true →
          applyHandler_ handle e.2 q = none) ∧
        a.toList ++ naiveApplications j1 ps = naiveApplications j (p :: ps)
  | [], done, _, _, _ =>
    ⟨done, [], none, Or.inr ⟨rfl, rfl, rfl⟩, List.Pairwise.nil, by simp, by simp, by
      simp [naiveApplications]⟩
  | e :: rest, done, hmo, hreq, hacc => by
    have hhead := List.pairwise_cons.1 hmo
    have hrestlt : ∀ x ∈ rest, strLt e.1 x.1 = true := fun x hx => (hhead.1 x hx).1
    -- the head with its found flag set
    have hmo1 : MergeOrdered ((e.1, e.2.setFound true) :: rest) :=
      List.pairwise_cons.2 ⟨fun x hx => hhead.1 x hx, hhead.2⟩
    have hreq1 : ∀ x ∈ (e.1, e.2.setFound true) :: rest, x.2.required_ = false := by
      intro x hx
      rcases List.mem_cons.1 hx with hx | hx
      · rw [hx]; exact hreq e (List.mem_cons_self _ _)
      · exact hreq x (List.mem_cons_of_mem _ hx)
    have hacc1 : ∀ x ∈ (e.1, e.2.setFound true) :: rest, ∀ q ∈ ps,
        handlerMatches x q.name = true → applyHandler_ handle x.2 q = none := by
      intro x hx q hq hm
      rcases List.mem_cons.1 hx with hx | hx
      · rw [hx]; rw [hx] at hm
        exact hacc e (List.mem_cons_self _ _) q (List.mem_cons_of_mem _ hq) hm
      · exact hacc x (List.mem_cons_of_mem _ hx) q (List.mem_cons_of_mem _ hq) hm
    have haccr : ∀ x ∈ rest, ∀ q ∈ ps,
        handlerMatches x q.name = true → applyHandler_ handle x.2 q = none :=
      fun x hx q hq hm => hacc x (List.mem_cons_of_mem _ hx) q (List.mem_cons_of_mem _ hq) hm
    have hreqr : ∀ x ∈ rest, x.2.required_ = false :=
      fun x hx => hreq x (List.mem_cons_of_mem _ hx)
    by_cases heq : p.name = e.1
    · -- exact match
      have hm : handlerMatches e p.name = true := by simp [handlerMatches, heq]
      have happ := hacc e (List.mem_cons_self _ _) p (List.mem_cons_self _ _) hm
      have hfil := filter_matches_nil_of_head p e hm (Or.inr heq) rest hhead.1
      cases hpf : e.2.prefix_ with
      | false =>
        refine ⟨(e.1, e.2.setFound true) :: done, rest, some (e.1, p), Or.inl ?_, hhead.2,
          hreqr, haccr, ?_⟩
        · simp [seek, heq, happ, hpf]
        · have hskip : ∀ q ∈ ps, handlerMatches e q.name = false := by
            intro q hq
            have hlt := hps q hq
            rw [heq] at hlt
            simp only [handlerMatches, hpf, Bool.false_and, Bool.or_false, decide_eq_false_iff_not]
            intro h
            rw [h, strLt_irrefl] at hlt; cases hlt
          simp only [naiveApplications, List.filter_cons, hm, if_true, hfil, List.map_cons,
            List.map_nil, Option.toList, List.cons_append, List.nil_append]
          rw [naive_cons_skip e rest ps hskip]
      | true =>
        refine ⟨done, (e.1, e.2.setFound true) :: rest, some (e.1, p), Or.inl ?_, hmo1,
          hreq1, hacc1, ?_⟩
        · simp [seek, heq, happ, hpf]
        · simp only [naiveApplications, List.filter_cons, hm, if_true, hfil, List.map_cons,
            List.map_nil, Option.toList, List.cons_append, List.nil_append]
          rw [naive_cons_congr e (e.1, e.2.setFound true) rest rfl rfl ps]
    · by_cases hpm : (e.2.prefix_ && startsWith p.name e.1) = true
      · -- prefix match
        have hm : handlerMatches e p.name = true := by simp [handlerMatches, hpm]
        have happ := hacc e (List.mem_cons_self _ _) p (List.mem_cons_self _ _) hm
        have hpf : e.2.prefix_ = true := by
          simp only [Bool.and_eq_true] at hpm; exact hpm.1
        have hfil := filter_matches_nil_of_head p e hm (Or.inl hpf) rest hhead.1
        refine ⟨done, (e.1, e.2.setFound true) :: rest, some (e.1, p), Or.inl ?_, hmo1,
          hreq1, hacc1, ?_⟩
        · simp [seek, heq, happ, hpm]
        · simp only [naiveApplications, List.filter_cons, hm, if_true, hfil, List.map_cons,
            List.map_nil, Option.toList, List.cons_append, List.nil_append]
          rw [naive_cons_congr e (e.1, e.2.setFound true) rest rfl rfl ps]
      · have hnm : handlerMatches e p.name = false := by
          simp only [handlerMatches, heq, decide_False, Bool.false_or]
          simpa using hpm
        by_cases hlt : strLt e.1 p.name = true
        · -- the handler sorts before the property: move the handler cursor
          obtain ⟨done1, j1, a, hseek, h1, h2, h3, h4⟩ :=
            seek_spec handle src p ps hps rest (e :: done) hhead.2 hreqr
              (fun x hx q hq hm => hacc x (List.mem_cons_of_mem _ hx) q hq hm)
          refine ⟨done1, j1, a, ?_, h1, h2, h3, ?_⟩
          · have hr := hreq e (List.mem_cons_self _ _)
            simp only [seek, heq, if_false, hpm, hlt, if_true, hr]
            exact hseek
          · rw [h4]
            symm
            apply naive_cons_skip e rest (p :: ps)
            intro q hq
            rcases List.mem_cons.1 hq with hq | hq
            · rw [hq]; exact hnm
            · cases hqm : handlerMatches e q.name with
              | false => rfl
              | true =>
                exfalso
                have hpq := hps q hq
                simp only [handlerMatches, Bool.or_eq_true, decide_eq_true_eq,
                  Bool.and_eq_true] at hqm
                rcases hqm with hqm | ⟨hpf, hqm⟩
                · have := strLt_trans _ _ _ hlt hpq
                  rw [hqm, strLt_irrefl] at this; cases this
                · have := startsWith_convex e.1 p.name q.name hqm (Or.inr hlt) (Or.inr hpq)
                  simp [hpf, this] at hpm
        · -- the property has no handler: skip it
          have hgt : strLt p.name e.1 = true := by
            rcases strLt_total p.name e.1 with h | h | h
            · exact h
            · exact absurd h heq
            · exact absurd h hlt
          refine ⟨done, e :: rest, none, Or.inl ?_, hmo, hreq,
            fun x hx q hq hm => hacc x hx q (List.mem_cons_of_mem _ hq) hm, ?_⟩
          · simp [seek, heq, hpm, hlt]
          · have hfil := filter_matches_nil_of_lt p (e :: rest) (by
              intro x hx
              rcases List.mem_cons.1 hx with hx | hx
              · rw [hx]; exact hgt
              · exact strLt_trans _ _ _ hgt (hrestlt x hx))
            simp only [naiveApplications, hfil, List.map_nil, List.nil_append, Option.toList]

theorem firstRequired_none : ∀ (j : PropertyInfoMap), (∀ e ∈ j, e.2.required_ = false) →
    firstRequired j = none
  | [], _ => rfl
  | e :: rest, h => by
    simp only [firstRequired, h e (List.mem_cons_self _ _)]
    exact firstRequired_none rest (fun x hx => h x (List.mem_cons_of_mem _ hx))

theorem loadLoop_spec (handle : Nat → ConfigurationProperty → HandlerOutcome) (src : Str) :
    ∀ (ps : List ConfigurationProperty) (done j : PropertyInfoMap) (applied : List Application),
      ps.Pairwise (fun a b => strLt a.name b.name = true) →
      MergeOrdered j → (∀ e ∈ j, e.2.required_ = false) →
      (∀ e ∈ j, ∀ q ∈ ps, handlerMatches e q.name = true → applyHandler_ handle e.2 q = none) →
      (loadLoop handle true src ps done j applied).error = none ∧
      (loadLoop handle true src ps done j applied).applied = applied ++ naiveApplications j ps
  | [], done, j, applied, _, _, hreq, _ => by
    simp [loadLoop, loadFinish, firstRequired_none j hreq, naiveApplications]
  | p :: ps, done, j, applied, hsorted, hmo, hreq, hacc => by
    have hps := (List.pairwise_cons.1 hsorted).1
    obtain ⟨done1, j1, a, hseek, h1, h2, h3, h4⟩ := seek_spec handle src p ps hps j done hmo hreq hacc
    rcases hseek with hseek | ⟨hseek, hj1, ha⟩
    · simp only [loadLoop, hseek]
      have ih := loadLoop_spec handle src ps done1 j1 (applied ++ a.toList)
        (List.pairwise_cons.1 hsorted).2 h1 h2 h3
      rw [ih.2, List.append_assoc, h4]
      exact ⟨ih.1, rfl⟩
    · subst hj1; subst ha
      simp only [loadLoop, hseek, loadFinish, firstRequired, Bool.not_true]
      rw [← h4]
      have hnil : naiveApplications [] ps = [] := by
        clear h4 h3 hps hsorted hacc
        induction ps with
        | nil => rfl
        | cons q qs ih => simpa [naiveApplications] using ih
      simp [hnil]
theorem filter_map_resetFound (name : Str) (p : ConfigurationProperty) :
    ∀ (t : PropertyInfoMap),
      ((resetFound t).filter (fun e => handlerMatches e name)).map (fun e => (e.1, p)) =
      (t.filter (fun e => handlerMatches e name)).map (fun e => (e.1, p))
  | [] => rfl
  | e :: rest => by
    have ih := filter_map_resetFound name p rest
    have hm : handlerMatches (e.1, e.2.setFound false) name = handlerMatches e name := rfl
    simp only [resetFound, List.map_cons, List.filter_cons, hm] at ih ⊢
    cases handlerMatches e name
    · simpa using ih
    · simpa using ih

theorem naive_resetFound (t : PropertyInfoMap) : ∀ (ps : List ConfigurationProperty),
    naiveApplications (resetFound t) ps = naiveApplications t ps
  | [] => rfl
  | p :: ps => by
    simp only [naiveApplications, filter_map_resetFound, naive_resetFound t ps]

theorem mergeOrdered_resetFound {t : PropertyInfoMap} (h : MergeOrdered t) :
    MergeOrdered (resetFound t) := by
  unfold MergeOrdered resetFound
  rw [List.pairwise_map]
  exact h

theorem filter_length_le_one {α : Type} (P : α → Bool) : ∀ (l : List α), l.Nodup →
    (∀ a ∈ l, ∀ b ∈ l, P a = true → P b = true → a = b) → (l.filter P).length ≤ 1
  | [], _, _ => by simp
  | x :: rest, hnd, huniq => by
    have hnd' := List.nodup_cons.1 hnd
    have ih := filter_length_le_one P rest hnd'.2
      (fun a ha b hb => huniq a (List.mem_cons_of_mem _ ha) b (List.mem_cons_of_mem _ hb))
    cases hx : P x with
    | false => simpa [List.filter_cons, hx] using ih
    | true =>
      have hnil : rest.filter P = [] := by
        rw [List.filter_eq_nil_iff]
        intro a ha hpa
        have := huniq x (List.mem_cons_self _ _) a (List.mem_cons_of_mem _ ha) hx hpa
        rw [this] at hnd'
        exact hnd'.1 ha
      simp [List.filter_cons, hx, hnil]

theorem nodup_of_sortedKeys {V : Type} {t : List (Str × V)} (h : SortedKeys t) : t.Nodup := by
  unfold SortedKeys at h
  refine List.Pairwise.imp ?_ h
  intro a b hlt hab
  rw [hab, strLt_irrefl] at hlt; cases hlt

theorem naive_snd_mem (t : PropertyInfoMap) : ∀ (ps : List ConfigurationProperty),
    ∀ a ∈ naiveApplications t ps, a.2 ∈ ps
  | [], a, h => by cases h
  | p :: ps, a, h => by
    simp only [naiveApplications, List.mem_append, List.mem_map] at h
    rcases h with ⟨e, _, he⟩ | h
    · rw [← he]; exact List.mem_cons_self _ _
    · exact List.mem_cons_of_mem _ (naive_snd_mem t ps a h)

theorem naive_pairwise (t : PropertyInfoMap) : ∀ (ps : List ConfigurationProperty),
    ps.Pairwise (fun a b => strLt a.name b.name = true) →
    (∀ p ∈ ps, (t.filter (fun e => handlerMatches e p.name)).length ≤ 1) →
    (naiveApplications t ps).Pairwise (fun a b => strLt a.2.name b.2.name = true)
  | [], _, _ => List.Pairwise.nil
  | p :: ps, hs, hone => by
    have hs' := List.pairwise_cons.1 hs
    simp only [naiveApplications]
    rw [List.pairwise_append]
    refine ⟨?_, naive_pairwise t ps hs'.2 (fun q hq => hone q (List.mem_cons_of_mem _ hq)), ?_⟩
    · have hl := hone p (List.mem_cons_self _ _)
      cases hf : t.filter (fun e => handlerMatches e p.name) with
      | nil => exact List.Pairwise.nil
      | cons x xs =>
        rw [hf] at hl
        cases xs with
        | nil => simp
        | cons y ys => simp at hl
    · intro a ha b hb
      simp only [List.mem_map] at ha
      obtain ⟨e, _, he⟩ := ha
      rw [← he]
      exact hs'.1 b.2 (naive_snd_mem t ps b hb)

theorem store_toList_sorted {m : ConfigurationPropertyMap} (h : m.WF) :
    m.toList.Pairwise (fun a b => strLt a.name b.name = true) := by
  unfold ConfigurationPropertyMap.toList
  rw [List.pairwise_map]
  have hs := h.1
  unfold SortedKeys at hs
  refine List.Pairwise.imp_of_mem ?_ hs
  intro a b ha hb hlt
  rw [← h.2 a ha, ← h.2 b hb]
  exact hlt

/-- Claim C1. On a handler table built by `registerProperty_` calls in which no
handler is required, with `ignoreUnknownProperties` true and every matching
handler accepting its value, `load_` raises nothing and performs exactly the
handler applications of the reference binder that checks every property of
the store against every handler (equal names, or a prefix handler whose key
begins the property name); every property has at most one matching handler,
and the applications are in strictly ascending order of property name. -/
theorem load_refines_naiveApplications (handle : Nat → ConfigurationProperty → HandlerOutcome)
    (infos : List PropertyInfo) (sourceName : Str) (store : ConfigurationPropertyMap)
    (hwf : store.WF)
    (hreq : ∀ e ∈ registerAll infos, e.2.required_ = false)
    (hacc : ∀ e ∈ registerAll infos, ∀ p ∈ store.toList,
      handlerMatches e p.name = true → applyHandler_ handle e.2 p = none) :
    (load_ handle true (registerAll infos) sourceName store).error = none ∧
    (load_ handle true (registerAll infos) sourceName store).applied =
      naiveApplications (registerAll infos) store.toList ∧
    (∀ p ∈ store.toList,
      ((registerAll infos).filter (fun e => handlerMatches e p.name)).length ≤ 1) ∧
    (load_ handle true (registerAll infos) sourceName store).applied.Pairwise
      (fun a b => strLt a.2.name b.2.name = true) := by
  have hinv := tableInv_registerAll infos
  have hsorted := store_toList_sorted hwf
  have hone : ∀ p ∈ store.toList,
      ((registerAll infos).filter (fun e => handlerMatches e p.name)).length ≤ 1 := by
    intro p _
    exact filter_length_le_one _ _ (nodup_of_sortedKeys hinv.sorted)
      (fun a ha b hb ma mb => handlerMatches_unique hinv p.name a b ha hb ma mb)
  have hmem : ∀ e ∈ resetFound (registerAll infos),
      ∃ e0 ∈ registerAll infos, e = (e0.1, e0.2.setFound false) := by
    intro e he
    simp only [resetFound, List.mem_map] at he
    obtain ⟨e0, h0, h1⟩ := he
    exact ⟨e0, h0, h1.symm⟩
  have hspec := loadLoop_spec handle sourceName store.toList [] (resetFound (registerAll infos)) []
    hsorted (mergeOrdered_resetFound (mergeOrdered_of_tableInv hinv))
    (by
      intro e he
      obtain ⟨e0, h0, h1⟩ := hmem e he
      rw [h1]; exact hreq e0 h0)
    (by
      intro e he q hq hm
      obtain ⟨e0, h0, h1⟩ := hmem e he
      rw [h1] at hm ⊢
      exact hacc e0 h0 q hq hm)
  rw [naive_resetFound, List.nil_append] at hspec
  refine ⟨hspec.1, hspec.2, hone, ?_⟩
  unfold load_
  rw [hspec.2]
  exact naive_pairwise _ _ hsorted hone

/-- An instance of the theorem above: prefix handlers `abc`
and `abd`, exact handlers `ab` and `x`, and a store of five properties. -/
theorem load_refines_naiveApplications_witness :
    (load_ (fun _ _ => HandlerOutcome.ok) true
      (registerAll [PropertyInfo.create (lit "abc") true false false (some 0),
                    PropertyInfo.create (lit "ab") false false false (some 1),
                    PropertyInfo.create (lit "abd") true false false (some 2),
                    PropertyInfo.create (lit "x") false false false (some 3)])
      (lit "app.cfg")
      ⟨[(lit "ab", ⟨lit "ab", lit "2", lit "app.cfg", 2⟩),
        (lit "abcc", ⟨lit "abcc", lit "3", lit "app.cfg", 4⟩),
        (lit "abd", ⟨lit "abd", lit "1", lit "app.cfg", 5⟩),
        (lit "abd1", ⟨lit "abd1", lit "1", lit "app.cfg", 1⟩),
        (lit "zz", ⟨lit "zz", lit "9", lit "app.cfg", 3⟩)]⟩).applied =
    [(lit "ab", ⟨lit "ab", lit "2", lit "app.cfg", 2⟩),
     (lit "abc", ⟨lit "abcc", lit "3", lit "app.cfg", 4⟩),
     (lit "abd", ⟨lit "abd", lit "1", lit "app.cfg", 5⟩),
     (lit "abd", ⟨lit "abd1", lit "1", lit "app.cfg", 1⟩)] :=
  (load_refines_naiveApplications (fun _ _ => HandlerOutcome.ok) _ _ _
    (by unfold ConfigurationPropertyMap.WF SortedKeys; decide) (by decide) (by decide)).2.1.trans
    (by decide)

/-- Claim C2. After any sequence of `registerProperty_` calls on an empty
registry, succeeding or throwing, every handler is held under its own name,
no prefix handler's name is a prefix of another handler's name, and so every
property name is matched (exactly or by prefix) by at most one handler. -/
theorem registerAll_noOverlap (infos : List PropertyInfo) :
    (∀ e ∈ registerAll infos, e.1 = e.2.name_) ∧
    NoOverlap (registerAll infos) ∧
    (∀ (name : Str) (e1 e2 : Str × PropertyInfo),
      e1 ∈ registerAll infos → e2 ∈ registerAll infos →
      handlerMatches e1 name = true → handlerMatches e2 name = true → e1 = e2) :=
  ⟨(tableInv_registerAll infos).keyName, (tableInv_registerAll infos).noOverlap,
    fun name e1 e2 h1 h2 m1 m2 =>
      handlerMatches_unique (tableInv_registerAll infos) name e1 e2 h1 h2 m1 m2⟩

/-- Claim C3. A required prefix handler `l.` and a store whose only property
is `l.a`: `load_` applies the handler to `l.a`, sets its `found_` flag, and
then raises `RequiredPropertyMissingError` for `l.` all the same, because the
loop that follows the merge tests `required()` alone. -/
theorem load_required_prefix_found_raises :
    load_ (fun _ _ => HandlerOutcome.ok) true
      (registerAll [PropertyInfo.create (lit "l.") true true false (some 0)])
      (lit "app.cfg")
      (ConfigurationPropertyMap.empty.add ⟨lit "l.a", lit "1", lit "app.cfg", 1⟩) =
    ⟨[(lit "l.", ⟨lit "l.", true, true, false, true, some 0⟩)],
     [(lit "l.", ⟨lit "l.a", lit "1", lit "app.cfg", 1⟩)],
     some (.requiredPropertyMissing (lit "app.cfg") (lit "l."))⟩ := by
  decide

theorem processStep_passes (resolve : Str → Except PropertyFormatError Str) (s s1 : ValueState)
    (h0 : s.state ≠ 0) (h : processStep resolve s = .ok s1) : s1.passes < s.passes := by
  obtain ⟨i, name, state, prepared, u, legal⟩ := s
  simp only at h0
  unfold processStep at h
  simp only at h
  cases i with
  | nil =>
    simp only [List.headD_nil, List.tail_nil] at h
    split at h
    all_goals (try (split_ifs at h))
    all_goals (try (cases h))
    all_goals (try (simp [ValueState.passes]))
    all_goals first
      | omega
      | (split_ifs <;> omega)
      | (exfalso; simp_all [NUL, isHexDigit_])
  | cons c cs =>
    simp only [List.headD_cons, List.tail_cons] at h
    split at h
    all_goals (try (split_ifs at h))
    all_goals (try (split at h))
    all_goals (try (cases h))
    all_goals (try (simp [ValueState.passes]))
    all_goals first
      | omega
      | (split_ifs <;> omega)

theorem processLoop_returns (resolve : Str → Except PropertyFormatError Str) :
    ∀ (fuel : Nat) (s : ValueState), s.passes < fuel → ∃ r, processLoop resolve fuel s = some r
  | 0, _, h => by omega
  | fuel + 1, s, h => by
    unfold processLoop
    by_cases h0 : s.state = 0
    · simp [h0]
    · simp only [h0, if_false]
      cases hs : processStep resolve s with
      | error e => exact ⟨_, rfl⟩
      | ok s1 =>
        have := processStep_passes resolve s s1 h0 hs
        exact processLoop_returns resolve fuel s1 (by omega)

/-- The call `processValue` returns or throws: the passes allotted to the loop always
suffice. -/
theorem processValue_returns (getenv : Str → Option Str) (properties : ConfigurationPropertyMap)
    (useEnvVars_ : Bool) (value : Str) :
    ∃ r, processValue getenv properties useEnvVars_ value = some r :=
  processLoop_returns _ _ _ (by simp [ValueState.passes])

/-- Claim C4. A block named `a.b` that holds `x = 1`, followed by `y = 2`
after the closing brace: the parse succeeds and stores `a.b.x`, but `y` is
stored as `a.y`.  `endBlock_` erases the prefix only back to the last dot
before the final one, so closing a block with a dotted name leaves `a.`
behind instead of the prefix that was in force before the block. -/
theorem parseText_dotted_block_leaves_prefix :
    ((ConfigFileParser.create true .DUP_ERROR .DUP_IGNORE).parseText (plainWorld noFiles)
      (lit "app.cfg") (lit "a.b \x7b\n x = 1\n\x7d\ny = 2\n") 1 1) =
    some ⟨⟨true, .DUP_ERROR, .DUP_IGNORE, [], lit "a.", []⟩,
      .ok ⟨[(lit "a.b.x", ⟨lit "a.b.x", lit "1", lit "app.cfg", 2⟩),
            (lit "a.y", ⟨lit "a.y", lit "2", lit "app.cfg", 4⟩)]⟩⟩ := by
  decide

/-- Claim C9. The reference `${invalid..name}` of the unit test, processed
with environment fallback on and an environment variable of that name set to
`pear`: `processValue` returns `pear` instead of throwing.  State 6 overwrites
`nameIsLegal` at every character, so only the last check counts. -/
theorem processValue_illegal_name_substituted :
    isLegalName (lit "invalid..name") = false ∧
    processValue (fun n => if n = lit "invalid..name" then some (lit "pear") else none)
      .empty true (lit "$\x7binvalid..name\x7d") = some (.ok (lit "pear")) := by
  decide

/-- Claim C10. The legal name `a._` is a key of the property mapping, yet
`${a._}` is not replaced by the property's value: `processValue` throws
"does not contain a legal property name".  The last check of state 6 is
`isNameChar('.', '_')`, with the arguments `ch` and `prev` in exchanged
places. -/
theorem processValue_legal_name_rejected :
    isLegalName (lit "a._") = true ∧
    (ConfigurationPropertyMap.empty.add ⟨lit "a._", lit "v", lit "app.cfg", 1⟩).hasKey
      (lit "a._") = true ∧
    processValue (fun _ => none)
      (ConfigurationPropertyMap.empty.add ⟨lit "a._", lit "v", lit "app.cfg", 1⟩)
      false (lit "$\x7ba._\x7d") =
      some (.error ⟨[], lit "\"$\x7ba._\x7d\" does not contain a legal property name"⟩) := by
  decide

namespace ConfigurationPropertyMap

theorem find_addEntries (p : ConfigurationProperty) (n : Str) :
    ∀ (l : List (Str × ConfigurationProperty)),
      ((addEntries p l).find? (fun e => e.1 = n)).map Prod.snd =
        if n = p.name then some p else (l.find? (fun e => e.1 = n)).map Prod.snd
  | [] => by
    by_cases h : n = p.name
    · simp [addEntries, h]
    · have h' : ¬ p.name = n := fun e => h e.symm
      simp [addEntries, h, h']
  | e :: rest => by
    simp only [addEntries]
    by_cases h1 : e.1 = p.name
    · simp only [h1, if_true, List.find?_cons]
      by_cases h : n = p.name
      · simp [h]
      · have h' : ¬ p.name = n := fun e => h e.symm
        simp [h, h']
    · simp only [h1, if_false]
      by_cases h2 : strLt p.name e.1 = true
      · simp only [h2, if_true, List.find?_cons]
        by_cases h : n = p.name
        · simp [h]
        · have h' : ¬ p.name = n := fun e => h e.symm
          simp [h, h']
      · simp only [h2, List.find?_cons, Bool.false_eq_true, if_false]
        by_cases h3 : e.1 = n
        · have h : ¬ n = p.name := fun hh => h1 (h3.trans hh)
          simp [h3, h]
        · simp only [h3, decide_False]
          exact find_addEntries p n rest

/-- After `add(p)`, the lookup of `p`'s name gives `p`, and every other
lookup is as before. -/
theorem find_add (m : ConfigurationPropertyMap) (p : ConfigurationProperty) (n : Str) :
    (m.add p).find n = if n = p.name then some p else m.find n :=
  find_addEntries p n m.properties_

theorem mem_addEntries (p : ConfigurationProperty) :
    ∀ (l : List (Str × ConfigurationProperty)) (e : Str × ConfigurationProperty),
      e ∈ addEntries p l → e = (p.name, p) ∨ e ∈ l
  | [], e, h => by simpa [addEntries] using h
  | x :: rest, e, h => by
    simp only [addEntries] at h
    split at h
    · rename_i hx
      rcases List.mem_cons.1 h with h | h
      · left; rw [h, hx]
      · right; exact List.mem_cons_of_mem _ h
    · split at h
      · rcases List.mem_cons.1 h with h | h
        · left; exact h
        · right; exact h
      · rcases List.mem_cons.1 h with h | h
        · right; rw [h]; exact List.mem_cons_self _ _
        · rcases mem_addEntries p rest e h with h | h
          · left; exact h
          · right; exact List.mem_cons_of_mem _ h

theorem sortedKeys_addEntries (p : ConfigurationProperty) :
    ∀ (l : List (Str × ConfigurationProperty)), SortedKeys l → SortedKeys (addEntries p l)
  | [], _ => by simp [addEntries, SortedKeys]
  | x :: rest, hs => by
    simp only [addEntries]
    split
    · exact List.pairwise_cons.2 ⟨fun e he => hs.head_lt e he, hs.tail⟩
    · rename_i hne
      split
      · rename_i hlt
        refine List.pairwise_cons.2 ⟨?_, hs⟩
        intro e he
        rcases List.mem_cons.1 he with he | he
        · rw [he]; exact hlt
        · exact strLt_trans _ _ _ hlt (hs.head_lt e he)
      · rename_i hnlt
        have hxp : strLt x.1 p.name = true := by
          rcases strLt_total x.1 p.name with h | h | h
          · exact h
          · exact absurd h hne
          · exact absurd h hnlt
        refine List.pairwise_cons.2 ⟨?_, sortedKeys_addEntries p rest hs.tail⟩
        intro e he
        rcases mem_addEntries p rest e he with he | he
        · rw [he]; exact hxp
        · exact hs.head_lt e he

/-- The operation `add` keeps the store well formed. -/
theorem wf_add {m : ConfigurationPropertyMap} (h : m.WF) (p : ConfigurationProperty) :
    (m.add p).WF := by
  refine ⟨sortedKeys_addEntries p _ h.1, ?_⟩
  intro e he
  rcases mem_addEntries p _ e he with he | he
  · rw [he]
  · exact h.2 e he

theorem wf_empty : ConfigurationPropertyMap.empty.WF :=
  ⟨List.Pairwise.nil, by intro e he; cases he⟩

theorem find_some_mem {l : List (Str × ConfigurationProperty)} {n : Str}
    {q : ConfigurationProperty} (h : (l.find? (fun e => e.1 = n)).map Prod.snd = some q) :
    (n, q) ∈ l := by
  cases hf : l.find? (fun e => e.1 = n) with
  | none => rw [hf] at h; cases h
  | some e =>
    rw [hf] at h
    simp only [Option.map_some', Option.some.injEq] at h
    have h1 := List.find?_some hf
    have h2 := List.mem_of_find?_eq_some hf
    simp only [decide_eq_true_eq] at h1
    have : e = (n, q) := by
      rw [← h1, ← h]
    rw [← this]; exact h2

/-- In a well-formed store a name that is found is held by exactly one
entry. -/
theorem count_of_find {m : ConfigurationPropertyMap} (hwf : m.WF) {n : Str}
    {q : ConfigurationProperty} (h : m.find n = some q) :
    (m.properties_.filter (fun e => e.1 = n)).length = 1 := by
  have hmem : (n, q) ∈ m.properties_ := find_some_mem h
  have hle := filter_length_le_one (fun e : Str × ConfigurationProperty => decide (e.1 = n))
    m.properties_ (nodup_of_sortedKeys hwf.1) (by
      intro a ha b hb pa pb
      simp only [decide_eq_true_eq] at pa pb
      exact sortedKeys_eq_of_key_eq hwf.1 a ha b hb (pa.trans pb.symm))
  have hpos : 0 < (m.properties_.filter (fun e => decide (e.1 = n))).length := by
    apply List.length_pos_of_mem (a := (n, q))
    rw [List.mem_filter]
    exact ⟨hmem, by simp⟩
  omega

end ConfigurationPropertyMap

theorem parseValue_type (lx : ConfigFileLexer) (b : Bool) :
    (lx.parseValue_ b).1.type = .VALUE := by
  unfold ConfigFileLexer.parseValue_
  simp only
  split <;> rfl

theorem next_value_type (lx : ConfigFileLexer) :
    (lx.parseNextAsValue.next).1.type = .VALUE := by
  unfold ConfigFileLexer.next ConfigFileLexer.parseNextAsValue
  exact parseValue_type _ _

theorem find?_name_none_of_not_mem {inc : List ConfigurationProperty} {n : Str}
    (h : n ∉ inc.map (fun q => q.name)) : inc.find? (fun q => q.name = n) = none := by
  rw [List.find?_eq_none]
  intro q hq hqn
  simp only [decide_eq_true_eq] at hqn
  exact h (List.mem_map.2 ⟨q, hq, hqn⟩)

theorem mergeIncluded_ok (act : DuplicatePropertyMode) :
    ∀ (inc : List ConfigurationProperty) (props : ConfigurationPropertyMap),
      (inc.map (fun q => q.name)).Nodup →
      (act = .DUP_ERROR → ∀ q ∈ inc, props.find q.name = none) →
      ∃ m, mergeIncluded act inc props = .ok m ∧
        ∀ n, m.find n = mergedLookup act inc props n
  | [], props, _, _ => ⟨props, rfl, fun n => by simp [mergedLookup]⟩
  | i :: rest, props, hnd, herr => by
    have hnd' := List.nodup_cons.1 hnd
    have hrest_none : rest.find? (fun q => q.name = i.name) = none :=
      find?_name_none_of_not_mem hnd'.1
    have hadd : ∀ n, (props.add i).find n = if n = i.name then some i else props.find n :=
      fun n => ConfigurationPropertyMap.find_add props i n
    -- the recursion on the store with `i` added
    have hrec_add : (props.find i.name = none ∨ act = .DUP_OVERWRITE) →
        ∃ m, mergeIncluded act rest (props.add i) = .ok m ∧
          ∀ n, m.find n = mergedLookup act (i :: rest) props n := by
      intro hcase
      obtain ⟨m, hm, hfind⟩ := mergeIncluded_ok act rest (props.add i) hnd'.2 (by
        intro hact q hq
        rw [hadd]
        have hne : q.name ≠ i.name := by
          intro e
          exact hnd'.1 (List.mem_map.2 ⟨q, hq, e⟩)
        simp only [hne, if_false]
        exact herr hact q (List.mem_cons_of_mem _ hq))
      refine ⟨m, hm, ?_⟩
      intro n
      rw [hfind n]
      by_cases hn : n = i.name
      · subst hn
        simp only [mergedLookup, hrest_none, hadd, if_true, List.find?_cons, decide_True]
        rcases hcase with hcase | hcase
        · simp [hcase]
        · cases hp : props.find i.name with
          | none => rfl
          | some o => simp [hcase]
      · have hn' : ¬ i.name = n := fun e => hn e.symm
        simp only [mergedLookup, hadd, hn, if_false, List.find?_cons, hn', decide_False]
    cases hfi : props.find i.name with
    | none =>
      obtain ⟨m, hm, hfind⟩ := hrec_add (Or.inl hfi)
      exact ⟨m, by simp only [mergeIncluded, hfi]; exact hm, hfind⟩
    | some o =>
      by_cases hov : act = .DUP_OVERWRITE
      · obtain ⟨m, hm, hfind⟩ := hrec_add (Or.inr hov)
        refine ⟨m, ?_, hfind⟩
        simp only [mergeIncluded, hfi]
        rw [if_pos hov]
        exact hm
      · by_cases her : act = .DUP_ERROR
        · have := herr her i (List.mem_cons_self _ _)
          rw [hfi] at this; cases this
        · obtain ⟨m, hm, hfind⟩ := mergeIncluded_ok act rest props hnd'.2
            (fun h => absurd h her)
          refine ⟨m, by simp only [mergeIncluded, hfi, hov, her, if_false]; exact hm, ?_⟩
          intro n
          rw [hfind n]
          by_cases hn : n = i.name
          · subst hn
            simp only [mergedLookup, hrest_none, hfi, List.find?_cons, decide_True, hov,
              if_false]
          · have hn' : ¬ i.name = n := fun e => hn e.symm
            simp only [mergedLookup, List.find?_cons, hn', decide_False]

theorem mergeIncluded_error :
    ∀ (inc : List ConfigurationProperty) (props : ConfigurationPropertyMap),
      (inc.map (fun q => q.name)).Nodup →
      (∃ q ∈ inc, ∃ o, props.find q.name = some o) →
      ∃ q ∈ inc, ∃ o, props.find q.name = some o ∧
        mergeIncluded .DUP_ERROR inc props = .error (duplicateIncludedError q o)
  | [], _, _, h => by
    obtain ⟨q, hq, _⟩ := h
    cases hq
  | i :: rest, props, hnd, h => by
    have hnd' := List.nodup_cons.1 hnd
    cases hfi : props.find i.name with
    | some o =>
      refine ⟨i, List.mem_cons_self _ _, o, hfi, ?_⟩
      simp [mergeIncluded, hfi, duplicateIncludedError]
    | none =>
      have hadd : ∀ q ∈ rest, (props.add i).find q.name = props.find q.name := by
        intro q hq
        rw [ConfigurationPropertyMap.find_add]
        have hne : q.name ≠ i.name := by
          intro e
          exact hnd'.1 (List.mem_map.2 ⟨q, hq, e⟩)
        simp only [hne, if_false]
      obtain ⟨q, hq, o, hqo⟩ := h
      have hq' : q ∈ rest := by
        rcases List.mem_cons.1 hq with hq | hq
        · rw [hq, hfi] at hqo; cases hqo
        · exact hq
      obtain ⟨q1, hq1, o1, hfind1, hres⟩ := mergeIncluded_error rest (props.add i) hnd'.2
        ⟨q, hq', o, by rw [hadd q hq']; exact hqo⟩
      refine ⟨q1, List.mem_cons_of_mem _ hq1, o1, by rw [← hadd q1 hq1]; exact hfind1, ?_⟩
      simp only [mergeIncluded, hfi]
      exact hres

theorem toList_names_nodup {m : ConfigurationPropertyMap} (h : m.WF) :
    (m.toList.map (fun q => q.name)).Nodup := by
  have hs := store_toList_sorted h
  rw [List.Nodup, List.pairwise_map]
  refine List.Pairwise.imp ?_ hs
  intro a b hlt hab
  rw [hab, strLt_irrefl] at hlt; cases hlt

theorem parseIncludeDirective_ok {w : World} {sub : SubParse} {p : ConfigFileParser}
    {sourceName : Str} {lexer lexer1 : ConfigFileLexer} {properties m : ConfigurationPropertyMap}
    (h : parseIncludeDirective_ w sub p sourceName lexer properties = some (.ok (lexer1, m))) :
    ∃ f included,
      sub (ConfigFileParser.createIncluded p.useEnvVars_ p.duplicatePropertyAction_
        p.includedPropertyAction_ p.includedFrom_ sourceName) f = some (.ok included) ∧
      mergeIncluded p.includedPropertyAction_ included.toList properties = .ok m := by
  unfold parseIncludeDirective_ at h
  simp only at h
  split at h
  · cases h
  split at h
  · cases h
  split at h
  · cases h
  split at h
  · cases h
  split at h
  · cases h
  split at h
  · cases h
  split at h
  · cases h
  · cases h
  · rename_i inc hsub
    split at h
    · cases h
    · rename_i m1 hm
      simp only [Option.some.injEq, Except.ok.injEq, Prod.mk.injEq] at h
      exact ⟨_, inc, hsub, by rw [← h.2]; exact hm⟩
/-- Claim C6. Merging the store `included` returned by the sub-parse of an
include into the store `properties` of the including file, under
`includedPropertyAction`.  Unless the mode is `DUP_ERROR` and an included name
is already present, the merge succeeds and the merged store holds, under every
name, what `mergedLookup` says: an included property whose name was absent is
added as it is (with the included file's source and line); for a name already
present `DUP_IGNORE` keeps the existing property and `DUP_OVERWRITE` takes the
included one.  Under `DUP_ERROR` with an included name already present the
merge fails with a duplicate error that cites the original definition.  An
include directive that succeeds has merged the sub-parse's store in exactly
this way, with the parser's `includedPropertyAction`.  So `a.b=1` followed by
an include of a file holding `a.c=2` yields the two properties, each with its
own source and line. -/
theorem include_merges_by_includedPropertyAction (act : DuplicatePropertyMode)
    (included properties : ConfigurationPropertyMap) (hinc : included.WF) :
    ((act = .DUP_ERROR → ∀ q ∈ included.toList, properties.find q.name = none) →
      ∃ m, mergeIncluded act included.toList properties = .ok m ∧
        ∀ n, m.find n = mergedLookup act included.toList properties n) ∧
    (act = .DUP_ERROR → (∃ q ∈ included.toList, ∃ o, properties.find q.name = some o) →
      ∃ q ∈ included.toList, ∃ o, properties.find q.name = some o ∧
        mergeIncluded act included.toList properties = .error (duplicateIncludedError q o)) ∧
    (∀ (w : World) (sub : SubParse) (p : ConfigFileParser) (sourceName : Str)
      (lexer lexer1 : ConfigFileLexer) (m : ConfigurationPropertyMap),
      parseIncludeDirective_ w sub p sourceName lexer properties = some (.ok (lexer1, m)) →
      ∃ f inc,
        sub (ConfigFileParser.createIncluded p.useEnvVars_ p.duplicatePropertyAction_
          p.includedPropertyAction_ p.includedFrom_ sourceName) f = some (.ok inc) ∧
        mergeIncluded p.includedPropertyAction_ inc.toList properties = .ok m) ∧
    ((ConfigFileParser.create true .DUP_ERROR .DUP_OVERWRITE).parseText
      (plainWorld (filesOf [(lit "sub.cfg", lit "a.c=2\n")]))
      (lit "main.cfg") (lit "a.b=1\ninclude \"sub.cfg\"\n") 1 1).map (fun r => r.outcome) =
      some (.ok ⟨[(lit "a.b", ⟨lit "a.b", lit "1", lit "main.cfg", 1⟩),
                  (lit "a.c", ⟨lit "a.c", lit "2", lit "sub.cfg", 1⟩)]⟩) := by
  refine ⟨?_, ?_, ?_, by decide⟩
  · intro h
    exact mergeIncluded_ok act included.toList properties (toList_names_nodup hinc) h
  · intro hact h
    subst hact
    exact mergeIncluded_error included.toList properties (toList_names_nodup hinc) h
  · intro w sub p sourceName lexer lexer1 m h
    exact parseIncludeDirective_ok h

/-- An instance of the theorem above: the store of
`sub.cfg` (`a.c = 2`, and `a.b = 3`) merged into a store that holds
`a.b = 1`, under `DUP_IGNORE`. -/
theorem include_merges_by_includedPropertyAction_witness :
    ∃ m, mergeIncluded .DUP_IGNORE
        [⟨lit "a.b", lit "3", lit "sub.cfg", 2⟩, ⟨lit "a.c", lit "2", lit "sub.cfg", 1⟩]
        ⟨[(lit "a.b", ⟨lit "a.b", lit "1", lit "main.cfg", 1⟩)]⟩ = .ok m ∧
      m.find (lit "a.b") = some ⟨lit "a.b", lit "1", lit "main.cfg", 1⟩ ∧
      m.find (lit "a.c") = some ⟨lit "a.c", lit "2", lit "sub.cfg", 1⟩ := by
  obtain ⟨m, hm, hfind⟩ := (include_merges_by_includedPropertyAction .DUP_IGNORE
    ⟨[(lit "a.b", ⟨lit "a.b", lit "3", lit "sub.cfg", 2⟩),
      (lit "a.c", ⟨lit "a.c", lit "2", lit "sub.cfg", 1⟩)]⟩
    ⟨[(lit "a.b", ⟨lit "a.b", lit "1", lit "main.cfg", 1⟩)]⟩
    (by unfold ConfigurationPropertyMap.WF SortedKeys; decide)).1 (by intro h; cases h)
  exact ⟨m, hm, (hfind _).trans (by decide), (hfind _).trans (by decide)⟩

theorem parseLoop_include_error (w : World) (sub : SubParse) (useEnvVars : Bool)
    (sourceName : Str) (fuel : Nat) (p : ConfigFileParser) (lexer : ConfigFileLexer)
    (properties : ConfigurationPropertyMap) (e : ConfigFileParseError)
    (htype : lexer.next.1.type = .NAME) (hvalue : lexer.next.1.value = lit "include")
    (herr : parseIncludeDirective_ w sub p sourceName lexer.next.2 properties = some (.error e)) :
    parseLoop w sub useEnvVars sourceName (fuel + 1) p lexer properties = some ⟨p, .error e⟩ := by
  unfold parseLoop
  simp [htype, hvalue, herr]

theorem parseIncludeDirective_sub_error (w : World) (sub : SubParse) (p : ConfigFileParser)
    (sourceName : Str) (lexer : ConfigFileLexer) (properties : ConfigurationPropertyMap)
    (e : ConfigFileParseError)
    (hopen : lexer.next.1.type = .PUNCTUATION ∧ lexer.next.1.value = lit "\"" ∧
      lexer.next.1.line = lexer.line_)
    (hname : lexer.next.2.parseNextAsQuotedString.next.1.type = .VALUE ∧
      lexer.next.2.parseNextAsQuotedString.next.1.value.isEmpty = false)
    (hclose : lexer.next.2.parseNextAsQuotedString.next.2.next.1.type = .PUNCTUATION ∧
      lexer.next.2.parseNextAsQuotedString.next.2.next.1.value = lit "\"" ∧
      lexer.next.2.parseNextAsQuotedString.next.2.next.1.line = lexer.line_)
    (hctx : p.context_ = [])
    (hnot : resolveIncludePath w sourceName
      lexer.next.2.parseNextAsQuotedString.next.1.value ∉ p.includedFrom_)
    (hdepth : p.includedFrom_.length ≤ MAX_INCLUDE_DEPTH_)
    (hsub : sub (ConfigFileParser.createIncluded p.useEnvVars_ p.duplicatePropertyAction_
        p.includedPropertyAction_ p.includedFrom_ sourceName)
      (resolveIncludePath w sourceName lexer.next.2.parseNextAsQuotedString.next.1.value) =
        some (.error e)) :
    parseIncludeDirective_ w sub p sourceName lexer properties = some (.error e) := by
  obtain ⟨ho1, ho2, ho3⟩ := hopen
  obtain ⟨hn1, hn2⟩ := hname
  obtain ⟨hc1, hc2, hc3⟩ := hclose
  have hin : p.isIncludedFrom_ (resolveIncludePath w sourceName
      lexer.next.2.parseNextAsQuotedString.next.1.value) = false := by
    unfold ConfigFileParser.isIncludedFrom_
    simpa using hnot
  have hd : ¬ (p.includedFrom_.length > MAX_INCLUDE_DEPTH_) := by omega
  unfold parseIncludeDirective_
  simp only [ho1, ho2, ho3, hn1, hn2, hc1, hc2, hc3, hctx, hin, ne_eq, not_true_eq_false,
    decide_False, Bool.or_self, Bool.false_eq_true, if_false, List.length_nil, hd, hsub]

namespace ConfigFileLexer

theorem budget_eq (lx : ConfigFileLexer) :
    lx.budget = (lx.text_.length - lx.current_) +
      (lx.input_.lines.map (fun l => l.length + 1)).sum := rfl

theorem remaining_length (lx : ConfigFileLexer) :
    lx.remaining.length = lx.text_.length - lx.current_ := by
  simp [remaining]

theorem readNextLine_budget (lx : ConfigFileLexer) (h : lx.Valid) :
    (readNextLine_ lx).2.Valid ∧ (readNextLine_ lx).2.budget ≤ lx.budget ∧
    ((readNextLine_ lx).1 = true → (readNextLine_ lx).2.budget < lx.budget) := by
  unfold readNextLine_ getline
  by_cases hg : lx.input_.good = true
  · cases hl : lx.input_.lines with
    | nil =>
      simp [hg, hl, Valid, budget_eq]
    | cons l ls =>
      simp only [hg, hl, Bool.not_true, Bool.false_eq_true, if_false, if_true, Valid, budget_eq,
        List.map_cons, List.sum_cons]
      refine ⟨Or.inl (Nat.zero_le _), ?_, fun _ => ?_⟩ <;> omega
  · simp only [hg, Bool.not_eq_true] at hg ⊢
    simp only [hg, Bool.not_false, if_true, Bool.false_eq_true, if_false]
    exact ⟨h, Nat.le_refl _, fun hh => by cases hh⟩

theorem takeWhile_length_le {α : Type} (f : α → Bool) (l : List α) :
    (l.takeWhile f).length ≤ l.length := by
  induction l with
  | nil => simp
  | cons a as ih =>
    simp only [List.takeWhile_cons]
    split
    · simp only [List.length_cons]; omega
    · simp

theorem skipWhitespaceInLine_budget (lx : ConfigFileLexer) (h : lx.Valid) :
    (skipWhitespaceInLine_ lx).2.Valid ∧ (skipWhitespaceInLine_ lx).2.budget ≤ lx.budget ∧
    ((skipWhitespaceInLine_ lx).1 = true →
      (skipWhitespaceInLine_ lx).2.current_ < (skipWhitespaceInLine_ lx).2.text_.length) ∧
    (skipWhitespaceInLine_ lx).2.input_ = lx.input_ ∧
    (skipWhitespaceInLine_ lx).2.text_ = lx.text_ := by
  have hn := takeWhile_length_le isSpace lx.remaining
  rw [remaining_length] at hn
  have hcur : (skipWhitespaceInLine_ lx).2.current_ =
      lx.current_ + (lx.remaining.takeWhile isSpace).length := rfl
  have htext : (skipWhitespaceInLine_ lx).2.text_ = lx.text_ := rfl
  have hin : (skipWhitespaceInLine_ lx).2.input_ = lx.input_ := rfl
  have hfst : (skipWhitespaceInLine_ lx).1 = !(skipWhitespaceInLine_ lx).2.remaining.isEmpty := rfl
  refine ⟨?_, ?_, ?_, hin, htext⟩
  · unfold Valid
    rw [hcur, htext]
    rcases h with h | h
    · left; omega
    · right; exact h
  · rw [budget_eq, budget_eq, hcur, htext, hin]
    omega
  · intro hne
    rw [hfst] at hne
    simp only [Bool.not_eq_true', List.isEmpty_eq_false_iff_exists_mem] at hne
    obtain ⟨x, hx⟩ := hne
    have := List.length_pos_of_mem hx
    rw [remaining_length] at this
    omega

theorem skipWhitespaceLoop_budget : ∀ (lines : List Str) (lx : ConfigFileLexer), lx.Valid →
    (skipWhitespaceLoop lines lx).2.Valid ∧ (skipWhitespaceLoop lines lx).2.budget ≤ lx.budget ∧
    ((skipWhitespaceLoop lines lx).1 = true →
      (skipWhitespaceLoop lines lx).2.current_ < (skipWhitespaceLoop lines lx).2.text_.length)
  | [], lx, h => by
    have hr := readNextLine_budget lx h
    simp only [skipWhitespaceLoop]
    exact ⟨hr.1, hr.2.1, fun hh => by cases hh⟩
  | _ :: lines, lx, h => by
    have hr := readNextLine_budget lx h
    simp only [skipWhitespaceLoop]
    by_cases h1 : (readNextLine_ lx).1 = true
    · simp only [h1, Bool.not_true, Bool.false_eq_true, if_false]
      have hs := skipWhitespaceInLine_budget (readNextLine_ lx).2 hr.1
      by_cases h2 : (skipWhitespaceInLine_ (readNextLine_ lx).2).1 = true
      · simp only [h2, if_true]
        exact ⟨hs.1, by omega, fun _ => hs.2.2.1 h2⟩
      · rw [if_neg h2]
        have ih := skipWhitespaceLoop_budget lines (skipWhitespaceInLine_ (readNextLine_ lx).2).2
          hs.1
        exact ⟨ih.1, by omega, ih.2.2⟩
    · simp only [Bool.not_eq_true] at h1
      simp only [h1, Bool.not_false, if_true]
      exact ⟨hr.1, hr.2.1, fun hh => by cases hh⟩

theorem skipWhitespace_budget (lx : ConfigFileLexer) (h : lx.Valid) :
    (skipWhitespace_ lx).2.Valid ∧ (skipWhitespace_ lx).2.budget ≤ lx.budget ∧
    ((skipWhitespace_ lx).1 = true →
      (skipWhitespace_ lx).2.current_ < (skipWhitespace_ lx).2.text_.length) := by
  have hs := skipWhitespaceInLine_budget lx h
  unfold skipWhitespace_
  simp only
  by_cases h1 : (skipWhitespaceInLine_ lx).1 = true
  · simp only [h1, if_true]
    exact ⟨hs.1, hs.2.1, fun _ => hs.2.2.1 h1⟩
  · rw [if_neg h1]
    have hl := skipWhitespaceLoop_budget (skipWhitespaceInLine_ lx).2.input_.lines
      (skipWhitespaceInLine_ lx).2 hs.1
    exact ⟨hl.1, by omega, hl.2.2⟩

theorem nameLength_le (prev : Char) (s : Str) : nameLength prev s ≤ s.length := by
  induction s generalizing prev with
  | nil => simp [nameLength]
  | cons c cs ih =>
    simp only [nameLength]
    split
    · have := ih c
      simp only [List.length_cons]; omega
    · omega

theorem parseText_budget (lx : ConfigFileLexer) (h : lx.Valid) :
    (parseText_ lx).2.Valid ∧ (parseText_ lx).2.budget ≤ lx.budget ∧
    ((parseText_ lx).1.type ≠ .END_OF_FILE → (parseText_ lx).2.budget < lx.budget) := by
  have hs := skipWhitespace_budget lx h
  unfold parseText_
  simp only
  generalize skipWhitespace_ lx = r at hs
  obtain ⟨found, lx1⟩ := r
  simp only at hs ⊢
  cases found with
  | false =>
    simp only [Bool.not_false, if_true]
    exact ⟨hs.1, hs.2.1, fun hh => absurd rfl hh⟩
  | true =>
    have hcur := hs.2.2 rfl
    simp only [Bool.not_true, Bool.false_eq_true, if_false]
    have hnl := nameLength_le lx1.currentChar (lx1.remaining.drop 1)
    simp only [List.length_drop, remaining_length] at hnl
    have hb := hs.2.1
    rw [budget_eq, budget_eq] at hb
    split
    · simp only [Valid, budget_eq]
      refine ⟨Or.inl ?_, ?_, fun _ => ?_⟩ <;> omega
    · split
      · have hv : ConfigFileLexer.Valid ⟨lx1.input_, lx1.line_, incInt lx1.column_ 1, lx1.text_,
            lx1.current_ + 1, lx1.state_⟩ := Or.inl (by simpa using hcur)
        have hs2 := skipWhitespaceInLine_budget _ hv
        have hin := hs2.2.2.2.1
        have htext := hs2.2.2.2.2
        simp only at hin htext
        simp only [Valid, budget_eq, hin, htext]
        refine ⟨Or.inl (Nat.le_refl _), ?_, fun _ => ?_⟩ <;> omega
      · simp only [Valid, budget_eq]
        refine ⟨Or.inl ?_, ?_, fun _ => ?_⟩ <;> omega

end ConfigFileLexer
namespace ConfigFileLexer

theorem readNextLine_current (lx : ConfigFileLexer) (h : (readNextLine_ lx).1 = true) :
    (readNextLine_ lx).2.current_ = 0 := by
  unfold readNextLine_ at h ⊢
  simp only at h ⊢
  split
  · rfl
  · rename_i hf
    rw [if_neg hf] at h
    cases h

theorem continueValue_budget : ∀ (lines : List Str) (value : Str) (lx : ConfigFileLexer),
    lx.Valid →
    (continueValue lines value lx).2.Valid ∧ (continueValue lines value lx).2.budget ≤ lx.budget
  | [], value, lx, h => by
    have hr := readNextLine_budget lx h
    simp only [continueValue]
    exact ⟨hr.1, hr.2.1⟩
  | _ :: lines, value, lx, h => by
    have hr := readNextLine_budget lx h
    simp only [continueValue]
    by_cases h1 : (readNextLine_ lx).1 = true
    · have hc := readNextLine_current lx h1
      simp only [h1, Bool.not_true, Bool.false_eq_true, if_false]
      have hb := hr.2.1
      simp only [budget_eq] at hb
      split
      · simp only [Valid, budget_eq]
        exact ⟨Or.inl (Nat.le_refl _), by omega⟩
      · have hv : ConfigFileLexer.Valid { (readNextLine_ lx).2 with
            text_ := (readNextLine_ lx).2.text_.dropLast } := by
          left
          simp only [hc]
          exact Nat.zero_le _
        have ih := continueValue_budget lines
          (value ++ ['\n'] ++ (readNextLine_ lx).2.text_.dropLast) _ hv
        refine ⟨ih.1, Nat.le_trans ih.2 ?_⟩
        simp only [budget_eq, List.length_dropLast]
        omega
    · simp only [Bool.not_eq_true] at h1
      simp only [h1, Bool.not_false, if_true]
      exact ⟨hr.1, hr.2.1⟩

theorem parseValue_budget (lx : ConfigFileLexer) (b : Bool) (h : lx.Valid) :
    (parseValue_ lx b).2.Valid ∧ (parseValue_ lx b).2.budget ≤ lx.budget := by
  have hs := skipWhitespaceInLine_budget lx h
  unfold parseValue_
  simp only
  generalize skipWhitespaceInLine_ lx = r at hs
  obtain ⟨found, lx1⟩ := r
  simp only at hs ⊢
  have hb := hs.2.1
  rw [budget_eq, budget_eq] at hb
  split
  · simp only [Valid, budget_eq]
    exact ⟨Or.inl (Nat.le_refl _), by omega⟩
  · rename_i hcond
    simp only [Bool.or_eq_true, decide_eq_true_eq, not_or, Bool.not_eq_true,
      decide_eq_false_iff_not, ne_eq, not_not] at hcond
    obtain ⟨⟨_, hne⟩, hlast⟩ := hcond
    have hnonempty : lx1.text_ ≠ [] := by
      intro e
      rw [e] at hlast
      cases hlast
    have hlen : 0 < lx1.text_.length := List.length_pos.2 hnonempty
    have hstart : lx1.current_ < lx1.text_.length := by
      rcases hs.1 with hv | hv
      · have : lx1.text_.length ≠ lx1.current_ := hne
        omega
      · exact absurd hv hnonempty
    have hv3 : ConfigFileLexer.Valid ⟨lx1.input_, lx1.line_, wrapInt ((lx1.text_.length : Int) + 1),
        lx1.text_, lx1.text_.length - 1, LexerState.AT_TEXT⟩ := Or.inl (Nat.sub_le _ _)
    have hc := continueValue_budget lx1.input_.lines
      ((lx1.text_.take (lx1.text_.length - 1)).drop lx1.current_) _ hv3
    refine ⟨hc.1, Nat.le_trans hc.2 ?_⟩
    simp only [budget_eq]
    omega

theorem parseQuotedString_budget (lx : ConfigFileLexer) (h : lx.Valid) :
    (parseQuotedString_ lx).2.Valid ∧ (parseQuotedString_ lx).2.budget ≤ lx.budget := by
  have hn := takeWhile_length_le (fun c => decide (c ≠ '"')) lx.remaining
  rw [remaining_length] at hn
  unfold parseQuotedString_
  simp only [Valid, budget_eq]
  refine ⟨?_, by omega⟩
  rcases h with h | h
  · left; omega
  · right; exact h

/-- The call `next()` keeps the lexer valid, never increases its budget, and
decreases it whenever the token returned is a name, a comment or a
punctuation mark. -/
theorem next_budget (lx : ConfigFileLexer) (h : lx.Valid) :
    (next lx).2.Valid ∧ (next lx).2.budget ≤ lx.budget ∧
    ((next lx).1.type ≠ .END_OF_FILE → (next lx).1.type ≠ .VALUE →
      (next lx).2.budget < lx.budget) := by
  unfold next
  split
  · have := parseText_budget lx h
    exact ⟨this.1, this.2.1, fun h1 _ => this.2.2 h1⟩
  · have := parseText_budget lx h
    exact ⟨this.1, this.2.1, fun h1 _ => this.2.2 h1⟩
  · have := parseValue_budget lx false h
    exact ⟨this.1, this.2, fun _ h2 => absurd (parseValue_type lx false) h2⟩
  · have := parseQuotedString_budget lx h
    exact ⟨this.1, this.2, fun _ h2 => absurd rfl h2⟩
  · exact ⟨h, Nat.le_refl _, fun h1 _ => absurd rfl h1⟩

theorem valid_setState (lx : ConfigFileLexer) (s : LexerState) (h : lx.Valid) :
    ConfigFileLexer.Valid { lx with state_ := s } := h

theorem valid_create (input : IStream) (l c : Int) : (create input l c).Valid :=
  Or.inl (Nat.zero_le _)

end ConfigFileLexer

theorem parseIncludeDirective_returns (w : World) (sub : SubParse) (p : ConfigFileParser)
    (sourceName : Str) (lexer : ConfigFileLexer) (properties : ConfigurationPropertyMap)
    (hv : lexer.Valid)
    (hsub : ∀ q f, q.includedFrom_.length = p.includedFrom_.length + 1 →
      p.includedFrom_.length ≤ MAX_INCLUDE_DEPTH_ → ∃ r, sub q f = some r) :
    ∃ r, parseIncludeDirective_ w sub p sourceName lexer properties = some r ∧
      ∀ lx m, r = .ok (lx, m) → lx.Valid ∧ lx.budget ≤ lexer.budget := by
  have h1 := ConfigFileLexer.next_budget lexer hv
  have h2 := ConfigFileLexer.next_budget lexer.next.2.parseNextAsQuotedString
    (ConfigFileLexer.valid_setState _ _ h1.1)
  have h3 := ConfigFileLexer.next_budget lexer.next.2.parseNextAsQuotedString.next.2 h2.1
  have hb2 : lexer.next.2.parseNextAsQuotedString.budget = lexer.next.2.budget := rfl
  have hfinal : lexer.next.2.parseNextAsQuotedString.next.2.next.2.budget ≤ lexer.budget := by
    have := h1.2.1
    have := h2.2.1
    have := h3.2.1
    omega
  unfold parseIncludeDirective_
  simp only
  split
  · exact ⟨_, rfl, fun lx m h => by cases h⟩
  split
  · exact ⟨_, rfl, fun lx m h => by cases h⟩
  split
  · exact ⟨_, rfl, fun lx m h => by cases h⟩
  split
  · exact ⟨_, rfl, fun lx m h => by cases h⟩
  split
  · exact ⟨_, rfl, fun lx m h => by cases h⟩
  split
  · exact ⟨_, rfl, fun lx m h => by cases h⟩
  rename_i hdepth
  obtain ⟨r, hr⟩ := hsub
    (ConfigFileParser.createIncluded p.useEnvVars_ p.duplicatePropertyAction_
      p.includedPropertyAction_ p.includedFrom_ sourceName)
    (resolveIncludePath w sourceName lexer.next.2.parseNextAsQuotedString.next.1.value)
    (by simp [ConfigFileParser.createIncluded]) (by omega)
  rw [hr]
  cases r with
  | error e => exact ⟨_, rfl, fun lx m h => by cases h⟩
  | ok inc =>
    simp only
    cases hm : mergeIncluded p.includedPropertyAction_ inc.toList properties with
    | error e => exact ⟨_, rfl, fun lx m h => by cases h⟩
    | ok m1 =>
      refine ⟨_, rfl, ?_⟩
      intro lx m h
      simp only [Except.ok.injEq, Prod.mk.injEq] at h
      rw [← h.1]
      exact ⟨h3.1, hfinal⟩

theorem parseAssignment_returns (w : World) (useEnvVars : Bool) (p : ConfigFileParser)
    (sourceName : Str) (name : Token) (lexer : ConfigFileLexer)
    (properties : ConfigurationPropertyMap) (hv : lexer.Valid) :
    ∃ r, parseAssignment_ w useEnvVars p sourceName name lexer properties = some r ∧
      ∀ lx m, r = .ok (lx, m) → lx.Valid ∧ lx.budget ≤ lexer.budget := by
  have h1 := ConfigFileLexer.next_budget lexer.parseNextAsValue
    (ConfigFileLexer.valid_setState _ _ hv)
  have hb : lexer.parseNextAsValue.budget = lexer.budget := rfl
  rw [hb] at h1
  obtain ⟨v, hpv⟩ := processValue_returns w.getenv properties useEnvVars
    lexer.parseNextAsValue.next.1.value
  unfold parseAssignment_
  simp only
  split
  · exact ⟨_, rfl, fun lx m h => by cases h⟩
  rw [hpv]
  cases v with
  | error e => exact ⟨_, rfl, fun lx m h => by cases h⟩
  | ok value =>
    simp only
    split
    · refine ⟨_, rfl, ?_⟩
      intro lx m h
      simp only [Except.ok.injEq, Prod.mk.injEq] at h
      rw [← h.1]
      exact ⟨h1.1, h1.2.1⟩
    · split
      · refine ⟨_, rfl, ?_⟩
        intro lx m h
        simp only [Except.ok.injEq, Prod.mk.injEq] at h
        rw [← h.1]
        exact ⟨h1.1, h1.2.1⟩
      · refine ⟨_, rfl, ?_⟩
        intro lx m h
        simp only [Except.ok.injEq, Prod.mk.injEq] at h
        rw [← h.1]
        exact ⟨h1.1, h1.2.1⟩
      · exact ⟨_, rfl, fun lx m h => by cases h⟩

theorem parseAssignmentOrBlock_returns (w : World) (useEnvVars : Bool) (p : ConfigFileParser)
    (sourceName : Str) (name : Token) (lexer : ConfigFileLexer)
    (properties : ConfigurationPropertyMap) (hv : lexer.Valid) :
    ∃ r, parseAssignmentOrBlock_ w useEnvVars p sourceName name lexer properties = some r ∧
      ∀ q lx m, r = .ok (q, lx, m) →
        lx.Valid ∧ lx.budget ≤ lexer.budget ∧ q.includedFrom_ = p.includedFrom_ := by
  have h1 := ConfigFileLexer.next_budget lexer hv
  unfold parseAssignmentOrBlock_
  simp only
  split
  · exact ⟨_, rfl, fun q lx m h => by cases h⟩
  split
  · refine ⟨_, rfl, ?_⟩
    intro q lx m h
    simp only [Except.ok.injEq, Prod.mk.injEq] at h
    rw [← h.1, ← h.2.1]
    exact ⟨h1.1, h1.2.1, rfl⟩
  split
  · obtain ⟨r, hr, hok⟩ := parseAssignment_returns w useEnvVars p sourceName name lexer.next.2
      properties h1.1
    rw [hr]
    cases r with
    | error e => exact ⟨_, rfl, fun q lx m h => by cases h⟩
    | ok r1 =>
      refine ⟨_, rfl, ?_⟩
      intro q lx m h
      simp only [Except.ok.injEq, Prod.mk.injEq] at h
      have := hok r1.1 r1.2 rfl
      rw [← h.1, ← h.2.1]
      exact ⟨this.1, Nat.le_trans this.2 h1.2.1, rfl⟩
  · exact ⟨_, rfl, fun q lx m h => by cases h⟩

theorem parseLoop_returns (w : World) (sub : SubParse) (useEnvVars : Bool) (sourceName : Str)
    (k : Nat)
    (hsub : ∀ q f, q.includedFrom_.length = k + 1 → k ≤ MAX_INCLUDE_DEPTH_ →
      ∃ r, sub q f = some r) :
    ∀ (fuel : Nat) (p : ConfigFileParser) (lexer : ConfigFileLexer)
      (properties : ConfigurationPropertyMap),
      p.includedFrom_.length = k → lexer.Valid → lexer.budget < fuel →
      ∃ r, parseLoop w sub useEnvVars sourceName fuel p lexer properties = some r
  | 0, _, _, _, _, _, h => by omega
  | fuel + 1, p, lexer, properties, hk, hv, hfuel => by
    have h1 := ConfigFileLexer.next_budget lexer hv
    unfold parseLoop
    simp only
    split
    · split <;> exact ⟨_, rfl⟩
    rename_i hneof
    split
    · rename_i hcomment
      have hlt := h1.2.2 hneof (by rw [hcomment]; intro h; cases h)
      exact parseLoop_returns w sub useEnvVars sourceName k hsub fuel p _ properties hk h1.1
        (by omega)
    split
    · rename_i hbrace
      simp only [Bool.and_eq_true, decide_eq_true_eq] at hbrace
      split
      · exact ⟨_, rfl⟩
      · have hlt := h1.2.2 hneof (by rw [hbrace.1]; intro h; cases h)
        exact parseLoop_returns w sub useEnvVars sourceName k hsub fuel p.endBlock_ _ properties
          hk h1.1 (by omega)
    split
    · exact ⟨_, rfl⟩
    rename_i hname
    simp only [ne_eq, not_not] at hname
    have hlt := h1.2.2 hneof (by rw [hname]; intro h; cases h)
    split
    · obtain ⟨r, hr, hok⟩ := parseIncludeDirective_returns w sub p sourceName lexer.next.2
        properties h1.1 (by
          intro q f hq hle
          exact hsub q f (by rw [hq, hk]) (by rw [← hk]; exact hle))
      rw [hr]
      cases r with
      | error e => exact ⟨_, rfl⟩
      | ok r1 =>
        have := hok r1.1 r1.2 rfl
        exact parseLoop_returns w sub useEnvVars sourceName k hsub fuel p r1.1 r1.2 hk this.1
          (by omega)
    split
    · obtain ⟨r, hr, hok⟩ := parseAssignmentOrBlock_returns w useEnvVars p sourceName
        lexer.next.1 lexer.next.2 properties h1.1
      rw [hr]
      cases r with
      | error e => exact ⟨_, rfl⟩
      | ok r1 =>
        have := hok r1.1 r1.2.1 r1.2.2 rfl
        exact parseLoop_returns w sub useEnvVars sourceName k hsub fuel r1.1 r1.2.1 r1.2.2
          (by rw [this.2.2]; exact hk) this.1 (by omega)
    · exact ⟨_, rfl⟩

theorem parseStreamWith_returns (w : World) (sub : SubParse) (p : ConfigFileParser)
    (sourceName : Str) (input : IStream) (l c : Int)
    (hsub : ∀ q f, q.includedFrom_.length = p.includedFrom_.length + 1 →
      p.includedFrom_.length ≤ MAX_INCLUDE_DEPTH_ → ∃ r, sub q f = some r) :
    ∃ r, parseStreamWith w sub p sourceName input l c = some r :=
  parseLoop_returns w sub p.useEnvVars_ sourceName p.includedFrom_.length hsub _ p _ _ rfl
    (ConfigFileLexer.valid_create input l c) (Nat.lt_succ_self _)

theorem parseFileWith_returns (w : World) (sub : SubParse) (p : ConfigFileParser)
    (filename : Str)
    (hsub : ∀ q f, q.includedFrom_.length = p.includedFrom_.length + 1 →
      p.includedFrom_.length ≤ MAX_INCLUDE_DEPTH_ → ∃ r, sub q f = some r) :
    ∃ r, parseFileWith w sub p filename = some r := by
  unfold parseFileWith
  split
  · exact parseStreamWith_returns w sub p filename _ 1 1 hsub
  · exact ⟨_, rfl⟩

theorem subParseAt_returns (w : World) : ∀ (d : Nat) (q : ConfigFileParser) (f : Str),
    q.levels < d → ∃ r, subParseAt w d q f = some r
  | 0, _, _, h => by omega
  | d + 1, q, f, h => by
    obtain ⟨r, hr⟩ := parseFileWith_returns w (subParseAt w d) q f (by
      intro q1 f1 hq1 hle
      apply subParseAt_returns w d q1 f1
      unfold ConfigFileParser.levels at h ⊢
      unfold MAX_INCLUDE_DEPTH_ at *
      omega)
    exact ⟨r.outcome, by simp [subParseAt, hr]⟩

theorem subParse_levels_returns (w : World) (p : ConfigFileParser) :
    ∀ q f, q.includedFrom_.length = p.includedFrom_.length + 1 →
      p.includedFrom_.length ≤ MAX_INCLUDE_DEPTH_ → ∃ r, subParseAt w p.levels q f = some r := by
  intro q f hq hle
  apply subParseAt_returns
  unfold ConfigFileParser.levels MAX_INCLUDE_DEPTH_ at *
  omega
theorem parseIncludeDirective_sub_congr (w : World) (sub1 sub2 : SubParse) (p : ConfigFileParser)
    (sourceName : Str) (lexer : ConfigFileLexer) (properties : ConfigurationPropertyMap)
    (h : ∀ q f, q.includedFrom_ = p.includedFrom_ ++ [sourceName] →
      q.includedFrom_.length ≤ MAX_INCLUDE_DEPTH_ + 1 → f ∉ p.includedFrom_ →
      sub1 q f = sub2 q f) :
    parseIncludeDirective_ w sub1 p sourceName lexer properties =
      parseIncludeDirective_ w sub2 p sourceName lexer properties := by
  unfold parseIncludeDirective_
  simp only
  split
  · rfl
  split
  · rfl
  split
  · rfl
  split
  · rfl
  split
  · rfl
  rename_i hloop
  split
  · rfl
  rename_i hdepth
  rw [h _ _ rfl (by simp [ConfigFileParser.createIncluded]; omega) (by
    intro hmem
    apply hloop
    unfold ConfigFileParser.isIncludedFrom_
    simpa using hmem)]

theorem parseIncludeDirective_too_deep (w : World) (sub : SubParse) (p : ConfigFileParser)
    (sourceName : Str) (lexer : ConfigFileLexer) (properties : ConfigurationPropertyMap)
    (hdepth : MAX_INCLUDE_DEPTH_ < p.includedFrom_.length) :
    ∃ e, parseIncludeDirective_ w sub p sourceName lexer properties = some (.error e) := by
  unfold parseIncludeDirective_
  simp only
  split
  · exact ⟨_, rfl⟩
  split
  · exact ⟨_, rfl⟩
  split
  · exact ⟨_, rfl⟩
  split
  · exact ⟨_, rfl⟩
  split
  · exact ⟨_, rfl⟩
  exact ⟨_, rfl⟩

set_option maxRecDepth 100000 in
/-- Claim C8 as stated is refuted. A parser with 129 ancestors (`a`, `aa`,
... ) meets a well-formed include of `a` outside every block.  The chain is
longer than 128 entries, yet the error raised is the include-loop error and
not the maximum-inclusion-depth error: the loop is tested first. -/
theorem include_too_deep_counterexample :
    (ConfigFileParser.createIncluded true .DUP_ERROR .DUP_IGNORE
      ((List.range 128).map (fun n => List.replicate (n + 1) 'a'))
      (List.replicate 129 'a')).includedFrom_.length = 129 ∧
    (parseIncludeDirective_ (plainWorld noFiles) (fun _ _ => none)
      (ConfigFileParser.createIncluded true .DUP_ERROR .DUP_IGNORE
        ((List.range 128).map (fun n => List.replicate (n + 1) 'a'))
        (List.replicate 129 'a'))
      (lit "deep.cfg")
      (ConfigFileLexer.create (IStream.ofText (lit "include \"a\"\n")) 1 1).next.2
      ConfigurationPropertyMap.empty).map
        (fun r => match r with
          | .ok _ => []
          | .error e => e.description.take 48) =
      some (lit "Including \"a\" would produce an include file loop") := by
  decide

/-- Claim C8 as amended. An include directive consults the parse of included
files only for a sub-parser whose ancestor chain is the current chain with
the current source appended, has at most 129 entries (the current chain has
at most 128), and does not hold the target: two parses of included files that
agree on those calls give the same result.  With more than 128 ancestors the
directive raises an error whatever the parse of included files would do; for
a well-formed directive outside every block whose target is not on the chain
it is the maximum-inclusion-depth error.  And `parse` and `parseText` return
or throw for every parser, every world (any files, cyclic includes or not)
and every source: the budgets of the model always suffice. -/
theorem include_depth_bounded_parse_returns (w : World) (p : ConfigFileParser) :
    (∀ (sub1 sub2 : SubParse) (sourceName : Str) (lexer : ConfigFileLexer)
      (properties : ConfigurationPropertyMap),
      (∀ q f, q.includedFrom_ = p.includedFrom_ ++ [sourceName] →
        q.includedFrom_.length ≤ MAX_INCLUDE_DEPTH_ + 1 → f ∉ p.includedFrom_ →
        sub1 q f = sub2 q f) →
      parseIncludeDirective_ w sub1 p sourceName lexer properties =
        parseIncludeDirective_ w sub2 p sourceName lexer properties) ∧
    (MAX_INCLUDE_DEPTH_ < p.includedFrom_.length →
      ∀ (sourceName : Str) (lexer : ConfigFileLexer) (properties : ConfigurationPropertyMap),
      ∃ e, ∀ sub : SubParse,
        parseIncludeDirective_ w sub p sourceName lexer properties = some (.error e)) ∧
    (∀ (sub : SubParse) (sourceName : Str) (lexer : ConfigFileLexer)
      (properties : ConfigurationPropertyMap),
      (lexer.next.1.type = .PUNCTUATION ∧ lexer.next.1.value = lit "\"" ∧
        lexer.next.1.line = lexer.line_) →
      (lexer.next.2.parseNextAsQuotedString.next.1.type = .VALUE ∧
        lexer.next.2.parseNextAsQuotedString.next.1.value.isEmpty = false) →
      (lexer.next.2.parseNextAsQuotedString.next.2.next.1.type = .PUNCTUATION ∧
        lexer.next.2.parseNextAsQuotedString.next.2.next.1.value = lit "\"" ∧
        lexer.next.2.parseNextAsQuotedString.next.2.next.1.line = lexer.line_) →
      p.context_ = [] →
      resolveIncludePath w sourceName
        lexer.next.2.parseNextAsQuotedString.next.1.value ∉ p.includedFrom_ →
      MAX_INCLUDE_DEPTH_ < p.includedFrom_.length →
      parseIncludeDirective_ w sub p sourceName lexer properties =
        some (.error ⟨sourceName, lexer.line_,
          lexer.next.2.parseNextAsQuotedString.next.2.column_,
          lit "Maximum inclusion depth exceeded.  The include file list is:" ++
            (join p.includedFrom_ (lit "\n  ") ++ lit "\n  " ++ sourceName)⟩)) ∧
    (∀ filename : Str, ∃ r, p.parse w filename = some r) ∧
    (∀ (sourceName text : Str) (initialLine initialColumn : Int),
      ∃ r, p.parseText w sourceName text initialLine initialColumn = some r) := by
  refine ⟨?_, ?_, ?_, ?_, ?_⟩
  · intro sub1 sub2 sourceName lexer properties h
    exact parseIncludeDirective_sub_congr w sub1 sub2 p sourceName lexer properties h
  · intro hdepth sourceName lexer properties
    obtain ⟨e, he⟩ := parseIncludeDirective_too_deep w (fun _ _ => none) p sourceName lexer
      properties hdepth
    refine ⟨e, fun sub => ?_⟩
    rw [← he]
    apply parseIncludeDirective_sub_congr
    intro q f hq hlen
    rw [hq] at hlen
    simp only [List.length_append, List.length_singleton] at hlen
    omega
  · intro sub sourceName lexer properties hopen hname hclose hctx hnot hdepth
    obtain ⟨ho1, ho2, ho3⟩ := hopen
    obtain ⟨hn1, hn2⟩ := hname
    obtain ⟨hc1, hc2, hc3⟩ := hclose
    have hin : p.isIncludedFrom_ (resolveIncludePath w sourceName
        lexer.next.2.parseNextAsQuotedString.next.1.value) = false := by
      unfold ConfigFileParser.isIncludedFrom_
      simpa using hnot
    unfold parseIncludeDirective_
    simp only [ho1, ho2, ho3, hn1, hn2, hc1, hc2, hc3, hctx, hin, ne_eq, not_true_eq_false,
      decide_False, Bool.or_self, Bool.false_eq_true, if_false, List.length_nil, if_true,
      includeFileList, gt_iff_lt, hdepth]
  · intro filename
    exact parseFileWith_returns w _ p filename (subParse_levels_returns w p)
  · intro sourceName text l c
    exact parseStreamWith_returns w _ p sourceName _ l c (subParse_levels_returns w p)

/-- Two files that include each other, and a file that includes itself:
parsing ends with the include-loop error. -/
theorem parse_cyclic_includes :
    ((ConfigFileParser.create true .DUP_ERROR .DUP_IGNORE).parse
      (plainWorld (filesOf [(lit "A", lit "x=1\ninclude \"B\"\n"),
                            (lit "B", lit "y=2\ninclude \"A\"\n")]))
      (lit "A")).map (fun r => r.outcome) =
      some (.error ⟨lit "B", 2, 11,
        lit "Including \"A\" would produce an include file loop.  The include file list is:A\n  B"⟩) ∧
    ((ConfigFileParser.create true .DUP_ERROR .DUP_IGNORE).parse
      (plainWorld (filesOf [(lit "A", lit "include \"A\"\n")]))
      (lit "A")).map (fun r => r.outcome) =
      some (.error ⟨lit "A", 1, 11,
        lit "Including \"A\" would produce an include file loop.  The include file list is:A\n  A"⟩) := by
  decide

/-! ## The loop of `processValue` -/

theorem processLoop_fuel_irrel (resolve : Str → Except PropertyFormatError Str) :
    ∀ (f g : Nat) (s : ValueState), s.passes < f → s.passes < g →
      processLoop resolve f s = processLoop resolve g s
  | 0, _, _, h, _ => by omega
  | _, 0, _, _, h => by omega
  | f + 1, g + 1, s, hf, hg => by
    unfold processLoop
    by_cases h0 : s.state = 0
    · simp [h0]
    · simp only [h0, if_false]
      cases hs : processStep resolve s with
      | error e => rfl
      | ok s1 =>
        have := processStep_passes resolve s s1 h0 hs
        exact processLoop_fuel_irrel resolve f g s1 (by omega) (by omega)

theorem processLoop_eq_runState (resolve : Str → Except PropertyFormatError Str) (f : Nat)
    (s : ValueState) (h : s.passes < f) : processLoop resolve f s = runState resolve s :=
  processLoop_fuel_irrel resolve f _ s h (by omega)

theorem runState_done (resolve : Str → Except PropertyFormatError Str) (s : ValueState)
    (h : s.state = 0) : runState resolve s = some (.ok s.prepared) := by
  unfold runState processLoop
  simp [h]

theorem runState_step (resolve : Str → Except PropertyFormatError Str) (s s1 : ValueState)
    (h0 : s.state ≠ 0) (h : processStep resolve s = .ok s1) :
    runState resolve s = runState resolve s1 := by
  have hp := processStep_passes resolve s s1 h0 h
  unfold runState
  rw [show s.passes + 1 = s.passes + 1 from rfl]
  conv_lhs => unfold processLoop
  simp only [h0, if_false, h]
  exact processLoop_fuel_irrel resolve _ _ s1 (by omega) (by omega)

theorem runState_error (resolve : Str → Except PropertyFormatError Str) (s : ValueState)
    (e : PropertyFormatError) (h0 : s.state ≠ 0) (h : processStep resolve s = .error e) :
    runState resolve s = some (.error e) := by
  unfold runState processLoop
  simp only [h0, if_false, h]

theorem processFrom_eq_runState (resolve : Str → Except PropertyFormatError Str)
    (out rest : Str) : processFrom resolve out rest = runState resolve ⟨rest, [], 1, out, 0, false⟩ :=
  processLoop_eq_runState resolve _ _ (by simp [ValueState.passes])

theorem processValue_eq_processFrom (getenv : Str → Option Str)
    (properties : ConfigurationPropertyMap) (useEnvVars_ : Bool) (value : Str) :
    processValue getenv properties useEnvVars_ value =
      processFrom (resolveVariable_ getenv properties useEnvVars_) [] value := rfl

set_option maxHeartbeats 4000000 in
theorem processStep_agree (resolve : Str → Except PropertyFormatError Str) (s t : ValueState)
    (h : s.Agree t) :
    (∃ e, processStep resolve s = .error e ∧ processStep resolve t = .error e) ∨
    (∃ s1 t1, processStep resolve s = .ok s1 ∧ processStep resolve t = .ok t1 ∧ s1.Agree t1) := by
  obtain ⟨i, name, state, prepared, u, legal⟩ := s
  obtain ⟨i2, name2, state2, prepared2, u2, legal2⟩ := t
  obtain ⟨h1, h2, h3, h4, h5⟩ := h
  simp only at h1 h2 h3 h4 h5
  subst h1 h2 h3
  by_cases hbig : 18 < state
  · left
    refine ⟨⟨[], lit "Illegal state while preparing value"⟩, ?_, ?_⟩ <;>
    · unfold processStep
      simp only
      split <;> first | omega | (rw [if_neg (by omega), if_neg (by omega)])
  by_cases h6 : state = 6
  · subst h6
    obtain ⟨rfl, rfl⟩ := h4 rfl
    unfold processStep
    simp only
    cases resolve name with
    | error e =>
      simp only
      split_ifs
      all_goals first
        | exact Or.inl ⟨_, rfl, rfl⟩
        | (refine Or.inr ⟨_, _, rfl, rfl, rfl, rfl, rfl, fun _ => ⟨rfl, rfl⟩, ?_⟩
           intro h
           simp at h)
    | ok v =>
      simp only
      split_ifs
      all_goals first
        | exact Or.inl ⟨_, rfl, rfl⟩
        | (refine Or.inr ⟨_, _, rfl, rfl, rfl, rfl, rfl, fun _ => ⟨rfl, rfl⟩, ?_⟩
           intro h
           simp at h)
  by_cases h7 : 7 ≤ state ∧ state ≠ 12
  · have h5 := h5 h7
    subst h5
    obtain ⟨h7a, h7b⟩ := h7
    have hle : state ≤ 18 := by omega
    interval_cases state
    all_goals first
      | (exfalso; exact h7b rfl)
      | (unfold processStep
         simp only
         try split_ifs)
    all_goals first
      | exact Or.inl ⟨_, rfl, rfl⟩
      | (refine Or.inr ⟨_, _, rfl, rfl, rfl, rfl, rfl, ?_, fun _ => rfl⟩
         intro h
         simp at h)
  · have hle : state < 7 ∨ state = 12 := by omega
    rcases hle with hle | hle
    · interval_cases state
      all_goals first
        | (exfalso; exact h6 rfl)
        | (unfold processStep
           simp only
           try split_ifs)
      all_goals first
        | exact Or.inl ⟨_, rfl, rfl⟩
        | exact Or.inr ⟨_, _, rfl, rfl, rfl, rfl, rfl, fun _ => ⟨rfl, rfl⟩, fun _ => rfl⟩
        | (refine Or.inr ⟨_, _, rfl, rfl, rfl, rfl, rfl, ?_, fun _ => rfl⟩
           intro h
           simp at h)
        | (refine Or.inr ⟨_, _, rfl, rfl, rfl, rfl, rfl, fun _ => ⟨rfl, rfl⟩, ?_⟩
           intro h
           simp at h)
        | (refine Or.inr ⟨_, _, rfl, rfl, rfl, rfl, rfl, ?_, ?_⟩ <;> intro h <;> simp at h)
    · subst hle
      unfold processStep
      simp only
      split_ifs
      all_goals first
        | exact Or.inl ⟨_, rfl, rfl⟩
        | (refine Or.inr ⟨_, _, rfl, rfl, rfl, rfl, rfl, ?_, fun _ => rfl⟩
           intro h
           simp at h)

theorem runState_agree (resolve : Str → Except PropertyFormatError Str) :
    ∀ (n : Nat) (s t : ValueState), s.passes < n → s.Agree t →
      runState resolve s = runState resolve t
  | 0, _, _, h, _ => by omega
  | n + 1, s, t, hn, h => by
    by_cases h0 : s.state = 0
    · have h0t : t.state = 0 := by rw [← h.2.1]; exact h0
      rw [runState_done resolve s h0, runState_done resolve t h0t, h.2.2.1]
    · have h0t : t.state ≠ 0 := by rw [← h.2.1]; exact h0
      rcases processStep_agree resolve s t h with ⟨e, hs, ht⟩ | ⟨s1, t1, hs, ht, h1⟩
      · rw [runState_error resolve s e h0 hs, runState_error resolve t e h0t ht]
      · rw [runState_step resolve s s1 h0 hs, runState_step resolve t t1 h0t ht]
        have := processStep_passes resolve s s1 h0 hs
        exact runState_agree resolve n s1 t1 (by omega) h1

/-- The loop of `processValue` in state 1 does not depend on the values its
other local variables hold. -/
theorem runState_state_one (resolve : Str → Except PropertyFormatError Str) (i name out : Str)
    (u : Nat) (b : Bool) :
    runState resolve ⟨i, name, 1, out, u, b⟩ = processFrom resolve out i := by
  rw [processFrom_eq_runState]
  exact runState_agree resolve _ _ _ (Nat.lt_succ_self _)
    ⟨rfl, rfl, rfl, fun h => by simp at h, fun h => by simp at h⟩

theorem hexValue_eq (c : Char) (h : isHexDigit_ c = true) :
    hexValue_ c = hexDigitValue c ∧ hexDigitValue c < 16 := by
  unfold isHexDigit_ at h
  unfold hexValue_ hexDigitValue
  simp only [Bool.or_eq_true, Bool.and_eq_true, decide_eq_true_eq] at h
  simp only
  split_ifs <;> omega

theorem shiftInHex_eq (u : Nat) (c : Char) (hu : u < 2 ^ 28) (h : isHexDigit_ c = true) :
    shiftInHex u c = 16 * u + hexDigitValue c := by
  obtain ⟨h1, h2⟩ := hexValue_eq c h
  unfold shiftInHex
  rw [h1, Nat.shiftLeft_eq, Nat.mod_eq_of_lt (by omega)]
  have := Nat.mul_add_lt_is_or (show hexDigitValue c < 2 ^ 4 from h2) u
  rw [show u * 2 ^ 4 = 2 ^ 4 * u from Nat.mul_comm _ _, ← this]

theorem hex_ne (c : Char) (h : isHexDigit_ c = true) :
    c ≠ NUL ∧ c ≠ '\x7b' ∧ c ≠ '\x7d' := by
  refine ⟨?_, ?_, ?_⟩ <;> rintro rfl <;> revert h <;> decide

theorem step_backslash (resolve : Str → Except PropertyFormatError Str) (rest n out : Str)
    (u : Nat) (b : Bool) :
    processStep resolve ⟨'\\' :: rest, n, 1, out, u, b⟩ = .ok ⟨rest, n, 3, out, u, b⟩ := rfl

theorem step_dollar (resolve : Str → Except PropertyFormatError Str) (rest n out : Str)
    (u : Nat) (b : Bool) :
    processStep resolve ⟨'$' :: rest, n, 1, out, u, b⟩ = .ok ⟨rest, n, 2, out, u, b⟩ := rfl

theorem step_u (resolve : Str → Except PropertyFormatError Str) (rest n out : Str)
    (u : Nat) (b : Bool) :
    processStep resolve ⟨'u' :: rest, n, 3, out, u, b⟩ = .ok ⟨rest, n, 5, out, 0, b⟩ := rfl

theorem processFrom_nil (resolve : Str → Except PropertyFormatError Str) (out : Str) :
    processFrom resolve out [] = some (.ok out) := rfl

theorem processFrom_nul (resolve : Str → Except PropertyFormatError Str) (out rest : Str) :
    processFrom resolve out (NUL :: rest) = some (.ok out) := by
  rw [processFrom_eq_runState,
    runState_step resolve ⟨NUL :: rest, [], 1, out, 0, false⟩ ⟨rest, [], 0, out, 0, false⟩
      (by simp) rfl,
    runState_done _ _ rfl]

theorem processFrom_plain (resolve : Str → Except PropertyFormatError Str) (out rest : Str)
    (c : Char) (h0 : c ≠ NUL) (h1 : c ≠ '$') (h2 : c ≠ '\\') :
    processFrom resolve out (c :: rest) = processFrom resolve (out ++ [c]) rest := by
  rw [processFrom_eq_runState,
    runState_step resolve _ ⟨rest, [], 1, out ++ [c], 0, false⟩ (by simp)
      (by simp only [processStep, List.headD_cons, List.tail_cons, if_neg h0, if_neg h1, if_neg h2]),
    runState_state_one]

/-- The head of `rest` as the loop reads it, when it is not the end of the
value. -/
theorem processFrom_head_nul (resolve : Str → Except PropertyFormatError Str) (out rest : Str)
    (h : rest.headD NUL = NUL) : processFrom resolve out rest = some (.ok out) := by
  cases rest with
  | nil => rfl
  | cons c cs =>
    simp only [List.headD_cons] at h
    subst h
    exact processFrom_nul resolve out cs

/-- The loop of `processValue` after an escape: a state whose `state` is
`if ch then 1 else 0` with `ch` the character at `i`. -/
theorem runState_resume (resolve : Str → Except PropertyFormatError Str) (i name out : Str)
    (u : Nat) (b : Bool) :
    runState resolve ⟨i, name, if i.headD NUL = NUL then 0 else 1, out, u, b⟩ =
      processFrom resolve out i := by
  by_cases h : i.headD NUL = NUL
  · rw [if_pos h, runState_done _ _ rfl, processFrom_head_nul resolve out i h]
  · rw [if_neg h, runState_state_one]

theorem processFrom_escape (resolve : Str → Except PropertyFormatError Str) (out rest : Str)
    (c : Char) (h0 : c ≠ NUL) (hu : c ≠ 'u') :
    processFrom resolve out ('\\' :: c :: rest) =
      processFrom resolve
        (out ++ [if c = 'n' then '\n' else if c = 't' then '\t' else if c = 'r' then '\r' else c])
        rest := by
  rw [processFrom_eq_runState, runState_step resolve _ _ (by simp) (step_backslash ..)]
  rw [runState_step resolve _
    ⟨rest, [], 1,
      out ++ [if c = 'n' then '\n' else if c = 't' then '\t' else if c = 'r' then '\r' else c],
      0, false⟩ (by simp)
    (by
      simp only [processStep, List.headD_cons, List.tail_cons, if_neg h0, if_neg hu]
      split_ifs <;> rfl),
    runState_state_one]

theorem processFrom_backslash_end (resolve : Str → Except PropertyFormatError Str) (out : Str) :
    processFrom resolve out ['\\'] = some (.ok (out ++ ['\\'])) := rfl

theorem processFrom_backslash_nul (resolve : Str → Except PropertyFormatError Str)
    (out rest : Str) :
    processFrom resolve out ('\\' :: NUL :: rest) = some (.ok (out ++ ['\\'])) := by
  rw [processFrom_eq_runState, runState_step resolve _ _ (by simp) (step_backslash ..),
    runState_step resolve ⟨NUL :: rest, [], 3, out, 0, false⟩
      ⟨NUL :: rest, [], 0, out ++ ['\\'], 0, false⟩ (by simp) rfl,
    runState_done _ _ rfl]

theorem hexFold_cons (u : Nat) (c : Char) (d : Str) :
    hexFold u (c :: d) = hexFold (16 * u + hexDigitValue c) d := rfl

theorem hexFold_append (u : Nat) (d e : Str) :
    hexFold u (d ++ e) = hexFold (hexFold u d) e := by
  unfold hexFold
  rw [List.foldl_append]

theorem hexFold_lt (d : Str) : ∀ (u j : Nat), u < 16 ^ j → d.all isHexDigit_ = true →
    hexFold u d < 16 ^ (j + d.length) := by
  induction d with
  | nil => intro u j hu _; simpa [hexFold] using hu
  | cons c d ih =>
    intro u j hu hd
    simp only [List.all_cons, Bool.and_eq_true] at hd
    rw [hexFold_cons, List.length_cons, show j + (d.length + 1) = (j + 1) + d.length by omega]
    apply ih _ _ _ hd.2
    have := (hexValue_eq c hd.1).2
    rw [pow_succ]
    omega

theorem pow16_le (j : Nat) (h : j ≤ 7) : 16 ^ j ≤ 2 ^ 28 := by
  interval_cases j <;> norm_num

/-- The states 7 to 10 read hex digits of a `\u` escape: after `j` digits the
state is `6 + j`. -/
theorem runState_hex_run (resolve : Str → Except PropertyFormatError Str) (rest n out : Str)
    (b : Bool) : ∀ (d : Str) (j u : Nat), 1 ≤ j → j + d.length ≤ 5 → u < 16 ^ j →
      d.all isHexDigit_ = true →
      runState resolve ⟨d ++ rest, n, 6 + j, out, u, b⟩ =
        runState resolve ⟨rest, n, 6 + j + d.length, out, hexFold u d, b⟩ := by
  intro d
  induction d with
  | nil => intro j u _ _ _ _; rfl
  | cons c d ih =>
    intro j u h1 h5 hu hd
    simp only [List.all_cons, Bool.and_eq_true] at hd
    simp only [List.length_cons] at h5
    have hstep : processStep resolve ⟨c :: (d ++ rest), n, 6 + j, out, u, b⟩ =
        .ok ⟨d ++ rest, n, 6 + (j + 1), out, 16 * u + hexDigitValue c, b⟩ := by
      have hs := shiftInHex_eq u c (lt_of_lt_of_le hu (pow16_le j (by omega))) hd.1
      have hj : j ≤ 4 := by omega
      interval_cases j <;>
        simp only [processStep, List.headD_cons, List.tail_cons, List.cons_append, hd.1, hs,
          if_true, Nat.reduceAdd, Nat.reduceLeDiff, and_self]
    rw [List.cons_append, runState_step resolve _ _ (by simp) hstep,
      ih (j + 1) _ (by omega) (by omega) ?_ hd.2, hexFold_cons, List.length_cons]
    · congr 2
      omega
    · have := (hexValue_eq c hd.1).2
      rw [pow_succ]
      omega

/-- The states 13 to 17 read hex digits of a braced escape: after `j` digits the
state is `12 + j`. -/
theorem runState_braced_run (resolve : Str → Except PropertyFormatError Str) (rest n out : Str)
    (b : Bool) : ∀ (d : Str) (j u : Nat), 1 ≤ j → j + d.length ≤ 6 → u < 16 ^ j →
      d.all isHexDigit_ = true →
      runState resolve ⟨d ++ rest, n, 12 + j, out, u, b⟩ =
        runState resolve ⟨rest, n, 12 + j + d.length, out, hexFold u d, b⟩ := by
  intro d
  induction d with
  | nil => intro j u _ _ _ _; rfl
  | cons c d ih =>
    intro j u h1 h5 hu hd
    simp only [List.all_cons, Bool.and_eq_true] at hd
    simp only [List.length_cons] at h5
    obtain ⟨hc0, -, hc2⟩ := hex_ne c hd.1
    have hstep : processStep resolve ⟨c :: (d ++ rest), n, 12 + j, out, u, b⟩ =
        .ok ⟨d ++ rest, n, 12 + (j + 1), out, 16 * u + hexDigitValue c, b⟩ := by
      have hs := shiftInHex_eq u c (lt_of_lt_of_le hu (pow16_le j (by omega))) hd.1
      have hj : j ≤ 5 := by omega
      interval_cases j <;>
        simp only [processStep, List.headD_cons, List.tail_cons, List.cons_append, hd.1, hs,
          if_true, if_false, Nat.reduceAdd, Nat.reduceLeDiff, and_self, if_neg hc0, if_neg hc2,
          and_false, and_true]
    rw [List.cons_append, runState_step resolve _ _ (by simp) hstep,
      ih (j + 1) _ (by omega) (by omega) ?_ hd.2, hexFold_cons, List.length_cons]
    · congr 2
      omega
    · have := (hexValue_eq c hd.1).2
      rw [pow_succ]
      omega

theorem hexFold_single (c : Char) (d : Str) : hexFold (hexDigitValue c) d = hexRunValue (c :: d) := by
  unfold hexRunValue
  rw [hexFold_cons, Nat.mul_zero, Nat.zero_add]

theorem hexDigitValue_lt (c : Char) (h : isHexDigit_ c = true) : hexDigitValue c < 16 ^ 1 := by
  have := (hexValue_eq c h).2
  simpa using this

/-- The loop of `processValue` up to the first hex digit of a `\u` escape. -/
theorem processFrom_u_first (resolve : Str → Except PropertyFormatError Str) (out rest : Str)
    (a : Char) (ha : isHexDigit_ a = true) :
    processFrom resolve out ('\\' :: 'u' :: a :: rest) =
      runState resolve ⟨rest, [], 7, out, hexDigitValue a, false⟩ := by
  obtain ⟨h0, h1, -⟩ := hex_ne a ha
  rw [processFrom_eq_runState, runState_step resolve _ _ (by simp) (step_backslash ..),
    runState_step resolve _ _ (by simp) (step_u ..),
    runState_step resolve ⟨a :: rest, [], 5, out, 0, false⟩
      ⟨rest, [], 7, out, hexDigitValue a, false⟩ (by simp)
      (by simp only [processStep, List.headD_cons, List.tail_cons, if_neg h0, if_neg h1, ha,
            if_true, (hexValue_eq a ha).1])]

/-- A `\u` escape followed directly by hex digits: the loop of `processValue`
reads the longest run of up to six of them, appends the encoding of their
value, and goes on in state 1 behind them. -/
theorem processFrom_unicode (resolve : Str → Except PropertyFormatError Str)
    (out d rest : Str) (hd : d.all isHexDigit_ = true) (h1 : 1 ≤ d.length) (h6 : d.length ≤ 6)
    (hmax : d.length = 6 ∨ isHexDigit_ (rest.headD NUL) = false) :
    processFrom resolve out ('\\' :: 'u' :: (d ++ rest)) =
      processFrom resolve (encodeUtf8_ (hexRunValue d) out) rest := by
  cases d with
  | nil => simp at h1
  | cons a d =>
    simp only [List.all_cons, Bool.and_eq_true] at hd
    simp only [List.length_cons] at h1 h6 hmax
    rw [List.cons_append, processFrom_u_first resolve out _ a hd.1]
    by_cases hlen : d.length = 5
    · -- six digits: the sixth is read in state 11
      rcases List.eq_nil_or_concat d with hnil | ⟨d4, z, hdz⟩
      · rw [hnil] at hlen; simp at hlen
      rw [List.concat_eq_append] at hdz
      subst hdz
      have hlen4 : d4.length = 4 := by simpa using hlen
      simp only [List.all_append, List.all_cons, List.all_nil, Bool.and_true,
        Bool.and_eq_true] at hd
      obtain ⟨hz0, -, -⟩ := hex_ne z hd.2.2
      have hrun := runState_hex_run resolve (z :: rest) [] out false d4 1 (hexDigitValue a)
        (le_refl _) (by omega) (hexDigitValue_lt a hd.1) hd.2.1
      have hlt := hexFold_lt d4 (hexDigitValue a) 1 (hexDigitValue_lt a hd.1) hd.2.1
      have hs := shiftInHex_eq (hexFold (hexDigitValue a) d4) z
        (lt_of_lt_of_le hlt (pow16_le _ (by omega))) hd.2.2
      rw [List.append_assoc, List.singleton_append, hrun, show 6 + 1 + d4.length = 11 by omega,
        runState_step resolve _
          ⟨rest, [], 1, encodeUtf8_ (hexRunValue (a :: (d4 ++ [z]))) out,
            hexRunValue (a :: (d4 ++ [z])), false⟩ (by simp)
          (by
            simp only [processStep, List.headD_cons, List.tail_cons, hd.2.2, if_true, hs,
              if_neg hz0]
            rw [← hexFold_single, hexFold_append]
            rfl),
        runState_state_one]
    · -- at most five digits, and the next character is not a hex digit
      have hnh : isHexDigit_ (rest.headD NUL) = false := by
        rcases hmax with h | h
        · omega
        · exact h
      have hrun := runState_hex_run resolve rest [] out false d 1 (hexDigitValue a)
        (le_refl _) (by omega) (hexDigitValue_lt a hd.1) hd.2
      rw [hrun, hexFold_single, ← runState_resume resolve rest [] _ (hexRunValue (a :: d)) false]
      have hk : d.length ≤ 4 := by omega
      generalize d.length = k at hk
      apply runState_step resolve _ _ (by simp)
      interval_cases k <;>
        simp only [processStep, hnh, Nat.reduceAdd, Nat.reduceLeDiff, and_self, if_true,
          if_false, Bool.false_eq_true]

/-- The loop of `processValue` up to the first hex digit of a `\u{` escape. -/
theorem processFrom_braced_first (resolve : Str → Except PropertyFormatError Str)
    (out rest : Str) (a : Char) (ha : isHexDigit_ a = true) :
    processFrom resolve out ('\\' :: 'u' :: '\x7b' :: a :: rest) =
      runState resolve ⟨rest, [], 13, out, hexDigitValue a, false⟩ := by
  obtain ⟨h0, -, h2⟩ := hex_ne a ha
  rw [processFrom_eq_runState, runState_step resolve _ _ (by simp) (step_backslash ..),
    runState_step resolve _ _ (by simp) (step_u ..),
    runState_step resolve ⟨'\x7b' :: a :: rest, [], 5, out, 0, false⟩
      ⟨a :: rest, [], 12, out, 0, false⟩ (by simp) rfl,
    runState_step resolve ⟨a :: rest, [], 12, out, 0, false⟩
      ⟨rest, [], 13, out, hexDigitValue a, false⟩ (by simp)
      (by simp only [processStep, List.headD_cons, List.tail_cons, if_neg h0, if_neg h2, ha,
            Bool.not_true, Bool.false_eq_true, if_false, (hexValue_eq a ha).1])]

/-- A braced escape with one to six hex digits: the loop of `processValue`
appends the encoding of their value and goes on in state 1 behind the closing
brace. -/
theorem processFrom_braced (resolve : Str → Except PropertyFormatError Str)
    (out d rest : Str) (hd : d.all isHexDigit_ = true) (h1 : 1 ≤ d.length) (h6 : d.length ≤ 6) :
    processFrom resolve out ('\\' :: 'u' :: '\x7b' :: (d ++ '\x7d' :: rest)) =
      processFrom resolve (encodeUtf8_ (hexRunValue d) out) rest := by
  cases d with
  | nil => simp at h1
  | cons a d =>
    simp only [List.all_cons, Bool.and_eq_true] at hd
    simp only [List.length_cons] at h1 h6
    have hrun := runState_braced_run resolve ('\x7d' :: rest) [] out false d 1 (hexDigitValue a)
      (le_refl _) (by omega) (hexDigitValue_lt a hd.1) hd.2
    rw [List.cons_append, processFrom_braced_first resolve out _ a hd.1, hrun, hexFold_single,
      ← runState_state_one resolve rest [] _ (hexRunValue (a :: d)) false]
    have hk : d.length ≤ 5 := by omega
    generalize d.length = k at hk
    apply runState_step resolve _ _ (by simp)
    interval_cases k <;> rfl

theorem processFrom_braced_empty (resolve : Str → Except PropertyFormatError Str)
    (out rest : Str) :
    processFrom resolve out ('\\' :: 'u' :: '\x7b' :: '\x7d' :: rest) =
      some (.error ⟨[], lit "Invalid escape sequence \"\\u\x7b\x7d\""⟩) := by
  rw [processFrom_eq_runState, runState_step resolve _ _ (by simp) (step_backslash ..),
    runState_step resolve _ _ (by simp) (step_u ..),
    runState_step resolve ⟨'\x7b' :: '\x7d' :: rest, [], 5, out, 0, false⟩
      ⟨'\x7d' :: rest, [], 12, out, 0, false⟩ (by simp) rfl,
    runState_error resolve ⟨'\x7d' :: rest, [], 12, out, 0, false⟩ _ (by simp) rfl]

/-- A braced escape whose hex digits are followed by the end of the value or
by a character that is neither a hex digit nor the closing brace. -/
theorem processFrom_braced_bad (resolve : Str → Except PropertyFormatError Str)
    (out d rest : Str) (hd : d.all isHexDigit_ = true) (h6 : d.length ≤ 6)
    (hc : isHexDigit_ (rest.headD NUL) = false) (hb : rest.headD NUL ≠ '\x7d') :
    processFrom resolve out ('\\' :: 'u' :: '\x7b' :: (d ++ rest)) =
      some (.error (if rest.headD NUL = NUL then incompleteBraced
        else invalidHexDigit (rest.headD NUL))) := by
  cases d with
  | nil =>
    rw [List.nil_append, processFrom_eq_runState,
      runState_step resolve _ _ (by simp) (step_backslash ..),
      runState_step resolve _ _ (by simp) (step_u ..),
      runState_step resolve ⟨'\x7b' :: rest, [], 5, out, 0, false⟩
        ⟨rest, [], 12, out, 0, false⟩ (by simp) rfl]
    apply runState_error resolve _ _ (by simp)
    simp only [processStep, hc, Bool.not_false, if_true, if_neg hb]
    split_ifs <;> rfl
  | cons a d =>
    simp only [List.all_cons, Bool.and_eq_true] at hd
    simp only [List.length_cons] at h6
    have hrun := runState_braced_run resolve rest [] out false d 1 (hexDigitValue a)
      (le_refl _) (by omega) (hexDigitValue_lt a hd.1) hd.2
    rw [List.cons_append, processFrom_braced_first resolve out _ a hd.1, hrun]
    have hk : d.length ≤ 5 := by omega
    generalize d.length = k at hk
    apply runState_error resolve _ _ (by simp)
    interval_cases k <;>
      (simp only [processStep, hc, Bool.false_eq_true, if_false, if_neg hb, Nat.reduceAdd,
        Nat.reduceLeDiff, and_self, and_false, and_true, if_true]
       try (split_ifs <;> rfl))

/-- A braced escape with a seventh hex digit. -/
theorem processFrom_braced_too_many (resolve : Str → Except PropertyFormatError Str)
    (out d rest : Str) (c : Char) (hd : d.all isHexDigit_ = true) (h6 : d.length = 6)
    (hc : isHexDigit_ c = true) :
    processFrom resolve out ('\\' :: 'u' :: '\x7b' :: (d ++ c :: rest)) =
      some (.error ⟨[], lit "Too many hex digits in \\u\x7b\x7d escape sequence"⟩) := by
  cases d with
  | nil => simp at h6
  | cons a d =>
    simp only [List.all_cons, Bool.and_eq_true] at hd
    simp only [List.length_cons] at h6
    obtain ⟨h0, -, h2⟩ := hex_ne c hc
    have hrun := runState_braced_run resolve (c :: rest) [] out false d 1 (hexDigitValue a)
      (le_refl _) (by omega) (hexDigitValue_lt a hd.1) hd.2
    rw [List.cons_append, processFrom_braced_first resolve out _ a hd.1, hrun,
      show 12 + 1 + d.length = 18 by omega]
    apply runState_error resolve _ _ (by simp)
    simp only [processStep, List.headD_cons, if_neg h0, if_neg h2, hc, if_true]

/-- Text without `$`, backslash and NUL is copied to the output in state 1. -/
theorem processFrom_plain_run (resolve : Str → Except PropertyFormatError Str) (rest : Str) :
    ∀ (v out : Str), (∀ c ∈ v, c ≠ NUL ∧ c ≠ '$' ∧ c ≠ '\\') →
      processFrom resolve out (v ++ rest) = processFrom resolve (out ++ v) rest := by
  intro v
  induction v with
  | nil => intro out _; simp
  | cons c v ih =>
    intro out h
    obtain ⟨h0, h1, h2⟩ := h c (List.mem_cons_self _ _)
    rw [List.cons_append, processFrom_plain resolve out _ c h0 h1 h2,
      ih _ (fun x hx => h x (List.mem_cons_of_mem _ hx)), List.append_assoc,
      List.singleton_append]

/-- Text without `$` and backslash is copied to the output up to its first
NUL character, where the loop of `processValue` ends. -/
theorem processFrom_no_special (resolve : Str → Except PropertyFormatError Str) :
    ∀ (v out : Str), '$' ∉ v → '\\' ∉ v →
      processFrom resolve out v = some (.ok (out ++ v.takeWhile (fun c => c ≠ NUL))) := by
  intro v
  induction v with
  | nil => intro out _ _; simp [processFrom_nil]
  | cons c v ih =>
    intro out h1 h2
    simp only [List.mem_cons, not_or] at h1 h2
    by_cases h0 : c = NUL
    · subst h0
      rw [processFrom_nul]
      simp
    · rw [processFrom_plain resolve out _ c h0 (fun h => h1.1 h.symm) (fun h => h2.1 h.symm),
        ih _ h1.2 h2.2]
      simp [List.takeWhile_cons, h0]

theorem takeWhile_ne_nul (v : Str) (h : NUL ∉ v) : v.takeWhile (fun c => c ≠ NUL) = v := by
  rw [List.takeWhile_eq_self_iff]
  intro c hc
  simp only [ne_eq, decide_not, Bool.not_eq_true', decide_eq_false_iff_not]
  rintro rfl
  exact h hc

/-! ## Escapes and plain text: claims C11 to C15 -/

/-- Claim C11 as stated is refuted. The escape `\u` with the digits `12345` is decoded as the one
code point U+12345 (bytes F0 92 8D 85): the fifth hex digit belongs to the
escape, and the result is not the encoding of U+1234 followed by `5`. -/
theorem unicode_escape_fifth_digit_counterexample :
    processValue (fun _ => none) .empty false (lit "\\u12345") =
      some (.ok [toChar 0xF0, toChar 0x92, toChar 0x8D, toChar 0x85]) ∧
    processValue (fun _ => none) .empty false (lit "\\u12345") ≠
      some (.ok (encodeUtf8_ 0x1234 [] ++ ['5'])) := by
  decide

/-- Claim C11 as amended. A `\u` escape followed directly by hex digits
decodes at most six of them: for hex digits `d`, one to six in number, that
are the longest such run (six digits, or the text `rest` behind them does not
begin with a hex digit), `processValue` on `\u`, `d` and `rest` returns the
encoding of the value of `d` followed by `rest`, for `rest` free of `$`,
backslash and NUL.  A seventh hex digit is ordinary text; a fifth and a sixth
are part of the escape. -/
theorem processValue_unicode_escape_greedy (getenv : Str → Option Str)
    (properties : ConfigurationPropertyMap) (useEnvVars_ : Bool) (d rest : Str)
    (hd : d.all isHexDigit_ = true) (h1 : 1 ≤ d.length) (h6 : d.length ≤ 6)
    (hmax : d.length = 6 ∨ isHexDigit_ (rest.headD NUL) = false)
    (hrest : ∀ c ∈ rest, c ≠ NUL ∧ c ≠ '$' ∧ c ≠ '\\') :
    processValue getenv properties useEnvVars_ ('\\' :: 'u' :: (d ++ rest)) =
      some (.ok (encodeUtf8_ (hexRunValue d) [] ++ rest)) := by
  rw [processValue_eq_processFrom, processFrom_unicode _ _ d rest hd h1 h6 hmax]
  have := processFrom_plain_run (resolveVariable_ getenv properties useEnvVars_) []
    rest (encodeUtf8_ (hexRunValue d) []) hrest
  rw [List.append_nil] at this
  rw [this, processFrom_nil]

/-- An instance of the theorem above: of the seven digits `1234567` behind
`\u`, six are one code point and the seventh is copied. -/
theorem processValue_unicode_escape_greedy_witness :
    processValue (fun _ => none) .empty false (lit "\\u1234567") =
      some (.ok (encodeUtf8_ 0x123456 [] ++ ['7'])) :=
  processValue_unicode_escape_greedy (fun _ => none) .empty false (lit "123456") ['7']
    (by decide) (by decide) (by decide) (by decide) (by decide)

/-- Claim C12. The two escapes of the unit test `DecodeUnicodeChar` with six
hex digits, `\u` with `102347Z` and `\u` with `7F973BA`, yield the encodings of 0x102347 and
0x7F973B followed by `Z` and `A`, and the whole input of the test yields its
expected text.  In general, for hex digits `d`, one to six in number, that are
the longest such run, the loop of `processValue` standing in state 1 before
`\u`, `d`, `rest` with output `out` behaves as it does standing before `rest`
with the encoding of the value of `d` appended to `out`
(`processValue value` is `processFrom resolve [] value`). -/
theorem processValue_unicode_escape_six_digits :
    processValue (fun _ => none) .empty false (lit "\\u102347Z") =
      some (.ok (encodeUtf8_ 0x102347 [] ++ ['Z'])) ∧
    encodeUtf8_ 0x102347 [] = [toChar 0xF4, toChar 0x82, toChar 0x8D, toChar 0x87] ∧
    processValue (fun _ => none) .empty false (lit "\\u7F973BA") =
      some (.ok (encodeUtf8_ 0x7F973B [] ++ ['A'])) ∧
    encodeUtf8_ 0x7F973B [] =
      [toChar 0xF8, toChar 0x9F, toChar 0xB9, toChar 0x9C, toChar 0xBB] ∧
    processValue (fun _ => none) .empty false
      (lit "Unicode chars \\u41 \\uFF \\u84CG \\u4567 \\u102347Z \\u7F973BA") =
      some (.ok (lit "Unicode chars A " ++ [toChar 0xC3, toChar 0xBF, ' ', toChar 0xE0,
        toChar 0xA1, toChar 0x8C, 'G', ' ', toChar 0xE4, toChar 0x95, toChar 0xA7, ' ',
        toChar 0xF4, toChar 0x82, toChar 0x8D, toChar 0x87, 'Z', ' ', toChar 0xF8, toChar 0x9F,
        toChar 0xB9, toChar 0x9C, toChar 0xBB, toChar 0x41])) ∧
    (∀ (resolve : Str → Except PropertyFormatError Str) (out d rest : Str),
      d.all isHexDigit_ = true → 1 ≤ d.length → d.length ≤ 6 →
      (d.length = 6 ∨ isHexDigit_ (rest.headD NUL) = false) →
      processFrom resolve out ('\\' :: 'u' :: (d ++ rest)) =
        processFrom resolve (encodeUtf8_ (hexRunValue d) out) rest) :=
  ⟨by decide, by decide, by decide, by decide, by decide,
    fun resolve out d rest hd h1 h6 hmax => processFrom_unicode resolve out d rest hd h1 h6 hmax⟩

/-- An instance of the theorem above: the six digits `102347` before `Z`
and more text with an escape. -/
theorem processValue_unicode_escape_six_digits_witness :
    hexRunValue (lit "102347") = 0x102347 ∧
    processFrom (fun _ => .ok []) (lit "x") (lit "\\u102347Z\\n") =
      processFrom (fun _ => .ok []) (encodeUtf8_ 0x102347 (lit "x")) (lit "Z\\n") :=
  ⟨by decide,
    processValue_unicode_escape_six_digits.2.2.2.2.2 (fun _ => .ok []) (lit "x") (lit "102347")
      (lit "Z\\n") (by decide) (by decide) (by decide) (by decide)⟩

/-- The hex digits of a run of more than six: the first six and a seventh. -/
theorem hex_run_split (d : Str) (hd : d.all isHexDigit_ = true) (h : 6 < d.length) :
    ∃ (d6 : Str) (c : Char) (rest : Str), d = d6 ++ c :: rest ∧ d6.all isHexDigit_ = true ∧
      d6.length = 6 ∧ isHexDigit_ c = true := by
  have hsplit := List.take_append_drop 6 d
  cases hdrop : d.drop 6 with
  | nil =>
    have := congrArg List.length hdrop
    simp at this
    omega
  | cons c rest =>
    rw [hdrop] at hsplit
    rw [← hsplit] at hd
    simp only [List.all_append, List.all_cons, Bool.and_eq_true] at hd
    exact ⟨d.take 6, c, rest, hsplit.symm, hd.1, by simp; omega, hd.2.1⟩

/-- Claim C13. For a run `d` of hex digits, standing in state 1 with output
`out`: the braced escape `\u{`, `d`, `}` with one to six digits appends the
encoding of the value of `d` to `out` and the loop goes on behind the brace;
with no digit it throws "Invalid escape sequence"; with more than six digits
it throws "Too many hex digits"; when the digits, at most six, are followed by
the end of the value (or NUL) it throws "Incomplete", and when they are
followed by another character that is neither a hex digit nor `}` it throws
"Invalid hex digit".  So `processValue` on the escape alone succeeds exactly
when `d` has between one and six digits, and then returns the encoding of the
value of `d`. -/
theorem processValue_braced_unicode_escape (resolve : Str → Except PropertyFormatError Str)
    (out d rest : Str) (hd : d.all isHexDigit_ = true) :
    (1 ≤ d.length → d.length ≤ 6 →
      processFrom resolve out ('\\' :: 'u' :: '\x7b' :: (d ++ '\x7d' :: rest)) =
        processFrom resolve (encodeUtf8_ (hexRunValue d) out) rest) ∧
    (d = [] →
      processFrom resolve out ('\\' :: 'u' :: '\x7b' :: (d ++ '\x7d' :: rest)) =
        some (.error ⟨[], lit "Invalid escape sequence \"\\u\x7b\x7d\""⟩)) ∧
    (6 < d.length →
      processFrom resolve out ('\\' :: 'u' :: '\x7b' :: (d ++ rest)) =
        some (.error ⟨[], lit "Too many hex digits in \\u\x7b\x7d escape sequence"⟩)) ∧
    (d.length ≤ 6 → isHexDigit_ (rest.headD NUL) = false → rest.headD NUL ≠ '\x7d' →
      processFrom resolve out ('\\' :: 'u' :: '\x7b' :: (d ++ rest)) =
        some (.error (if rest.headD NUL = NUL then incompleteBraced
          else invalidHexDigit (rest.headD NUL)))) ∧
    (∀ (getenv : Str → Option Str) (properties : ConfigurationPropertyMap) (useEnvVars_ : Bool),
      ((∃ v, processValue getenv properties useEnvVars_
          ('\\' :: 'u' :: '\x7b' :: (d ++ ['\x7d'])) = some (.ok v)) ↔
        (1 ≤ d.length ∧ d.length ≤ 6)) ∧
      (1 ≤ d.length → d.length ≤ 6 →
        processValue getenv properties useEnvVars_
            ('\\' :: 'u' :: '\x7b' :: (d ++ ['\x7d'])) =
          some (.ok (encodeUtf8_ (hexRunValue d) [])))) := by
  have hmany : ∀ (resolve : Str → Except PropertyFormatError Str) (out rest : Str),
      6 < d.length →
      processFrom resolve out ('\\' :: 'u' :: '\x7b' :: (d ++ rest)) =
        some (.error ⟨[], lit "Too many hex digits in \\u\x7b\x7d escape sequence"⟩) := by
    intro resolve out rest h
    obtain ⟨d6, c, r, rfl, h6, hl, hc⟩ := hex_run_split d hd h
    rw [List.append_assoc, List.cons_append]
    exact processFrom_braced_too_many resolve out d6 _ c h6 hl hc
  have hok : ∀ resolve : Str → Except PropertyFormatError Str, 1 ≤ d.length → d.length ≤ 6 →
      processFrom resolve [] ('\\' :: 'u' :: '\x7b' :: (d ++ ['\x7d'])) =
        some (.ok (encodeUtf8_ (hexRunValue d) [])) := by
    intro resolve h1 h6
    rw [processFrom_braced resolve [] d [] hd h1 h6, processFrom_nil]
  refine ⟨fun h1 h6 => processFrom_braced resolve out d rest hd h1 h6, ?_, hmany resolve out rest,
    fun h6 hc hb => processFrom_braced_bad resolve out d rest hd h6 hc hb, ?_⟩
  · rintro rfl
    exact processFrom_braced_empty resolve out rest
  · intro getenv properties useEnvVars_
    rw [processValue_eq_processFrom]
    refine ⟨⟨?_, ?_⟩, hok _⟩
    · rintro ⟨v, hv⟩
      by_contra hne
      have hcases : d = [] ∨ 6 < d.length := by
        cases d with
        | nil => exact Or.inl rfl
        | cons a d => right; simp only [List.length_cons] at hne ⊢; omega
      rcases hcases with rfl | h
      · rw [List.nil_append, processFrom_braced_empty] at hv
        cases hv
      · rw [hmany _ _ _ h] at hv
        cases hv
    · rintro ⟨h1, h6⟩
      exact ⟨_, hok _ h1 h6⟩

/-- An instance of the theorem above: the escape with the six digits
`7f973b` of the unit test `DecodeEnclosedUnicodeChar`, followed by `a`; the
input of the test yields its expected text. -/
theorem processValue_braced_unicode_escape_witness :
    hexRunValue (lit "7f973b") = 0x7F973B ∧
    processFrom (fun _ => .ok []) [] (lit "\\u\x7b7f973b\x7da") =
      processFrom (fun _ => .ok []) (encodeUtf8_ 0x7F973B []) ['a'] ∧
    processValue (fun _ => none) .empty false
        (lit ("Unicode chars \\u\x7b41\x7d \\u\x7bff\x7d \\u\x7b84c\x7dg " ++
          "\\u\x7b4567\x7d \\u\x7b102347\x7da \\u\x7b7f973b\x7da")) =
      some (.ok (lit "Unicode chars A " ++ [toChar 0xC3, toChar 0xBF, ' ', toChar 0xE0,
        toChar 0xA1, toChar 0x8C, 'g', ' ', toChar 0xE4, toChar 0x95, toChar 0xA7, ' ',
        toChar 0xF4, toChar 0x82, toChar 0x8D, toChar 0x87, 'a', ' ', toChar 0xF8, toChar 0x9F,
        toChar 0xB9, toChar 0x9C, toChar 0xBB, 'a'])) :=
  ⟨by decide,
    (processValue_braced_unicode_escape (fun _ => .ok []) [] (lit "7f973b") ['a']
      (by decide)).1 (by decide) (by decide),
    by decide⟩

/-- Claim C14 as stated is refuted. After a backslash the NUL character is
not emitted: the loop of `processValue` takes it for the end of the value,
emits the backslash and stops, so the text behind it is lost. -/
theorem escape_nul_counterexample :
    processValue (fun _ => none) .empty false ['\\', NUL, 'x'] = some (.ok ['\\']) ∧
    processValue (fun _ => none) .empty false ['\\', NUL, 'x'] ≠ some (.ok [NUL, 'x']) := by
  decide

/-- Claim C14 as amended. Standing in state 1 with output `out` before a
backslash and a character `c` other than `u` and NUL, the loop of
`processValue` appends a newline for `n`, a tab for `t`, a carriage return for
`r` and `c` itself otherwise, and goes on in state 1 behind `c`; so two
backslashes give one, and a backslash and `$` give a `$` that starts no
substitution.  A backslash at the end of the value, or before a NUL
character, is emitted as a backslash and ends the processing. -/
theorem processValue_escape_character (resolve : Str → Except PropertyFormatError Str)
    (out rest : Str) (c : Char) (h0 : c ≠ NUL) (hu : c ≠ 'u') :
    processFrom resolve out ('\\' :: c :: rest) =
      processFrom resolve
        (out ++ [if c = 'n' then '\n' else if c = 't' then '\t' else if c = 'r' then '\r' else c])
        rest ∧
    processFrom resolve out ('\\' :: '\\' :: rest) = processFrom resolve (out ++ ['\\']) rest ∧
    processFrom resolve out ('\\' :: '$' :: rest) = processFrom resolve (out ++ ['$']) rest ∧
    processFrom resolve out ['\\'] = some (.ok (out ++ ['\\'])) ∧
    processFrom resolve out ('\\' :: NUL :: rest) = some (.ok (out ++ ['\\'])) :=
  ⟨processFrom_escape resolve out rest c h0 hu,
    processFrom_escape resolve out rest '\\' (by decide) (by decide),
    processFrom_escape resolve out rest '$' (by decide) (by decide),
    processFrom_backslash_end resolve out,
    processFrom_backslash_nul resolve out rest⟩

/-- An instance of the theorem above: the escaped `$` of the unit test
`DecodeEscapeSequence`, whose input yields the expected text. -/
theorem processValue_escape_character_witness :
    processFrom (resolveVariable_ (fun _ => none) .empty false) (lit "x")
        (lit "\\$\x7babc\x7d") =
      processFrom (resolveVariable_ (fun _ => none) .empty false) (lit "x$") (lit "\x7babc\x7d") ∧
    processValue (fun _ => none) .empty false
        (lit "Some escaped chars \\t:\\r\\n\\$\x7babc\x7d blah \\") =
      some (.ok (lit "Some escaped chars \t:\r\n$\x7babc\x7d blah \\")) :=
  ⟨(processValue_escape_character (resolveVariable_ (fun _ => none) .empty false) (lit "x")
      (lit "\x7babc\x7d") '$' (by decide) (by decide)).1,
    by decide⟩

/-- Claim C15 as stated is refuted. A value without `$` and backslash that
holds a NUL character is cut off there: the loop of `processValue` takes the
NUL for the end of the value. -/
theorem plain_value_nul_counterexample :
    '$' ∉ ['a', NUL, 'b'] ∧ '\\' ∉ ['a', NUL, 'b'] ∧
    processValue (fun _ => none) .empty false ['a', NUL, 'b'] = some (.ok ['a']) := by
  decide

/-- Claim C15 as amended. For every value `v` that contains neither `$` nor
a backslash, `processValue` returns `v` up to its first NUL character, for
any property mapping and either environment setting; so it returns `v`
itself when `v` holds no NUL character either. -/
theorem processValue_plain_value (getenv : Str → Option Str)
    (properties : ConfigurationPropertyMap) (useEnvVars_ : Bool) (v : Str)
    (h1 : '$' ∉ v) (h2 : '\\' ∉ v) :
    processValue getenv properties useEnvVars_ v =
      some (.ok (v.takeWhile (fun c => c ≠ NUL))) ∧
    (NUL ∉ v → processValue getenv properties useEnvVars_ v = some (.ok v)) := by
  have h := processFrom_no_special (resolveVariable_ getenv properties useEnvVars_) v [] h1 h2
  rw [List.nil_append] at h
  refine ⟨h, fun h0 => ?_⟩
  rw [processValue_eq_processFrom, h, takeWhile_ne_nul v h0]

/-- An instance of the theorem above: a value with braces, quotes and
blanks but no `$`, backslash or NUL. -/
theorem processValue_plain_value_witness :
    processValue (fun _ => some (lit "env"))
        (ConfigurationPropertyMap.empty.add ⟨lit "p", lit "1", lit "app.cfg", 1⟩) true
        (lit " \x7bp\x7d = \"1\" ") =
      some (.ok (lit " \x7bp\x7d = \"1\" ")) :=
  (processValue_plain_value (fun _ => some (lit "env"))
    (ConfigurationPropertyMap.empty.add ⟨lit "p", lit "1", lit "app.cfg", 1⟩) true
    (lit " \x7bp\x7d = \"1\" ") (by decide) (by decide)).2 (by decide)

/-! ## UTF-8 encoding: claim C16 -/

theorem toChar_toNat (x : Nat) : (toChar x).toNat = x % 256 := by
  have h : x % 256 < 256 := Nat.mod_lt _ (by norm_num)
  unfold toChar
  generalize x % 256 = y at h
  interval_cases y <;> rfl

theorem or_continuation (y : Nat) (h : y < 64) : 0x80 ||| y = 128 + y := by
  interval_cases y <;> rfl

theorem or_lead2 (y : Nat) (h : y < 32) : 0xC0 ||| y = 192 + y := by
  interval_cases y <;> rfl

theorem or_lead3 (y : Nat) (h : y < 16) : 0xE0 ||| y = 224 + y := by
  interval_cases y <;> rfl

theorem or_lead4 (y : Nat) (h : y < 8) : 0xF0 ||| y = 240 + y := by
  interval_cases y <;> rfl

theorem or_lead5 (y : Nat) (h : y < 4) : 0xF8 ||| y = 248 + y := by
  interval_cases y <;> rfl

theorem or_lead6 (y : Nat) (h : y < 2) : 0xFC ||| y = 252 + y := by
  interval_cases y <;> rfl

theorem and_63 (x : Nat) : x &&& 0x3F = x % 64 := Nat.and_pow_two_sub_one_eq_mod x 6

theorem continuation_byte (x : Nat) :
    (toChar (0x80 ||| (x &&& 0x3F))).toNat = 128 + x % 64 := by
  rw [toChar_toNat, and_63, or_continuation _ (Nat.mod_lt _ (by norm_num))]
  omega

theorem encodeUtf8_append (c : Nat) (out : Str) :
    encodeUtf8_ c out = out ++ encodeUtf8_ c [] := by
  unfold encodeUtf8_
  split_ifs <;> simp

theorem encodeUtf8_length (c : Nat) :
    (encodeUtf8_ c []).length = if c ≤ 0x7FFFFFFF then utf8Length c else 0 := by
  unfold encodeUtf8_ utf8Length
  split_ifs <;> first | rfl | omega

theorem decodeContinuation_cons (k acc x : Nat) (bytes : List Nat) (h : x < 64) :
    decodeContinuation (k + 1) acc ((128 + x) :: bytes) =
      decodeContinuation k (acc * 64 + x) bytes := by
  show (if 0x80 ≤ 128 + x ∧ 128 + x < 0xC0 then
      decodeContinuation k (acc * 64 + (128 + x - 0x80)) bytes else none) = _
  rw [if_pos (by omega), Nat.add_sub_cancel_left]

theorem decodeUtf8_one (x : Nat) (more : List Nat) (h : x < 128) :
    decodeUtf8 (x :: more) = some (x, more) := by
  rw [decodeUtf8, if_pos h]

theorem decodeUtf8_two (x0 x1 : Nat) (more : List Nat) (h0 : x0 < 32) (h1 : x1 < 64)
    (hmin : 0x80 ≤ x0 * 64 + x1) :
    decodeUtf8 ((192 + x0) :: (128 + x1) :: more) = some (x0 * 64 + x1, more) := by
  rw [decodeUtf8, if_neg (by omega), if_neg (by omega), if_pos (by omega),
    Nat.add_sub_cancel_left, decodeContinuation_cons _ _ _ _ h1, decodeContinuation,
    rejectOverlong, if_pos hmin]

theorem decodeUtf8_three (x0 x1 x2 : Nat) (more : List Nat) (h0 : x0 < 16) (h1 : x1 < 64)
    (h2 : x2 < 64) (hmin : 0x800 ≤ (x0 * 64 + x1) * 64 + x2) :
    decodeUtf8 ((224 + x0) :: (128 + x1) :: (128 + x2) :: more) =
      some ((x0 * 64 + x1) * 64 + x2, more) := by
  rw [decodeUtf8, if_neg (by omega), if_neg (by omega), if_neg (by omega), if_pos (by omega),
    Nat.add_sub_cancel_left, decodeContinuation_cons _ _ _ _ h1,
    decodeContinuation_cons _ _ _ _ h2, decodeContinuation, rejectOverlong, if_pos hmin]

theorem decodeUtf8_four (x0 x1 x2 x3 : Nat) (more : List Nat) (h0 : x0 < 8) (h1 : x1 < 64)
    (h2 : x2 < 64) (h3 : x3 < 64) (hmin : 0x10000 ≤ ((x0 * 64 + x1) * 64 + x2) * 64 + x3) :
    decodeUtf8 ((240 + x0) :: (128 + x1) :: (128 + x2) :: (128 + x3) :: more) =
      some (((x0 * 64 + x1) * 64 + x2) * 64 + x3, more) := by
  rw [decodeUtf8, if_neg (by omega), if_neg (by omega), if_neg (by omega), if_neg (by omega),
    if_pos (by omega), Nat.add_sub_cancel_left, decodeContinuation_cons _ _ _ _ h1,
    decodeContinuation_cons _ _ _ _ h2, decodeContinuation_cons _ _ _ _ h3, decodeContinuation,
    rejectOverlong, if_pos hmin]

theorem decodeUtf8_five (x0 x1 x2 x3 x4 : Nat) (more : List Nat) (h0 : x0 < 4) (h1 : x1 < 64)
    (h2 : x2 < 64) (h3 : x3 < 64) (h4 : x4 < 64)
    (hmin : 0x200000 ≤ (((x0 * 64 + x1) * 64 + x2) * 64 + x3) * 64 + x4) :
    decodeUtf8 ((248 + x0) :: (128 + x1) :: (128 + x2) :: (128 + x3) :: (128 + x4) :: more) =
      some ((((x0 * 64 + x1) * 64 + x2) * 64 + x3) * 64 + x4, more) := by
  rw [decodeUtf8, if_neg (by omega), if_neg (by omega), if_neg (by omega), if_neg (by omega),
    if_neg (by omega), if_pos (by omega), Nat.add_sub_cancel_left,
    decodeContinuation_cons _ _ _ _ h1, decodeContinuation_cons _ _ _ _ h2,
    decodeContinuation_cons _ _ _ _ h3, decodeContinuation_cons _ _ _ _ h4, decodeContinuation,
    rejectOverlong, if_pos hmin]

theorem decodeUtf8_six (x0 x1 x2 x3 x4 x5 : Nat) (more : List Nat) (h0 : x0 < 2) (h1 : x1 < 64)
    (h2 : x2 < 64) (h3 : x3 < 64) (h4 : x4 < 64) (h5 : x5 < 64)
    (hmin : 0x4000000 ≤ ((((x0 * 64 + x1) * 64 + x2) * 64 + x3) * 64 + x4) * 64 + x5) :
    decodeUtf8 ((252 + x0) :: (128 + x1) :: (128 + x2) :: (128 + x3) :: (128 + x4) ::
        (128 + x5) :: more) =
      some (((((x0 * 64 + x1) * 64 + x2) * 64 + x3) * 64 + x4) * 64 + x5, more) := by
  rw [decodeUtf8, if_neg (by omega), if_neg (by omega), if_neg (by omega), if_neg (by omega),
    if_neg (by omega), if_neg (by omega), if_pos (by omega), Nat.add_sub_cancel_left,
    decodeContinuation_cons _ _ _ _ h1, decodeContinuation_cons _ _ _ _ h2,
    decodeContinuation_cons _ _ _ _ h3, decodeContinuation_cons _ _ _ _ h4,
    decodeContinuation_cons _ _ _ _ h5, decodeContinuation, rejectOverlong, if_pos hmin]

theorem lead_byte2 (c : Nat) (h : c ≤ 0x7FF) :
    (toChar (0xC0 ||| (c >>> 6))).toNat = 192 + c / 64 := by
  rw [toChar_toNat, Nat.shiftRight_eq_div_pow, or_lead2 _ (by omega)]
  omega

theorem lead_byte3 (c : Nat) (h : c ≤ 0xFFFF) :
    (toChar (0xE0 ||| (c >>> 12))).toNat = 224 + c / 4096 := by
  rw [toChar_toNat, Nat.shiftRight_eq_div_pow, or_lead3 _ (by omega)]
  omega

theorem lead_byte4 (c : Nat) (h : c ≤ 0x1FFFFF) :
    (toChar (0xF0 ||| (c >>> 18))).toNat = 240 + c / 262144 := by
  rw [toChar_toNat, Nat.shiftRight_eq_div_pow, or_lead4 _ (by omega)]
  omega

theorem lead_byte5 (c : Nat) (h : c ≤ 0x3FFFFFF) :
    (toChar (0xF8 ||| (c >>> 24))).toNat = 248 + c / 16777216 := by
  rw [toChar_toNat, Nat.shiftRight_eq_div_pow, or_lead5 _ (by omega)]
  omega

theorem lead_byte6 (c : Nat) (h : c ≤ 0x7FFFFFFF) :
    (toChar (0xFC ||| (c >>> 30))).toNat = 252 + c / 1073741824 := by
  rw [toChar_toNat, Nat.shiftRight_eq_div_pow, or_lead6 _ (by omega)]
  omega

theorem continuation_byte_shift (x k : Nat) :
    (toChar (0x80 ||| ((x >>> k) &&& 0x3F))).toNat = 128 + x / 2 ^ k % 64 := by
  rw [continuation_byte, Nat.shiftRight_eq_div_pow]

theorem decodeUtf8_encodeUtf8 (c : Nat) (hc : c ≤ 0x7FFFFFFF) (more : List Nat) :
    decodeUtf8 ((encodeUtf8_ c []).map Char.toNat ++ more) = some (c, more) := by
  unfold encodeUtf8_
  have m64 : ∀ x : Nat, x % 64 < 64 := fun x => Nat.mod_lt _ (by norm_num)
  split_ifs with h1 h2 h3 h4 h5
  · simp only [List.nil_append, List.map_cons, List.map_nil, List.cons_append, toChar_toNat]
    rw [Nat.mod_eq_of_lt (by omega), decodeUtf8_one _ _ (by omega)]
  · simp only [List.nil_append, List.map_cons, List.map_nil, List.cons_append,
      continuation_byte, lead_byte2 c h2]
    rw [decodeUtf8_two _ _ _ (by omega) (m64 _) (by omega)]
    congr 2
    omega
  · simp only [List.nil_append, List.map_cons, List.map_nil, List.cons_append,
      continuation_byte, continuation_byte_shift, lead_byte3 c h3]
    rw [decodeUtf8_three _ _ _ _ (by omega) (m64 _) (m64 _) (by omega)]
    congr 2
    omega
  · simp only [List.nil_append, List.map_cons, List.map_nil, List.cons_append,
      continuation_byte, continuation_byte_shift, lead_byte4 c h4]
    rw [decodeUtf8_four _ _ _ _ _ (by omega) (m64 _) (m64 _) (m64 _) (by omega)]
    congr 2
    omega
  · simp only [List.nil_append, List.map_cons, List.map_nil, List.cons_append,
      continuation_byte, continuation_byte_shift, lead_byte5 c h5]
    rw [decodeUtf8_five _ _ _ _ _ _ (by omega) (m64 _) (m64 _) (m64 _) (m64 _)
      (by omega)]
    congr 2
    omega
  · simp only [List.nil_append, List.map_cons, List.map_nil, List.cons_append,
      continuation_byte, continuation_byte_shift, lead_byte6 c hc]
    rw [decodeUtf8_six _ _ _ _ _ _ _ (by omega) (m64 _) (m64 _) (m64 _) (m64 _) (m64 _)
      (by omega)]
    congr 2
    omega

/-- Claim C16. For every code point `c` up to 0x7FFFFFFF, `encodeUtf8_`
appends to the output a sequence of 1, 2, 3, 4, 5 or 6 bytes (for `c` up to
0x7F, 0x7FF, 0xFFFF, 0x1FFFFF, 0x3FFFFFF and 0x7FFFFFFF), and a standard
decoder of legacy UTF-8 reads exactly `c` from these bytes, whatever bytes
follow them. -/
theorem encodeUtf8_round_trip (c : Nat) (out : Str) (hc : c ≤ 0x7FFFFFFF) :
    encodeUtf8_ c out = out ++ encodeUtf8_ c [] ∧
    (encodeUtf8_ c []).length = utf8Length c ∧
    (1 ≤ utf8Length c ∧ utf8Length c ≤ 6) ∧
    ∀ more : List Nat,
      decodeUtf8 ((encodeUtf8_ c []).map Char.toNat ++ more) = some (c, more) := by
  refine ⟨encodeUtf8_append c out, ?_, ?_, decodeUtf8_encodeUtf8 c hc⟩
  · rw [encodeUtf8_length, if_pos hc]
  · unfold utf8Length
    split_ifs <;> omega

/-- An instance of the theorem above: the code point 0x7F973B of the unit
tests, encoded in five bytes behind the output `x`. -/
theorem encodeUtf8_round_trip_witness :
    encodeUtf8_ 0x7F973B ['x'] =
      ['x', toChar 0xF8, toChar 0x9F, toChar 0xB9, toChar 0x9C, toChar 0xBB] ∧
    decodeUtf8 [0xF8, 0x9F, 0xB9, 0x9C, 0xBB, 0x41] = some (0x7F973B, [0x41]) :=
  ⟨(encodeUtf8_round_trip 0x7F973B ['x'] (by decide)).1.trans (by decide),
    (encodeUtf8_round_trip 0x7F973B ['x'] (by decide)).2.2.2 [0x41]⟩

/-! ## Values over several lines: claims C17 and C18 -/

namespace ConfigFileLexer

theorem drop_takeWhile_length {α : Type} (p : α → Bool) (l : List α) :
    l.drop (l.takeWhile p).length = l.dropWhile p := by
  induction l with
  | nil => rfl
  | cons a l ih =>
    by_cases h : p a = true
    · simp [List.takeWhile_cons, List.dropWhile_cons, h, ih]
    · simp [List.takeWhile_cons, List.dropWhile_cons, h]

/-- The text that `parseValue_` takes for the value on the current line: the
rest of the line behind its leading whitespace. -/
theorem drop_skip (lx : ConfigFileLexer) :
    lx.text_.drop (lx.current_ + (lx.remaining.takeWhile isSpace).length) =
      lx.remaining.dropWhile isSpace := by
  rw [← List.drop_drop, ← drop_takeWhile_length]
  rfl

theorem skip_le (lx : ConfigFileLexer) (hcur : lx.current_ ≤ lx.text_.length) :
    lx.current_ + (lx.remaining.takeWhile isSpace).length ≤ lx.text_.length := by
  have := takeWhile_length_le isSpace lx.remaining
  rw [remaining_length] at this
  omega

theorem parseValue_ends (lx : ConfigFileLexer) (hcur : lx.current_ ≤ lx.text_.length)
    (h : (lx.remaining.dropWhile isSpace).getLast? ≠ some '\\') :
    parseValue_ lx false =
      (⟨.VALUE, rstrip (lx.remaining.dropWhile isSpace), lx.line_,
         incInt lx.column_ (lx.remaining.takeWhile isSpace).length⟩,
       { lx with current_ := lx.text_.length, column_ := wrapInt (lx.text_.length + 1),
                 state_ := .AT_TEXT }) := by
  have hd := drop_skip lx
  have hle := skip_le lx hcur
  unfold parseValue_ skipWhitespaceInLine_
  simp only
  rw [if_pos, hd]
  simp only [Bool.false_or, Bool.or_eq_true, decide_eq_true_eq]
  by_cases he : lx.text_.length = lx.current_ + (lx.remaining.takeWhile isSpace).length
  · exact Or.inl he
  · right
    intro hl
    apply h
    rw [← hd]
    have hsplit := List.take_append_drop
      (lx.current_ + (lx.remaining.takeWhile isSpace).length) lx.text_
    rw [← hsplit] at hl
    rw [List.getLast?_append_of_ne_nil] at hl
    · exact hl
    · intro hnil
      have := congrArg List.length hnil
      simp at this
      omega

theorem parseValue_ends_valid (lx : ConfigFileLexer) (hv : lx.Valid)
    (h : (lx.remaining.dropWhile isSpace).getLast? ≠ some '\\') :
    parseValue_ lx false =
      (⟨.VALUE, rstrip (lx.remaining.dropWhile isSpace), lx.line_,
         incInt lx.column_ (lx.remaining.takeWhile isSpace).length⟩,
       { lx with current_ := lx.text_.length, column_ := wrapInt (lx.text_.length + 1),
                 state_ := .AT_TEXT }) := by
  rcases hv with hcur | hnil
  · exact parseValue_ends lx hcur h
  · obtain ⟨input, line, column, text, current, state⟩ := lx
    simp only at hnil
    subst hnil
    unfold parseValue_ skipWhitespaceInLine_ remaining
    simp

theorem remaining_cur (lx : ConfigFileLexer) (h : lx.remaining ≠ []) :
    lx.current_ ≤ lx.text_.length := by
  by_contra hlt
  apply h
  unfold remaining
  rw [List.drop_eq_nil_iff]
  omega

end ConfigFileLexer

namespace ConfigFileLexer

theorem parseValue_continues (lx : ConfigFileLexer) (hcur : lx.current_ ≤ lx.text_.length)
    (b : Str) (h : lx.remaining.dropWhile isSpace = b ++ ['\\']) :
    parseValue_ lx false =
      (⟨.VALUE,
         rstrip (continueValue lx.input_.lines b
           ⟨lx.input_, lx.line_, wrapInt (lx.text_.length + 1), lx.text_, lx.text_.length - 1,
             .AT_TEXT⟩).1,
         lx.line_, incInt lx.column_ (lx.remaining.takeWhile isSpace).length⟩,
       (continueValue lx.input_.lines b
           ⟨lx.input_, lx.line_, wrapInt (lx.text_.length + 1), lx.text_, lx.text_.length - 1,
             .AT_TEXT⟩).2) := by
  have hd := drop_skip lx
  have hle := skip_le lx hcur
  rw [h] at hd
  have hsplit := List.take_append_drop
    (lx.current_ + (lx.remaining.takeWhile isSpace).length) lx.text_
  rw [hd] at hsplit
  have hlen : lx.text_.length =
      lx.current_ + (lx.remaining.takeWhile isSpace).length + (b.length + 1) := by
    have := congrArg List.length hsplit
    simp only [List.length_append, List.length_take, List.length_singleton] at this
    omega
  have hlast : lx.text_.getLast? = some '\\' := by
    rw [← hsplit, ← List.append_assoc, List.getLast?_append_of_ne_nil _ (by simp)]
    rfl
  have hbody : (lx.text_.take (lx.text_.length - 1)).drop
      (lx.current_ + (lx.remaining.takeWhile isSpace).length) = b := by
    generalize lx.current_ + (lx.remaining.takeWhile isSpace).length = start at hsplit hlen hle
    generalize lx.text_ = text at hsplit hlen hle
    have hP : (text.take start).length = start := by
      rw [List.length_take]
      omega
    generalize text.take start = pre at hsplit hP
    subst hsplit
    rw [← List.append_assoc, List.take_left' (by simp), List.drop_left' hP]
  unfold parseValue_ skipWhitespaceInLine_
  simp only
  rw [if_neg, hbody]
  simp only [Bool.false_or, Bool.or_eq_true, decide_eq_true_eq, not_or]
  exact ⟨by omega, fun hne => hne hlast⟩

end ConfigFileLexer

namespace ConfigFileLexer

theorem readNextLine_cons (lx : ConfigFileLexer) (l : Str) (ls : List Str)
    (hgood : lx.input_.good = true) (hlines : lx.input_.lines = l :: ls) :
    readNextLine_ lx =
      (true, ⟨⟨ls, lx.input_.unterminated, !(ls.isEmpty && lx.input_.unterminated)⟩,
        incInt lx.line_ 1, 1, l, 0, .AT_START⟩) := by
  unfold readNextLine_ getline
  simp only [hgood, hlines, Bool.not_true, Bool.false_eq_true, if_false, if_true]

/-- The `while (readNextLine_())` loop of `parseValue_` on a stream that holds
the lines `mid`, each with a final backslash, then a line `last` without one:
the loop adds them to the value and stops at the end of `last`. -/
theorem continueValue_lines (last : Str) (more : List Str) (hlast : last.getLast? ≠ some '\\') :
    ∀ (mid : List Str) (value : Str) (lx : ConfigFileLexer),
      lx.input_.good = true →
      lx.input_.lines = mid.map (fun l => l ++ ['\\']) ++ last :: more →
      continueValue lx.input_.lines value lx =
        ((mid ++ [last]).foldl (fun acc l => acc ++ ['\n'] ++ l) value,
         ⟨⟨more, lx.input_.unterminated, !(more.isEmpty && lx.input_.unterminated)⟩,
           incInt lx.line_ (mid.length + 1), wrapInt ((last.length : Int) + 1), last,
           last.length, .AT_TEXT⟩) := by
  intro mid
  induction mid with
  | nil =>
    intro value lx hgood hlines
    simp only [List.map_nil, List.nil_append] at hlines
    rw [hlines]
    simp only [continueValue, readNextLine_cons lx last more hgood hlines, Bool.not_true,
      Bool.false_eq_true, if_false]
    rw [if_pos (by simp [hlast])]
    simp
  | cons m mid ih =>
    intro value lx hgood hlines
    simp only [List.map_cons, List.cons_append] at hlines
    rw [hlines]
    simp only [continueValue, readNextLine_cons lx _ _ hgood hlines, Bool.not_true,
      Bool.false_eq_true, if_false]
    rw [if_neg (by simp)]
    simp only [List.dropLast_concat]
    have := ih (value ++ ['\n'] ++ m)
      ⟨⟨mid.map (fun l => l ++ ['\\']) ++ last :: more, lx.input_.unterminated,
          !((mid.map (fun l => l ++ ['\\']) ++ last :: more).isEmpty && lx.input_.unterminated)⟩,
        incInt lx.line_ 1, 1, m, 0, .AT_START⟩ (by simp) rfl
    simp only at this
    rw [this]
    simp only [List.cons_append, List.foldl_cons, List.length_cons, Prod.mk.injEq, true_and]
    congr 1
    rw [incInt_add, Nat.add_comm 1]
end ConfigFileLexer

namespace ConfigFileLexer

theorem readNextLine_moves (lx : ConfigFileLexer) :
    ((readNextLine_ lx).1 = false ∧ (readNextLine_ lx).2.state_ = .AT_EOF) ∨
    ((readNextLine_ lx).1 = true ∧ (readNextLine_ lx).2.line_ = incInt lx.line_ 1 ∧
      (readNextLine_ lx).2.input_.lines.length + 1 = lx.input_.lines.length) := by
  unfold readNextLine_ getline
  by_cases hg : lx.input_.good = true
  · cases hl : lx.input_.lines with
    | nil =>
      left
      simp [hg]
    | cons l ls =>
      right
      simp [hg]
  · left
    simp only [Bool.not_eq_true] at hg
    simp [hg]

theorem linesRead_zero (lx : ConfigFileLexer) : lx.LinesRead lx 0 := ⟨rfl, rfl⟩

theorem linesRead_trans {a b c : ConfigFileLexer} {j k : Nat} (h1 : a.LinesRead b j)
    (h2 : b.LinesRead c k) : a.LinesRead c (j + k) := by
  refine ⟨?_, ?_⟩
  · rw [h2.1, h1.1, incInt_add]
  · have := h1.2
    have := h2.2
    omega

/-- Where the line numbers do not overflow, reading `k` lines adds `k` to the
line number, and the line numbers of the rest do not overflow either. -/
theorem linesRead_inRange {a b : ConfigFileLexer} {k : Nat} (h : a.LinesRead b k)
    (ha : a.LinesInRange) : b.line_ = a.line_ + k ∧ b.LinesInRange := by
  have hk : (k : Int) ≤ a.input_.lines.length := by
    have := h.2
    omega
  have hline : b.line_ = a.line_ + k := by
    rw [h.1]
    exact incInt_of_le ha.1 (by have := ha.2; omega)
  refine ⟨hline, ?_, ?_⟩
  · have := ha.1
    unfold InIntRange at this ⊢
    have := ha.2
    omega
  · have := ha.2
    have := h.2
    omega

/-- The loop of `parseValue_` that reads further lines leaves the lexer at the
end of the file, or has read one or more lines. -/
theorem continueValue_moves : ∀ (lines : List Str) (value : Str) (lx : ConfigFileLexer),
    (continueValue lines value lx).2.state_ = .AT_EOF ∨
      ∃ k, 1 ≤ k ∧ lx.LinesRead (continueValue lines value lx).2 k
  | [], value, lx => by
    simp only [continueValue]
    rcases readNextLine_moves lx with h | h
    · exact Or.inl h.2
    · exact Or.inr ⟨1, Nat.le_refl _, h.2.1, h.2.2⟩
  | _ :: lines, value, lx => by
    simp only [continueValue]
    rcases readNextLine_moves lx with h | h
    · left
      simp only [h.1, Bool.not_false, if_true]
      exact h.2
    · simp only [h.1, Bool.not_true, Bool.false_eq_true, if_false]
      split
      · exact Or.inr ⟨1, Nat.le_refl _, h.2.1, h.2.2⟩
      · have ih := continueValue_moves lines
          (value ++ ['\n'] ++ (readNextLine_ lx).2.text_.dropLast)
          { (readNextLine_ lx).2 with text_ := (readNextLine_ lx).2.text_.dropLast }
        rcases ih with ih | ⟨k, hk, ih⟩
        · exact Or.inl ih
        · refine Or.inr ⟨1 + k, by omega, ?_⟩
          exact linesRead_trans (a := lx)
            (b := { (readNextLine_ lx).2 with text_ := (readNextLine_ lx).2.text_.dropLast })
            ⟨h.2.1, h.2.2⟩ ih

theorem takeWhile_of_append {α : Type} (p : α → Bool) (ws r : List α)
    (hws : ws.all p = true) (hr : ∀ c ∈ r.head?, p c = false) :
    (ws ++ r).takeWhile p = ws ∧ (ws ++ r).dropWhile p = r := by
  induction ws with
  | nil =>
    cases r with
    | nil => exact ⟨rfl, rfl⟩
    | cons c r =>
      have := hr c (by simp)
      simp [List.takeWhile_cons, List.dropWhile_cons, this]
  | cons a ws ih =>
    simp only [List.all_cons, Bool.and_eq_true] at hws
    have := ih hws.2
    simp [List.takeWhile_cons, List.dropWhile_cons, hws.1, this.1, this.2]

end ConfigFileLexer

/-- Claim C18 as stated is refuted. The line `a=x\\` ends in a backslash
that is escaped by the backslash before it, yet the value does not end on that
line: the lexer drops the last backslash and continues with the next line,
`b=2`, which is not lexed as a statement of its own; the parser stores `a`
with the text of both lines and no `b`. -/
theorem escaped_backslash_continues_counterexample :
    ((ConfigFileLexer.create (IStream.ofText (lit "a=x\\\\\nb=2\n")) 1
        1).next.2.next.2.parseNextAsValue.next).1 =
      ⟨.VALUE, lit "x\\\nb=2", 1, 3⟩ ∧
    ((ConfigFileLexer.create (IStream.ofText (lit "a=x\\\\\nb=2\n")) 1
        1).next.2.next.2.parseNextAsValue.next).2.next.1 =
      ⟨.END_OF_FILE, [], 2, 4⟩ ∧
    ((ConfigFileParser.create true .DUP_ERROR .DUP_IGNORE).parseText (plainWorld noFiles)
        (lit "app.cfg") (lit "a=x\\\\\nb=2\n") 1 1).map (fun r => r.outcome) =
      some (.ok ⟨[(lit "a", ⟨lit "a", lit "x\nb=2", lit "app.cfg", 1⟩)]⟩) := by
  decide

/-- Claim C18 as amended. In value mode a lexer in a valid state continues
the value onto the next line exactly when the rest of the current line behind its leading
whitespace ends in a backslash, whether or not another backslash stands
before it.  When that rest does not end in a backslash, `next()` returns it,
stripped of trailing whitespace, and the lexer stays on the line, at its end
and in text mode; when it does, the lexer leaves the line: it ends at the end
of the file or has read one or more further lines, so that it is on a later
line (its line number is greater, unless line numbers leave the range of
`int`, where `++line_` wraps).  With a next line `l` that has no final
backslash, a rest `b` and a backslash give the value `b`, newline, `l`, also
when `b` itself ends in a backslash. -/
theorem next_value_continues_iff_backslash (lx : ConfigFileLexer)
    (hstate : lx.state_ = .AT_VALUE) (hv : lx.Valid) :
    ((lx.remaining.dropWhile isSpace).getLast? ≠ some '\\' →
      lx.next =
        (⟨.VALUE, rstrip (lx.remaining.dropWhile isSpace), lx.line_,
           incInt lx.column_ (lx.remaining.takeWhile isSpace).length⟩,
         { lx with current_ := lx.text_.length, column_ := wrapInt (lx.text_.length + 1),
                   state_ := .AT_TEXT })) ∧
    ((lx.remaining.dropWhile isSpace).getLast? = some '\\' →
      lx.next.2.state_ = .AT_EOF ∨ ∃ k, 1 ≤ k ∧ lx.LinesRead lx.next.2 k) ∧
    ((lx.remaining.dropWhile isSpace).getLast? = some '\\' → lx.LinesInRange →
      lx.next.2.state_ = .AT_EOF ∨ lx.line_ < lx.next.2.line_) ∧
    ((lx.next.2.state_ = .AT_TEXT ∧ lx.next.2.input_ = lx.input_) ↔
      (lx.remaining.dropWhile isSpace).getLast? ≠ some '\\') ∧
    (lx.LinesInRange →
      ((lx.next.2.state_ = .AT_TEXT ∧ lx.next.2.line_ = lx.line_) ↔
        (lx.remaining.dropWhile isSpace).getLast? ≠ some '\\')) ∧
    (∀ (b l : Str) (more : List Str), lx.remaining.dropWhile isSpace = b ++ ['\\'] →
      lx.input_.good = true → lx.input_.lines = l :: more → l.getLast? ≠ some '\\' →
      lx.next.1 = ⟨.VALUE, rstrip (b ++ '\n' :: l), lx.line_,
        incInt lx.column_ (lx.remaining.takeWhile isSpace).length⟩ ∧
      lx.next.2.line_ = incInt lx.line_ 1 ∧ lx.next.2.text_ = l) := by
  have hnext : lx.next = ConfigFileLexer.parseValue_ lx false := by
    unfold ConfigFileLexer.next
    rw [hstate]
  have hends := ConfigFileLexer.parseValue_ends_valid lx hv
  have hcur : ∀ b : Str, lx.remaining.dropWhile isSpace = b ++ ['\\'] →
      lx.current_ ≤ lx.text_.length := by
    intro b hb
    apply ConfigFileLexer.remaining_cur
    intro hnil
    rw [hnil] at hb
    simp at hb
  have hmoves : (lx.remaining.dropWhile isSpace).getLast? = some '\\' →
      lx.next.2.state_ = .AT_EOF ∨ ∃ k, 1 ≤ k ∧ lx.LinesRead lx.next.2 k := by
    intro h
    obtain ⟨b, hb⟩ : ∃ b, lx.remaining.dropWhile isSpace = b ++ ['\\'] := by
      rcases List.eq_nil_or_concat (lx.remaining.dropWhile isSpace) with hnil | ⟨b, c, hbc⟩
      · rw [hnil] at h
        cases h
      · rw [List.concat_eq_append] at hbc
        rw [hbc, List.getLast?_append_of_ne_nil _ (by simp)] at h
        simp only [List.getLast?_singleton, Option.some.injEq] at h
        subst h
        exact ⟨b, hbc⟩
    rw [hnext, ConfigFileLexer.parseValue_continues lx (hcur b hb) b hb]
    exact ConfigFileLexer.continueValue_moves lx.input_.lines b
      ⟨lx.input_, lx.line_, wrapInt (lx.text_.length + 1), lx.text_, lx.text_.length - 1,
        .AT_TEXT⟩
  have hmoves2 : (lx.remaining.dropWhile isSpace).getLast? = some '\\' → lx.LinesInRange →
      lx.next.2.state_ = .AT_EOF ∨ lx.line_ < lx.next.2.line_ := by
    intro h hr
    rcases hmoves h with hm | ⟨k, hk, hm⟩
    · exact Or.inl hm
    · right
      rw [(ConfigFileLexer.linesRead_inRange hm hr).1]
      omega
  refine ⟨fun h => by rw [hnext, hends h], hmoves, hmoves2, ⟨fun h => ?_, fun h => ?_⟩,
    fun hr => ⟨fun h => ?_, fun h => ?_⟩, ?_⟩
  · intro hb
    rcases hmoves hb with hm | ⟨k, hk, hm⟩
    · rw [h.1] at hm
      cases hm
    · have := hm.2
      rw [h.2] at this
      omega
  · rw [hnext, hends h]
    exact ⟨rfl, rfl⟩
  · intro hb
    rcases hmoves2 hb hr with hm | hm
    · rw [h.1] at hm
      cases hm
    · rw [h.2] at hm
      exact lt_irrefl _ hm
  · rw [hnext, hends h]
    exact ⟨rfl, rfl⟩
  · intro b l more hb hgood hlines hl
    have hcont := ConfigFileLexer.continueValue_lines l more hl [] b
      ⟨lx.input_, lx.line_, wrapInt (lx.text_.length + 1), lx.text_, lx.text_.length - 1, .AT_TEXT⟩
      hgood hlines
    simp only at hcont
    rw [hnext, ConfigFileLexer.parseValue_continues lx (hcur b hb) b hb, hcont]
    simp

/-- An instance of the theorem above: the line `a=x\\` before the line
`b=2`, with the lexer put in value mode behind `=`. -/
theorem next_value_continues_iff_backslash_witness :
    ((ConfigFileLexer.create (IStream.ofText (lit "a=x\\\\\nb=2\n")) 1
        1).next.2.next.2.parseNextAsValue.next).1 =
      ⟨.VALUE, rstrip (lit "x\\\nb=2"), 1, 3⟩ :=
  (((next_value_continues_iff_backslash
    (ConfigFileLexer.create (IStream.ofText (lit "a=x\\\\\nb=2\n")) 1
        1).next.2.next.2.parseNextAsValue (by decide) (Or.inl (by decide))).2.2.2.2.2
    (lit "x\\") (lit "b=2") [] (by decide) (by decide) (by decide) (by decide)).1).trans
    (by decide)

/-! ## Legal names: claims C19 and C20 -/

theorem toNat_ofNat_small (n : Nat) (h : n < 55296) : (Char.ofNat n).toNat = n := by
  unfold Char.ofNat
  rw [dif_pos (Or.inl h)]
  rfl

theorem mem_charRange (lo hi c : Char) (h : hi.toNat < 55296) :
    c ∈ charRange lo hi ↔ lo.toNat ≤ c.toNat ∧ c.toNat ≤ hi.toNat := by
  unfold charRange
  simp only [List.mem_map, List.mem_range]
  constructor
  · rintro ⟨i, hi, rfl⟩
    rw [toNat_ofNat_small _ (by omega)]
    omega
  · rintro ⟨h1, h2⟩
    refine ⟨c.toNat - lo.toNat, by omega, ?_⟩
    rw [show lo.toNat + (c.toNat - lo.toNat) = c.toNat by omega, Char.ofNat_toNat]

theorem mem_alphaClass (c : Char) : c ∈ alphaClass ↔ isAlpha c = true := by
  unfold alphaClass isAlpha
  rw [List.mem_append, mem_charRange _ _ _ (by decide), mem_charRange _ _ _ (by decide)]
  simp only [Bool.or_eq_true, Bool.and_eq_true, decide_eq_true_eq]
  rfl

theorem mem_wordClass (c : Char) : c ∈ wordClass ↔ isWordChar c = true := by
  unfold wordClass isWordChar isAlnum isAlpha isDigit
  rw [List.mem_append, List.mem_append, List.mem_append, mem_charRange _ _ _ (by decide),
    mem_charRange _ _ _ (by decide), mem_charRange _ _ _ (by decide)]
  simp only [Bool.or_eq_true, Bool.and_eq_true, decide_eq_true_eq, List.mem_singleton]
  rfl

theorem oneOf_rmatch_iff (cs x : Str) : (oneOf cs).rmatch x ↔ ∃ c ∈ cs, x = [c] := by
  induction cs with
  | nil => simp [oneOf]
  | cons a cs ih =>
    have : oneOf (a :: cs) = RegularExpression.char a + oneOf cs := rfl
    rw [this, RegularExpression.add_rmatch_iff, RegularExpression.char_rmatch_iff, ih]
    simp only [List.mem_cons, exists_eq_or_imp]

theorem star_word_rmatch_iff (x : Str) :
    (RegularExpression.star (oneOf wordClass)).rmatch x ↔ ∀ c ∈ x, isWordChar c = true := by
  rw [RegularExpression.star_rmatch_iff]
  constructor
  · rintro ⟨S, rfl, hS⟩ c hc
    rw [List.mem_flatten] at hc
    obtain ⟨t, ht, hct⟩ := hc
    obtain ⟨-, hm⟩ := hS t ht
    rw [oneOf_rmatch_iff] at hm
    obtain ⟨a, ha, rfl⟩ := hm
    rw [List.mem_singleton] at hct
    subst hct
    exact (mem_wordClass c).1 ha
  · intro h
    refine ⟨x.map (fun c => [c]), ?_, ?_⟩
    · induction x with
      | nil => rfl
      | cons a x ih =>
        rw [List.map_cons, List.flatten_cons, ← ih (fun c hc => h c (List.mem_cons_of_mem _ hc))]
        rfl
    · intro t ht
      rw [List.mem_map] at ht
      obtain ⟨c, hc, rfl⟩ := ht
      refine ⟨by simp, ?_⟩
      rw [oneOf_rmatch_iff]
      exact ⟨c, (mem_wordClass c).2 (h c hc), rfl⟩

theorem segment_rmatch_iff (t : Str) :
    (RegularExpression.char '.' *
      (oneOf wordClass * RegularExpression.star (oneOf wordClass))).rmatch t ↔
    NameSegment t := by
  rw [RegularExpression.mul_rmatch_iff]
  constructor
  · rintro ⟨a, b, rfl, ha, hb⟩
    rw [RegularExpression.char_rmatch_iff] at ha
    rw [RegularExpression.mul_rmatch_iff] at hb
    obtain ⟨u, v, rfl, hu, hv⟩ := hb
    rw [oneOf_rmatch_iff] at hu
    obtain ⟨d, hd, rfl⟩ := hu
    subst ha
    exact ⟨d, v, rfl, (mem_wordClass d).1 hd, (star_word_rmatch_iff v).1 hv⟩
  · rintro ⟨d, w, rfl, hd, hw⟩
    refine ⟨['.'], d :: w, rfl, (RegularExpression.char_rmatch_iff _ _).2 rfl, ?_⟩
    rw [RegularExpression.mul_rmatch_iff]
    exact ⟨[d], w, rfl, (oneOf_rmatch_iff _ _).2 ⟨d, (mem_wordClass d).2 hd, rfl⟩,
      (star_word_rmatch_iff w).2 hw⟩

theorem legalName_rmatch_iff (n : Str) :
    LEGAL_NAME_REX_.rmatch n ↔
      ∃ (c : Char) (w : Str) (S : List Str), n = c :: (w ++ S.flatten) ∧ isAlpha c = true ∧
        (∀ x ∈ w, isWordChar x = true) ∧ ∀ t ∈ S, NameSegment t := by
  unfold LEGAL_NAME_REX_
  rw [RegularExpression.mul_rmatch_iff]
  constructor
  · rintro ⟨a, b, rfl, ha, hb⟩
    rw [oneOf_rmatch_iff] at ha
    obtain ⟨c, hc, rfl⟩ := ha
    rw [RegularExpression.mul_rmatch_iff] at hb
    obtain ⟨w, y, rfl, hw, hy⟩ := hb
    rw [RegularExpression.star_rmatch_iff] at hy
    obtain ⟨S, rfl, hS⟩ := hy
    exact ⟨c, w, S, rfl, (mem_alphaClass c).1 hc, (star_word_rmatch_iff w).1 hw,
      fun t ht => (segment_rmatch_iff t).1 (hS t ht).2⟩
  · rintro ⟨c, w, S, rfl, hc, hw, hS⟩
    refine ⟨[c], w ++ S.flatten, rfl, (oneOf_rmatch_iff _ _).2 ⟨c, (mem_alphaClass c).2 hc, rfl⟩,
      ?_⟩
    rw [RegularExpression.mul_rmatch_iff]
    refine ⟨w, S.flatten, rfl, (star_word_rmatch_iff w).2 hw, ?_⟩
    rw [RegularExpression.star_rmatch_iff]
    refine ⟨S, rfl, fun t ht => ⟨?_, (segment_rmatch_iff t).2 (hS t ht)⟩⟩
    obtain ⟨d, v, rfl, -, -⟩ := hS t ht
    simp

theorem legalNameRest_cons (c : Char) (cs : Str) :
    legalNameRest (c :: cs) =
      if isWordChar c then legalNameRest cs
      else c = '.' && (match cs with
                       | [] => false
                       | d :: _ => isWordChar d) && legalNameRest cs := rfl

theorem legalNameRest_word (w y : Str) (hw : ∀ c ∈ w, isWordChar c = true) :
    legalNameRest (w ++ y) = legalNameRest y := by
  induction w with
  | nil => rfl
  | cons a w ih =>
    rw [List.cons_append, legalNameRest_cons, if_pos (hw a (List.mem_cons_self _ _)),
      ih (fun c hc => hw c (List.mem_cons_of_mem _ hc))]

theorem legalNameRest_segments (S : List Str) (hS : ∀ t ∈ S, NameSegment t) :
    legalNameRest S.flatten = true := by
  induction S with
  | nil => rfl
  | cons t S ih =>
    obtain ⟨d, w, rfl, hd, hw⟩ := hS t (List.mem_cons_self _ _)
    have hrest := ih (fun t ht => hS t (List.mem_cons_of_mem _ ht))
    rw [List.flatten_cons, List.cons_append, List.cons_append, legalNameRest_cons,
      if_neg (by decide), legalNameRest_cons, if_pos hd, legalNameRest_word w _ hw, hrest]
    simp [hd]

theorem legalNameRest_decompose : ∀ (cs : Str), legalNameRest cs = true →
    ∃ (w : Str) (S : List Str), cs = w ++ S.flatten ∧ (∀ x ∈ w, isWordChar x = true) ∧
      ∀ t ∈ S, NameSegment t
  | [], _ => ⟨[], [], rfl, by simp, by simp⟩
  | c :: cs, h => by
    rw [legalNameRest_cons] at h
    by_cases hc : isWordChar c = true
    · rw [if_pos hc] at h
      obtain ⟨w, S, rfl, hw, hS⟩ := legalNameRest_decompose cs h
      refine ⟨c :: w, S, rfl, ?_, hS⟩
      intro x hx
      rcases List.mem_cons.1 hx with rfl | hx
      · exact hc
      · exact hw x hx
    · rw [if_neg hc] at h
      simp only [Bool.and_eq_true, decide_eq_true_eq] at h
      obtain ⟨⟨rfl, hhead⟩, hrest⟩ := h
      cases cs with
      | nil => simp at hhead
      | cons d cs =>
        simp only at hhead
        obtain ⟨w, S, hsplit, hw, hS⟩ := legalNameRest_decompose (d :: cs) hrest
        cases w with
        | nil =>
          exfalso
          cases S with
          | nil => simp at hsplit
          | cons t S =>
            obtain ⟨e, v, rfl, -, -⟩ := hS t (List.mem_cons_self _ _)
            simp only [List.nil_append, List.flatten_cons, List.cons_append,
              List.cons.injEq] at hsplit
            rw [hsplit.1] at hhead
            revert hhead
            decide
        | cons a w =>
          simp only [List.cons_append, List.cons.injEq] at hsplit
          obtain ⟨rfl, rfl⟩ := hsplit
          refine ⟨[], ('.' :: d :: w) :: S, by simp, by simp, ?_⟩
          intro t ht
          rcases List.mem_cons.1 ht with rfl | ht
          · exact ⟨d, w, rfl, hhead, fun x hx => hw x (List.mem_cons_of_mem _ hx)⟩
          · exact hS t ht

/-- The recognizer `isLegalName` computes `std::regex_match` against
`LEGAL_NAME_REX_`. -/
theorem isLegalName_eq_rmatch (n : Str) : isLegalName n = LEGAL_NAME_REX_.rmatch n := by
  rw [Bool.eq_iff_iff, legalName_rmatch_iff]
  constructor
  · intro h
    cases n with
    | nil => cases h
    | cons c cs =>
      rw [isLegalName, Bool.and_eq_true] at h
      obtain ⟨w, S, rfl, hw, hS⟩ := legalNameRest_decompose cs h.2
      exact ⟨c, w, S, rfl, h.1, hw, hS⟩
  · rintro ⟨c, w, S, rfl, hc, hw, hS⟩
    rw [isLegalName, Bool.and_eq_true, legalNameRest_word w _ hw, legalNameRest_segments S hS]
    exact ⟨hc, rfl⟩

namespace ConfigFileLexer

theorem nameLength_run (rest : Str) (d : Char) : ∀ (cs : Str) (prev : Char),
    nameRun prev cs = true → isNameChar d (cs.getLastD prev) = false →
    nameLength prev (cs ++ d :: rest) = cs.length
  | [], prev, _, hd => by
    simp only [List.getLastD_nil] at hd
    simp [nameLength, hd]
  | c :: cs, prev, h, hd => by
    simp only [nameRun, Bool.and_eq_true] at h
    have hd2 : isNameChar d (cs.getLastD c) = false := by
      cases cs with
      | nil => simpa using hd
      | cons e cs => simpa [List.getLastD_cons] using hd
    rw [List.cons_append, nameLength, if_pos h.1, nameLength_run rest d cs c h.2 hd2,
      List.length_cons]

theorem equals_not_name (prev : Char) : isNameChar '=' prev = false := by
  unfold isNameChar
  simp only [Bool.or_eq_false_iff, Bool.and_eq_false_imp]
  exact ⟨⟨by decide, by decide⟩, fun h => absurd h (by decide)⟩

end ConfigFileLexer

theorem nameRun_of_legal : ∀ (cs : Str) (prev : Char), legalNameRest cs = true →
    List.Chain' (fun a b => b = '.' → isAlnum a = true) (prev :: cs) → nameRun prev cs = true
  | [], _, _, _ => rfl
  | c :: cs, prev, h, hchain => by
    rw [List.chain'_cons] at hchain
    rw [legalNameRest_cons] at h
    simp only [nameRun, Bool.and_eq_true]
    by_cases hc : isWordChar c = true
    · rw [if_pos hc] at h
      refine ⟨?_, nameRun_of_legal cs c h hchain.2⟩
      unfold isWordChar at hc
      unfold isNameChar
      rw [hc]
      rfl
    · rw [if_neg hc] at h
      simp only [Bool.and_eq_true, decide_eq_true_eq] at h
      obtain ⟨⟨rfl, -⟩, hrest⟩ := h
      refine ⟨?_, nameRun_of_legal cs '.' hrest hchain.2⟩
      unfold isNameChar
      simp [hchain.1 rfl]

namespace ConfigFileLexer

theorem skipWhitespace_nonspace (lx : ConfigFileLexer) (c : Char) (r : Str)
    (hrem : lx.remaining = c :: r) (hc : isSpace c = false) :
    skipWhitespace_ lx = (true, lx) := by
  obtain ⟨input, line, column, text, current, state⟩ := lx
  unfold remaining at hrem
  simp only at hrem
  unfold skipWhitespace_ skipWhitespaceInLine_ remaining
  simp only [hrem, List.takeWhile_cons, hc, Bool.false_eq_true, if_false, List.length_nil,
    Nat.add_zero, incInt_zero, List.isEmpty_cons, Bool.not_false, if_true]

/-- The call `parseText_()` before a name character `c`, further characters
`cs` that each pass `isNameChar` behind their predecessor, and a character `d`
that does not: the NAME token is `c`, `cs`. -/
theorem parseText_name (lx : ConfigFileLexer) (c d : Char) (cs rest : Str)
    (hrem : lx.remaining = c :: (cs ++ d :: rest)) (hc : isAlnum c = true)
    (hrun : nameRun c cs = true) (hd : isNameChar d (cs.getLastD c) = false) :
    parseText_ lx =
      (⟨.NAME, c :: cs, lx.line_, lx.column_⟩,
       { lx with current_ := lx.current_ + (1 + cs.length),
                 column_ := incInt lx.column_ (1 + cs.length), state_ := .AT_TEXT }) := by
  have hsp : isSpace c = false := by
    revert hc
    unfold isAlnum isAlpha isDigit isSpace
    simp only [Bool.or_eq_true, Bool.and_eq_true, decide_eq_true_eq, Bool.or_eq_false_iff,
      Bool.and_eq_false_imp, decide_eq_false_iff_not]
    omega
  have hname : isNameChar c '.' = true := by
    unfold isNameChar
    rw [hc]
    rfl
  unfold parseText_
  simp only [skipWhitespace_nonspace lx c _ hrem hsp, Bool.not_true, Bool.false_eq_true,
    if_false, currentChar, hrem, List.headD_cons, hname, if_true, List.drop_succ_cons,
    List.drop_zero, nameLength_run rest d cs c hrun hd]
  rw [Nat.add_comm 1 cs.length, List.take_succ_cons, List.take_left' rfl]

theorem parseText_equals (lx : ConfigFileLexer) (rest : Str)
    (hrem : lx.remaining = '=' :: rest) :
    parseText_ lx =
      (⟨.PUNCTUATION, ['='], lx.line_, wrapInt (incInt lx.column_ 1 - 1)⟩,
       { lx with state_ := .AT_TEXT, current_ := lx.current_ + 1,
                 column_ := incInt lx.column_ 1 }) := by
  unfold parseText_
  simp only [skipWhitespace_nonspace lx '=' _ hrem (by decide), Bool.not_true,
    Bool.false_eq_true, if_false, currentChar, hrem, List.headD_cons,
    show isNameChar '=' '.' = false from by decide]
  rw [if_neg (by simp)]

end ConfigFileLexer

/-- A lexer in text mode before a legal name in which every dot follows a
letter or a digit, and `=` behind the name: the next token is the NAME with
the text of the name, and the token after it is the punctuation `=`. -/
theorem next_name_of_legal (lx : ConfigFileLexer) (n rest : Str)
    (hstate : lx.state_ = .AT_START ∨ lx.state_ = .AT_TEXT)
    (hrem : lx.remaining = n ++ '=' :: rest) (hlegal : isLegalName n = true)
    (hdots : List.Chain' (fun a b => b = '.' → isAlnum a = true) n) :
    lx.next.1 = ⟨.NAME, n, lx.line_, lx.column_⟩ ∧
    lx.next.2.next.1 = ⟨.PUNCTUATION, ['='], lx.line_, incInt lx.column_ n.length⟩ := by
  cases n with
  | nil => cases hlegal
  | cons c cs =>
    rw [isLegalName, Bool.and_eq_true] at hlegal
    have hc : isAlnum c = true := by
      unfold isAlnum
      rw [hlegal.1]
      rfl
    have hrun := nameRun_of_legal cs c hlegal.2 hdots
    have hnext : lx.next = ConfigFileLexer.parseText_ lx := by
      unfold ConfigFileLexer.next
      rcases hstate with h | h <;> rw [h]
    rw [List.cons_append] at hrem
    rw [hnext, ConfigFileLexer.parseText_name lx c '=' cs rest hrem hc hrun
      (ConfigFileLexer.equals_not_name _)]
    refine ⟨rfl, ?_⟩
    have hrem2 : ConfigFileLexer.remaining
        { lx with current_ := lx.current_ + (1 + cs.length),
                  column_ := incInt lx.column_ (1 + cs.length),
                  state_ := LexerState.AT_TEXT } = '=' :: rest := by
      have : lx.text_.drop (lx.current_ + (1 + cs.length)) =
          (lx.text_.drop lx.current_).drop (1 + cs.length) := by
        rw [List.drop_drop, Nat.add_comm]
      unfold ConfigFileLexer.remaining at hrem ⊢
      simp only
      rw [this, hrem, Nat.add_comm 1 cs.length, List.drop_succ_cons, List.drop_left' rfl]
    simp only
    unfold ConfigFileLexer.next
    simp only
    rw [ConfigFileLexer.parseText_equals _ rest hrem2]
    simp only [List.length_cons, Token.mk.injEq, true_and]
    rw [wrapInt_incInt_sub_one, Nat.add_comm 1 cs.length,
      incInt_eq_wrapInt _ (cs.length + 1) (Nat.succ_pos _),
      wrapInt_of_inRange (wrapInt_inRange _)]

namespace ConfigFileLexer

theorem nameLength_short (r : Str) : ∀ (cs : Str) (prev : Char), nameRun prev cs = false →
    nameLength prev (cs ++ r) < cs.length
  | [], _, h => by cases h
  | c :: cs, prev, h => by
    rw [List.cons_append, nameLength]
    by_cases hc : isNameChar c prev = true
    · rw [if_pos hc]
      simp only [nameRun, hc, Bool.true_and] at h
      have := nameLength_short r cs c h
      simp only [List.length_cons]
      omega
    · rw [if_neg hc]
      simp

/-- The NAME token that `parseText_()` returns before a letter or digit `c`:
`c` and the characters behind it that the name loop passes over. -/
theorem parseText_name_token (lx : ConfigFileLexer) (c : Char) (r : Str)
    (hrem : lx.remaining = c :: r) (hc : isAlnum c = true) :
    (parseText_ lx).1 = ⟨.NAME, (c :: r).take (1 + nameLength c r), lx.line_, lx.column_⟩ := by
  have hsp : isSpace c = false := by
    revert hc
    unfold isAlnum isAlpha isDigit isSpace
    simp only [Bool.or_eq_true, Bool.and_eq_true, decide_eq_true_eq, Bool.or_eq_false_iff,
      Bool.and_eq_false_imp, decide_eq_false_iff_not]
    omega
  have hname : isNameChar c '.' = true := by
    unfold isNameChar
    rw [hc]
    rfl
  unfold parseText_
  simp only [skipWhitespace_nonspace lx c _ hrem hsp, Bool.not_true, Bool.false_eq_true,
    if_false, currentChar, hrem, List.headD_cons, hname, if_true, List.drop_succ_cons,
    List.drop_zero]

end ConfigFileLexer

theorem chain_of_nameRun : ∀ (cs : Str) (prev : Char), nameRun prev cs = true →
    List.Chain' (fun a b => b = '.' → isAlnum a = true) (prev :: cs)
  | [], _, _ => List.chain'_singleton _
  | c :: cs, prev, h => by
    simp only [nameRun, Bool.and_eq_true] at h
    rw [List.chain'_cons]
    refine ⟨?_, chain_of_nameRun cs c h.2⟩
    rintro rfl
    have h1 := h.1
    unfold isNameChar at h1
    simpa [show isAlnum '.' = false from by decide] using h1

/-- A lexer in text mode before a legal name `n` and `=`: the NAME token that
`next()` returns has the text `n` exactly when every dot of `n` follows a letter
or a digit. -/
theorem next_name_iff_dots_follow_alnum (lx : ConfigFileLexer) (n rest : Str)
    (hstate : lx.state_ = .AT_START ∨ lx.state_ = .AT_TEXT)
    (hrem : lx.remaining = n ++ '=' :: rest) (hlegal : isLegalName n = true) :
    lx.next.1.type = .NAME ∧
    (lx.next.1.value = n ↔ List.Chain' (fun a b => b = '.' → isAlnum a = true) n) := by
  cases n with
  | nil => cases hlegal
  | cons c cs =>
    have hl := hlegal
    rw [isLegalName, Bool.and_eq_true] at hl
    have hc : isAlnum c = true := by
      unfold isAlnum
      rw [hl.1]
      rfl
    have hnext : lx.next = ConfigFileLexer.parseText_ lx := by
      unfold ConfigFileLexer.next
      rcases hstate with h | h <;> rw [h]
    rw [List.cons_append] at hrem
    rw [hnext, ConfigFileLexer.parseText_name_token lx c _ hrem hc]
    refine ⟨rfl, ⟨fun hval => ?_, fun hdots => ?_⟩⟩
    · by_contra hno
      have hrun : nameRun c cs = false := by
        by_contra hr
        rw [Bool.not_eq_false] at hr
        exact hno (chain_of_nameRun cs c hr)
      have hshort := ConfigFileLexer.nameLength_short ('=' :: rest) cs c hrun
      have hlen := congrArg List.length hval
      simp only [List.length_take, List.length_cons, List.length_append] at hlen
      omega
    · have hrun := nameRun_of_legal cs c hl.2 hdots
      simp only
      rw [ConfigFileLexer.nameLength_run rest '=' cs c hrun (ConfigFileLexer.equals_not_name _),
        Nat.add_comm 1 cs.length, List.take_succ_cons, List.take_left' rfl]

/-- Claim C19. The legal name `a_.b` at the start of a line, followed by
`=`, is not tokenized as one NAME: the name loop of `parseText_` takes a dot
only behind a letter or a digit (`isNameChar('.', '_')` is false), so the
lexer returns the NAME `a_` and then the punctuation `.`, and the parser
rejects the line with "'=' expected".  The legal names that are tokenized as
one NAME, with `=` as the next token, are exactly those in which every dot
follows a letter or a digit. -/
theorem next_legal_name_split_at_underscore_dot :
    isLegalName (lit "a_.b") = true ∧
    isNameChar '.' '_' = false ∧
    (ConfigFileLexer.create (IStream.ofText (lit "a_.b=1\n")) 1 1).next.1 =
      ⟨.NAME, lit "a_", 1, 1⟩ ∧
    (ConfigFileLexer.create (IStream.ofText (lit "a_.b=1\n")) 1 1).next.2.next.1 =
      ⟨.PUNCTUATION, lit ".", 1, 3⟩ ∧
    ((ConfigFileParser.create true .DUP_ERROR .DUP_IGNORE).parseText (plainWorld noFiles)
        (lit "app.cfg") (lit "a_.b=1\n") 1 1).map (fun r => r.outcome) =
      some (.error ⟨lit "app.cfg", 1, 3, lit "'=' expected"⟩) ∧
    (∀ (lx : ConfigFileLexer) (n rest : Str),
      (lx.state_ = .AT_START ∨ lx.state_ = .AT_TEXT) → lx.remaining = n ++ '=' :: rest →
      isLegalName n = true → List.Chain' (fun a b => b = '.' → isAlnum a = true) n →
      lx.next.1 = ⟨.NAME, n, lx.line_, lx.column_⟩ ∧
      lx.next.2.next.1 = ⟨.PUNCTUATION, ['='], lx.line_, incInt lx.column_ n.length⟩) ∧
    (∀ (lx : ConfigFileLexer) (n rest : Str),
      (lx.state_ = .AT_START ∨ lx.state_ = .AT_TEXT) → lx.remaining = n ++ '=' :: rest →
      isLegalName n = true →
      (lx.next.1.value = n ↔ List.Chain' (fun a b => b = '.' → isAlnum a = true) n)) :=
  ⟨by decide, by decide, by decide, by decide, by decide,
    fun lx n rest hstate hrem hlegal hdots => next_name_of_legal lx n rest hstate hrem hlegal hdots,
    fun lx n rest hstate hrem hlegal =>
      (next_name_iff_dots_follow_alnum lx n rest hstate hrem hlegal).2⟩

/-- An instance of the theorem above: the name `fruit.name_1` at the start
of the line `fruit.name_1=apple`. -/
theorem next_legal_name_split_at_underscore_dot_witness :
    (ConfigFileLexer.create (IStream.ofText (lit "fruit.name_1=apple\n")) 1 1).next.1 =
      ⟨.NAME, lit "fruit.name_1", 1, 1⟩ ∧
    (ConfigFileLexer.create (IStream.ofText (lit "fruit.name_1=apple\n")) 1 1).next.2.next.1 =
      ⟨.PUNCTUATION, ['='], 1, 13⟩ :=
  next_legal_name_split_at_underscore_dot.2.2.2.2.2.1
    (ConfigFileLexer.create (IStream.ofText (lit "fruit.name_1=apple\n")) 1 1)
    (lit "fruit.name_1") (lit "apple") (by decide) (by decide) (by decide)
    (by simp [lit]; decide)

theorem dot_not_word : isWordChar '.' = false := by decide

theorem word_ne_dot (c : Char) (h : isWordChar c = true) : c ≠ '.' := by
  rintro rfl
  rw [dot_not_word] at h
  cases h

theorem getLast?_cons_ne_dot (c : Char) (cs : Str) (hc : c ≠ '.') :
    (c :: cs).getLast? ≠ some '.' ↔ cs.getLast? ≠ some '.' := by
  cases cs with
  | nil => simp [hc]
  | cons d cs => rw [List.getLast?_cons_cons]

theorem chain_cons_ne_dot (c : Char) (cs : Str) (hc : c ≠ '.') :
    List.Chain' (fun a b => ¬(a = '.' ∧ b = '.')) (c :: cs) ↔
      List.Chain' (fun a b => ¬(a = '.' ∧ b = '.')) cs := by
  rw [List.chain'_cons']
  constructor
  · exact fun h => h.2
  · exact fun h => ⟨fun y _ hy => hc hy.1, h⟩

/-- The part of a legal name behind its first letter, in the words of the
grammar: word characters and dots, no two dots adjacent, no dot at the
end. -/
theorem legalNameRest_iff : ∀ (cs : Str), legalNameRest cs = true ↔
    (∀ c ∈ cs, isWordChar c = true ∨ c = '.') ∧
    List.Chain' (fun a b => ¬(a = '.' ∧ b = '.')) cs ∧ cs.getLast? ≠ some '.'
  | [] => by simp [legalNameRest]
  | c :: cs => by
    have ih := legalNameRest_iff cs
    rw [legalNameRest_cons]
    by_cases hc : isWordChar c = true
    · have hne := word_ne_dot c hc
      rw [if_pos hc, ih, chain_cons_ne_dot c cs hne, getLast?_cons_ne_dot c cs hne]
      simp only [List.mem_cons, forall_eq_or_imp, hc, true_or, true_and]
    · rw [if_neg hc]
      simp only [Bool.and_eq_true, decide_eq_true_eq]
      constructor
      · rintro ⟨⟨rfl, hhead⟩, hrest⟩
        cases cs with
        | nil => simp at hhead
        | cons d cs =>
          simp only at hhead
          have hd := word_ne_dot d hhead
          obtain ⟨h1, h2, h3⟩ := ih.1 hrest
          refine ⟨?_, ?_, ?_⟩
          · intro x hx
            rcases List.mem_cons.1 hx with rfl | hx
            · exact Or.inr rfl
            · exact h1 x hx
          · rw [List.chain'_cons]
            exact ⟨fun h => hd h.2, h2⟩
          · rw [List.getLast?_cons_cons]
            exact h3
      · rintro ⟨h1, h2, h3⟩
        have hdot : c = '.' := by
          rcases h1 c (List.mem_cons_self _ _) with h | h
          · exact absurd h hc
          · exact h
        subst hdot
        cases cs with
        | nil => simp at h3
        | cons d cs =>
          rw [List.chain'_cons] at h2
          rw [List.getLast?_cons_cons] at h3
          have hd : d ≠ '.' := fun h => h2.1 ⟨rfl, h⟩
          have hdw : isWordChar d = true := by
            rcases h1 d (by simp) with h | h
            · exact h
            · exact absurd h hd
          exact ⟨⟨rfl, hdw⟩, ih.2 ⟨fun x hx => h1 x (List.mem_cons_of_mem _ hx), h2.2, h3⟩⟩

theorem isWordChar_iff (c : Char) :
    (isWordChar c = true ∨ c = '.') ↔
      (isAlpha c = true ∨ isDigit c = true ∨ c = '_' ∨ c = '.') := by
  unfold isWordChar isAlnum
  simp only [Bool.or_eq_true, decide_eq_true_eq]
  tauto

theorem alpha_ne_dot (c : Char) (h : isAlpha c = true) : c ≠ '.' := by
  rintro rfl
  revert h
  decide

theorem isLegalName_iff_dottedIdentifier (n : Str) : isLegalName n = true ↔ DottedIdentifier n := by
  unfold DottedIdentifier
  cases n with
  | nil => simp [isLegalName]
  | cons c cs =>
    rw [isLegalName, Bool.and_eq_true, legalNameRest_iff]
    constructor
    · rintro ⟨hc, h1, h2, h3⟩
      have hne := alpha_ne_dot c hc
      refine ⟨by simp, ?_, ?_, (chain_cons_ne_dot c cs hne).2 h2,
        (getLast?_cons_ne_dot c cs hne).2 h3⟩
      · intro x hx
        simp only [List.head?_cons, Option.mem_def, Option.some.injEq] at hx
        subst hx
        exact hc
      · intro x hx
        rcases List.mem_cons.1 hx with rfl | hx
        · exact Or.inl hc
        · exact (isWordChar_iff x).1 (h1 x hx)
    · rintro ⟨-, hhead, hall, hchain, hlast⟩
      have hc : isAlpha c = true := hhead c (by simp)
      have hne := alpha_ne_dot c hc
      exact ⟨hc, fun x hx => (isWordChar_iff x).2 (hall x (List.mem_cons_of_mem _ hx)),
        (chain_cons_ne_dot c cs hne).1 hchain, (getLast?_cons_ne_dot c cs hne).1 hlast⟩

/-- Claim C20. The name check `isLegalName(n)`, the `std::regex_match` of
`n` against `LEGAL_NAME_REX_`, is true exactly when `n` is a dotted
identifier: not empty, first character an ASCII letter, every character an
ASCII letter, a digit, an underscore or a dot, no two dots adjacent, and the
last character not a dot. -/
theorem isLegalName_iff_grammar (n : Str) :
    isLegalName n = LEGAL_NAME_REX_.rmatch n ∧
    (LEGAL_NAME_REX_.rmatch n = true ↔ DottedIdentifier n) ∧
    (isLegalName n = true ↔
      n ≠ [] ∧ (∀ c ∈ n.head?, isAlpha c = true) ∧
      (∀ c ∈ n, isAlpha c = true ∨ isDigit c = true ∨ c = '_' ∨ c = '.') ∧
      List.Chain' (fun a b => ¬(a = '.' ∧ b = '.')) n ∧ n.getLast? ≠ some '.') :=
  ⟨isLegalName_eq_rmatch n,
    by rw [← isLegalName_eq_rmatch]; exact isLegalName_iff_dottedIdentifier n,
    isLegalName_iff_dottedIdentifier n⟩

/-! ## The property store: prefix query and `add` -/

namespace ConfigurationPropertyMap

theorem takeWhile_eq_filter {α : Type} (P : α → Bool) : ∀ (l : List α),
    l.Pairwise (fun a b => P a = false → P b = false) → l.takeWhile P = l.filter P
  | [], _ => rfl
  | x :: rest, h => by
    have h' := List.pairwise_cons.1 h
    by_cases hx : P x = true
    · rw [List.takeWhile_cons, if_pos hx, List.filter_cons, if_pos hx,
        takeWhile_eq_filter P rest h'.2]
    · simp only [Bool.not_eq_true] at hx
      rw [List.takeWhile_cons, hx, List.filter_cons, hx]
      simp only [Bool.false_eq_true, if_false]
      symm
      rw [List.filter_eq_nil_iff]
      intro a ha
      rw [h'.1 a ha hx]
      simp

theorem filter_startsWith_nil_of_lt (pfx : Str) :
    ∀ (pre : List (Str × ConfigurationProperty)), (∀ e ∈ pre, strLt e.1 pfx = true) →
      pre.filter (fun e => startsWith e.1 pfx) = [] := by
  intro pre h
  rw [List.filter_eq_nil_iff]
  intro e he hs
  rcases startsWith_le e.1 pfx hs with heq | hlt
  · have := h e he
    rw [heq, strLt_irrefl] at this
    cases this
  · have := strLt_asymm _ _ hlt
    rw [h e he] at this
    cases this

/-- On a store with ascending keys the prefix query is the filter of the
entries by `startsWith(key, prefix)`. -/
theorem getPropertiesWithPrefix_entries (m : ConfigurationPropertyMap) (pfx : Str)
    (hs : SortedKeys m.properties_) :
    (lowerBound pfx m.properties_).takeWhile (fun e => startsWith e.1 pfx) =
      m.properties_.filter (fun e => startsWith e.1 pfx) := by
  obtain ⟨pre, hsplit, hpre⟩ := lowerBound_split pfx m.properties_
  have hge := lowerBound_ge pfx m.properties_ hs
  have hsl : SortedKeys (lowerBound pfx m.properties_) := by
    rw [hsplit] at hs
    exact sortedKeys_append_right hs
  rw [takeWhile_eq_filter]
  · conv_rhs => rw [hsplit, List.filter_append, filter_startsWith_nil_of_lt pfx pre hpre]
    rfl
  · refine List.Pairwise.imp_of_mem ?_ hsl
    intro a b ha hb hab hna
    by_contra hb'
    rw [Bool.not_eq_false] at hb'
    have h1 : pfx = a.1 ∨ strLt pfx a.1 = true := by
      rcases not_lt_iff_ge (hge a ha) with h | h
      · exact Or.inl h
      · exact Or.inr h
    have := startsWith_convex pfx a.1 b.1 hb' h1 (Or.inr hab)
    rw [hna] at this
    cases this

end ConfigurationPropertyMap

namespace ConfigurationPropertyMap

theorem map_snd_filter_name (pfx : Str) :
    ∀ (l : List (Str × ConfigurationProperty)), (∀ e ∈ l, e.1 = e.2.name) →
      (l.filter (fun e => startsWith e.1 pfx)).map Prod.snd =
        (l.map Prod.snd).filter (fun p => startsWith p.name pfx)
  | [], _ => rfl
  | e :: rest, h => by
    have he := h e (List.mem_cons_self _ _)
    have ih := map_snd_filter_name pfx rest (fun x hx => h x (List.mem_cons_of_mem _ hx))
    simp only [List.filter_cons, List.map_cons, ← he]
    by_cases hs : startsWith e.1 pfx = true
    · simp only [hs, if_true, List.map_cons, ih]
    · simp only [hs, if_false, ih, Bool.false_eq_true]

theorem startsWith_nil (s : Str) : startsWith s [] = true := by
  unfold startsWith
  simp

theorem length_addEntries (p : ConfigurationProperty) :
    ∀ (l : List (Str × ConfigurationProperty)), SortedKeys l →
      (addEntries p l).length =
        if ((l.find? (fun e => e.1 = p.name)).map Prod.snd).isSome then l.length
        else l.length + 1
  | [], _ => by simp [addEntries]
  | e :: rest, hs => by
    simp only [addEntries]
    by_cases h1 : e.1 = p.name
    · simp [h1]
    · simp only [h1, if_false]
      by_cases h2 : strLt p.name e.1 = true
      · simp only [h2, if_true, List.find?_cons, h1, decide_False]
        have hnone : rest.find? (fun x => decide (x.1 = p.name)) = none := by
          rw [List.find?_eq_none]
          intro x hx hxe
          simp only [decide_eq_true_eq] at hxe
          have hlt := hs.head_lt x hx
          rw [hxe] at hlt
          have := strLt_asymm _ _ h2
          rw [hlt] at this
          cases this
        simp [hnone]
      · simp only [h2, Bool.false_eq_true, if_false, List.find?_cons, h1, decide_False,
          List.length_cons, length_addEntries p rest hs.tail]
        split <;> rfl

end ConfigurationPropertyMap

/-- Claim C21. On a well-formed store, for every prefix string (the empty
string included), `getPropertiesWithPrefix(prefix)` is the name-ordered
property list of the store filtered by `startsWith(name, prefix)`: a property
is in the result exactly when it is in the store and its name starts with the
prefix, the result ascends strictly by name, so that no property occurs
twice, and the empty prefix gives the whole list. -/
theorem getPropertiesWithPrefix_eq_filter (m : ConfigurationPropertyMap) (pfx : Str)
    (hwf : m.WF) :
    m.getPropertiesWithPrefix pfx = m.toList.filter (fun p => startsWith p.name pfx) ∧
    (∀ p, p ∈ m.getPropertiesWithPrefix pfx ↔ (p ∈ m.toList ∧ startsWith p.name pfx = true)) ∧
    (m.getPropertiesWithPrefix pfx).Pairwise (fun a b => strLt a.name b.name = true) ∧
    (m.getPropertiesWithPrefix pfx).Nodup ∧
    m.getPropertiesWithPrefix [] = m.toList := by
  have key : ∀ q : Str,
      m.getPropertiesWithPrefix q = m.toList.filter (fun p => startsWith p.name q) := by
    intro q
    unfold ConfigurationPropertyMap.getPropertiesWithPrefix ConfigurationPropertyMap.toList
    rw [ConfigurationPropertyMap.getPropertiesWithPrefix_entries m q hwf.1,
      ConfigurationPropertyMap.map_snd_filter_name q _ hwf.2]
  have hsorted : (m.getPropertiesWithPrefix pfx).Pairwise
      (fun a b => strLt a.name b.name = true) := by
    rw [key]
    exact List.Pairwise.sublist (List.filter_sublist _) (store_toList_sorted hwf)
  refine ⟨key pfx, ?_, hsorted, ?_, ?_⟩
  · intro p
    rw [key, List.mem_filter]
  · refine List.Pairwise.imp ?_ hsorted
    intro a b hlt hab
    rw [hab, strLt_irrefl] at hlt
    cases hlt
  · rw [key, List.filter_eq_self]
    intro p _
    exact ConfigurationPropertyMap.startsWith_nil _

theorem wf_foldl_add : ∀ (ps : List ConfigurationProperty) (m : ConfigurationPropertyMap),
    m.WF → (ps.foldl ConfigurationPropertyMap.add m).WF
  | [], _, h => h
  | p :: ps, m, h => wf_foldl_add ps (m.add p) (ConfigurationPropertyMap.wf_add h p)

/-- An instance of the theorem above, the unit test of the prefix query: the
prefix `p1.` gives `p1.1`, `p1.2`, `p1.3` in this order. -/
theorem getPropertiesWithPrefix_eq_filter_witness :
    prefixQueryStore.getPropertiesWithPrefix (lit "p1.") =
      [⟨lit "p1.1", lit "lemon", lit "someSource", 4⟩,
       ⟨lit "p1.2", lit "strawberry", lit "someSource", 3⟩,
       ⟨lit "p1.3", lit "pineapple", lit "someSource", 2⟩] :=
  ((getPropertiesWithPrefix_eq_filter prefixQueryStore (lit "p1.")
    (wf_foldl_add _ _ ConfigurationPropertyMap.wf_empty)).1).trans (by decide)

/-- The other queries of the unit test: `p5:1` gives the one property of that
name, `p4:` gives nothing, and `p1` gives `p1` and the three below it. -/
theorem getPropertiesWithPrefix_unit_test :
    prefixQueryStore.getPropertiesWithPrefix (lit "p5:1") =
      [⟨lit "p5:1", lit "mango", lit "someSource", 5⟩] ∧
    prefixQueryStore.getPropertiesWithPrefix (lit "p4:") = [] ∧
    (prefixQueryStore.getPropertiesWithPrefix (lit "p1")).map (fun p => p.name) =
      [lit "p1", lit "p1.1", lit "p1.2", lit "p1.3"] := by
  decide

/-- Claim C22. On a well-formed store, after `add(p)`: the lookup of `p`'s
name gives `p` (through `find` and through `operator[]`) and `hasKey` of that
name is true; the size is unchanged if the name was present and grows by one
if it was absent; the lookup of every other name is as before; and the names
visited by iteration ascend strictly. -/
theorem add_lookup_size_order (m : ConfigurationPropertyMap) (p : ConfigurationProperty)
    (hwf : m.WF) :
    (m.add p).find p.name = some p ∧
    (m.add p).get p.name = .ok p ∧
    (m.add p).hasKey p.name = true ∧
    (m.hasKey p.name = true → (m.add p).size = m.size) ∧
    (m.hasKey p.name = false → (m.add p).size = m.size + 1) ∧
    (∀ n, n ≠ p.name → (m.add p).find n = m.find n ∧ (m.add p).hasKey n = m.hasKey n ∧
      (m.add p).get n = m.get n) ∧
    (m.add p).names.Pairwise (fun a b => strLt a b = true) := by
  have hfind : (m.add p).find p.name = some p := by
    rw [ConfigurationPropertyMap.find_add]; simp
  have hlen := ConfigurationPropertyMap.length_addEntries p m.properties_ hwf.1
  refine ⟨hfind, ?_, ?_, ?_, ?_, ?_, ?_⟩
  · unfold ConfigurationPropertyMap.get
    rw [hfind]
  · unfold ConfigurationPropertyMap.hasKey
    rw [hfind]; rfl
  · intro hk
    unfold ConfigurationPropertyMap.hasKey ConfigurationPropertyMap.find at hk
    unfold ConfigurationPropertyMap.size ConfigurationPropertyMap.add
    rw [hlen, hk]; rfl
  · intro hk
    unfold ConfigurationPropertyMap.hasKey ConfigurationPropertyMap.find at hk
    unfold ConfigurationPropertyMap.size ConfigurationPropertyMap.add
    rw [hlen, hk]; rfl
  · intro n hn
    have h1 : (m.add p).find n = m.find n := by
      rw [ConfigurationPropertyMap.find_add, if_neg hn]
    refine ⟨h1, ?_, ?_⟩
    · unfold ConfigurationPropertyMap.hasKey; rw [h1]
    · unfold ConfigurationPropertyMap.get; rw [h1]
  · unfold ConfigurationPropertyMap.names
    rw [List.pairwise_map]
    exact (ConfigurationPropertyMap.wf_add hwf p).1

/-- An instance of the theorem above, from the unit test of `add`: after
`p1`, `p2`, `p3`, adding a new `p2` leaves the size at three. -/
theorem add_lookup_size_order_witness :
    (((ConfigurationPropertyMap.empty.add ⟨lit "p1", lit "apple", lit "someSource", 1⟩).add
        ⟨lit "p2", lit "banana", lit "someSource", 2⟩).add
        ⟨lit "p3", lit "cherry", lit "someSource", 3⟩).hasKey (lit "p2") = true ∧
    ((((ConfigurationPropertyMap.empty.add ⟨lit "p1", lit "apple", lit "someSource", 1⟩).add
        ⟨lit "p2", lit "banana", lit "someSource", 2⟩).add
        ⟨lit "p3", lit "cherry", lit "someSource", 3⟩).add
        ⟨lit "p2", lit "blueberry", lit "anotherSource", 15⟩).size = 3 :=
  ⟨by decide,
   ((add_lookup_size_order
      (((ConfigurationPropertyMap.empty.add ⟨lit "p1", lit "apple", lit "someSource", 1⟩).add
        ⟨lit "p2", lit "banana", lit "someSource", 2⟩).add
        ⟨lit "p3", lit "cherry", lit "someSource", 3⟩)
      ⟨lit "p2", lit "blueberry", lit "anotherSource", 15⟩
      (ConfigurationPropertyMap.wf_add (ConfigurationPropertyMap.wf_add
        (ConfigurationPropertyMap.wf_add ConfigurationPropertyMap.wf_empty _) _) _)).2.2.2.1
      (by decide)).trans (by decide)⟩

/-- The unit tests of `add` and of the name iteration: three properties added
out of order are visited in ascending order of name, a replaced entry holds
the new property, and the lookup of a name never added raises `NoSuchItem`. -/
theorem add_unit_tests :
    (((ConfigurationPropertyMap.empty.add ⟨lit "p2", lit "banana", lit "someSource", 2⟩).add
        ⟨lit "p3", lit "cherry", lit "someSource", 3⟩).add
        ⟨lit "p1", lit "apple", lit "someSource", 1⟩).names = [lit "p1", lit "p2", lit "p3"] ∧
    ((((ConfigurationPropertyMap.empty.add ⟨lit "p1", lit "apple", lit "someSource", 1⟩).add
        ⟨lit "p2", lit "banana", lit "someSource", 2⟩).add
        ⟨lit "p3", lit "cherry", lit "someSource", 3⟩).add
        ⟨lit "p2", lit "blueberry", lit "anotherSource", 15⟩).get (lit "p2") =
      .ok ⟨lit "p2", lit "blueberry", lit "anotherSource", 15⟩ ∧
    ((((ConfigurationPropertyMap.empty.add ⟨lit "p1", lit "apple", lit "someSource", 1⟩).add
        ⟨lit "p2", lit "banana", lit "someSource", 2⟩).add
        ⟨lit "p3", lit "cherry", lit "someSource", 3⟩).add
        ⟨lit "p2", lit "blueberry", lit "anotherSource", 15⟩).get (lit "bad") =
      .error (lit "Property with name \"bad\"") := by
  decide

/-! ## Applying a handler -/

theorem registerProperty_ok_handler {t t1 : PropertyInfoMap} {info : PropertyInfo}
    (h : registerProperty_ t info = .ok t1) : info.handler_.isSome = true := by
  unfold registerProperty_ at h
  split at h
  · cases h
  split at h
  · cases h
  split at h
  · cases h
  rename_i _ _ h3
  cases hh : info.handler_ with
  | none => rw [hh] at h3; exact absurd rfl h3
  | some _ => rfl

/-- Every handler entry of a table built by `registerProperty_` has a handler
object. -/
theorem registerAll_handler_some (infos : List PropertyInfo) :
    ∀ e ∈ registerAll infos, e.2.handler_.isSome = true := by
  unfold registerAll
  have key : ∀ (l : List PropertyInfo) (t : PropertyInfoMap), TableInv t →
      (∀ e ∈ t, e.2.handler_.isSome = true) →
      ∀ e ∈ l.foldl (fun t info => match registerProperty_ t info with
                                   | .ok t1 => t1
                                   | .error _ => t) t, e.2.handler_.isSome = true := by
    intro l
    induction l with
    | nil => intro t _ h; exact h
    | cons info rest ih =>
      intro t hinv h
      simp only [List.foldl_cons]
      cases hr : registerProperty_ t info with
      | error err => exact ih t hinv h
      | ok t1 =>
        refine ih t1 (tableInv_register hinv hr) ?_
        intro e he
        rw [(registerProperty_ok hinv hr).1] at he
        rcases mem_mapInsert _ _ _ _ he with he | he
        · rw [he]; exact registerProperty_ok_handler hr
        · exact h e he
  exact key infos [] tableInv_nil (by intro e he; cases he)

theorem applyHandlerTraced_snd (handle : Nat → ConfigurationProperty → HandlerOutcome)
    (info : PropertyInfo) (property : ConfigurationProperty) :
    (applyHandlerTraced_ handle info property).2 = applyHandler_ handle info property := by
  unfold applyHandlerTraced_ applyHandler_
  split
  · rfl
  · cases info.handler_ <;> rfl

/-- Claim C25. For a handler entry with a handler object `h` (every entry of
a table built by `registerProperty_` has one):
`applyHandler_` makes no call of `handle` exactly when the value of the
property is empty and the entry has `allowEmpty = false`, and it then throws
the `InvalidPropertyValueError` for that property with the details
`Value is empty`.  In every other case it calls `handle` of `h` once, with
the property; when the call returns, `applyHandler_` returns, and a
`PropertyFormatError` of the call is thrown on as the
`InvalidPropertyValueError` for that property, with the value of the error
(or of the property, if the error has none) and its description. -/
theorem applyHandler_empty_check_then_handle
    (handle : Nat → ConfigurationProperty → HandlerOutcome)
    (info : PropertyInfo) (property : ConfigurationProperty) (h : Nat)
    (hh : info.handler_ = some h) :
    (applyHandlerTraced_ handle info property).2 = applyHandler_ handle info property ∧
    ((applyHandlerTraced_ handle info property).1 = [] ↔
      (property.value = [] ∧ info.allowEmpty_ = false)) ∧
    ((property.value = [] ∧ info.allowEmpty_ = false) →
      applyHandler_ handle info property = some ⟨property, [], lit "Value is empty"⟩) ∧
    (¬ (property.value = [] ∧ info.allowEmpty_ = false) →
      (applyHandlerTraced_ handle info property).1 = [(h, property)] ∧
      (handle h property = .ok → applyHandler_ handle info property = none) ∧
      (∀ v d, handle h property = .propertyFormatError v d →
        applyHandler_ handle info property =
          some ⟨property, if v.isEmpty then property.value else v, d⟩)) := by
  have hguard : (property.value = [] ∧ info.allowEmpty_ = false) ↔
      (!info.allowEmpty_ && property.value.isEmpty) = true := by
    simp only [Bool.and_eq_true, Bool.not_eq_true', List.isEmpty_iff]
    exact And.comm
  refine ⟨applyHandlerTraced_snd handle info property, ?_, ?_, ?_⟩
  · rw [hguard]
    unfold applyHandlerTraced_
    by_cases hg : (!info.allowEmpty_ && property.value.isEmpty) = true
    · simp only [hg, if_true]
    · simp only [hg, hh, Bool.false_eq_true, if_false, List.cons_ne_nil]
  · intro hg
    unfold applyHandler_
    rw [if_pos (hguard.1 hg)]
  · intro hg
    have hg' : ¬ (!info.allowEmpty_ && property.value.isEmpty) = true :=
      fun hc => hg (hguard.2 hc)
    refine ⟨?_, ?_, ?_⟩
    · unfold applyHandlerTraced_
      rw [if_neg hg', hh]
    · intro hok
      unfold applyHandler_
      rw [if_neg hg', hh]
      simp only [hok]
    · intro v d herr
      unfold applyHandler_
      rw [if_neg hg', hh]
      simp only [herr]

/-- An instance of the theorem above: a handler that throws a
`PropertyFormatError` without a value, applied to `int.single = abc`. -/
theorem applyHandler_empty_check_then_handle_witness :
    applyHandler_ (fun _ _ => .propertyFormatError [] (lit "Not an integer"))
      (PropertyInfo.create (lit "int.single") false true false (some 0))
      ⟨lit "int.single", lit "abc", lit "app.cfg", 3⟩ =
    some ⟨⟨lit "int.single", lit "abc", lit "app.cfg", 3⟩, lit "abc", lit "Not an integer"⟩ :=
  ((applyHandler_empty_check_then_handle
      (fun _ _ => .propertyFormatError [] (lit "Not an integer"))
      (PropertyInfo.create (lit "int.single") false true false (some 0))
      ⟨lit "int.single", lit "abc", lit "app.cfg", 3⟩ 0 rfl).2.2.2 (by decide)).2.2
    [] (lit "Not an integer") rfl

/-- The empty-value cases: with `allowEmpty = false` an empty value throws
and the handler is not called; with `allowEmpty = true` the handler is called
with the empty value. -/
theorem applyHandler_empty_values :
    applyHandlerTraced_ (fun _ _ => .ok)
      (PropertyInfo.create (lit "str.single") false false false (some 0))
      ⟨lit "str.single", [], lit "app.cfg", 1⟩ =
      ([], some ⟨⟨lit "str.single", [], lit "app.cfg", 1⟩, [], lit "Value is empty"⟩) ∧
    applyHandlerTraced_ (fun _ _ => .ok)
      (PropertyInfo.create (lit "int.list") false false true (some 0))
      ⟨lit "int.list", [], lit "app.cfg", 2⟩ =
      ([(0, ⟨lit "int.list", [], lit "app.cfg", 2⟩)], none) := by
  decide

/-! ## Registration: what is rejected -/

/-- The state-passing form of `registerProperty_` agrees with the functional
one: a call that returns gives the new table, a call that throws gives the
error. -/
theorem registerPropertyState_eq (t : PropertyInfoMap) (info : PropertyInfo) :
    registerProperty_ t info =
      match (registerPropertyState_ t info).2 with
      | none => .ok (registerPropertyState_ t info).1
      | some err => .error err := by
  unfold registerProperty_ registerPropertyState_
  split
  · rfl
  split
  · rfl
  split
  · rfl
  simp only []
  split
  · rfl
  generalize (if info.prefix_ = true then
    findHandlerWithPrefix info.name_ (info.name_.headD NUL) (lowerBound info.name_ t)
    else none) = a
  cases a with
  | some k => rfl
  | none =>
    simp only []
    generalize (if (lowerBound (info.name_.take 1) t).head?.map (fun e => e.1.headD NUL) =
        some (info.name_.headD NUL) then
      findPrefixOf info.name_ (lowerBound info.name_ t).length
        (lowerBound (info.name_.take 1) t)
      else none) = b
    cases b <;> rfl

theorem registerPropertyState_error_table (t : PropertyInfoMap) (info : PropertyInfo)
    (err : ApplicationConfigurationError)
    (h : (registerPropertyState_ t info).2 = some err) :
    (registerPropertyState_ t info).1 = t := by
  unfold registerPropertyState_ at h ⊢
  split
  · rfl
  split
  · rfl
  split
  · rfl
  rename_i h1 h2 h3
  simp only [h1, h2, h3, if_false] at h
  simp only [] at h ⊢
  split
  · rfl
  rename_i h4
  simp only [h4, if_false] at h
  generalize (if info.prefix_ = true then
    findHandlerWithPrefix info.name_ (info.name_.headD NUL) (lowerBound info.name_ t)
    else none) = a at h ⊢
  cases a with
  | some k => rfl
  | none =>
    simp only [] at h ⊢
    generalize (if (lowerBound (info.name_.take 1) t).head?.map (fun e => e.1.headD NUL) =
        some (info.name_.headD NUL) then
      findPrefixOf info.name_ (lowerBound info.name_ t).length
        (lowerBound (info.name_.take 1) t)
      else none) = b at h ⊢
    cases b with
    | some p => rfl
    | none => cases h

theorem registerProperty_error_of_not_ok (t : PropertyInfoMap) (info : PropertyInfo)
    (h : ∀ t1, registerProperty_ t info ≠ .ok t1) :
    ∃ err, registerProperty_ t info = .error err := by
  cases hr : registerProperty_ t info with
  | ok t1 => exact absurd hr (h t1)
  | error err => exact ⟨err, rfl⟩

/-- The position `lower_bound(k)` when some entry is not below `k`: its first
entry is not below `k` and not above that entry. -/
theorem lowerBound_head {V : Type} (k : Str) (t : List (Str × V)) (hs : SortedKeys t)
    (e : Str × V) (he : e ∈ t) (hk : strLt e.1 k = false) :
    ∃ x rest, lowerBound k t = x :: rest ∧ strLt x.1 k = false ∧
      (x = e ∨ strLt x.1 e.1 = true) := by
  have hmem := mem_lowerBound k t e he hk
  have hge := lowerBound_ge k t hs
  obtain ⟨pre, hsplit, _⟩ := lowerBound_split k t
  have hsl : SortedKeys (lowerBound k t) := by
    rw [hsplit] at hs
    exact sortedKeys_append_right hs
  cases hl : lowerBound k t with
  | nil => rw [hl] at hmem; cases hmem
  | cons x rest =>
    rw [hl] at hmem hge hsl
    refine ⟨x, rest, rfl, hge x (List.mem_cons_self _ _), ?_⟩
    rcases List.mem_cons.1 hmem with h | h
    · exact Or.inl h.symm
    · exact Or.inr (hsl.head_lt e h)

theorem mem_of_mem_lowerBound {V : Type} (k : Str) (t : List (Str × V)) (e : Str × V)
    (h : e ∈ lowerBound k t) : e ∈ t := by
  obtain ⟨pre, hsplit, _⟩ := lowerBound_split k t
  rw [hsplit]
  exact List.mem_append_right _ h

theorem findPrefixOf_some (name : Str) (n : Nat) (p : Str) :
    ∀ (l : PropertyInfoMap), findPrefixOf name n l = some p →
      ∃ x ∈ l, x.2.prefix_ = true ∧ startsWith name x.1 = true ∧ p = x.2.name_
  | [], h => by simp [findPrefixOf] at h
  | j :: rest, h => by
    simp only [findPrefixOf] at h
    split at h
    · cases h
    split at h
    · rename_i _ hc
      simp only [Bool.and_eq_true] at hc
      simp only [Option.some.injEq] at h
      exact ⟨j, List.mem_cons_self _ _, hc.1, hc.2, h.symm⟩
    · obtain ⟨x, hx, h1, h2, h3⟩ := findPrefixOf_some name n p rest h
      exact ⟨x, List.mem_cons_of_mem _ hx, h1, h2, h3⟩

/-- A call of `registerProperty_` that throws leaves `handlers_` as it
was. -/
theorem registerPropertyState_of_error (t : PropertyInfoMap) (info : PropertyInfo)
    (err : ApplicationConfigurationError) (herr : registerProperty_ t info = .error err) :
    registerPropertyState_ t info = (t, some err) := by
  have heq := registerPropertyState_eq t info
  rw [herr] at heq
  cases h2 : (registerPropertyState_ t info).2 with
  | none => rw [h2] at heq; cases heq
  | some err2 =>
    rw [h2] at heq
    simp only [Except.error.injEq] at heq
    have h1 := registerPropertyState_error_table t info err2 h2
    rw [heq]
    exact Prod.ext h1 h2

theorem findHandlerWithPrefix_some (name : Str) (c : Char) (k : Str) :
    ∀ (l : PropertyInfoMap), findHandlerWithPrefix name c l = some k →
      ∃ x ∈ l, x.1 = k ∧ startsWith x.1 name = true
  | [], h => by simp [findHandlerWithPrefix] at h
  | x :: rest, h => by
    simp only [findHandlerWithPrefix] at h
    split at h
    · split at h
      · rename_i _ hs
        simp only [Option.some.injEq] at h
        exact ⟨x, List.mem_cons_self _ _, h, hs⟩
      · obtain ⟨y, hy, h1, h2⟩ := findHandlerWithPrefix_some name c k rest h
        exact ⟨y, List.mem_cons_of_mem _ hy, h1, h2⟩
    · cases h

/-- Claim C26. On a handler table that satisfies the invariant of
`handlers_` (every table built by `registerProperty_` does), registering a
prefix handler is rejected whenever the name of a registered handler, exact
or prefix, starts with the new prefix: the call throws and `handlers_` stays
as it was.  When the prefix is itself legal, comes with a handler and is not
a registered name, the error is the one of the first scan, and it cites a
registered name that begins with the prefix. -/
theorem registerProperty_prefix_of_registered_name_rejected (t : PropertyInfoMap)
    (info : PropertyInfo) (hinv : TableInv t) (hp : info.prefix_ = true)
    (e : Str × PropertyInfo) (he : e ∈ t) (hst : startsWith e.1 info.name_ = true) :
    (∃ err, registerProperty_ t info = .error err ∧
      registerPropertyState_ t info = (t, some err)) ∧
    (info.name_ ≠ [] → isLegalPropertyName info.name_ = true → info.handler_.isSome = true →
      (∀ x ∈ t, x.1 ≠ info.name_) →
      ∃ k ∈ t, startsWith k.1 info.name_ = true ∧
        registerProperty_ t info =
          .error ⟨lit "Cannot register handler for prefix \"" ++ info.name_ ++
            lit "\" because a previously-registered property (\"" ++ k.1 ++
            lit "\") begins with that prefix"⟩) := by
  constructor
  · obtain ⟨err, herr⟩ := registerProperty_error_of_not_ok t info (by
      intro t1 hok
      have := (registerProperty_ok hinv hok).2.2.2.1 hp e he
      rw [hst] at this
      cases this)
    exact ⟨err, herr, registerPropertyState_of_error t info err herr⟩
  · intro hne hlegal hhandler hfresh
    have hge : strLt e.1 info.name_ = false := by
      rcases startsWith_le _ _ hst with h | h
      · rw [h]; exact strLt_irrefl _
      · exact strLt_asymm _ _ h
    obtain ⟨x, rest, hl, hxge, hxe⟩ := lowerBound_head info.name_ t hinv.sorted e he hge
    have hxt : x ∈ t := mem_of_mem_lowerBound info.name_ t x (by rw [hl]; simp)
    have hxs : startsWith x.1 info.name_ = true := by
      refine startsWith_convex info.name_ x.1 e.1 hst ?_ ?_
      · rcases not_lt_iff_ge hxge with h | h
        · exact Or.inl h
        · exact Or.inr h
      · rcases hxe with h | h
        · exact Or.inl (by rw [h])
        · exact Or.inr h
    refine ⟨x, hxt, hxs, ?_⟩
    obtain ⟨c, cs, hn⟩ : ∃ c cs, info.name_ = c :: cs := by
      cases hnm : info.name_ with
      | nil => exact absurd hnm hne
      | cons c cs => exact ⟨c, cs, rfl⟩
    have hhead : x.1.headD NUL = info.name_.headD NUL := by
      rw [startsWith_head hn hxs, hn]; rfl
    have hlen : ¬ info.name_.length = 0 := by rw [hn]; simp
    have hnone : info.handler_.isNone = false := by
      cases hh : info.handler_ with
      | none => rw [hh] at hhandler; cases hhandler
      | some _ => rfl
    have hxne : ¬ x.1 = info.name_ := hfresh x hxt
    unfold registerProperty_
    simp only [hp, hlen, hlegal, hnone, hl, hxne, hxs, hhead, findHandlerWithPrefix,
      List.head?_cons, Option.map_some', Option.some.injEq,
      Bool.not_true, Bool.or_false, Bool.and_false, Bool.true_and, Bool.false_and,
      Bool.false_eq_true,
      decide_False, if_false, if_true, List.length_cons, Nat.add_one_ne_zero]

/-- An instance of the theorem above, the unit test: after the exact
handlers `abcdefg`, `defghi` and `abcefij`, the prefix `abc` is rejected. -/
theorem registerProperty_prefix_of_registered_name_rejected_witness :
    ∃ err, registerProperty_
        (registerAll [testProperty "abcdefg", testProperty "defghi", testProperty "abcefij"])
        (testPrefix "abc") = .error err ∧
      registerPropertyState_
        (registerAll [testProperty "abcdefg", testProperty "defghi", testProperty "abcefij"])
        (testPrefix "abc") =
        (registerAll [testProperty "abcdefg", testProperty "defghi", testProperty "abcefij"],
          some err) :=
  (registerProperty_prefix_of_registered_name_rejected
    (registerAll [testProperty "abcdefg", testProperty "defghi", testProperty "abcefij"])
    (testPrefix "abc") (tableInv_registerAll _) rfl
    (lit "abcefij", testProperty "abcefij") (by decide) (by decide)).1

/-- Claim C27. On a handler table that satisfies the invariant of
`handlers_`, registering a handler, exact or prefix, is rejected whenever the
name of a registered prefix handler is a prefix of the new name: the call
throws and `handlers_` stays as it was.  When the new name is itself legal,
comes with a handler, is not a registered name and (for a new prefix) no
registered name begins with it, the error is the one of the second scan, and
it cites that registered prefix. -/
theorem registerProperty_under_registered_prefix_rejected (t : PropertyInfoMap)
    (info : PropertyInfo) (hinv : TableInv t)
    (e : Str × PropertyInfo) (he : e ∈ t) (hp : e.2.prefix_ = true)
    (hst : startsWith info.name_ e.1 = true) :
    (∃ err, registerProperty_ t info = .error err ∧
      registerPropertyState_ t info = (t, some err)) ∧
    ((info.prefix_ && (info.name_.length = 0 || !isLegalPropertyName info.name_)) = false →
      (!info.prefix_ && !isLegalName info.name_) = false →
      info.handler_.isSome = true →
      (∀ x ∈ t, x.1 ≠ info.name_) →
      (info.prefix_ = true → ∀ x ∈ t, startsWith x.1 info.name_ = false) →
      registerProperty_ t info =
        .error ⟨lit "Cannot register handler for property \"" ++ info.name_ ++
          lit "\" because a handler for properties with prefix \"" ++ e.1 ++
          lit "\" has already been registered"⟩) := by
  have hbasic : ∃ err, registerProperty_ t info = .error err :=
    registerProperty_error_of_not_ok t info (by
      intro t1 hok
      have := (registerProperty_ok hinv hok).2.2.2.2 e he hp
      rw [hst] at this
      cases this)
  constructor
  · obtain ⟨err, herr⟩ := hbasic
    exact ⟨err, herr, registerPropertyState_of_error t info err herr⟩
  · intro h1 h2 hhandler hfresh hnostart
    have h3 : info.handler_.isNone = false := by
      cases hh : info.handler_ with
      | none => rw [hh] at hhandler; cases hhandler
      | some _ => rfl
    have h4 : ¬ (lowerBound info.name_ t).head?.map Prod.fst = some info.name_ := by
      intro hc
      cases hl : lowerBound info.name_ t with
      | nil => rw [hl] at hc; cases hc
      | cons x rest =>
        rw [hl] at hc
        simp only [List.head?_cons, Option.map_some', Option.some.injEq] at hc
        exact hfresh x (mem_of_mem_lowerBound info.name_ t x (by rw [hl]; simp)) hc
    have h5 : (if info.prefix_ = true then
        findHandlerWithPrefix info.name_ (info.name_.headD NUL) (lowerBound info.name_ t)
        else none) = none := by
      by_cases hpi : info.prefix_ = true
      · rw [if_pos hpi]
        cases hf : findHandlerWithPrefix info.name_ (info.name_.headD NUL)
            (lowerBound info.name_ t) with
        | none => rfl
        | some k =>
          obtain ⟨x, hx, _, hxs⟩ := findHandlerWithPrefix_some _ _ _ _ hf
          have := hnostart hpi x (mem_of_mem_lowerBound info.name_ t x hx)
          rw [hxs] at this
          cases this
      · rw [if_neg hpi]
    obtain ⟨err, herr⟩ := hbasic
    unfold registerProperty_ at herr ⊢
    simp only [h1, h2, h3, h4, h5, Bool.false_eq_true, if_false] at herr ⊢
    cases hb : (if (lowerBound (info.name_.take 1) t).head?.map (fun e => e.1.headD NUL) =
        some (info.name_.headD NUL) then
      findPrefixOf info.name_ (lowerBound info.name_ t).length
        (lowerBound (info.name_.take 1) t)
      else none) with
    | none =>
      rw [hb] at herr
      cases herr
    | some p =>
      simp only []
      have hfp : findPrefixOf info.name_ (lowerBound info.name_ t).length
          (lowerBound (info.name_.take 1) t) = some p := by
        split at hb
        · exact hb
        · cases hb
      obtain ⟨x, hx, hxp, hxs, hpx⟩ := findPrefixOf_some _ _ _ _ hfp
      have hxt : x ∈ t := mem_of_mem_lowerBound _ t x hx
      have hxe : x = e := handlerMatches_unique hinv info.name_ x e hxt he
        (by simp [handlerMatches, hxp, hxs]) (by simp [handlerMatches, hp, hst])
      rw [hpx, hxe, ← hinv.keyName e he]

/-- An instance of the theorem above, the unit test: after the prefix `abc`,
the exact handler `ab` and the prefix `abd`, the exact handler `abdef` is
rejected. -/
theorem registerProperty_under_registered_prefix_rejected_witness :
    ∃ err, registerProperty_
        (registerAll [testPrefix "abc", testProperty "ab", testPrefix "abd"])
        (testProperty "abdef") = .error err ∧
      registerPropertyState_
        (registerAll [testPrefix "abc", testProperty "ab", testPrefix "abd"])
        (testProperty "abdef") =
        (registerAll [testPrefix "abc", testProperty "ab", testPrefix "abd"], some err) :=
  (registerProperty_under_registered_prefix_rejected
    (registerAll [testPrefix "abc", testProperty "ab", testPrefix "abd"])
    (testProperty "abdef") (tableInv_registerAll _)
    (lit "abd", testPrefix "abd") (by decide) rfl (by decide)).1

/-- The two overlap unit tests, evaluated: the three registrations before the
rejected one all succeed (so does the exact handler `ab`, a proper prefix of
the prefix `abc`), and the rejected call throws the error of its scan. -/
theorem registerProperty_overlap_unit_tests :
    registerAll [testPrefix "abc", testProperty "ab", testPrefix "abd"] =
      [(lit "ab", testProperty "ab"), (lit "abc", testPrefix "abc"),
       (lit "abd", testPrefix "abd")] ∧
    registerProperty_ [(lit "abc", testPrefix "abc")] (testProperty "ab") =
      .ok [(lit "ab", testProperty "ab"), (lit "abc", testPrefix "abc")] ∧
    registerProperty_ (registerAll [testPrefix "abc", testProperty "ab", testPrefix "abd"])
      (testProperty "abdef") =
      .error ⟨lit ("Cannot register handler for property \"abdef\" because a handler " ++
        "for properties with prefix \"abd\" has already been registered")⟩ ∧
    registerAll [testProperty "abcdefg", testProperty "defghi", testProperty "abcefij"] =
      [(lit "abcdefg", testProperty "abcdefg"), (lit "abcefij", testProperty "abcefij"),
       (lit "defghi", testProperty "defghi")] ∧
    registerProperty_
      (registerAll [testProperty "abcdefg", testProperty "defghi", testProperty "abcefij"])
      (testPrefix "abc") =
      .error ⟨lit ("Cannot register handler for prefix \"abc\" because a " ++
        "previously-registered property (\"abcdefg\") begins with that prefix")⟩ := by
  decide

theorem isLegalPropertyName_eq (name : Str) :
    isLegalPropertyName name = isLegalName (stripOneTrailingDot name) := by
  unfold isLegalPropertyName stripOneTrailingDot
  split <;> rfl

/-- Claim C28. The name check of `registerProperty_` comes first: whatever
the table and the handler, an exact registration whose name fails
`isLegalName`, and a prefix registration whose prefix is empty or fails
`isLegalName` after one trailing `.` is removed, throws the error of the
name check and leaves `handlers_` as it was.  The check is no stricter than
that: a registration that passes it and comes with a handler succeeds on an
empty table. -/
theorem registerProperty_name_checked_first (t : PropertyInfoMap) (info : PropertyInfo) :
    (info.prefix_ = false → registrationNameLegal false info.name_ = false →
      registerProperty_ t info =
        .error ⟨lit "Cannot register property with invalid name \"" ++ info.name_ ++
          lit "\""⟩ ∧
      registerPropertyState_ t info =
        (t, some ⟨lit "Cannot register property with invalid name \"" ++ info.name_ ++
          lit "\""⟩)) ∧
    (info.prefix_ = true → registrationNameLegal true info.name_ = false →
      registerProperty_ t info =
        .error ⟨lit "Cannot register property prefix for invalid prefix \"" ++ info.name_ ++
          lit "\""⟩ ∧
      registerPropertyState_ t info =
        (t, some ⟨lit "Cannot register property prefix for invalid prefix \"" ++
          info.name_ ++ lit "\""⟩)) ∧
    (registrationNameLegal info.prefix_ info.name_ = true → info.handler_.isSome = true →
      registerProperty_ [] info = .ok [(info.name_, info)]) := by
  refine ⟨?_, ?_, ?_⟩
  · intro hp hbad
    have hbad' : isLegalName info.name_ = false := by
      simpa [registrationNameLegal] using hbad
    have h : registerProperty_ t info =
        .error ⟨lit "Cannot register property with invalid name \"" ++ info.name_ ++
          lit "\""⟩ := by
      unfold registerProperty_
      simp only [hp, hbad', Bool.false_and, Bool.false_eq_true, if_false, Bool.not_false,
        Bool.and_self, if_true]
    exact ⟨h, registerPropertyState_of_error t info _ h⟩
  · intro hp hbad
    have hbad' : (info.name_.length = 0 || !isLegalPropertyName info.name_) = true := by
      rw [isLegalPropertyName_eq]
      simp only [registrationNameLegal, if_true, Bool.and_eq_false_imp, Bool.not_eq_true',
        List.isEmpty_eq_false] at hbad
      by_cases hn : info.name_ = []
      · simp [hn]
      · simp [hbad hn]
    have h : registerProperty_ t info =
        .error ⟨lit "Cannot register property prefix for invalid prefix \"" ++ info.name_ ++
          lit "\""⟩ := by
      unfold registerProperty_
      simp only [hp, hbad', Bool.and_self, if_true]
    exact ⟨h, registerPropertyState_of_error t info _ h⟩
  · intro hok hhandler
    have h3 : info.handler_.isNone = false := by
      cases hh : info.handler_ with
      | none => rw [hh] at hhandler; cases hhandler
      | some _ => rfl
    unfold registerProperty_
    by_cases hp : info.prefix_ = true
    · simp only [hp, registrationNameLegal, if_true, Bool.and_eq_true, Bool.not_eq_true',
        List.isEmpty_eq_false] at hok
      have hlen : ¬ info.name_.length = 0 := by
        intro hc
        exact hok.1 (List.length_eq_zero.1 hc)
      have hlegal : isLegalPropertyName info.name_ = true := by
        rw [isLegalPropertyName_eq]; exact hok.2
      simp [hp, hlen, hlegal, h3, lowerBound, findHandlerWithPrefix, mapInsert]
    · simp only [Bool.not_eq_true] at hp
      simp only [hp, registrationNameLegal, Bool.false_eq_true, if_false] at hok
      simp [hp, hok, h3, lowerBound, mapInsert]

/-- An instance of the theorem above, from the unit test: the exact name
`int.value.` is rejected by the name check. -/
theorem registerProperty_name_checked_first_witness :
    registerProperty_ [] (testProperty "int.value.") =
      .error ⟨lit "Cannot register property with invalid name \"int.value.\""⟩ :=
  ((registerProperty_name_checked_first [] (testProperty "int.value.")).1 rfl
    (by decide)).1

/-- The names of the two naming unit tests: the prefix `int.value.` is
accepted; the prefixes `int.value..`, `.`, the empty string, `int-value` and
`int.value$.` are rejected, also after `int.value.` was registered; the
exact names `int-value`, the empty string and `int.value.` are rejected. -/
theorem registerProperty_naming_unit_tests :
    registerProperty_ [] (testPrefix "int.value.") =
      .ok [(lit "int.value.", testPrefix "int.value.")] ∧
    registerProperty_ [(lit "int.value.", testPrefix "int.value.")] (testPrefix "int.value..") =
      .error ⟨lit "Cannot register property prefix for invalid prefix \"int.value..\""⟩ ∧
    registerProperty_ [(lit "int.value.", testPrefix "int.value.")] (testPrefix ".") =
      .error ⟨lit "Cannot register property prefix for invalid prefix \".\""⟩ ∧
    registerProperty_ [] (testPrefix "") =
      .error ⟨lit "Cannot register property prefix for invalid prefix \"\""⟩ ∧
    registerProperty_ [] (testPrefix "int-value") =
      .error ⟨lit "Cannot register property prefix for invalid prefix \"int-value\""⟩ ∧
    registerProperty_ [] (testPrefix "int.value$.") =
      .error ⟨lit "Cannot register property prefix for invalid prefix \"int.value$.\""⟩ ∧
    registerProperty_ [] (testProperty "int-value") =
      .error ⟨lit "Cannot register property with invalid name \"int-value\""⟩ ∧
    registerProperty_ [] (testProperty "") =
      .error ⟨lit "Cannot register property with invalid name \"\""⟩ ∧
    registerProperty_ [] (testProperty "int.value.") =
      .error ⟨lit "Cannot register property with invalid name \"int.value.\""⟩ :=
  ⟨by decide, by decide, by decide, by decide, by decide, by decide, by decide, by decide,
    by decide⟩

/-- Claim C29. On a handler table that satisfies the invariant of
`handlers_`: registering a name that is the name of a registered handler
throws, and when the name is legal and comes with a handler the error is
`has already been registered`.  Every call of `registerProperty_` that
throws, for whatever reason, ends with `handlers_` exactly as it was before
the call. -/
theorem registerProperty_duplicate_rejected_table_kept (t : PropertyInfoMap)
    (info : PropertyInfo) (hinv : TableInv t) :
    ((∃ e ∈ t, e.1 = info.name_) →
      (∃ err, registerProperty_ t info = .error err ∧
        registerPropertyState_ t info = (t, some err)) ∧
      (registrationNameLegal info.prefix_ info.name_ = true → info.handler_.isSome = true →
        registerProperty_ t info =
          .error ⟨lit "Property \"" ++ info.name_ ++ lit "\" has already been registered"⟩)) ∧
    (∀ err, registerProperty_ t info = .error err →
      registerPropertyState_ t info = (t, some err)) ∧
    (∀ err, (registerPropertyState_ t info).2 = some err →
      (registerPropertyState_ t info).1 = t ∧ registerProperty_ t info = .error err) := by
  refine ⟨?_, ?_, ?_⟩
  · rintro ⟨e, he, hname⟩
    constructor
    · obtain ⟨err, herr⟩ := registerProperty_error_of_not_ok t info (by
        intro t1 hok
        exact (registerProperty_ok hinv hok).2.2.1 e he hname)
      exact ⟨err, herr, registerPropertyState_of_error t info err herr⟩
    · intro hok hhandler
      have h3 : info.handler_.isNone = false := by
        cases hh : info.handler_ with
        | none => rw [hh] at hhandler; cases hhandler
        | some _ => rfl
      have hge : strLt e.1 info.name_ = false := by rw [hname]; exact strLt_irrefl _
      obtain ⟨x, rest, hl, hxge, hxe⟩ := lowerBound_head info.name_ t hinv.sorted e he hge
      have hx : x.1 = info.name_ := by
        rcases hxe with h | h
        · rw [h]; exact hname
        · rw [hname, hxge] at h; cases h
      have h1 : (info.prefix_ && (info.name_.length = 0 || !isLegalPropertyName info.name_)) =
          false := by
        by_cases hp : info.prefix_ = true
        · simp only [hp, registrationNameLegal, if_true, Bool.and_eq_true, Bool.not_eq_true',
            List.isEmpty_eq_false] at hok
          have hlen : ¬ info.name_.length = 0 := fun hc => hok.1 (List.length_eq_zero.1 hc)
          simp [hp, hlen, isLegalPropertyName_eq, hok.2]
        · simp only [Bool.not_eq_true] at hp
          simp [hp]
      have h2 : (!info.prefix_ && !isLegalName info.name_) = false := by
        by_cases hp : info.prefix_ = true
        · simp [hp]
        · simp only [Bool.not_eq_true] at hp
          simp only [hp, registrationNameLegal, Bool.false_eq_true, if_false] at hok
          simp [hp, hok]
      unfold registerProperty_
      simp only [h1, h2, h3, hl, hx, Bool.false_eq_true, if_false, List.head?_cons,
        Option.map_some', if_true]
  · intro err herr
    exact registerPropertyState_of_error t info err herr
  · intro err herr
    refine ⟨registerPropertyState_error_table t info err herr, ?_⟩
    rw [registerPropertyState_eq, herr]

/-- An instance of the theorem above, the unit test: after `p` and `q`,
registering `p` again throws and the table still holds the two handlers. -/
theorem registerProperty_duplicate_rejected_table_kept_witness :
    registerProperty_ (registerAll [testProperty "p", testProperty "q"]) (testProperty "p") =
      .error ⟨lit "Property \"p\" has already been registered"⟩ :=
  ((registerProperty_duplicate_rejected_table_kept
    (registerAll [testProperty "p", testProperty "q"]) (testProperty "p")
    (tableInv_registerAll _)).1 ⟨(lit "p", testProperty "p"), by decide, rfl⟩).2
    (by decide) (by decide)

/-- The duplicate unit test, evaluated as a state transition, also with a
different handler object under the registered name: the table is the one of
before, with the first handler under `p`. -/
theorem registerProperty_duplicate_unit_test :
    registerPropertyState_ (registerAll [testProperty "p", testProperty "q"])
      (PropertyInfo.create (lit "p") false true true (some 7)) =
      ([(lit "p", testProperty "p"), (lit "q", testProperty "q")],
        some ⟨lit "Property \"p\" has already been registered"⟩) := by
  decide

/-! ## The merge loop of `load_`: how the iterations for one property end -/

/-- Every way in which `seek` ends.  The handlers of `skipped` were passed by
`++j`: each sorts before the property, does not match it and is not required.
Then either the handlers are exhausted, or the cursor stands at a handler `x`
and one of five things happens: the handler matches and throws; it matches
and returns (an exact handler is passed, a prefix handler stays); it sorts
before the property and is required; it sorts after the property and unknown
properties are an error; or they are ignored. -/
theorem seek_cases (handle : Nat → ConfigurationProperty → HandlerOutcome) (ign : Bool)
    (src : Str) (p : ConfigurationProperty) : ∀ (j done : PropertyInfoMap),
    ∃ skipped : PropertyInfoMap,
      (∀ x ∈ skipped, handlerMatches x p.name = false ∧ strLt x.1 p.name = true ∧
        x.2.required_ = false) ∧
      ((j = skipped ∧ seek handle ign src p done j = .exhausted (skipped.reverse ++ done)) ∨
       (∃ x rest, j = skipped ++ x :: rest ∧
         ((handlerMatches x p.name = true ∧ ∃ err, applyHandler_ handle x.2 p = some err ∧
            seek handle ign src p done j =
              .raise (skipped.reverse ++ done) (x :: rest) none (.invalidPropertyValue err)) ∨
          (handlerMatches x p.name = true ∧ applyHandler_ handle x.2 p = none ∧
            p.name = x.1 ∧ x.2.prefix_ = false ∧
            seek handle ign src p done j =
              .advance ((x.1, x.2.setFound true) :: (skipped.reverse ++ done)) rest
                (some (x.1, p))) ∨
          (handlerMatches x p.name = true ∧ applyHandler_ handle x.2 p = none ∧
            x.2.prefix_ = true ∧
            seek handle ign src p done j =
              .advance (skipped.reverse ++ done) ((x.1, x.2.setFound true) :: rest)
                (some (x.1, p))) ∨
          (handlerMatches x p.name = false ∧ strLt x.1 p.name = true ∧
            x.2.required_ = true ∧
            seek handle ign src p done j =
              .raise (skipped.reverse ++ done) (x :: rest) none
                (.requiredPropertyMissing src x.1)) ∨
          (handlerMatches x p.name = false ∧ strLt x.1 p.name = false ∧ ign = false ∧
            seek handle ign src p done j =
              .raise (skipped.reverse ++ done) (x :: rest) none
                (.unknownProperty p.source p.line p.name)) ∨
          (handlerMatches x p.name = false ∧ strLt x.1 p.name = false ∧ ign = true ∧
            seek handle ign src p done j =
              .advance (skipped.reverse ++ done) (x :: rest) none))))
  | [], done => ⟨[], by simp, Or.inl ⟨rfl, by simp [seek]⟩⟩
  | x :: rest, done => by
    by_cases heq : p.name = x.1
    · have hm : handlerMatches x p.name = true := by simp [handlerMatches, heq]
      refine ⟨[], by simp, Or.inr ⟨x, rest, rfl, ?_⟩⟩
      cases happ : applyHandler_ handle x.2 p with
      | some err =>
        refine Or.inl ⟨hm, err, rfl, ?_⟩
        simp [seek, heq, happ]
      | none =>
        by_cases hp : x.2.prefix_ = true
        · refine Or.inr (Or.inr (Or.inl ⟨hm, rfl, hp, ?_⟩))
          simp [seek, heq, happ, hp]
        · simp only [Bool.not_eq_true] at hp
          refine Or.inr (Or.inl ⟨hm, rfl, heq, hp, ?_⟩)
          simp [seek, heq, happ, hp]
    · by_cases hpm : (x.2.prefix_ && startsWith p.name x.1) = true
      · have hm : handlerMatches x p.name = true := by
          simp only [handlerMatches, Bool.or_eq_true, decide_eq_true_eq]
          exact Or.inr hpm
        have hp : x.2.prefix_ = true := by
          simp only [Bool.and_eq_true] at hpm
          exact hpm.1
        refine ⟨[], by simp, Or.inr ⟨x, rest, rfl, ?_⟩⟩
        cases happ : applyHandler_ handle x.2 p with
        | some err =>
          refine Or.inl ⟨hm, err, rfl, ?_⟩
          simp [seek, heq, hpm, happ]
        | none =>
          refine Or.inr (Or.inr (Or.inl ⟨hm, rfl, hp, ?_⟩))
          simp [seek, heq, hpm, happ]
      · have hm : handlerMatches x p.name = false := by
          simp only [Bool.not_eq_true] at hpm
          simp only [handlerMatches, heq, decide_False, Bool.false_or]
          exact hpm
        by_cases hlt : strLt x.1 p.name = true
        · by_cases hreq : x.2.required_ = true
          · refine ⟨[], by simp, Or.inr ⟨x, rest, rfl, ?_⟩⟩
            refine Or.inr (Or.inr (Or.inr (Or.inl ⟨hm, hlt, hreq, ?_⟩)))
            simp [seek, heq, hpm, hlt, hreq]
          · simp only [Bool.not_eq_true] at hreq
            obtain ⟨skipped, hsk, hres⟩ := seek_cases handle ign src p rest (x :: done)
            have hstep : seek handle ign src p done (x :: rest) =
                seek handle ign src p (x :: done) rest := by
              simp [seek, heq, hpm, hlt, hreq]
            have hrev : (x :: skipped).reverse ++ done = skipped.reverse ++ x :: done := by
              simp
            refine ⟨x :: skipped, ?_, ?_⟩
            · intro y hy
              rcases List.mem_cons.1 hy with hy | hy
              · rw [hy]; exact ⟨hm, hlt, hreq⟩
              · exact hsk y hy
            · rw [hstep, hrev]
              rcases hres with ⟨hj, hr⟩ | ⟨y, rest1, hj, hr⟩
              · exact Or.inl ⟨by rw [hj], hr⟩
              · exact Or.inr ⟨y, rest1, by rw [hj]; rfl, hr⟩
        · simp only [Bool.not_eq_true] at hlt
          refine ⟨[], by simp, Or.inr ⟨x, rest, rfl, ?_⟩⟩
          cases hign : ign with
          | false =>
            refine Or.inr (Or.inr (Or.inr (Or.inr (Or.inl ⟨hm, hlt, rfl, ?_⟩))))
            simp [seek, heq, hpm, hlt]
          | true =>
            refine Or.inr (Or.inr (Or.inr (Or.inr (Or.inr ⟨hm, hlt, rfl, ?_⟩))))
            simp [seek, heq, hpm, hlt]

/-! ## The table of `load_` up to the `found_` flags -/

theorem resetFound_append (a b : PropertyInfoMap) :
    resetFound (a ++ b) = resetFound a ++ resetFound b := by
  simp [resetFound]

theorem resetFound_cons (x : Str × PropertyInfo) (a : PropertyInfoMap) :
    resetFound (x :: a) = (x.1, x.2.setFound false) :: resetFound a := rfl

theorem resetFound_cons_setFound (x : Str × PropertyInfo) (b : Bool) (a : PropertyInfoMap) :
    resetFound ((x.1, x.2.setFound b) :: a) = resetFound (x :: a) := rfl

theorem resetFound_idem (a : PropertyInfoMap) : resetFound (resetFound a) = resetFound a := by
  induction a with
  | nil => rfl
  | cons x a ih => rw [resetFound_cons, resetFound_cons, ih]; rfl

theorem mem_resetFound {x : Str × PropertyInfo} {a : PropertyInfoMap} (h : x ∈ resetFound a) :
    ∃ x0 ∈ a, x = (x0.1, x0.2.setFound false) := by
  unfold resetFound at h
  obtain ⟨x0, h0, h1⟩ := List.mem_map.1 h
  exact ⟨x0, h0, h1.symm⟩

theorem mem_resetFound_of_mem {x : Str × PropertyInfo} {a : PropertyInfoMap} (h : x ∈ a) :
    (x.1, x.2.setFound false) ∈ resetFound a := by
  unfold resetFound
  exact List.mem_map.2 ⟨x, h, rfl⟩

theorem handlerMatches_setFound (x : Str × PropertyInfo) (b : Bool) (n : Str) :
    handlerMatches (x.1, x.2.setFound b) n = handlerMatches x n := rfl

theorem applyHandler_setFound (handle : Nat → ConfigurationProperty → HandlerOutcome)
    (info : PropertyInfo) (b : Bool) (p : ConfigurationProperty) :
    applyHandler_ handle (info.setFound b) p = applyHandler_ handle info p := rfl

/-- Where the cursor stands when it has not passed `h`: a split of the table
at `h` and a split at the cursor, with `h` not among the handlers passed. -/
theorem split_at_cursor {pre post skipped rest : PropertyInfoMap} {h x : Str × PropertyInfo}
    (heq : pre ++ h :: post = skipped ++ x :: rest) (hh : h ∉ skipped) :
    (pre = skipped ∧ x = h ∧ rest = post) ∨
    (∃ mid, pre = skipped ++ x :: mid ∧ rest = mid ++ h :: post) := by
  rcases List.append_eq_append_iff.1 heq with ⟨a, h1, h2⟩ | ⟨c, h1, h2⟩
  · cases a with
    | nil =>
      simp only [List.nil_append, List.cons.injEq] at h2
      simp only [List.append_nil] at h1
      exact Or.inl ⟨h1.symm, h2.1.symm, h2.2.symm⟩
    | cons y a =>
      simp only [List.cons_append, List.cons.injEq] at h2
      exact absurd (by rw [h1, h2.1]; simp) hh
  · cases c with
    | nil =>
      simp only [List.nil_append, List.cons.injEq] at h2
      simp only [List.append_nil] at h1
      exact Or.inl ⟨h1, h2.1, h2.2⟩
    | cons y c =>
      simp only [List.cons_append, List.cons.injEq] at h2
      refine Or.inr ⟨c, ?_, h2.2⟩
      rw [h1, h2.1]

theorem firstRequired_split : ∀ (pre post : PropertyInfoMap) (h : Str × PropertyInfo),
    h.2.required_ = true →
    firstRequired (pre ++ h :: post) = some h.1 ∨
      ∃ x ∈ pre, x.2.required_ = true ∧ firstRequired (pre ++ h :: post) = some x.1
  | [], post, h, hreq => by
    left
    simp [firstRequired, hreq]
  | y :: pre, post, h, hreq => by
    by_cases hy : y.2.required_ = true
    · right
      exact ⟨y, List.mem_cons_self _ _, hy, by simp [firstRequired, hy]⟩
    · have hstep : firstRequired ((y :: pre) ++ h :: post) = firstRequired (pre ++ h :: post) := by
        simp [firstRequired, hy]
      rw [hstep]
      rcases firstRequired_split pre post h hreq with h1 | ⟨x, hx, h1, h2⟩
      · exact Or.inl h1
      · exact Or.inr ⟨x, List.mem_cons_of_mem _ hx, h1, h2⟩

theorem EarlierError.mono {handle : Nat → ConfigurationProperty → HandlerOutcome} {ign : Bool}
    {src : Str} {pre1 pre : PropertyInfoMap} {ps1 ps : List ConfigurationProperty}
    {e : BindError} (h : EarlierError handle ign src pre1 ps1 e)
    (hpre : ∀ x ∈ resetFound pre1, x ∈ resetFound pre) (hps : ∀ q ∈ ps1, q ∈ ps) :
    EarlierError handle ign src pre ps e := by
  rcases h with ⟨x, hx, h1, h2⟩ | ⟨x, hx, q, hq, err, h1, h2, h3⟩ | ⟨h1, q, hq, h2⟩
  · exact Or.inl ⟨x, hpre x hx, h1, h2⟩
  · exact Or.inr (Or.inl ⟨x, hpre x hx, q, hps q hq, err, h1, h2, h3⟩)
  · exact Or.inr (Or.inr ⟨h1, q, hps q hq, h2⟩)

/-- The merge loop entered with a required handler `h` at or after the
handler cursor that matches none of the remaining properties: the loop ends
with an exception, the one that names `h` or an earlier one. -/
theorem loadLoop_required_unmatched (handle : Nat → ConfigurationProperty → HandlerOutcome)
    (ign : Bool) (src : Str) (h : Str × PropertyInfo) (post : PropertyInfoMap)
    (hreq : h.2.required_ = true) :
    ∀ (ps : List ConfigurationProperty) (done pre : PropertyInfoMap)
      (applied : List Application),
      (∀ q ∈ ps, handlerMatches h q.name = false) →
      ∃ e, (loadLoop handle ign src ps done (pre ++ h :: post) applied).error = some e ∧
        (e = .requiredPropertyMissing src h.1 ∨ EarlierError handle ign src pre ps e)
  | [], done, pre, applied, _ => by
    simp only [loadLoop, loadFinish]
    rcases firstRequired_split pre post h hreq with h1 | ⟨x, hx, h1, h2⟩
    · rw [h1]
      exact ⟨_, rfl, Or.inl rfl⟩
    · rw [h2]
      exact ⟨_, rfl, Or.inr (Or.inl ⟨_, mem_resetFound_of_mem hx, h1, rfl⟩)⟩
  | p :: ps, done, pre, applied, hun => by
    have hunp := hun p (List.mem_cons_self _ _)
    have hunps : ∀ q ∈ ps, handlerMatches h q.name = false :=
      fun q hq => hun q (List.mem_cons_of_mem _ hq)
    obtain ⟨skipped, hsk, hres⟩ := seek_cases handle ign src p (pre ++ h :: post) done
    have hh : h ∉ skipped := by
      intro hc
      have := (hsk h hc).2.2
      rw [hreq] at this
      cases this
    rcases hres with ⟨hj, _⟩ | ⟨x, rest, hj, hr⟩
    · exact absurd (by rw [← hj]; simp) hh
    · have hsplit := split_at_cursor hj hh
      have hxpre : handlerMatches x p.name = true → x ∈ pre := by
        intro hm
        rcases hsplit with ⟨_, hx, _⟩ | ⟨mid, hpre, _⟩
        · rw [hx, hunp] at hm; cases hm
        · rw [hpre]; simp
      -- after an application the handler `h` is still ahead of the cursor
      have hnext : ∀ (done1 : PropertyInfoMap) (applied1 : List Application) (x1 : PropertyInfo),
          handlerMatches x p.name = true →
          ((∃ pre1, rest = pre1 ++ h :: post ∧
              ∀ y ∈ resetFound pre1, y ∈ resetFound pre) ∧
           (∃ pre1, (x.1, x.2.setFound true) :: rest = pre1 ++ h :: post ∧
              ∀ y ∈ resetFound pre1, y ∈ resetFound pre)) := by
        intro _ _ _ hm
        rcases hsplit with ⟨_, hx, _⟩ | ⟨mid, hpre, hrest⟩
        · rw [hx, hunp] at hm; cases hm
        · constructor
          · refine ⟨mid, hrest, ?_⟩
            intro y hy
            rw [hpre, resetFound_append, resetFound_cons]
            simp only [List.mem_append, List.mem_cons]
            exact Or.inr (Or.inr hy)
          · refine ⟨(x.1, x.2.setFound true) :: mid, by rw [hrest]; rfl, ?_⟩
            intro y hy
            rw [resetFound_cons_setFound] at hy
            rw [hpre, resetFound_append]
            exact List.mem_append_right _ hy
      rcases hr with ⟨hm, err, happ, hseek⟩ | ⟨hm, happ, _, _, hseek⟩ | ⟨hm, happ, _, hseek⟩ |
          ⟨hm, hlt, hrq, hseek⟩ | ⟨hm, hlt, hign, hseek⟩ | ⟨hm, hlt, hign, hseek⟩
      · -- the handler at the cursor throws
        simp only [loadLoop, hseek]
        refine ⟨_, rfl, Or.inr (Or.inr (Or.inl ⟨_, mem_resetFound_of_mem (hxpre hm), p,
          List.mem_cons_self _ _, err, hm, happ, rfl⟩))⟩
      · -- an exact handler was applied and passed
        obtain ⟨⟨pre1, hrest, hsub⟩, _⟩ := hnext done applied x.2 hm
        simp only [loadLoop, hseek]
        rw [hrest]
        obtain ⟨e, he, hc⟩ := loadLoop_required_unmatched handle ign src h post hreq ps _ pre1
          (applied ++ (some (x.1, p)).toList) hunps
        refine ⟨e, he, ?_⟩
        rcases hc with hc | hc
        · exact Or.inl hc
        · exact Or.inr (hc.mono hsub (fun q hq => List.mem_cons_of_mem _ hq))
      · -- a prefix handler was applied and stays at the cursor
        obtain ⟨_, ⟨pre1, hrest, hsub⟩⟩ := hnext done applied x.2 hm
        simp only [loadLoop, hseek]
        rw [hrest]
        obtain ⟨e, he, hc⟩ := loadLoop_required_unmatched handle ign src h post hreq ps _ pre1
          (applied ++ (some (x.1, p)).toList) hunps
        refine ⟨e, he, ?_⟩
        rcases hc with hc | hc
        · exact Or.inl hc
        · exact Or.inr (hc.mono hsub (fun q hq => List.mem_cons_of_mem _ hq))
      · -- a required handler sorts before the property
        simp only [loadLoop, hseek]
        rcases hsplit with ⟨_, hx, _⟩ | ⟨mid, hpre, _⟩
        · exact ⟨_, rfl, Or.inl (by rw [hx])⟩
        · refine ⟨_, rfl, Or.inr (Or.inl ⟨_, mem_resetFound_of_mem
            (show x ∈ pre by rw [hpre]; simp), hrq, rfl⟩)⟩
      · -- an unknown property, not ignored
        simp only [loadLoop, hseek]
        exact ⟨_, rfl, Or.inr (Or.inr (Or.inr ⟨hign, p, List.mem_cons_self _ _, rfl⟩))⟩
      · -- an unknown property, ignored: the cursor stays
        simp only [loadLoop, hseek]
        have hj1 : ∃ pre1, x :: rest = pre1 ++ h :: post ∧
            ∀ y ∈ resetFound pre1, y ∈ resetFound pre := by
          rcases hsplit with ⟨hp, hx, hrest⟩ | ⟨mid, hpre, hrest⟩
          · exact ⟨[], by rw [hx, hrest]; rfl, by intro y hy; cases hy⟩
          · refine ⟨x :: mid, by rw [hrest]; rfl, ?_⟩
            intro y hy
            rw [hpre, resetFound_append]
            exact List.mem_append_right _ hy
        obtain ⟨pre1, hrest, hsub⟩ := hj1
        rw [hrest]
        obtain ⟨e, he, hc⟩ := loadLoop_required_unmatched handle ign src h post hreq ps _ pre1
          (applied ++ (none : Option Application).toList) hunps
        refine ⟨e, he, ?_⟩
        rcases hc with hc | hc
        · exact Or.inl hc
        · exact Or.inr (hc.mono hsub (fun q hq => List.mem_cons_of_mem _ hq))

/-- Claim C24. With the handler table `pre ++ h :: post`, where the handler
`h` is required and matches no property of the store, `load_` does not return
normally.  The exception is `RequiredPropertyMissingError` for `h`, unless
one is raised before the handler cursor has passed `h`:
`RequiredPropertyMissingError` for a required handler of `pre`, the
`InvalidPropertyValueError` of a handler of `pre` applied to a property it
matches, or (when unknown properties are not ignored) `UnknownPropertyError`
for a property of the store.  So when no handler before `h` is required, the
handlers before `h` accept the properties they match and unknown properties
are ignored, the exception is `RequiredPropertyMissingError` for `h`. -/
theorem load_required_unmatched_raises (handle : Nat → ConfigurationProperty → HandlerOutcome)
    (ign : Bool) (pre post : PropertyInfoMap) (h : Str × PropertyInfo) (src : Str)
    (store : ConfigurationPropertyMap) (hreq : h.2.required_ = true)
    (hun : ∀ q ∈ store.toList, handlerMatches h q.name = false) :
    (∃ e, (load_ handle ign (pre ++ h :: post) src store).error = some e ∧
      (e = .requiredPropertyMissing src h.1 ∨
       (∃ x ∈ pre, x.2.required_ = true ∧ e = .requiredPropertyMissing src x.1) ∨
       (∃ x ∈ pre, ∃ q ∈ store.toList, ∃ err, handlerMatches x q.name = true ∧
          applyHandler_ handle x.2 q = some err ∧ e = .invalidPropertyValue err) ∨
       (ign = false ∧ ∃ q ∈ store.toList, e = .unknownProperty q.source q.line q.name))) ∧
    ((∀ x ∈ pre, x.2.required_ = false) →
      (∀ x ∈ pre, ∀ q ∈ store.toList, handlerMatches x q.name = true →
        applyHandler_ handle x.2 q = none) →
      ign = true →
      (load_ handle ign (pre ++ h :: post) src store).error =
        some (.requiredPropertyMissing src h.1)) := by
  have hmain : ∃ e, (load_ handle ign (pre ++ h :: post) src store).error = some e ∧
      (e = .requiredPropertyMissing src h.1 ∨
       (∃ x ∈ pre, x.2.required_ = true ∧ e = .requiredPropertyMissing src x.1) ∨
       (∃ x ∈ pre, ∃ q ∈ store.toList, ∃ err, handlerMatches x q.name = true ∧
          applyHandler_ handle x.2 q = some err ∧ e = .invalidPropertyValue err) ∨
       (ign = false ∧ ∃ q ∈ store.toList, e = .unknownProperty q.source q.line q.name)) := by
    unfold load_
    rw [resetFound_append, resetFound_cons]
    obtain ⟨e, he, hc⟩ := loadLoop_required_unmatched handle ign src (h.1, h.2.setFound false)
      (resetFound post) hreq store.toList [] (resetFound pre) [] hun
    refine ⟨e, he, ?_⟩
    rcases hc with hc | ⟨x, hx, h1, h2⟩ | ⟨x, hx, q, hq, err, h1, h2, h3⟩ | ⟨h1, q, hq, h2⟩
    · exact Or.inl hc
    · rw [resetFound_idem] at hx
      obtain ⟨x0, hx0, hxe⟩ := mem_resetFound hx
      subst hxe
      exact Or.inr (Or.inl ⟨x0, hx0, h1, h2⟩)
    · rw [resetFound_idem] at hx
      obtain ⟨x0, hx0, hxe⟩ := mem_resetFound hx
      subst hxe
      exact Or.inr (Or.inr (Or.inl ⟨x0, hx0, q, hq, err, h1, h2, h3⟩))
    · exact Or.inr (Or.inr (Or.inr ⟨h1, q, hq, h2⟩))
  refine ⟨hmain, ?_⟩
  intro hnr hacc hign
  obtain ⟨e, he, hc⟩ := hmain
  rw [he]
  rcases hc with hc | ⟨x, hx, h1, _⟩ | ⟨x, hx, q, hq, err, h1, h2, _⟩ | ⟨h1, _⟩
  · rw [hc]
  · rw [hnr x hx] at h1; cases h1
  · rw [hacc x hx q hq h1] at h2; cases h2
  · rw [hign] at h1; cases h1

/-- An instance of the theorem above, after the unit test of missing
properties: `int.single` is required, and the store holds
`double.single` and `str.single` only. -/
theorem load_required_unmatched_raises_witness :
    (load_ (fun _ _ => .ok) true
      ([(lit "double.single", PropertyInfo.create (lit "double.single") false false false (some 1))]
        ++ (lit "int.single", PropertyInfo.create (lit "int.single") false true false (some 0)) ::
        [(lit "str.single", PropertyInfo.create (lit "str.single") false false false (some 2))])
      (lit "missing_required.cfg")
      ((ConfigurationPropertyMap.empty.add
          ⟨lit "str.single", lit "abc", lit "missing_required.cfg", 1⟩).add
          ⟨lit "double.single", lit "1.5", lit "missing_required.cfg", 2⟩)).error =
    some (.requiredPropertyMissing (lit "missing_required.cfg") (lit "int.single")) :=
  (load_required_unmatched_raises (fun _ _ => .ok) true
    [(lit "double.single", PropertyInfo.create (lit "double.single") false false false (some 1))]
    [(lit "str.single", PropertyInfo.create (lit "str.single") false false false (some 2))]
    (lit "int.single", PropertyInfo.create (lit "int.single") false true false (some 0))
    (lit "missing_required.cfg")
    ((ConfigurationPropertyMap.empty.add
        ⟨lit "str.single", lit "abc", lit "missing_required.cfg", 1⟩).add
        ⟨lit "double.single", lit "1.5", lit "missing_required.cfg", 2⟩)
    rfl (by decide)).2 (by decide) (by decide) rfl

/-! ## Unknown properties -/

theorem handlerMatches_false_later {x : Str × PropertyInfo} {a b : Str}
    (hm : handlerMatches x a = false) (hxa : strLt x.1 a = true) (hab : strLt a b = true) :
    handlerMatches x b = false := by
  cases hb : handlerMatches x b with
  | false => rfl
  | true =>
    simp only [handlerMatches, Bool.or_eq_true, decide_eq_true_eq, Bool.and_eq_true] at hb
    rcases hb with hb | ⟨hp, hs⟩
    · have := strLt_trans _ _ _ hxa hab
      rw [hb, strLt_irrefl] at this
      cases this
    · have hsa := startsWith_convex x.1 a b hs (Or.inr hxa) (Or.inr hab)
      simp [handlerMatches, hp, hsa] at hm

/-- With `ignoreUnknownProperties_` set, the merge loop never ends with
`UnknownPropertyError`. -/
theorem loadLoop_ignore_unknown (handle : Nat → ConfigurationProperty → HandlerOutcome)
    (src : Str) (s : Str) (l : Int) (n : Str) :
    ∀ (ps : List ConfigurationProperty) (done j : PropertyInfoMap)
      (applied : List Application),
      (loadLoop handle true src ps done j applied).error ≠ some (.unknownProperty s l n)
  | [], done, j, applied => by
    simp only [loadLoop, loadFinish]
    cases firstRequired j <;> simp
  | p :: ps, done, j, applied => by
    obtain ⟨skipped, _, hres⟩ := seek_cases handle true src p j done
    rcases hres with ⟨_, hseek⟩ | ⟨x, rest, _, hr⟩
    · simp [loadLoop, hseek, loadFinish, firstRequired]
    · rcases hr with ⟨_, err, _, hseek⟩ | ⟨_, _, _, _, hseek⟩ | ⟨_, _, _, hseek⟩ |
          ⟨_, _, _, hseek⟩ | ⟨_, _, hign, _⟩ | ⟨_, _, _, hseek⟩
      · simp [loadLoop, hseek]
      · simp only [loadLoop, hseek]
        exact loadLoop_ignore_unknown handle src s l n ps _ _ _
      · simp only [loadLoop, hseek]
        exact loadLoop_ignore_unknown handle src s l n ps _ _ _
      · simp [loadLoop, hseek]
      · cases hign
      · simp only [loadLoop, hseek]
        exact loadLoop_ignore_unknown handle src s l n ps _ _ _

/-- Without `ignoreUnknownProperties_`, the merge loop ends with an exception
when a remaining property is matched by no handler at or after the cursor. -/
theorem loadLoop_unmatched_raises (handle : Nat → ConfigurationProperty → HandlerOutcome)
    (src : Str) (p0 : ConfigurationProperty) :
    ∀ (ps : List ConfigurationProperty) (done j : PropertyInfoMap)
      (applied : List Application),
      p0 ∈ ps → (∀ x ∈ j, handlerMatches x p0.name = false) →
      (loadLoop handle false src ps done j applied).error ≠ none
  | [], _, _, _, hmem, _ => by cases hmem
  | p :: ps, done, j, applied, hmem, hun => by
    obtain ⟨skipped, _, hres⟩ := seek_cases handle false src p j done
    rcases hres with ⟨_, hseek⟩ | ⟨x, rest, hj, hr⟩
    · simp [loadLoop, hseek, loadFinish, firstRequired]
    · have hxj : x ∈ j := by rw [hj]; simp
      have hrestj : ∀ y ∈ rest, y ∈ j := by
        intro y hy; rw [hj]; simp [hy]
      have hp0 : handlerMatches x p.name = true → p0 ∈ ps := by
        intro hm
        rcases List.mem_cons.1 hmem with h | h
        · rw [← h, hun x hxj] at hm; cases hm
        · exact h
      rcases hr with ⟨_, err, _, hseek⟩ | ⟨hm, _, _, _, hseek⟩ | ⟨hm, _, _, hseek⟩ |
          ⟨_, _, _, hseek⟩ | ⟨_, _, _, hseek⟩ | ⟨_, _, hign, _⟩
      · simp [loadLoop, hseek]
      · simp only [loadLoop, hseek]
        exact loadLoop_unmatched_raises handle src p0 ps _ _ _ (hp0 hm)
          (fun y hy => hun y (hrestj y hy))
      · simp only [loadLoop, hseek]
        refine loadLoop_unmatched_raises handle src p0 ps _ _ _ (hp0 hm) ?_
        intro y hy
        rcases List.mem_cons.1 hy with hy | hy
        · rw [hy, handlerMatches_setFound]; exact hun x hxj
        · exact hun y (hrestj y hy)
      · simp [loadLoop, hseek]
      · simp [loadLoop, hseek]
      · cases hign

/-- The table that `load_` ends with is the one it was entered with, up to
the `found_` flags. -/
theorem loadLoop_handlers (handle : Nat → ConfigurationProperty → HandlerOutcome)
    (ign : Bool) (src : Str) :
    ∀ (ps : List ConfigurationProperty) (done j : PropertyInfoMap)
      (applied : List Application),
      resetFound (loadLoop handle ign src ps done j applied).handlers =
        resetFound (done.reverse ++ j)
  | [], done, j, applied => by
    simp only [loadLoop, loadFinish]
    cases firstRequired j <;> rfl
  | p :: ps, done, j, applied => by
    obtain ⟨skipped, _, hres⟩ := seek_cases handle ign src p j done
    have hrev : ∀ (tl : PropertyInfoMap),
        (skipped.reverse ++ done).reverse ++ tl = done.reverse ++ (skipped ++ tl) := by
      intro tl; simp
    rcases hres with ⟨hj, hseek⟩ | ⟨x, rest, hj, hr⟩
    · simp only [loadLoop, hseek, loadFinish, firstRequired]
      have : (skipped.reverse ++ done).reverse ++ [] = done.reverse ++ j := by
        rw [hrev, hj]; simp
      cases ign <;> simp only [Bool.not_false, Bool.not_true, if_true, Bool.false_eq_true,
        if_false, this]
    · rcases hr with ⟨_, err, _, hseek⟩ | ⟨_, _, _, _, hseek⟩ | ⟨_, _, _, hseek⟩ |
          ⟨_, _, _, hseek⟩ | ⟨_, _, _, hseek⟩ | ⟨_, _, _, hseek⟩
      · simp only [loadLoop, hseek]
        rw [hrev, hj]
      · simp only [loadLoop, hseek]
        rw [loadLoop_handlers handle ign src ps, hj, List.reverse_cons, List.append_assoc,
          List.singleton_append, hrev, resetFound_append, resetFound_append,
          resetFound_append, resetFound_cons_setFound, resetFound_append]
      · simp only [loadLoop, hseek]
        rw [loadLoop_handlers handle ign src ps, hj, hrev, resetFound_append,
          resetFound_append, resetFound_append, resetFound_cons_setFound, resetFound_append]
      · simp only [loadLoop, hseek]
        rw [hrev, hj]
      · simp only [loadLoop, hseek]
        rw [hrev, hj]
      · simp only [loadLoop, hseek]
        rw [loadLoop_handlers handle ign src ps, hj, hrev]

/-- When the merge loop ends with `UnknownPropertyError`, the error is for a
remaining property that no handler of the table matches. -/
theorem loadLoop_unknown_unmatched (handle : Nat → ConfigurationProperty → HandlerOutcome)
    (ign : Bool) (src : Str) (s : Str) (l : Int) (n : Str) :
    ∀ (ps : List ConfigurationProperty) (done j : PropertyInfoMap)
      (applied : List Application),
      ps.Pairwise (fun a b => strLt a.name b.name = true) → SortedKeys j →
      (∀ e ∈ done, ∀ q ∈ ps, handlerMatches e q.name = false) →
      (loadLoop handle ign src ps done j applied).error = some (.unknownProperty s l n) →
      ∃ p ∈ ps, s = p.source ∧ l = p.line ∧ n = p.name ∧
        ∀ x ∈ (loadLoop handle ign src ps done j applied).handlers,
          handlerMatches x n = false
  | [], done, j, applied, _, _, _, herr => by
    simp only [loadLoop, loadFinish] at herr
    cases hf : firstRequired j <;> rw [hf] at herr <;> simp at herr
  | p :: ps, done, j, applied, hsorted, hj, hdone, herr => by
    have hps := (List.pairwise_cons.1 hsorted).1
    have hsorted1 := (List.pairwise_cons.1 hsorted).2
    obtain ⟨skipped, hsk, hres⟩ := seek_cases handle ign src p j done
    have hdonep : ∀ e ∈ skipped.reverse ++ done, ∀ q ∈ p :: ps,
        handlerMatches e q.name = false := by
      intro e he q hq
      rcases List.mem_append.1 he with he | he
      · have he' := List.mem_reverse.1 he
        rcases List.mem_cons.1 hq with hq | hq
        · rw [hq]; exact (hsk e he').1
        · exact handlerMatches_false_later (hsk e he').1 (hsk e he').2.1 (hps q hq)
      · exact hdone e he q hq
    have hdone1 : ∀ e ∈ skipped.reverse ++ done, ∀ q ∈ ps, handlerMatches e q.name = false :=
      fun e he q hq => hdonep e he q (List.mem_cons_of_mem _ hq)
    rcases hres with ⟨_, hseek⟩ | ⟨x, rest, hjs, hr⟩
    · simp only [loadLoop, hseek, loadFinish, firstRequired] at herr ⊢
      cases ign with
      | true => simp at herr
      | false =>
        simp only [Bool.not_false, if_true, Option.some.injEq, BindError.unknownProperty.injEq]
          at herr ⊢
        refine ⟨p, List.mem_cons_self _ _, herr.1.symm, herr.2.1.symm, herr.2.2.symm, ?_⟩
        intro y hy
        rw [List.append_nil, List.mem_reverse] at hy
        rw [← herr.2.2]
        exact hdonep y hy p (List.mem_cons_self _ _)
    · have hjsorted : SortedKeys (x :: rest) := by
        rw [hjs] at hj
        exact sortedKeys_append_right hj
      rcases hr with ⟨_, err, _, hseek⟩ | ⟨hm, _, hname, hpx, hseek⟩ | ⟨hm, _, _, hseek⟩ |
          ⟨_, _, _, hseek⟩ | ⟨hm, hlt, _, hseek⟩ | ⟨_, _, _, hseek⟩
      · simp [loadLoop, hseek] at herr
      · simp only [loadLoop, hseek] at herr ⊢
        obtain ⟨q, hq, h1, h2, h3, h4⟩ := loadLoop_unknown_unmatched handle ign src s l n ps _ _ _
          hsorted1 hjsorted.tail (by
            intro e he q hq
            rcases List.mem_cons.1 he with he | he
            · rw [he]
              have hne : ¬ q.name = x.1 := by
                intro hc
                have := hps q hq
                rw [hc, hname, strLt_irrefl] at this
                cases this
              simp [handlerMatches, hne, PropertyInfo.setFound, hpx]
            · exact hdone1 e he q hq) herr
        exact ⟨q, List.mem_cons_of_mem _ hq, h1, h2, h3, h4⟩
      · simp only [loadLoop, hseek] at herr ⊢
        obtain ⟨q, hq, h1, h2, h3, h4⟩ := loadLoop_unknown_unmatched handle ign src s l n ps _ _ _
          hsorted1 (by
            have := hjsorted
            unfold SortedKeys at this ⊢
            exact List.pairwise_cons.2 ⟨(List.pairwise_cons.1 this).1,
              (List.pairwise_cons.1 this).2⟩) hdone1 herr
        exact ⟨q, List.mem_cons_of_mem _ hq, h1, h2, h3, h4⟩
      · simp [loadLoop, hseek] at herr
      · simp only [loadLoop, hseek, Option.some.injEq, BindError.unknownProperty.injEq]
          at herr ⊢
        refine ⟨p, List.mem_cons_self _ _, herr.1.symm, herr.2.1.symm, herr.2.2.symm, ?_⟩
        intro y hy
        rw [← herr.2.2]
        rcases List.mem_append.1 hy with hy | hy
        · exact hdonep y (List.mem_reverse.1 hy) p (List.mem_cons_self _ _)
        · have hpx : strLt p.name x.1 = true := by
            rcases strLt_total p.name x.1 with h | h | h
            · exact h
            · simp [handlerMatches, h] at hm
            · rw [hlt] at h; cases h
          rcases List.mem_cons.1 hy with hy | hy
          · rw [hy]; exact hm
          · exact handlerMatches_false_of_lt
              (strLt_trans _ _ _ hpx (hjsorted.head_lt y hy))
      · simp only [loadLoop, hseek] at herr ⊢
        obtain ⟨q, hq, h1, h2, h3, h4⟩ := loadLoop_unknown_unmatched handle ign src s l n ps _ _ _
          hsorted1 hjsorted hdone1 herr
        exact ⟨q, List.mem_cons_of_mem _ hq, h1, h2, h3, h4⟩

theorem sortedKeys_resetFound {t : PropertyInfoMap} (h : SortedKeys t) :
    SortedKeys (resetFound t) := by
  unfold SortedKeys resetFound
  rw [List.pairwise_map]
  exact h

theorem handlerMatches_of_resetFound_eq {a b : PropertyInfoMap} (n : Str)
    (hab : resetFound a = resetFound b) (ha : ∀ x ∈ a, handlerMatches x n = false) :
    ∀ e ∈ b, handlerMatches e n = false := by
  intro e he
  have hmem := mem_resetFound_of_mem he
  rw [← hab] at hmem
  obtain ⟨y, hy, hye⟩ := mem_resetFound hmem
  have h1 : handlerMatches e n = handlerMatches (e.1, e.2.setFound false) n := rfl
  rw [h1, hye, handlerMatches_setFound]
  exact ha y hy

/-- Claim C23. On a handler table that satisfies the invariant of `handlers_`
(every table built by `registerProperty_` does) and a well-formed store.
With `ignoreUnknownProperties_ = false`, `load_` ends with an exception when
some property of the store is matched by no handler.  Whenever `load_` ends
with `UnknownPropertyError`, unknown properties are not ignored and the error
carries the source, line and name of a property of the store that no handler
of the table matches, neither exactly nor by prefix.  With
`ignoreUnknownProperties_ = true`, `load_` never ends with
`UnknownPropertyError`. -/
theorem load_unknown_property_policy (handle : Nat → ConfigurationProperty → HandlerOutcome)
    (t : PropertyInfoMap) (src : Str) (store : ConfigurationPropertyMap)
    (hinv : TableInv t) (hwf : store.WF) :
    (∀ p ∈ store.toList, (∀ e ∈ t, handlerMatches e p.name = false) →
      (load_ handle false t src store).error ≠ none) ∧
    (∀ (ign : Bool) (s : Str) (l : Int) (n : Str),
      (load_ handle ign t src store).error = some (.unknownProperty s l n) →
      ign = false ∧
      ∃ p ∈ store.toList, p.source = s ∧ p.line = l ∧ p.name = n ∧
        ∀ e ∈ t, handlerMatches e n = false) ∧
    (∀ (s : Str) (l : Int) (n : Str),
      (load_ handle true t src store).error ≠ some (.unknownProperty s l n)) := by
  refine ⟨?_, ?_, ?_⟩
  · intro p hp hun
    unfold load_
    refine loadLoop_unmatched_raises handle src p store.toList [] (resetFound t) [] hp ?_
    intro x hx
    obtain ⟨x0, hx0, hxe⟩ := mem_resetFound hx
    rw [hxe, handlerMatches_setFound]
    exact hun x0 hx0
  · intro ign s l n herr
    constructor
    · cases ign with
      | false => rfl
      | true => exact absurd herr (loadLoop_ignore_unknown handle src s l n _ _ _ _)
    · unfold load_ at herr
      obtain ⟨p, hp, h1, h2, h3, h4⟩ := loadLoop_unknown_unmatched handle ign src s l n
        store.toList [] (resetFound t) [] (store_toList_sorted hwf)
        (sortedKeys_resetFound hinv.sorted) (by intro e he; cases he) herr
      refine ⟨p, hp, h1.symm, h2.symm, h3.symm, ?_⟩
      refine handlerMatches_of_resetFound_eq n ?_ h4
      rw [loadLoop_handlers]
      simp only [List.reverse_nil, List.nil_append]
      exact resetFound_idem t
  · intro s l n
    unfold load_
    exact loadLoop_ignore_unknown handle src s l n _ _ _ _

/-- An instance of the theorem above, after the unit test of unknown
properties: handlers for `int.single` and `str.single`, a store that also
holds `no.such.property`, and unknown properties not ignored. -/
theorem load_unknown_property_policy_witness :
    (load_ (fun _ _ => .ok) false
      (registerAll [PropertyInfo.create (lit "int.single") false false false (some 0),
        PropertyInfo.create (lit "str.single") false false false (some 1)])
      (lit "unknown_properties.cfg")
      ([(⟨lit "str.single", lit "abc", lit "unknown_properties.cfg", 1⟩ : ConfigurationProperty),
        ⟨lit "no.such.property", lit "1", lit "unknown_properties.cfg", 2⟩].foldl
        ConfigurationPropertyMap.add ConfigurationPropertyMap.empty)).error ≠ none :=
  (load_unknown_property_policy (fun _ _ => .ok)
    (registerAll [PropertyInfo.create (lit "int.single") false false false (some 0),
      PropertyInfo.create (lit "str.single") false false false (some 1)])
    (lit "unknown_properties.cfg")
    ([(⟨lit "str.single", lit "abc", lit "unknown_properties.cfg", 1⟩ : ConfigurationProperty),
      ⟨lit "no.such.property", lit "1", lit "unknown_properties.cfg", 2⟩].foldl
      ConfigurationPropertyMap.add ConfigurationPropertyMap.empty)
    (tableInv_registerAll _) (wf_foldl_add _ _ ConfigurationPropertyMap.wf_empty)).1
    ⟨lit "no.such.property", lit "1", lit "unknown_properties.cfg", 2⟩ (by decide) (by decide)

/-- The unit test of unknown properties, evaluated: when they are forbidden,
`load_` ends with `UnknownPropertyError` for the unknown property and has
applied no handler; when they are ignored, it returns and has applied the
handler of `str.single`. -/
theorem load_unknown_properties_unit_test :
    load_ (fun _ _ => .ok) false
      (registerAll [PropertyInfo.create (lit "int.single") false false false (some 0),
        PropertyInfo.create (lit "str.single") false false false (some 1)])
      (lit "unknown_properties.cfg")
      ([(⟨lit "str.single", lit "abc", lit "unknown_properties.cfg", 1⟩ : ConfigurationProperty),
        ⟨lit "no.such.property", lit "1", lit "unknown_properties.cfg", 2⟩].foldl
        ConfigurationPropertyMap.add ConfigurationPropertyMap.empty) =
      ⟨[(lit "int.single", PropertyInfo.create (lit "int.single") false false false (some 0)),
        (lit "str.single", PropertyInfo.create (lit "str.single") false false false (some 1))],
        [], some (.unknownProperty (lit "unknown_properties.cfg") 2 (lit "no.such.property"))⟩ ∧
    load_ (fun _ _ => .ok) true
      (registerAll [PropertyInfo.create (lit "int.single") false false false (some 0),
        PropertyInfo.create (lit "str.single") false false false (some 1)])
      (lit "unknown_properties.cfg")
      ([(⟨lit "str.single", lit "abc", lit "unknown_properties.cfg", 1⟩ : ConfigurationProperty),
        ⟨lit "no.such.property", lit "1", lit "unknown_properties.cfg", 2⟩].foldl
        ConfigurationPropertyMap.add ConfigurationPropertyMap.empty) =
      ⟨[(lit "int.single", PropertyInfo.create (lit "int.single") false false false (some 0)),
        (lit "str.single", (PropertyInfo.create (lit "str.single") false false false
          (some 1)).setFound true)],
        [(lit "str.single", ⟨lit "str.single", lit "abc", lit "unknown_properties.cfg", 1⟩)],
        none⟩ :=
  ⟨by decide, by decide⟩

/-! ## Assigning a name that an include has defined -/

/-- Claim C30. `parseAssignment_` for a name token whose value is valid, when
the store already holds the name with a source other than the current one
(an earlier include put it there): the outcome follows
`includedPropertyAction`, whatever `duplicatePropertyAction` is.  Under
`DUP_IGNORE` the store is unchanged and keeps the included property; under
`DUP_OVERWRITE` the store holds the new value with the current source and the
line of the name token; under `DUP_ERROR` the parse fails with a parse error
that cites the source and line of the included definition. -/
theorem parseAssignment_included_name_modes (w : World) (useEnvVars : Bool)
    (p : ConfigFileParser) (sourceName : Str) (name : Token) (lexer : ConfigFileLexer)
    (properties : ConfigurationPropertyMap) (value : Str) (original : ConfigurationProperty)
    (hval : processValue w.getenv properties useEnvVars
      (lexer.parseNextAsValue.next).1.value = some (.ok value))
    (horig : properties.find (p.getFullName_ name.value) = some original)
    (hsrc : original.source ≠ sourceName) :
    (p.includedPropertyAction_ = .DUP_IGNORE →
      parseAssignment_ w useEnvVars p sourceName name lexer properties =
        some (.ok ((lexer.parseNextAsValue.next).2, properties)) ∧
      properties.find (p.getFullName_ name.value) = some original) ∧
    (p.includedPropertyAction_ = .DUP_OVERWRITE →
      parseAssignment_ w useEnvVars p sourceName name lexer properties =
        some (.ok ((lexer.parseNextAsValue.next).2,
          properties.add ⟨p.getFullName_ name.value, value, sourceName, name.line⟩)) ∧
      (properties.add ⟨p.getFullName_ name.value, value, sourceName, name.line⟩).find
        (p.getFullName_ name.value) =
        some ⟨p.getFullName_ name.value, value, sourceName, name.line⟩ ∧
      ∀ n, n ≠ p.getFullName_ name.value →
        (properties.add ⟨p.getFullName_ name.value, value, sourceName, name.line⟩).find n =
          properties.find n) ∧
    (p.includedPropertyAction_ = .DUP_ERROR →
      parseAssignment_ w useEnvVars p sourceName name lexer properties =
        some (.error ⟨sourceName, name.line, name.column,
          lit "Property \"" ++ p.getFullName_ name.value ++
            lit "\" defined twice; original definition at " ++
            original.source ++ lit ":" ++ showInt original.line⟩)) := by
  have htype := next_value_type lexer
  have hfind := ConfigurationPropertyMap.find_add properties
    ⟨p.getFullName_ name.value, value, sourceName, name.line⟩
  refine ⟨?_, ?_, ?_⟩
  · intro hmode
    refine ⟨?_, horig⟩
    unfold parseAssignment_
    simp only [htype, hval, horig, hsrc, hmode, ne_eq, not_true_eq_false, decide_False,
      if_false]
  · intro hmode
    refine ⟨?_, ?_, ?_⟩
    · unfold parseAssignment_
      simp only [htype, hval, horig, hsrc, hmode, ne_eq, not_true_eq_false, decide_False,
        if_false]
    · rw [hfind]; simp
    · intro n hn
      rw [hfind, if_neg hn]
  · intro hmode
    unfold parseAssignment_
    simp only [htype, hval, horig, hsrc, hmode, ne_eq, not_true_eq_false, decide_False,
      if_false]

/-- An instance of the theorem above: the store holds `p3 = orange` from line
1 of `sub.cfg`, and the assignment `p3 = strawberry` on line 2 of `main.cfg`
is parsed under `DUP_OVERWRITE` for included names and `DUP_ERROR` for
duplicates. -/
theorem parseAssignment_included_name_modes_witness :
    parseAssignment_ (plainWorld noFiles) true
      (ConfigFileParser.create true .DUP_ERROR .DUP_OVERWRITE) (lit "main.cfg")
      ⟨.NAME, lit "p3", 2, 1⟩
      ((ConfigFileLexer.create (IStream.ofText (lit "p3 = strawberry\n")) 2 1).next.2.next.2)
      (ConfigurationPropertyMap.empty.add ⟨lit "p3", lit "orange", lit "sub.cfg", 1⟩) =
    some (.ok (((ConfigFileLexer.create (IStream.ofText (lit "p3 = strawberry\n")) 2
        1).next.2.next.2.parseNextAsValue.next).2,
      ⟨[(lit "p3", ⟨lit "p3", lit "strawberry", lit "main.cfg", 2⟩)]⟩)) :=
  (((parseAssignment_included_name_modes (plainWorld noFiles) true
      (ConfigFileParser.create true .DUP_ERROR .DUP_OVERWRITE) (lit "main.cfg")
      ⟨.NAME, lit "p3", 2, 1⟩
      ((ConfigFileLexer.create (IStream.ofText (lit "p3 = strawberry\n")) 2 1).next.2.next.2)
      (ConfigurationPropertyMap.empty.add ⟨lit "p3", lit "orange", lit "sub.cfg", 1⟩)
      (lit "strawberry") ⟨lit "p3", lit "orange", lit "sub.cfg", 1⟩
      (by decide) (by decide) (by decide)).2.1 (by decide)).1).trans (by decide)

/-- A file that includes `sub.cfg` (which holds `p3 = orange`) and then
assigns `p3 = strawberry`, parsed with `duplicatePropertyAction = DUP_ERROR`
in the three modes of `includedPropertyAction`, and with the two actions
exchanged. -/
theorem parseText_included_name_modes :
    ((ConfigFileParser.create true .DUP_ERROR .DUP_IGNORE).parseText
      (plainWorld (filesOf [(lit "sub.cfg", lit "p3 = orange\n")]))
      (lit "main.cfg") (lit "include \"sub.cfg\"\np3 = strawberry\n") 1 1).map
        (fun r => r.outcome) =
      some (.ok ⟨[(lit "p3", ⟨lit "p3", lit "orange", lit "sub.cfg", 1⟩)]⟩) ∧
    ((ConfigFileParser.create true .DUP_ERROR .DUP_OVERWRITE).parseText
      (plainWorld (filesOf [(lit "sub.cfg", lit "p3 = orange\n")]))
      (lit "main.cfg") (lit "include \"sub.cfg\"\np3 = strawberry\n") 1 1).map
        (fun r => r.outcome) =
      some (.ok ⟨[(lit "p3", ⟨lit "p3", lit "strawberry", lit "main.cfg", 2⟩)]⟩) ∧
    ((ConfigFileParser.create true .DUP_IGNORE .DUP_ERROR).parseText
      (plainWorld (filesOf [(lit "sub.cfg", lit "p3 = orange\n")]))
      (lit "main.cfg") (lit "include \"sub.cfg\"\np3 = strawberry\n") 1 1).map
        (fun r => r.outcome) =
      some (.error ⟨lit "main.cfg", 2, 1,
        lit "Property \"p3\" defined twice; original definition at sub.cfg:1"⟩) :=
  ⟨by decide, by decide, by decide⟩

/-! ## The lexer at the end of the input -/

namespace ConfigFileLexer

theorem readNextLine_fails_of_no_lines (lx : ConfigFileLexer) (h : lx.input_.lines = []) :
    (readNextLine_ lx).1 = false := by
  unfold readNextLine_ getline
  by_cases hg : lx.input_.good = true
  · simp [hg, h]
  · simp [hg]

theorem readNextLine_state (lx : ConfigFileLexer) :
    ((readNextLine_ lx).1 = false → (readNextLine_ lx).2.state_ = .AT_EOF) ∧
    ((readNextLine_ lx).1 = true → (readNextLine_ lx).2.state_ = .AT_START ∧
      (readNextLine_ lx).2.input_.lines.length < lx.input_.lines.length) := by
  unfold readNextLine_ getline
  by_cases hg : lx.input_.good = true
  · cases hl : lx.input_.lines with
    | nil => simp [hg, hl]
    | cons l ls => simp [hg, hl]
  · simp [hg]

theorem skipWhitespaceInLine_same (lx : ConfigFileLexer) :
    (skipWhitespaceInLine_ lx).2.input_ = lx.input_ ∧
    (skipWhitespaceInLine_ lx).2.state_ = lx.state_ ∧
    (skipWhitespaceInLine_ lx).2.line_ = lx.line_ ∧
    (skipWhitespaceInLine_ lx).2.text_ = lx.text_ :=
  ⟨rfl, rfl, rfl, rfl⟩

/-- The loop of `skipWhitespace_` ends with `false` only at the end of the
file, and with `true` at the start of a line. -/
theorem skipWhitespaceLoop_state : ∀ (lines : List Str) (lx : ConfigFileLexer),
    lx.input_.lines.length ≤ lines.length →
    ((skipWhitespaceLoop lines lx).1 = false → (skipWhitespaceLoop lines lx).2.state_ = .AT_EOF) ∧
    ((skipWhitespaceLoop lines lx).1 = true → (skipWhitespaceLoop lines lx).2.state_ = .AT_START)
  | [], lx, h => by
    have hl : lx.input_.lines = [] := List.length_eq_zero.1 (Nat.le_zero.1 h)
    have hf := readNextLine_fails_of_no_lines lx hl
    rw [show skipWhitespaceLoop [] lx = (false, (readNextLine_ lx).2) from rfl]
    exact ⟨fun _ => (readNextLine_state lx).1 hf, fun hc => absurd hc (by simp)⟩
  | _ :: lines, lx, h => by
    simp only [skipWhitespaceLoop]
    have hst := readNextLine_state lx
    by_cases hr : (readNextLine_ lx).1 = true
    · have h1 := hst.2 hr
      simp only [hr, Bool.not_true, Bool.false_eq_true, if_false]
      by_cases hs : (skipWhitespaceInLine_ (readNextLine_ lx).2).1 = true
      · rw [if_pos hs]
        exact ⟨fun hc => absurd hc (by simp), fun _ => h1.1⟩
      · simp only [hs, if_false]
        refine skipWhitespaceLoop_state lines _ ?_
        have : (skipWhitespaceInLine_ (readNextLine_ lx).2).2.input_ = (readNextLine_ lx).2.input_ :=
          rfl
        rw [this]
        simp only [List.length_cons] at h
        omega
    · simp only [Bool.not_eq_true] at hr
      rw [if_pos (by rw [hr]; rfl)]
      exact ⟨fun _ => hst.1 hr, fun hc => absurd hc (by simp)⟩

theorem skipWhitespace_eof (lx : ConfigFileLexer) (h : (skipWhitespace_ lx).1 = false) :
    (skipWhitespace_ lx).2.state_ = .AT_EOF := by
  unfold skipWhitespace_ at h ⊢
  by_cases hs : (skipWhitespaceInLine_ lx).1 = true
  · simp only [hs, if_true] at h
    cases h
  · simp only [hs, if_false] at h ⊢
    exact (skipWhitespaceLoop_state _ _ (Nat.le_refl _)).1 h

theorem parseText_type (lx : ConfigFileLexer) :
    ((parseText_ lx).1.type = .END_OF_FILE ↔ (skipWhitespace_ lx).1 = false) ∧
    (parseText_ lx).1.type ≠ .VALUE := by
  unfold parseText_
  by_cases hs : (skipWhitespace_ lx).1 = true
  · simp only [hs, Bool.not_true, Bool.false_eq_true, if_false]
    split
    · simp
    · split <;> simp
  · simp only [Bool.not_eq_true] at hs
    simp [hs]

/-- A call of `parseText_()` that returns END_OF_FILE leaves the lexer in the
state `AT_EOF`, and the token carries its line and column. -/
theorem parseText_eof (lx : ConfigFileLexer) (h : (parseText_ lx).1.type = .END_OF_FILE) :
    (parseText_ lx).2.state_ = .AT_EOF ∧
    (parseText_ lx).1 = ⟨.END_OF_FILE, [], (parseText_ lx).2.line_, (parseText_ lx).2.column_⟩ := by
  have hs := (parseText_type lx).1.1 h
  have he := skipWhitespace_eof lx hs
  unfold parseText_
  simp only [hs, Bool.not_false, if_true]
  exact ⟨he, trivial⟩

theorem next_eof_state (lx : ConfigFileLexer) (h : lx.next.1.type = .END_OF_FILE) :
    lx.next.2.state_ = .AT_EOF ∧
    lx.next.1 = ⟨.END_OF_FILE, [], lx.next.2.line_, lx.next.2.column_⟩ := by
  unfold next at h ⊢
  split
  · rename_i hst; rw [hst] at h; exact parseText_eof lx h
  · rename_i hst; rw [hst] at h; exact parseText_eof lx h
  · rename_i hst; rw [hst] at h
    exact absurd h (by rw [parseValue_type]; simp)
  · rename_i hst; rw [hst] at h
    exact absurd h (by simp [parseQuotedString_])
  · rename_i hst
    exact ⟨hst, rfl⟩

theorem next_at_eof (lx : ConfigFileLexer) (h : lx.state_ = .AT_EOF) :
    lx.next = (⟨.END_OF_FILE, [], lx.line_, lx.column_⟩, lx) := by
  unfold next
  rw [h]

end ConfigFileLexer

/-- Claim C36. Once `next()` has returned an END_OF_FILE token, the lexer is
in the state `AT_EOF`, and every further call of `next()` (with no call of
`parseNextAsValue()` or `parseNextAsQuotedString()` in between) returns the
same token again, with empty text and the same line and column, and leaves
the lexer as it is: so after any number of such calls. -/
theorem next_end_of_file_repeats (lx : ConfigFileLexer)
    (h : lx.next.1.type = .END_OF_FILE) :
    lx.next.1.value = [] ∧
    lx.next.2.state_ = .AT_EOF ∧
    lx.next.2.next = (lx.next.1, lx.next.2) ∧
    ∀ n : Nat, ((fun l : ConfigFileLexer => l.next.2)^[n] lx.next.2) = lx.next.2 ∧
      ((fun l : ConfigFileLexer => l.next.2)^[n] lx.next.2).next = (lx.next.1, lx.next.2) := by
  obtain ⟨hst, htok⟩ := ConfigFileLexer.next_eof_state lx h
  have hnext : lx.next.2.next = (lx.next.1, lx.next.2) := by
    rw [ConfigFileLexer.next_at_eof _ hst, ← htok]
  refine ⟨by rw [htok], hst, hnext, ?_⟩
  intro n
  have hfix : ((fun l : ConfigFileLexer => l.next.2)^[n] lx.next.2) = lx.next.2 := by
    induction n with
    | zero => rfl
    | succ k ih =>
      rw [Function.iterate_succ_apply']
      rw [ih, hnext]
  exact ⟨hfix, by rw [hfix, hnext]⟩

/-- An instance of the theorem above: the text `a=1` and a newline; the
third token is the value, the fourth call of `next()` returns END_OF_FILE at
line 1, column 4, and so does the fifth. -/
theorem next_end_of_file_repeats_witness :
    ((ConfigFileLexer.create (IStream.ofText (lit "a=1\n")) 1
        1).next.2.next.2.parseNextAsValue.next.2.next.2).next =
      (⟨.END_OF_FILE, [], 1, 4⟩,
       (ConfigFileLexer.create (IStream.ofText (lit "a=1\n")) 1
        1).next.2.next.2.parseNextAsValue.next.2.next.2) :=
  ((next_end_of_file_repeats
    ((ConfigFileLexer.create (IStream.ofText (lit "a=1\n")) 1
        1).next.2.next.2.parseNextAsValue.next.2)
    (by decide)).2.2.1).trans (by decide)

/-! ## The lexer in value mode -/

namespace ConfigFileLexer

/-- The loop of `parseValue_` that reads further lines ends in text mode or
at the end of the file. -/
theorem continueValue_state : ∀ (lines : List Str) (value : Str) (lx : ConfigFileLexer),
    lx.input_.lines.length ≤ lines.length →
    (continueValue lines value lx).2.state_ = .AT_TEXT ∨
      (continueValue lines value lx).2.state_ = .AT_EOF
  | [], value, lx, h => by
    have hl : lx.input_.lines = [] := List.length_eq_zero.1 (Nat.le_zero.1 h)
    have hf := readNextLine_fails_of_no_lines lx hl
    rw [show continueValue [] value lx = (value, (readNextLine_ lx).2) from rfl]
    exact Or.inr ((readNextLine_state lx).1 hf)
  | _ :: lines, value, lx, h => by
    simp only [continueValue]
    have hst := readNextLine_state lx
    by_cases hr : (readNextLine_ lx).1 = true
    · have h1 := hst.2 hr
      rw [if_neg (by rw [hr]; simp)]
      split
      · exact Or.inl rfl
      · refine continueValue_state lines _ _ ?_
        show (readNextLine_ lx).2.input_.lines.length ≤ lines.length
        simp only [List.length_cons] at h
        omega
    · simp only [Bool.not_eq_true] at hr
      rw [if_pos (by rw [hr]; rfl)]
      exact Or.inr (hst.1 hr)

theorem parseValue_state (lx : ConfigFileLexer) (b : Bool) :
    (parseValue_ lx b).2.state_ = .AT_TEXT ∨ (parseValue_ lx b).2.state_ = .AT_EOF := by
  unfold parseValue_
  simp only []
  split
  · exact Or.inl rfl
  · exact continueValue_state _ _ _ (Nat.le_refl _)

/-- In value mode, with nothing but whitespace left on the current line, the
value is empty and the lexer stays on the line. -/
theorem parseValue_blank (lx : ConfigFileLexer) (hv : lx.Valid)
    (hblank : lx.remaining.all isSpace = true) :
    parseValue_ lx false =
      (⟨.VALUE, [], lx.line_, incInt lx.column_ lx.remaining.length⟩,
       { lx with current_ := lx.text_.length, column_ := wrapInt (lx.text_.length + 1),
                 state_ := .AT_TEXT }) := by
  have htw : lx.remaining.takeWhile isSpace = lx.remaining := by
    rw [List.takeWhile_eq_self_iff]
    intro c hc
    exact List.all_eq_true.1 hblank c hc
  have hdw : lx.remaining.dropWhile isSpace = [] := by
    rw [List.dropWhile_eq_nil_iff]
    intro c hc
    exact List.all_eq_true.1 hblank c hc
  have h := parseValue_ends_valid lx hv (by rw [hdw]; simp)
  rw [h, hdw, htw]
  rfl

end ConfigFileLexer

/-! ## The lexer in text mode: what `parseText_` returns -/

namespace ConfigFileLexer

theorem remaining_skipInLine (lx : ConfigFileLexer) :
    (skipWhitespaceInLine_ lx).2.remaining = lx.remaining.dropWhile isSpace :=
  drop_skip lx

theorem dropWhile_head_not_space (s : Str) (c : Char) (r : Str)
    (h : s.dropWhile isSpace = c :: r) : isSpace c = false := by
  induction s with
  | nil => cases h
  | cons a s ih =>
    rw [List.dropWhile_cons] at h
    by_cases ha : isSpace a = true
    · rw [if_pos ha] at h
      exact ih h
    · rw [if_neg ha] at h
      simp only [List.cons.injEq] at h
      rw [← h.1]
      simpa using ha

theorem skipWhitespaceInLine_stops (lx : ConfigFileLexer)
    (h : (skipWhitespaceInLine_ lx).1 = true) :
    ∃ c r, (skipWhitespaceInLine_ lx).2.remaining = c :: r ∧ isSpace c = false := by
  have hfst : (skipWhitespaceInLine_ lx).1 = !(skipWhitespaceInLine_ lx).2.remaining.isEmpty := rfl
  rw [hfst] at h
  cases hr : (skipWhitespaceInLine_ lx).2.remaining with
  | nil => rw [hr] at h; cases h
  | cons c r =>
    refine ⟨c, r, rfl, ?_⟩
    rw [remaining_skipInLine] at hr
    exact dropWhile_head_not_space _ c r hr

theorem skipWhitespaceLoop_stops : ∀ (lines : List Str) (lx : ConfigFileLexer),
    (skipWhitespaceLoop lines lx).1 = true →
    ∃ c r, (skipWhitespaceLoop lines lx).2.remaining = c :: r ∧ isSpace c = false
  | [], lx, h => by
    rw [show skipWhitespaceLoop [] lx = (false, (readNextLine_ lx).2) from rfl] at h
    cases h
  | _ :: lines, lx, h => by
    simp only [skipWhitespaceLoop] at h ⊢
    by_cases hr : (readNextLine_ lx).1 = true
    · rw [if_neg (by rw [hr]; simp)] at h ⊢
      by_cases hs : (skipWhitespaceInLine_ (readNextLine_ lx).2).1 = true
      · rw [if_pos hs] at h ⊢
        exact skipWhitespaceInLine_stops _ hs
      · rw [if_neg hs] at h ⊢
        exact skipWhitespaceLoop_stops lines _ h
    · simp only [Bool.not_eq_true] at hr
      rw [if_pos (by rw [hr]; rfl)] at h
      cases h

/-- Where `skipWhitespace_()` stops when it returns true: before a character
that is not whitespace. -/
theorem skipWhitespace_stops (lx : ConfigFileLexer) (h : (skipWhitespace_ lx).1 = true) :
    ∃ c r, (skipWhitespace_ lx).2.remaining = c :: r ∧ isSpace c = false := by
  unfold skipWhitespace_ at h ⊢
  by_cases hs : (skipWhitespaceInLine_ lx).1 = true
  · rw [if_pos hs] at h ⊢
    exact skipWhitespaceInLine_stops lx hs
  · rw [if_neg hs] at h ⊢
    exact skipWhitespaceLoop_stops _ _ h

theorem remaining_advance (lx : ConfigFileLexer) (c : Char) (r : Str) (col : Int)
    (hrem : lx.remaining = c :: r) :
    ConfigFileLexer.remaining { lx with current_ := lx.current_ + 1, column_ := col } = r := by
  unfold remaining at hrem ⊢
  show lx.text_.drop (lx.current_ + 1) = r
  rw [← List.drop_drop, hrem]
  rfl

/-- The three kinds of token of `parseText_()`, by the character `c` that
`skipWhitespace_()` stops at, with `r` the rest of the line behind it. -/
theorem parseText_at (lx : ConfigFileLexer) (c : Char) (r : Str)
    (hs : (skipWhitespace_ lx).1 = true) (hrem : (skipWhitespace_ lx).2.remaining = c :: r) :
    parseText_ lx =
      if isNameChar c '.' then
        (⟨.NAME, (c :: r).take (1 + nameLength c r), (skipWhitespace_ lx).2.line_,
           (skipWhitespace_ lx).2.column_⟩,
         { (skipWhitespace_ lx).2 with
             current_ := (skipWhitespace_ lx).2.current_ + (1 + nameLength c r),
             column_ := incInt (skipWhitespace_ lx).2.column_ (1 + nameLength c r),
             state_ := .AT_TEXT })
      else if c = '#' && (skipWhitespace_ lx).2.state_ = .AT_START then
        (⟨.COMMENT, rstrip (r.dropWhile isSpace), (skipWhitespace_ lx).2.line_,
           incInt (incInt (skipWhitespace_ lx).2.column_ 1) (r.takeWhile isSpace).length⟩,
         { (skipWhitespace_ lx).2 with
             current_ := (skipWhitespace_ lx).2.text_.length,
             column_ := wrapInt ((skipWhitespace_ lx).2.text_.length + 1),
             state_ := .AT_TEXT })
      else
        (⟨.PUNCTUATION, [c], (skipWhitespace_ lx).2.line_,
           wrapInt (incInt (skipWhitespace_ lx).2.column_ 1 - 1)⟩,
         { (skipWhitespace_ lx).2 with
             state_ := .AT_TEXT,
             current_ := (skipWhitespace_ lx).2.current_ + 1,
             column_ := incInt (skipWhitespace_ lx).2.column_ 1 }) := by
  have hcur : (skipWhitespace_ lx).2.currentChar = c := by
    unfold currentChar
    rw [hrem]; rfl
  have hdrop : (skipWhitespace_ lx).2.remaining.drop 1 = r := by rw [hrem]; rfl
  have hadv := remaining_advance (skipWhitespace_ lx).2 c r
    (incInt (skipWhitespace_ lx).2.column_ 1) hrem
  unfold parseText_
  simp only [hs, Bool.not_true, Bool.false_eq_true, if_false, hcur, hdrop, hrem]
  split
  · rfl
  · split
    · have h1 := remaining_skipInLine
        { (skipWhitespace_ lx).2 with current_ := (skipWhitespace_ lx).2.current_ + 1,
                                      column_ := incInt (skipWhitespace_ lx).2.column_ 1 }
      rw [hadv] at h1
      rw [h1]
      simp only [skipWhitespaceInLine_, hadv]
    · rfl

end ConfigFileLexer

namespace ConfigFileLexer

/-- Within a line: `skipWhitespace_()` passes the whitespace `ws` before a
character that is not whitespace. -/
theorem skipWhitespace_in_line (lx : ConfigFileLexer) (ws : Str) (c : Char) (r : Str)
    (hrem : lx.remaining = ws ++ c :: r) (hws : ws.all isSpace = true)
    (hc : isSpace c = false) :
    skipWhitespace_ lx =
      (true, { lx with current_ := lx.current_ + ws.length,
                       column_ := incInt lx.column_ ws.length }) ∧
    (skipWhitespace_ lx).2.remaining = c :: r := by
  have htw := takeWhile_of_append isSpace ws (c :: r) hws (by
    intro x hx
    simp only [List.head?_cons, Option.mem_def, Option.some.injEq] at hx
    rw [← hx]; exact hc)
  have hrem2 : (skipWhitespaceInLine_ lx).2.remaining = c :: r := by
    rw [remaining_skipInLine, hrem, htw.2]
  have hsk : skipWhitespaceInLine_ lx =
      (true, { lx with current_ := lx.current_ + ws.length,
                       column_ := incInt lx.column_ ws.length }) := by
    have h1 : (skipWhitespaceInLine_ lx).1 = true := by
      have hfst : (skipWhitespaceInLine_ lx).1 =
          !(skipWhitespaceInLine_ lx).2.remaining.isEmpty := rfl
      rw [hfst, hrem2]; rfl
    have h2 : (skipWhitespaceInLine_ lx).2 =
        { lx with current_ := lx.current_ + ws.length,
                  column_ := incInt lx.column_ ws.length } := by
      unfold skipWhitespaceInLine_
      simp only [hrem, htw.1]
    exact Prod.ext h1 h2
  have hsw : skipWhitespace_ lx = skipWhitespaceInLine_ lx := by
    unfold skipWhitespace_
    rw [hsk]
    rfl
  rw [hsw]
  exact ⟨hsk, hrem2⟩

theorem nameRun_take_nameLength : ∀ (r : Str) (prev : Char),
    nameRun prev (r.take (nameLength prev r)) = true
  | [], _ => rfl
  | c :: cs, prev => by
    by_cases h : isNameChar c prev = true
    · simp only [nameLength, h, if_true, List.take_succ_cons, nameRun, Bool.true_and]
      exact nameRun_take_nameLength cs c
    · simp only [nameLength, h, if_false, List.take_zero, nameRun, Bool.false_eq_true]

theorem nameRun_chars : ∀ (cs : Str) (prev : Char), nameRun prev cs = true →
    ∀ c ∈ cs, isAlnum c = true ∨ c = '_' ∨ c = '.'
  | [], _, _ => by intro c hc; cases hc
  | d :: cs, prev, h => by
    simp only [nameRun, Bool.and_eq_true] at h
    intro c hc
    rcases List.mem_cons.1 hc with hc | hc
    · rw [hc]
      have h1 := h.1
      simp only [isNameChar, Bool.or_eq_true, decide_eq_true_eq, Bool.and_eq_true] at h1
      rcases h1 with (h1 | h1) | h1
      · exact Or.inl h1
      · exact Or.inr (Or.inl h1)
      · exact Or.inr (Or.inr h1.1)
    · exact nameRun_chars cs d h.2 c hc

theorem isNameChar_first (c : Char) :
    isNameChar c '.' = true ↔ (isAlnum c = true ∨ c = '_') := by
  simp only [isNameChar, Bool.or_eq_true, decide_eq_true_eq, Bool.and_eq_true,
    show isAlnum '.' = false from by decide, Bool.false_eq_true, and_false, or_false]

/-- A NAME token of `parseText_()`: a first character that is a letter, a
digit or an underscore, and behind it the characters that the name loop
passes. -/
theorem parseText_name_shape (lx : ConfigFileLexer) (h : (parseText_ lx).1.type = .NAME) :
    ∃ c cs, (parseText_ lx).1.value = c :: cs ∧ (isAlnum c = true ∨ c = '_') ∧
      nameRun c cs = true := by
  by_cases hs : (skipWhitespace_ lx).1 = true
  · obtain ⟨c, r, hrem, _⟩ := skipWhitespace_stops lx hs
    have hp := parseText_at lx c r hs hrem
    rw [hp] at h ⊢
    by_cases hn : isNameChar c '.' = true
    · rw [if_pos hn]
      refine ⟨c, r.take (nameLength c r), ?_, (isNameChar_first c).1 hn,
        nameRun_take_nameLength r c⟩
      show (c :: r).take (1 + nameLength c r) = c :: r.take (nameLength c r)
      rw [Nat.add_comm, List.take_succ_cons]
    · rw [if_neg hn] at h
      split at h <;> cases h
  · have := (parseText_type lx).1.2 (by simpa using hs)
    rw [this] at h
    cases h

theorem next_name_shape (lx : ConfigFileLexer) (h : lx.next.1.type = .NAME) :
    ∃ c cs, lx.next.1.value = c :: cs ∧ (isAlnum c = true ∨ c = '_') ∧
      nameRun c cs = true := by
  unfold next at h ⊢
  split
  · rename_i hst; rw [hst] at h; exact parseText_name_shape lx h
  · rename_i hst; rw [hst] at h; exact parseText_name_shape lx h
  · rename_i hst; rw [hst] at h
    exact absurd h (by rw [parseValue_type]; simp)
  · rename_i hst; rw [hst] at h
    exact absurd h (by simp [parseQuotedString_])
  · rename_i hst; rw [hst] at h
    cases h

/-- In text mode, the token at a character that can neither start a name nor
a comment is the punctuation made of that one character. -/
theorem next_punctuation (lx : ConfigFileLexer) (ws : Str) (c : Char) (r : Str)
    (hstate : lx.state_ = .AT_START ∨ lx.state_ = .AT_TEXT)
    (hrem : lx.remaining = ws ++ c :: r) (hws : ws.all isSpace = true)
    (hc : isSpace c = false) (hn : isNameChar c '.' = false)
    (hcomment : c = '#' → lx.state_ = .AT_TEXT) :
    lx.next =
      (⟨.PUNCTUATION, [c], lx.line_, wrapInt (incInt lx.column_ ws.length)⟩,
       { lx with current_ := lx.current_ + ws.length + 1,
                 column_ := incInt lx.column_ (ws.length + 1),
                 state_ := .AT_TEXT }) := by
  obtain ⟨hsk, hrem2⟩ := skipWhitespace_in_line lx ws c r hrem hws hc
  have hnext : lx.next = parseText_ lx := by
    unfold next
    rcases hstate with h | h <;> rw [h]
  have hs1 : (skipWhitespace_ lx).1 = true := by rw [hsk]
  have hp := parseText_at lx c r hs1 hrem2
  rw [hnext, hp, if_neg (by rw [hn]; simp)]
  have hnc : ¬ ((c = '#' && (skipWhitespace_ lx).2.state_ = .AT_START) = true) := by
    rw [hsk]
    simp only [Bool.and_eq_true, decide_eq_true_eq, not_and]
    intro h1 h2
    have h3 := hcomment h1
    rw [h3] at h2
    cases h2
  rw [if_neg hnc, hsk]
  simp only [Prod.mk.injEq, Token.mk.injEq, true_and]
  constructor
  · exact wrapInt_incInt_sub_one _
  · simp only [ConfigFileLexer.mk.injEq, true_and, and_true]
    exact incInt_add _ _ _

end ConfigFileLexer

namespace ConfigFileLexer

theorem readNextLine_line (lx : ConfigFileLexer) :
    ((readNextLine_ lx).1 = true → lx.LinesRead (readNextLine_ lx).2 1) ∧
    ((readNextLine_ lx).1 = false → lx.LinesRead (readNextLine_ lx).2 0) := by
  rcases readNextLine_moves lx with ⟨h1, _⟩ | ⟨h1, h2⟩
  · refine ⟨fun hc => absurd hc (by rw [h1]; simp), fun _ => ?_⟩
    unfold readNextLine_ getline at h1 ⊢
    by_cases hg : lx.input_.good = true
    · cases hl : lx.input_.lines with
      | nil => simp [hg, hl, LinesRead, incInt_zero]
      | cons l ls => simp [hg, hl] at h1
    · simp only [Bool.not_eq_true] at hg
      simp [hg, LinesRead, incInt_zero]
  · exact ⟨fun _ => h2, fun hc => absurd hc (by rw [h1]; simp)⟩

theorem skipWhitespaceLoop_line : ∀ (lines : List Str) (lx : ConfigFileLexer),
    ∃ k, lx.LinesRead (skipWhitespaceLoop lines lx).2 k ∧
      ((skipWhitespaceLoop lines lx).1 = true → 1 ≤ k)
  | [], lx => by
    rw [show skipWhitespaceLoop [] lx = (false, (readNextLine_ lx).2) from rfl]
    by_cases hr : (readNextLine_ lx).1 = true
    · exact ⟨1, (readNextLine_line lx).1 hr, fun _ => Nat.le_refl _⟩
    · exact ⟨0, (readNextLine_line lx).2 (by simpa using hr), fun hc => absurd hc (by simp)⟩
  | _ :: lines, lx => by
    simp only [skipWhitespaceLoop]
    have hl := readNextLine_line lx
    by_cases hr : (readNextLine_ lx).1 = true
    · rw [if_neg (by rw [hr]; simp)]
      have h1 := hl.1 hr
      by_cases hs : (skipWhitespaceInLine_ (readNextLine_ lx).2).1 = true
      · rw [if_pos hs]
        exact ⟨1, h1, fun _ => Nat.le_refl _⟩
      · rw [if_neg hs]
        obtain ⟨k, ih, _⟩ :=
          skipWhitespaceLoop_line lines (skipWhitespaceInLine_ (readNextLine_ lx).2).2
        refine ⟨1 + k, ?_, fun _ => by omega⟩
        exact linesRead_trans (b := (skipWhitespaceInLine_ (readNextLine_ lx).2).2) h1 ih
    · simp only [Bool.not_eq_true] at hr
      rw [if_pos (by rw [hr]; rfl)]
      exact ⟨0, hl.2 hr, fun hc => absurd hc (by simp)⟩

/-- The call `skipWhitespace_()` stays on the line or reads further lines, and
it reads one or more when nothing but whitespace is left on the current
line. -/
theorem skipWhitespace_line (lx : ConfigFileLexer) :
    ∃ k, lx.LinesRead (skipWhitespace_ lx).2 k ∧
      (lx.remaining.all isSpace = true → (skipWhitespace_ lx).1 = true → 1 ≤ k) := by
  unfold skipWhitespace_
  by_cases hs : (skipWhitespaceInLine_ lx).1 = true
  · rw [if_pos hs]
    refine ⟨0, ⟨rfl, rfl⟩, ?_⟩
    intro hblank _
    obtain ⟨c, r, hrem, hc⟩ := skipWhitespaceInLine_stops lx hs
    rw [remaining_skipInLine] at hrem
    have hnil : lx.remaining.dropWhile isSpace = [] := by
      rw [List.dropWhile_eq_nil_iff]
      intro x hx
      exact List.all_eq_true.1 hblank x hx
    rw [hnil] at hrem
    cases hrem
  · rw [if_neg hs]
    obtain ⟨k, hk, hk1⟩ := skipWhitespaceLoop_line (skipWhitespaceInLine_ lx).2.input_.lines
      (skipWhitespaceInLine_ lx).2
    exact ⟨k, hk, fun _ h => hk1 h⟩

theorem parseText_line (lx : ConfigFileLexer) :
    (parseText_ lx).1.line = (skipWhitespace_ lx).2.line_ ∧
    (parseText_ lx).2.line_ = (skipWhitespace_ lx).2.line_ := by
  by_cases hs : (skipWhitespace_ lx).1 = true
  · obtain ⟨c, r, hrem, _⟩ := skipWhitespace_stops lx hs
    rw [parseText_at lx c r hs hrem]
    split
    · exact ⟨rfl, rfl⟩
    · split <;> exact ⟨rfl, rfl⟩
  · simp only [Bool.not_eq_true] at hs
    unfold parseText_
    simp only [hs, Bool.not_false, if_true]
    exact ⟨trivial, trivial⟩

/-- A token of `parseText_()` other than END_OF_FILE takes at least one
character of the line on which `skipWhitespace_()` has stopped: a NAME takes
its characters, a PUNCTUATION its one character, a COMMENT the rest of the
line.  The lexer stays on that line, in text mode. -/
theorem parseText_progress (lx : ConfigFileLexer) (h : (parseText_ lx).1.type ≠ .END_OF_FILE) :
    (parseText_ lx).2.text_ = (skipWhitespace_ lx).2.text_ ∧
    (parseText_ lx).2.input_ = (skipWhitespace_ lx).2.input_ ∧
    (parseText_ lx).2.state_ = .AT_TEXT ∧
    (skipWhitespace_ lx).2.current_ < (parseText_ lx).2.current_ ∧
    (parseText_ lx).2.current_ ≤ (skipWhitespace_ lx).2.text_.length ∧
    (((parseText_ lx).1.type = .NAME ∧ 1 ≤ (parseText_ lx).1.value.length ∧
        (parseText_ lx).2.current_ =
          (skipWhitespace_ lx).2.current_ + (parseText_ lx).1.value.length) ∨
     ((parseText_ lx).1.type = .PUNCTUATION ∧ (parseText_ lx).1.value.length = 1 ∧
        (parseText_ lx).2.current_ = (skipWhitespace_ lx).2.current_ + 1) ∨
     ((parseText_ lx).1.type = .COMMENT ∧
        (parseText_ lx).2.current_ = (skipWhitespace_ lx).2.text_.length)) := by
  have hs : (skipWhitespace_ lx).1 = true := by
    by_contra hc
    exact h ((parseText_type lx).1.2 (by simpa using hc))
  obtain ⟨c, r, hrem, _⟩ := skipWhitespace_stops lx hs
  have hlen := remaining_length (skipWhitespace_ lx).2
  rw [hrem, List.length_cons] at hlen
  have hnl := nameLength_le c r
  rw [parseText_at lx c r hs hrem]
  split
  · refine ⟨rfl, rfl, rfl, ?_, ?_, Or.inl ⟨rfl, ?_, ?_⟩⟩
    · show (skipWhitespace_ lx).2.current_ < (skipWhitespace_ lx).2.current_ + (1 + nameLength c r)
      omega
    · show (skipWhitespace_ lx).2.current_ + (1 + nameLength c r) ≤ _
      omega
    · show 1 ≤ ((c :: r).take (1 + nameLength c r)).length
      rw [List.length_take, List.length_cons]
      omega
    · show (skipWhitespace_ lx).2.current_ + (1 + nameLength c r) =
        (skipWhitespace_ lx).2.current_ + ((c :: r).take (1 + nameLength c r)).length
      rw [List.length_take, List.length_cons]
      omega
  · split
    · refine ⟨rfl, rfl, rfl, ?_, ?_, Or.inr (Or.inr ⟨rfl, rfl⟩)⟩
      · show (skipWhitespace_ lx).2.current_ < (skipWhitespace_ lx).2.text_.length
        omega
      · exact le_refl _
    · refine ⟨rfl, rfl, rfl, ?_, ?_, Or.inr (Or.inl ⟨rfl, rfl, rfl⟩)⟩
      · show (skipWhitespace_ lx).2.current_ < (skipWhitespace_ lx).2.current_ + 1
        omega
      · show (skipWhitespace_ lx).2.current_ + 1 ≤ _
        omega

/-- A call of `parseText_()` leaves the lexer on the line of the token it
returns, which is the line of the lexer or one read after it. -/
theorem parseText_linesRead (lx : ConfigFileLexer) :
    (parseText_ lx).1.line = (parseText_ lx).2.line_ ∧
    ∃ k, lx.LinesRead (parseText_ lx).2 k ∧
      (lx.remaining.all isSpace = true → (parseText_ lx).1.type ≠ .END_OF_FILE → 1 ≤ k) := by
  have hl := parseText_line lx
  obtain ⟨k, hk, hk1⟩ := skipWhitespace_line lx
  refine ⟨by rw [hl.1, hl.2], k, ⟨by rw [hl.2]; exact hk.1, ?_⟩, ?_⟩
  · by_cases he : (parseText_ lx).1.type = .END_OF_FILE
    · have hs := (parseText_type lx).1.1 he
      have : (parseText_ lx).2 = (skipWhitespace_ lx).2 := by
        unfold parseText_
        simp only [hs, Bool.not_false, if_true]
      rw [this]
      exact hk.2
    · rw [(parseText_progress lx he).2.1]
      exact hk.2
  · intro hb hne
    apply hk1 hb
    by_contra hc
    exact hne ((parseText_type lx).1.2 (by simpa using hc))

/-- A token of `parseText_()` other than END_OF_FILE leaves `current_` within
the line. -/
theorem parseText_attached (lx : ConfigFileLexer) (h : (parseText_ lx).1.type ≠ .END_OF_FILE) :
    (parseText_ lx).2.Attached := by
  have hp := parseText_progress lx h
  unfold Attached
  rw [hp.1]
  exact hp.2.2.2.2.1

theorem next_text (lx : ConfigFileLexer) (h : lx.state_ = .AT_START ∨ lx.state_ = .AT_TEXT) :
    lx.next = parseText_ lx := by
  unfold next
  rcases h with h | h <;> rw [h]

end ConfigFileLexer

/-- Claim C34. A NAME token that `next()` returns is not empty, starts with a
letter, a digit or an underscore, consists of letters, digits, underscores
and dots, and each of its dots directly follows a letter or a digit: so it
does not start with a dot and has no two adjacent dots.  In text mode a dot
that `skipWhitespace_()` stops at is returned as the PUNCTUATION token of
that one character.  The line `.n1..n2` gives the tokens `.`, NAME `n1.`,
`.` and NAME `n2`. -/
theorem next_name_dots_follow_alnum (lx : ConfigFileLexer) :
    (lx.next.1.type = .NAME →
      lx.next.1.value ≠ [] ∧
      (∀ c ∈ lx.next.1.value.head?, isAlnum c = true ∨ c = '_') ∧
      (∀ c ∈ lx.next.1.value, isAlnum c = true ∨ c = '_' ∨ c = '.') ∧
      List.Chain' (fun a b => b = '.' → isAlnum a = true) lx.next.1.value ∧
      lx.next.1.value.head? ≠ some '.' ∧
      List.Chain' (fun a b => ¬(a = '.' ∧ b = '.')) lx.next.1.value) ∧
    (∀ (ws r : Str), (lx.state_ = .AT_START ∨ lx.state_ = .AT_TEXT) →
      lx.remaining = ws ++ '.' :: r → ws.all isSpace = true →
      lx.next =
        (⟨.PUNCTUATION, ['.'], lx.line_, wrapInt (incInt lx.column_ ws.length)⟩,
         { lx with current_ := lx.current_ + ws.length + 1,
                   column_ := incInt lx.column_ (ws.length + 1),
                   state_ := .AT_TEXT })) ∧
    (ConfigFileLexer.create (IStream.ofText (lit ".n1..n2\n")) 1 1).next.1 =
      ⟨.PUNCTUATION, lit ".", 1, 1⟩ ∧
    (ConfigFileLexer.create (IStream.ofText (lit ".n1..n2\n")) 1 1).next.2.next.1 =
      ⟨.NAME, lit "n1.", 1, 2⟩ ∧
    (ConfigFileLexer.create (IStream.ofText (lit ".n1..n2\n")) 1 1).next.2.next.2.next.1 =
      ⟨.PUNCTUATION, lit ".", 1, 5⟩ ∧
    (ConfigFileLexer.create (IStream.ofText (lit ".n1..n2\n")) 1
      1).next.2.next.2.next.2.next.1 = ⟨.NAME, lit "n2", 1, 6⟩ := by
  refine ⟨?_, ?_, by decide, by decide, by decide, by decide⟩
  · intro h
    obtain ⟨c, cs, hv, hc, hrun⟩ := ConfigFileLexer.next_name_shape lx h
    have hchain := chain_of_nameRun cs c hrun
    have hdot : c ≠ '.' := by
      rintro rfl
      rcases hc with hc | hc
      · revert hc; decide
      · revert hc; decide
    rw [hv]
    refine ⟨List.cons_ne_nil _ _, ?_, ?_, hchain, ?_, ?_⟩
    · intro x hx
      simp only [List.head?_cons, Option.mem_def, Option.some.injEq] at hx
      rw [← hx]; exact hc
    · intro x hx
      rcases List.mem_cons.1 hx with hx | hx
      · rw [hx]
        rcases hc with hc | hc
        · exact Or.inl hc
        · exact Or.inr (Or.inl hc)
      · exact ConfigFileLexer.nameRun_chars cs c hrun x hx
    · simp only [List.head?_cons, ne_eq, Option.some.injEq]
      exact hdot
    · refine List.Chain'.imp ?_ hchain
      intro a b hab hboth
      have := hab hboth.2
      rw [hboth.1] at this
      revert this; decide
  · intro ws r hstate hrem hws
    exact ConfigFileLexer.next_punctuation lx ws '.' r hstate hrem hws (by decide) (by decide)
      (by intro hc; exact absurd hc (by decide))

/-- An instance of the theorem above: the NAME token of the line
`some1.name2.v3=property value text`. -/
theorem next_name_dots_follow_alnum_witness :
    List.Chain' (fun a b => b = '.' → isAlnum a = true)
      (ConfigFileLexer.create (IStream.ofText (lit "some1.name2.v3=property value text\n")) 1
        1).next.1.value :=
  ((next_name_dots_follow_alnum
    (ConfigFileLexer.create (IStream.ofText (lit "some1.name2.v3=property value text\n")) 1
      1)).1 (by decide)).2.2.2.1

/-- Comment lines and a `#` behind a name, evaluated: the text of a comment
keeps its backslashes and references; a `#` behind a token is punctuation,
and so is the `#` behind it. -/
theorem next_comment_examples :
    (ConfigFileLexer.create (IStream.ofText (lit "#  a\\n $\x7bx\x7d \\u41  \nb=1\n")) 1 1).next.1 =
      ⟨.COMMENT, lit "a\\n $\x7bx\x7d \\u41", 1, 4⟩ ∧
    (ConfigFileLexer.create (IStream.ofText (lit "#  a\\n $\x7bx\x7d \\u41  \nb=1\n")) 1
      1).next.2.next.1 = ⟨.NAME, lit "b", 2, 1⟩ ∧
    (ConfigFileLexer.create (IStream.ofText (lit "a # b\n")) 1 1).next.1 =
      ⟨.NAME, lit "a", 1, 1⟩ ∧
    (ConfigFileLexer.create (IStream.ofText (lit "a # b\n")) 1 1).next.2.next.1 =
      ⟨.PUNCTUATION, lit "#", 1, 3⟩ ∧
    (ConfigFileLexer.create (IStream.ofText (lit "a # b\n")) 1 1).next.2.next.2.next.1 =
      ⟨.NAME, lit "b", 1, 5⟩ :=
  ⟨by decide, by decide, by decide, by decide, by decide⟩

/-! ## The token sequence of a text-mode lexer -/

theorem nextTokens_ends : ∀ (n : Nat) (lx : ConfigFileLexer),
    (lx.state_ = .AT_START ∨ lx.state_ = .AT_TEXT ∨ lx.state_ = .AT_EOF) → lx.Valid →
    lx.budget < n →
    ∃ toks eof, nextTokens n lx = toks ++ [eof] ∧ eof.type = .END_OF_FILE ∧
      (∀ t ∈ toks, t.type = .NAME ∨ t.type = .COMMENT ∨ t.type = .PUNCTUATION) ∧
      toks.length ≤ lx.budget
  | 0, _, _, _, h => by omega
  | n + 1, lx, hstate, hv, hb => by
    simp only [nextTokens]
    by_cases he : lx.next.1.type = .END_OF_FILE
    · rw [if_pos he]
      exact ⟨[], lx.next.1, rfl, he, (by intro t ht; cases ht), Nat.zero_le _⟩
    · rw [if_neg he]
      have htext : lx.next = ConfigFileLexer.parseText_ lx := by
        rcases hstate with h | h | h
        · exact ConfigFileLexer.next_text lx (Or.inl h)
        · exact ConfigFileLexer.next_text lx (Or.inr h)
        · rw [ConfigFileLexer.next_at_eof lx h] at he
          exact absurd rfl he
      have hne : (ConfigFileLexer.parseText_ lx).1.type ≠ .END_OF_FILE := by
        rw [← htext]; exact he
      have hprog := ConfigFileLexer.parseText_progress lx hne
      have hbud := ConfigFileLexer.next_budget lx hv
      have hlt : lx.next.2.budget < lx.budget :=
        hbud.2.2 he (by rw [htext]; exact (ConfigFileLexer.parseText_type lx).2)
      have hst2 : lx.next.2.state_ = .AT_TEXT := by rw [htext]; exact hprog.2.2.1
      obtain ⟨toks, eof, h1, h2, h3, h4⟩ := nextTokens_ends n lx.next.2
        (Or.inr (Or.inl hst2)) hbud.1 (by omega)
      refine ⟨lx.next.1 :: toks, eof, by rw [h1]; rfl, h2, ?_, ?_⟩
      · intro t ht
        rcases List.mem_cons.1 ht with ht | ht
        · rw [ht, htext]
          rcases hprog.2.2.2.2.2 with h | h | h
          · exact Or.inl h.1
          · exact Or.inr (Or.inr h.1)
          · exact Or.inr (Or.inl h.1)
        · exact h3 t ht
      · simp only [List.length_cons]
        omega

theorem next_line_text (lx : ConfigFileLexer)
    (hstate : lx.state_ = .AT_START ∨ lx.state_ = .AT_TEXT ∨ lx.state_ = .AT_EOF) :
    lx.next.1.line = lx.next.2.line_ ∧ ∃ k, lx.LinesRead lx.next.2 k := by
  rcases hstate with h | h | h
  · rw [ConfigFileLexer.next_text lx (Or.inl h)]
    obtain ⟨h1, k, hk, _⟩ := ConfigFileLexer.parseText_linesRead lx
    exact ⟨h1, k, hk⟩
  · rw [ConfigFileLexer.next_text lx (Or.inr h)]
    obtain ⟨h1, k, hk, _⟩ := ConfigFileLexer.parseText_linesRead lx
    exact ⟨h1, k, hk⟩
  · rw [ConfigFileLexer.next_at_eof lx h]
    exact ⟨rfl, 0, ConfigFileLexer.linesRead_zero lx⟩

theorem next_text_state (lx : ConfigFileLexer)
    (hstate : lx.state_ = .AT_START ∨ lx.state_ = .AT_TEXT ∨ lx.state_ = .AT_EOF)
    (he : lx.next.1.type ≠ .END_OF_FILE) :
    lx.next.2.state_ = .AT_START ∨ lx.next.2.state_ = .AT_TEXT ∨ lx.next.2.state_ = .AT_EOF := by
  rcases hstate with h | h | h
  · rw [ConfigFileLexer.next_text lx (Or.inl h)] at he ⊢
    exact Or.inr (Or.inl (ConfigFileLexer.parseText_progress lx he).2.2.1)
  · rw [ConfigFileLexer.next_text lx (Or.inr h)] at he ⊢
    exact Or.inr (Or.inl (ConfigFileLexer.parseText_progress lx he).2.2.1)
  · rw [ConfigFileLexer.next_at_eof lx h] at he
    exact absurd rfl he

/-- The line of each token is the line of the lexer after some executions of
`++line_`, one for each line read, and the line of the token before it after
some more. -/
theorem nextTokens_lines_read : ∀ (n : Nat) (lx : ConfigFileLexer),
    (lx.state_ = .AT_START ∨ lx.state_ = .AT_TEXT ∨ lx.state_ = .AT_EOF) →
    (∀ t ∈ nextTokens n lx, ∃ k, k ≤ lx.input_.lines.length ∧ t.line = incInt lx.line_ k) ∧
    List.Chain' (fun a b : Token => ∃ k, b.line = incInt a.line k) (nextTokens n lx)
  | 0, _, _ => ⟨(by intro t ht; cases ht), List.chain'_nil⟩
  | n + 1, lx, hstate => by
    obtain ⟨hline, k, hk⟩ := next_line_text lx hstate
    have hhead : ∃ k, k ≤ lx.input_.lines.length ∧ lx.next.1.line = incInt lx.line_ k :=
      ⟨k, by have := hk.2; omega, by rw [hline, hk.1]⟩
    simp only [nextTokens]
    by_cases he : lx.next.1.type = .END_OF_FILE
    · rw [if_pos he]
      refine ⟨?_, List.chain'_singleton _⟩
      intro t ht
      rw [List.mem_singleton.1 ht]
      exact hhead
    · rw [if_neg he]
      have ih := nextTokens_lines_read n lx.next.2 (next_text_state lx hstate he)
      constructor
      · intro t ht
        rcases List.mem_cons.1 ht with ht | ht
        · rw [ht]; exact hhead
        · obtain ⟨j, hj, hjl⟩ := ih.1 t ht
          refine ⟨k + j, by have := hk.2; omega, ?_⟩
          rw [hjl, hk.1, incInt_add]
      · rw [List.chain'_cons']
        refine ⟨?_, ih.2⟩
        intro t ht
        have hmem : t ∈ nextTokens n lx.next.2 := List.mem_of_mem_head? ht
        obtain ⟨j, _, hjl⟩ := ih.1 t hmem
        exact ⟨j, by rw [hjl, hline]⟩

/-- Where the line numbers of the lines still in the stream are values of an
`int`, the line numbers of the tokens never decrease. -/
theorem nextTokens_lines : ∀ (n : Nat) (lx : ConfigFileLexer),
    (lx.state_ = .AT_START ∨ lx.state_ = .AT_TEXT ∨ lx.state_ = .AT_EOF) → lx.LinesInRange →
    (∀ t ∈ nextTokens n lx, lx.line_ ≤ t.line) ∧
    List.Chain' (fun a b : Token => a.line ≤ b.line) (nextTokens n lx)
  | 0, _, _, _ => ⟨(by intro t ht; cases ht), List.chain'_nil⟩
  | n + 1, lx, hstate, hrange => by
    obtain ⟨hline, k, hk⟩ := next_line_text lx hstate
    have hr := ConfigFileLexer.linesRead_inRange hk hrange
    have hle : lx.line_ ≤ lx.next.1.line := by
      rw [hline, hr.1]
      omega
    simp only [nextTokens]
    by_cases he : lx.next.1.type = .END_OF_FILE
    · rw [if_pos he]
      refine ⟨?_, List.chain'_singleton _⟩
      intro t ht
      rw [List.mem_singleton.1 ht]
      exact hle
    · rw [if_neg he]
      have ih := nextTokens_lines n lx.next.2 (next_text_state lx hstate he) hr.2
      constructor
      · intro t ht
        rcases List.mem_cons.1 ht with ht | ht
        · rw [ht]; exact hle
        · have := ih.1 t ht
          rw [← hline] at this
          exact le_trans hle this
      · rw [List.chain'_cons']
        refine ⟨?_, ih.2⟩
        intro t ht
        have hmem : t ∈ nextTokens n lx.next.2 := List.mem_of_mem_head? ht
        have := ih.1 t hmem
        rw [← hline] at this
        exact this

/-- Claim C40 as stated is refuted, for its clause on the line numbers. The
lines `a` and `b`, read by a lexer whose initial line is the largest `int`:
the token `a` is on line 2147483647, and `++line_` gives the token `b`, the
next token, the line -2147483648. -/
theorem token_line_overflow_counterexample :
    (ConfigFileLexer.create (IStream.ofText (lit "a\nb\n")) 2147483647 1).next.1 =
      ⟨.NAME, lit "a", 2147483647, 1⟩ ∧
    (ConfigFileLexer.create (IStream.ofText (lit "a\nb\n")) 2147483647 1).next.2.next.1 =
      ⟨.NAME, lit "b", -2147483648, 1⟩ ∧
    ¬ ((ConfigFileLexer.create (IStream.ofText (lit "a\nb\n")) 2147483647 1).next.1.line ≤
      (ConfigFileLexer.create (IStream.ofText (lit "a\nb\n")) 2147483647 1).next.2.next.1.line) :=
  ⟨by decide, by decide, by decide⟩

/-- Claim C40 as amended. A lexer in text mode whose position lies within its
current line.  Each call of `next()` returns END_OF_FILE, or a token for
which the lexer has passed at least one character of the line the token is
on: a NAME of one or more characters, a one-character PUNCTUATION, or a
COMMENT that takes the rest of its line; the lexer stays in text mode, with
its position within the line.  So the calls of `next()` reach END_OF_FILE:
with `b` the number of characters (and line ends) still before the lexer, at
most `b` tokens come before it.  The line of each token is the line of the
token before it after some executions of `++line_`; where the line numbers
of the lines in the stream are values of an `int`, the line numbers of the
tokens never decrease, and none is below the line of the lexer. -/
theorem next_text_mode_progress (lx : ConfigFileLexer)
    (hstate : lx.state_ = .AT_START ∨ lx.state_ = .AT_TEXT) (hatt : lx.Attached) :
    (lx.next.1.type = .END_OF_FILE ∨
      (lx.next.2.text_ = (ConfigFileLexer.skipWhitespace_ lx).2.text_ ∧
       lx.next.2.input_ = (ConfigFileLexer.skipWhitespace_ lx).2.input_ ∧
       lx.next.2.state_ = .AT_TEXT ∧
       (ConfigFileLexer.skipWhitespace_ lx).2.current_ < lx.next.2.current_ ∧
       lx.next.2.current_ ≤ (ConfigFileLexer.skipWhitespace_ lx).2.text_.length ∧
       ((lx.next.1.type = .NAME ∧ 1 ≤ lx.next.1.value.length ∧
          lx.next.2.current_ =
            (ConfigFileLexer.skipWhitespace_ lx).2.current_ + lx.next.1.value.length) ∨
        (lx.next.1.type = .PUNCTUATION ∧ lx.next.1.value.length = 1 ∧
          lx.next.2.current_ = (ConfigFileLexer.skipWhitespace_ lx).2.current_ + 1) ∨
        (lx.next.1.type = .COMMENT ∧
          lx.next.2.current_ = (ConfigFileLexer.skipWhitespace_ lx).2.text_.length)))) ∧
    (lx.next.1.type ≠ .END_OF_FILE → lx.next.2.budget < lx.budget ∧ lx.next.2.Attached) ∧
    (∃ toks eof, nextTokens (lx.budget + 1) lx = toks ++ [eof] ∧ eof.type = .END_OF_FILE ∧
      (∀ t ∈ toks, t.type = .NAME ∨ t.type = .COMMENT ∨ t.type = .PUNCTUATION) ∧
      toks.length ≤ lx.budget) ∧
    (∀ n : Nat,
      (∀ t ∈ nextTokens n lx, ∃ k, k ≤ lx.input_.lines.length ∧ t.line = incInt lx.line_ k) ∧
      List.Chain' (fun a b : Token => ∃ k, b.line = incInt a.line k) (nextTokens n lx)) ∧
    (lx.LinesInRange →
      ∀ n : Nat, (∀ t ∈ nextTokens n lx, lx.line_ ≤ t.line) ∧
        List.Chain' (fun a b : Token => a.line ≤ b.line) (nextTokens n lx)) := by
  have htext := ConfigFileLexer.next_text lx hstate
  have hv : lx.Valid := Or.inl hatt
  have hstate3 : lx.state_ = .AT_START ∨ lx.state_ = .AT_TEXT ∨ lx.state_ = .AT_EOF := by
    rcases hstate with h | h
    · exact Or.inl h
    · exact Or.inr (Or.inl h)
  refine ⟨?_, ?_, nextTokens_ends _ lx hstate3 hv (Nat.lt_succ_self _),
    fun n => nextTokens_lines_read n lx hstate3,
    fun hrange n => nextTokens_lines n lx hstate3 hrange⟩
  · by_cases he : lx.next.1.type = .END_OF_FILE
    · exact Or.inl he
    · right
      rw [htext] at he ⊢
      exact ConfigFileLexer.parseText_progress lx he
  · intro he
    refine ⟨(ConfigFileLexer.next_budget lx hv).2.2 he
      (by rw [htext]; exact (ConfigFileLexer.parseText_type lx).2), ?_⟩
    rw [htext] at he ⊢
    exact ConfigFileLexer.parseText_attached lx he

/-- An instance of the theorem above: the first call of `next()` on the
lines `a b` and `# c` returns a token, and fewer characters are left before
the lexer. -/
theorem next_text_mode_progress_witness :
    (ConfigFileLexer.create (IStream.ofText (lit "a b\n# c\n")) 1 1).next.2.budget <
      (ConfigFileLexer.create (IStream.ofText (lit "a b\n# c\n")) 1 1).budget :=
  ((next_text_mode_progress
    (ConfigFileLexer.create (IStream.ofText (lit "a b\n# c\n")) 1 1)
    (Or.inl (by decide)) (by show _ ≤ _; decide)).2.1 (by decide)).1

/-- The tokens of the lines `a b` and `# c`, and of an empty input. -/
theorem nextTokens_examples :
    nextTokens ((ConfigFileLexer.create (IStream.ofText (lit "a b\n# c\n")) 1 1).budget + 1)
      (ConfigFileLexer.create (IStream.ofText (lit "a b\n# c\n")) 1 1) =
      [⟨.NAME, lit "a", 1, 1⟩, ⟨.NAME, lit "b", 1, 3⟩, ⟨.COMMENT, lit "c", 2, 3⟩,
       ⟨.END_OF_FILE, [], 2, 4⟩] ∧
    nextTokens ((ConfigFileLexer.create (IStream.ofText []) 1 1).budget + 1)
      (ConfigFileLexer.create (IStream.ofText []) 1 1) = [⟨.END_OF_FILE, [], 1, 1⟩] :=
  ⟨by decide, by decide⟩

/-! ## The code points that `processValue` encodes -/

/-- A pass of the loop of `processValue` for which `encodeCall` gives `u`
does not throw; it sets `prepared` to `encodeUtf8_(u, prepared)`, and `u` is
the value of `unicodeChar` after it. -/
theorem processStep_encodeCall_some (resolve : Str → Except PropertyFormatError Str)
    (s : ValueState) (u : Nat) (h : encodeCall s = some u) :
    ∃ s1, processStep resolve s = .ok s1 ∧ s1.prepared = encodeUtf8_ u s.prepared ∧
      s1.unicodeChar = u := by
  obtain ⟨i, name, state, prepared, u0, legal⟩ := s
  by_cases hst : state ≤ 18
  · interval_cases state
    all_goals (simp only [encodeCall, processStep] at h ⊢)
    all_goals (try (simp at h))
    all_goals (try (split_ifs at h ⊢ <;> simp_all))
    all_goals (rename_i hc; exact absurd hc (by decide))
  · simp only [encodeCall] at h
    rw [if_neg (by omega), if_neg (by omega), if_neg (by omega)] at h
    cases h

/-- A pass of the loop of `processValue` for which `encodeCall` gives
nothing leaves `prepared` as it is, or appends one character or the value of
the referenced property. -/
theorem processStep_encodeCall_none (resolve : Str → Except PropertyFormatError Str)
    (s s1 : ValueState) (h : encodeCall s = none) (hs : processStep resolve s = .ok s1) :
    s1.prepared = s.prepared ∨ (∃ c, s1.prepared = s.prepared ++ [c]) ∨
      (∃ v, resolve s.name = .ok v ∧ s1.prepared = s.prepared ++ v) := by
  obtain ⟨i, name, state, prepared, u0, legal⟩ := s
  by_cases hst : state ≤ 18
  · interval_cases state
    all_goals (simp only [encodeCall, processStep] at h hs ⊢)
    all_goals (try (simp at h))
    all_goals (try (split_ifs at h hs))
    all_goals (try (split at hs))
    all_goals (try (cases hs))
    all_goals (try (simp_all))
  · exfalso
    unfold processStep at hs
    simp only at hs
    split at hs
    all_goals (try omega)
    split_ifs at hs <;> first | omega | cases hs

theorem processStep_state_large (resolve : Str → Except PropertyFormatError Str)
    (s s1 : ValueState) (hst : 18 < s.state) : processStep resolve s ≠ .ok s1 := by
  obtain ⟨i, name, state, prepared, u0, legal⟩ := s
  simp only at hst
  intro hs
  unfold processStep at hs
  simp only at hs
  split at hs
  all_goals (try omega)
  split_ifs at hs <;> first | omega | cases hs

theorem escapeDigits_le (state : Nat) : 1 ≤ escapeDigits state ∧ escapeDigits state ≤ 6 := by
  unfold escapeDigits
  split_ifs <;> omega

theorem pow16_mono {a b : Nat} (h : a ≤ b) : 16 ^ a ≤ 16 ^ b :=
  Nat.pow_le_pow_right (by decide) h

theorem shift_bound (u : Nat) (c : Char) (k : Nat) (hk : k ≤ 5) (hu : u < 16 ^ k)
    (hc : isHexDigit_ c = true) : shiftInHex u c < 16 ^ (k + 1) := by
  have h28 : u < 2 ^ 28 := lt_of_lt_of_le hu (pow16_le k (by omega))
  rw [shiftInHex_eq u c h28 hc]
  have hd := (hexValue_eq c hc).2
  rw [pow_succ]
  omega

theorem hexValue_lt (c : Char) (h : isHexDigit_ c = true) : hexValue_ c < 16 := by
  rw [(hexValue_eq c h).1]
  exact (hexValue_eq c h).2

/-- While the loop of `processValue` reads an escape, `unicodeChar` is below
16 to the number of hex digits read, which is at most six; it stays below
16 to the sixth in every state. -/
theorem processStep_unicode_bound (resolve : Str → Except PropertyFormatError Str)
    (s s1 : ValueState) (hinv : s.unicodeChar < 16 ^ escapeDigits s.state)
    (hs : processStep resolve s = .ok s1) :
    s1.unicodeChar < 16 ^ escapeDigits s1.state := by
  obtain ⟨i, name, state, prepared, u0, legal⟩ := s
  by_cases hst : state ≤ 18
  · interval_cases state
    all_goals (simp only [processStep] at hs)
    all_goals (simp only [escapeDigits] at hinv)
    all_goals (try (split_ifs at hs))
    all_goals (try (split at hs))
    all_goals (try (cases hs))
    all_goals (simp only [escapeDigits] at hinv ⊢)
    all_goals (norm_num at hinv ⊢)
    all_goals (try split_ifs)
    all_goals first
      | omega
      | (apply hexValue_lt; simp_all)
      | (have hb := shift_bound u0 _ 1 (by omega) (by norm_num; omega) (by assumption)
         norm_num at hb; omega)
      | (have hb := shift_bound u0 _ 2 (by omega) (by norm_num; omega) (by assumption)
         norm_num at hb; omega)
      | (have hb := shift_bound u0 _ 3 (by omega) (by norm_num; omega) (by assumption)
         norm_num at hb; omega)
      | (have hb := shift_bound u0 _ 4 (by omega) (by norm_num; omega) (by assumption)
         norm_num at hb; omega)
      | (have hb := shift_bound u0 _ 5 (by omega) (by norm_num; omega) (by assumption)
         norm_num at hb; omega)
  · exact absurd hs (processStep_state_large resolve _ s1 (by simpa using hst))

theorem encodeCall_bound (s : ValueState) (u : Nat)
    (hinv : s.unicodeChar < 16 ^ escapeDigits s.state) (h : encodeCall s = some u) :
    u < 16 ^ 6 := by
  obtain ⟨u1, hs, _, hu⟩ := processStep_encodeCall_some (fun _ => .ok []) s u h
  have := processStep_unicode_bound _ s u1 hinv hs
  rw [hu] at this
  exact lt_of_lt_of_le this (pow16_mono (escapeDigits_le _).2)

theorem encodeCalls_bound (resolve : Str → Except PropertyFormatError Str) :
    ∀ (fuel : Nat) (s : ValueState), s.unicodeChar < 16 ^ escapeDigits s.state →
      ∀ u ∈ encodeCalls resolve fuel s, u < 16 ^ 6
  | 0, _, _ => by intro u hu; cases hu
  | fuel + 1, s, hinv => by
    intro u hu
    simp only [encodeCalls] at hu
    split at hu
    · cases hu
    · cases hs : processStep resolve s with
      | error e => rw [hs] at hu; cases hu
      | ok s1 =>
        rw [hs] at hu
        simp only [List.mem_append, Option.mem_toList, Option.mem_def] at hu
        rcases hu with hu | hu
        · exact encodeCall_bound s u hinv hu
        · exact encodeCalls_bound resolve fuel s1
            (processStep_unicode_bound resolve s s1 hinv hs) u hu

theorem encodeUtf8_length_append (u : Nat) (out : Str) (h : u ≤ 0x7FFFFFFF) :
    (encodeUtf8_ u out).length = out.length + utf8Length u := by
  rw [encodeUtf8_append, List.length_append, encodeUtf8_length, if_pos h]

/-- Claim C38. Every code point that `processValue` passes to `encodeUtf8_`
is at most `0xFFFFFF`, the largest value of six hex digits.  Such a call
appends the encoding of the code point to `prepared`: at least one and at most
five bytes, so never nothing and never the form of six bytes. -/
theorem processValue_encodes_at_most_six_digits (getenv : Str → Option Str)
    (properties : ConfigurationPropertyMap) (useEnvVars_ : Bool) (value : Str) :
    ∀ u ∈ processValueEncodeCalls getenv properties useEnvVars_ value,
      u ≤ 0xFFFFFF ∧ 1 ≤ utf8Length u ∧ utf8Length u ≤ 5 ∧
      ∀ out : Str, (encodeUtf8_ u out).length = out.length + utf8Length u ∧
        ∃ bytes : Str, encodeUtf8_ u out = out ++ bytes ∧ 1 ≤ bytes.length ∧
          bytes.length ≤ 5 := by
  intro u hu
  have hb : u < 16 ^ 6 := encodeCalls_bound _ _ _ (by
    show (0 : Nat) < 16 ^ escapeDigits 1
    exact Nat.pow_pos (by decide)) u hu
  norm_num at hb
  have hlen : 1 ≤ utf8Length u ∧ utf8Length u ≤ 5 := by
    unfold utf8Length
    split_ifs <;> omega
  refine ⟨by omega, hlen.1, hlen.2, ?_⟩
  intro out
  have hl := encodeUtf8_length_append u out (by omega)
  refine ⟨hl, encodeUtf8_ u [], encodeUtf8_append u out, ?_, ?_⟩
  · rw [encodeUtf8_length, if_pos (by omega)]; exact hlen.1
  · rw [encodeUtf8_length, if_pos (by omega)]; exact hlen.2

theorem processValue_encodes_at_most_six_digits_witness :
    16777215 ∈ processValueEncodeCalls (fun _ => none) ConfigurationPropertyMap.empty false
        ['\\', 'u', 'F', 'F', 'F', 'F', 'F', 'F'] ∧
      (16777215 ≤ 0xFFFFFF ∧ 1 ≤ utf8Length 16777215 ∧ utf8Length 16777215 ≤ 5 ∧
        ∀ out : Str, (encodeUtf8_ 16777215 out).length = out.length + utf8Length 16777215 ∧
          ∃ bytes : Str, encodeUtf8_ 16777215 out = out ++ bytes ∧ 1 ≤ bytes.length ∧
            bytes.length ≤ 5) :=
  ⟨by decide, processValue_encodes_at_most_six_digits (fun _ => none)
    ConfigurationPropertyMap.empty false ['\\', 'u', 'F', 'F', 'F', 'F', 'F', 'F'] 16777215
    (by decide)⟩

/-- The calls of `encodeUtf8_` for a value with three escapes: six digits,
a braced escape and a short escape at the end of the value. -/
theorem processValueEncodeCalls_examples :
    processValueEncodeCalls (fun _ => none) ConfigurationPropertyMap.empty false
        ['a', '\\', 'u', 'F', 'F', 'F', 'F', 'F', 'F', 'b', '\\', 'u', '\x7b', '4', '1', '\x7d',
          '\\', 'u', '7', 'f'] = [16777215, 65, 127] ∧
      utf8Length 16777215 = 5 ∧ utf8Length 65 = 1 ∧
      processValueEncodeCalls (fun _ => none) ConfigurationPropertyMap.empty false
        ['\\', 'u', '\x7b', '1', '2', '3', '4', '5', '6', '7', '\x7d'] = [] :=
  ⟨by decide, by decide, by decide, by decide⟩

/-! ## The store of an included file -/

/-- The function `parseIncludeDirective_` is `includedProperties_` followed by
the loop that merges the included properties into the store. -/
theorem parseIncludeDirective_eq (w : World) (sub : SubParse) (p : ConfigFileParser)
    (sourceName : Str) (lexer : ConfigFileLexer) (properties : ConfigurationPropertyMap) :
    parseIncludeDirective_ w sub p sourceName lexer properties =
      match includedProperties_ w sub p sourceName lexer with
      | none => none
      | some (.error e) => some (.error e)
      | some (.ok r) =>
        match mergeIncluded p.includedPropertyAction_ r.2.toList properties with
        | .error e => some (.error e)
        | .ok merged => some (.ok (r.1, merged)) := by
  unfold parseIncludeDirective_ includedProperties_
  simp only []
  split_ifs
  all_goals (try rfl)
  generalize sub _ _ = a
  rcases a with _ | a
  · rfl
  · cases a <;> rfl

/-- The parse of an included file that a parser opens is the call of `parse`
on the sub-parser. -/
theorem subParseAt_levels (w : World) (p q : ConfigFileParser) (filename : Str)
    (hp : p.includedFrom_.length ≤ MAX_INCLUDE_DEPTH_)
    (hq : q.includedFrom_.length = p.includedFrom_.length + 1) :
    subParseAt w p.levels q filename = (q.parse w filename).map (fun r => r.outcome) := by
  have h1 : p.levels = q.levels + 1 := by
    unfold ConfigFileParser.levels at *
    omega
  rw [h1]
  rfl

/-- Claim C39. The store that the parse of an included file returns does not
depend on the store of the including file.  For every parse of included
files `sub` (a function of the sub-parser and the path), the directive is
`includedProperties_`, which has no store among its arguments, followed by
the merge; so from two stores of the including file the directive obtains the
same included store, or ends in both with the same exception, or runs out of
budget in both.  In `parse`, the parse of the included file is the call of
`parse` on the sub-parser, which starts from an empty store.  A file
`inc.cfg` with `y=${x}`, included behind `x=1`, does not resolve `x`; with
`x=2` before it, `y` is `2`. -/
theorem included_store_independent_of_parent (w : World) (sub : SubParse)
    (p : ConfigFileParser) (sourceName : Str) (lexer : ConfigFileLexer) :
    (∀ properties : ConfigurationPropertyMap,
      parseIncludeDirective_ w sub p sourceName lexer properties =
        match includedProperties_ w sub p sourceName lexer with
        | none => none
        | some (.error e) => some (.error e)
        | some (.ok r) =>
          match mergeIncluded p.includedPropertyAction_ r.2.toList properties with
          | .error e => some (.error e)
          | .ok merged => some (.ok (r.1, merged))) ∧
    (∀ (properties1 properties2 : ConfigurationPropertyMap)
        (r1 r2 : ConfigFileLexer × ConfigurationPropertyMap),
      parseIncludeDirective_ w sub p sourceName lexer properties1 = some (.ok r1) →
      parseIncludeDirective_ w sub p sourceName lexer properties2 = some (.ok r2) →
      ∃ included : ConfigurationPropertyMap,
        includedProperties_ w sub p sourceName lexer = some (.ok (r1.1, included)) ∧
        r2.1 = r1.1 ∧
        mergeIncluded p.includedPropertyAction_ included.toList properties1 = .ok r1.2 ∧
        mergeIncluded p.includedPropertyAction_ included.toList properties2 = .ok r2.2) ∧
    (∀ (q : ConfigFileParser) (filename : Str),
      p.includedFrom_.length ≤ MAX_INCLUDE_DEPTH_ →
      q.includedFrom_.length = p.includedFrom_.length + 1 →
      subParseAt w p.levels q filename =
        (parseFileWith w (subParseAt w q.levels) q filename).map (fun r => r.outcome) ∧
      ∀ content, w.openFile filename = .ok content →
        subParseAt w p.levels q filename =
          (parseLoop w (subParseAt w q.levels) q.useEnvVars_ filename
            ((ConfigFileLexer.create (IStream.ofText content) 1 1).budget + 1) q
            (ConfigFileLexer.create (IStream.ofText content) 1 1)
            ConfigurationPropertyMap.empty).map (fun r => r.outcome)) ∧
    ((ConfigFileParser.create true .DUP_ERROR .DUP_IGNORE).parseText
      (plainWorld (filesOf [(lit "inc.cfg", lit "y=$\x7bx\x7d\n")]))
      (lit "main.cfg") (lit "x=1\ninclude \"inc.cfg\"\n") 1 1).map (fun r => r.outcome) =
      some (.error ⟨lit "inc.cfg", 1, 3,
        lit "Invalid property value (Cannot resolve referenced property \"$\x7bx\x7d\")"⟩) ∧
    ((ConfigFileParser.create true .DUP_ERROR .DUP_IGNORE).parseText
      (plainWorld (filesOf [(lit "inc.cfg", lit "x=2\ny=$\x7bx\x7d\n")]))
      (lit "main.cfg") (lit "x=1\ninclude \"inc.cfg\"\n") 1 1).map (fun r => r.outcome) =
      some (.ok ⟨[(lit "x", ⟨lit "x", lit "1", lit "main.cfg", 1⟩),
        (lit "y", ⟨lit "y", lit "2", lit "inc.cfg", 2⟩)]⟩) := by
  refine ⟨parseIncludeDirective_eq w sub p sourceName lexer, ?_, ?_, by decide, by decide⟩
  · intro properties1 properties2 r1 r2 h1 h2
    rw [parseIncludeDirective_eq] at h1 h2
    rcases hi : includedProperties_ w sub p sourceName lexer with _ | a
    · rw [hi] at h1; cases h1
    · rcases a with e | r
      · rw [hi] at h1; cases h1
      · rw [hi] at h1 h2
        simp only [] at h1 h2
        cases hm1 : mergeIncluded p.includedPropertyAction_ r.2.toList properties1 with
        | error e => rw [hm1] at h1; cases h1
        | ok m1 =>
          cases hm2 : mergeIncluded p.includedPropertyAction_ r.2.toList properties2 with
          | error e => rw [hm2] at h2; cases h2
          | ok m2 =>
            rw [hm1] at h1
            rw [hm2] at h2
            cases h1
            cases h2
            exact ⟨r.2, rfl, rfl, hm1, hm2⟩
  · intro q filename hp hq
    have h := subParseAt_levels w p q filename hp hq
    refine ⟨h, ?_⟩
    intro content hc
    rw [h]
    unfold ConfigFileParser.parse parseFileWith
    rw [hc]
    rfl

theorem included_store_independent_of_parent_witness :
    (parseIncludeDirective_ (plainWorld (filesOf [(lit "inc.cfg", lit "x=2\n")]))
        (subParseAt (plainWorld (filesOf [(lit "inc.cfg", lit "x=2\n")])) 1)
        (ConfigFileParser.create true .DUP_ERROR .DUP_IGNORE) (lit "main.cfg")
        (ConfigFileLexer.create (IStream.ofText (lit " \"inc.cfg\"\n")) 1 8)
        ConfigurationPropertyMap.empty =
      some (.ok (((ConfigFileLexer.create (IStream.ofText (lit " \"inc.cfg\"\n")) 1 8).next.2
            |>.parseNextAsQuotedString.next.2.next.2),
        (⟨[(lit "x", ⟨lit "x", lit "2", lit "inc.cfg", 1⟩)]⟩ : ConfigurationPropertyMap))) ∧
    parseIncludeDirective_ (plainWorld (filesOf [(lit "inc.cfg", lit "x=2\n")]))
        (subParseAt (plainWorld (filesOf [(lit "inc.cfg", lit "x=2\n")])) 1)
        (ConfigFileParser.create true .DUP_ERROR .DUP_IGNORE) (lit "main.cfg")
        (ConfigFileLexer.create (IStream.ofText (lit " \"inc.cfg\"\n")) 1 8)
        (⟨[(lit "x", ⟨lit "x", lit "1", lit "main.cfg", 1⟩)]⟩ : ConfigurationPropertyMap) =
      some (.ok (((ConfigFileLexer.create (IStream.ofText (lit " \"inc.cfg\"\n")) 1 8).next.2
            |>.parseNextAsQuotedString.next.2.next.2),
        (⟨[(lit "x", ⟨lit "x", lit "1", lit "main.cfg", 1⟩)]⟩ : ConfigurationPropertyMap)))) ∧
    ∃ included : ConfigurationPropertyMap,
      includedProperties_ (plainWorld (filesOf [(lit "inc.cfg", lit "x=2\n")]))
        (subParseAt (plainWorld (filesOf [(lit "inc.cfg", lit "x=2\n")])) 1)
        (ConfigFileParser.create true .DUP_ERROR .DUP_IGNORE) (lit "main.cfg")
        (ConfigFileLexer.create (IStream.ofText (lit " \"inc.cfg\"\n")) 1 8) =
          some (.ok (((ConfigFileLexer.create (IStream.ofText (lit " \"inc.cfg\"\n")) 1 8).next.2
            |>.parseNextAsQuotedString.next.2.next.2),
            included)) ∧
      ((ConfigFileLexer.create (IStream.ofText (lit " \"inc.cfg\"\n")) 1 8).next.2
            |>.parseNextAsQuotedString.next.2.next.2) =
        ((ConfigFileLexer.create (IStream.ofText (lit " \"inc.cfg\"\n")) 1 8).next.2
            |>.parseNextAsQuotedString.next.2.next.2) ∧
      mergeIncluded .DUP_IGNORE included.toList ConfigurationPropertyMap.empty =
        .ok (⟨[(lit "x", ⟨lit "x", lit "2", lit "inc.cfg", 1⟩)]⟩ : ConfigurationPropertyMap) ∧
      mergeIncluded .DUP_IGNORE included.toList
        (⟨[(lit "x", ⟨lit "x", lit "1", lit "main.cfg", 1⟩)]⟩ : ConfigurationPropertyMap) =
        .ok (⟨[(lit "x", ⟨lit "x", lit "1", lit "main.cfg", 1⟩)]⟩ : ConfigurationPropertyMap) :=
  ⟨⟨by decide, by decide⟩,
    (included_store_independent_of_parent (plainWorld (filesOf [(lit "inc.cfg", lit "x=2\n")]))
      (subParseAt (plainWorld (filesOf [(lit "inc.cfg", lit "x=2\n")])) 1)
      (ConfigFileParser.create true .DUP_ERROR .DUP_IGNORE) (lit "main.cfg")
      (ConfigFileLexer.create (IStream.ofText (lit " \"inc.cfg\"\n")) 1 8)).2.1
      ConfigurationPropertyMap.empty
      (⟨[(lit "x", ⟨lit "x", lit "1", lit "main.cfg", 1⟩)]⟩ : ConfigurationPropertyMap)
      (((ConfigFileLexer.create (IStream.ofText (lit " \"inc.cfg\"\n")) 1 8).next.2
            |>.parseNextAsQuotedString.next.2.next.2),
        (⟨[(lit "x", ⟨lit "x", lit "2", lit "inc.cfg", 1⟩)]⟩ : ConfigurationPropertyMap))
      (((ConfigFileLexer.create (IStream.ofText (lit " \"inc.cfg\"\n")) 1 8).next.2
            |>.parseNextAsQuotedString.next.2.next.2),
        (⟨[(lit "x", ⟨lit "x", lit "1", lit "main.cfg", 1⟩)]⟩ : ConfigurationPropertyMap))
      (by decide) (by decide)⟩

/-! ## Blocks and braces -/

theorem beginBlock_context_length (p : ConfigFileParser) (name : Str) :
    (p.beginBlock_ name).context_.length = p.context_.length + 1 := by
  simp [ConfigFileParser.beginBlock_]

theorem endBlock_context_length (p : ConfigFileParser) :
    p.endBlock_.context_.length = p.context_.length - 1 := by
  simp [ConfigFileParser.endBlock_]

theorem balancedFrom_true (depth : Nat) (rest : List Bool) :
    balancedFrom depth (true :: rest) = balancedFrom (depth + 1) rest := by
  cases depth <;> rfl

/-- A call of `parseAssignmentOrBlock_` that returns has read `\x7b` and
begun a block, or has read `=` and left the parser as it was. -/
theorem parseAssignmentOrBlock_ok_cases {w : World} {useEnvVars : Bool} {p : ConfigFileParser}
    {sourceName : Str} {name : Token} {lexer : ConfigFileLexer}
    {properties : ConfigurationPropertyMap}
    {r : ConfigFileParser × ConfigFileLexer × ConfigurationPropertyMap}
    (h : parseAssignmentOrBlock_ w useEnvVars p sourceName name lexer properties = some (.ok r)) :
    (lexer.next.1.value = lit "\x7b" ∧ r = (p.beginBlock_ name.value, lexer.next.2, properties)) ∨
    (lexer.next.1.value ≠ lit "\x7b" ∧ lexer.next.1.value = lit "=" ∧ r.1 = p ∧
      parseAssignment_ w useEnvVars p sourceName name lexer.next.2 properties =
        some (.ok (r.2.1, r.2.2))) := by
  unfold parseAssignmentOrBlock_ at h
  simp only [] at h
  split at h
  · cases h
  split at h
  · rename_i hb
    left
    simp only [Option.some.injEq, Except.ok.injEq] at h
    exact ⟨hb, h.symm⟩
  split at h
  · rename_i hb he
    right
    cases ha : parseAssignment_ w useEnvVars p sourceName name lexer.next.2 properties with
    | none => rw [ha] at h; cases h
    | some a =>
      rw [ha] at h
      cases a with
      | error e => cases h
      | ok r1 =>
        simp only [Option.some.injEq, Except.ok.injEq] at h
        rw [← h]
        exact ⟨hb, he, rfl, rfl⟩
  · cases h

/-- A run of the loop of `parse` that returns a store has read balanced
braces and leaves no block open. -/
theorem parseLoop_ok_balanced (w : World) (sub : SubParse) (useEnvVars : Bool)
    (sourceName : Str) :
    ∀ (fuel : Nat) (p : ConfigFileParser) (lexer : ConfigFileLexer)
      (properties : ConfigurationPropertyMap) (r : ParseResult) (store : ConfigurationPropertyMap),
      parseLoop w sub useEnvVars sourceName fuel p lexer properties = some r →
      r.outcome = .ok store →
      balancedFrom p.context_.length
        (parseLoopBraces w sub useEnvVars sourceName fuel p lexer properties) = true ∧
      r.parser.context_ = []
  | 0, _, _, _, _, _, h, _ => by cases h
  | fuel + 1, p, lexer, properties, r, store, h, hok => by
    unfold parseLoop at h
    unfold parseLoopBraces
    simp only [] at h ⊢
    split at h
    · rename_i heof
      rw [if_pos heof]
      split at h
      · cases h; cases hok
      · rename_i hctx
        cases h
        have hctx : p.context_ = [] := by simpa using hctx
        rw [hctx]
        exact ⟨rfl, rfl⟩
    rename_i hneof
    rw [if_neg hneof]
    split at h
    · rename_i hc
      rw [if_pos hc]
      exact parseLoop_ok_balanced w sub useEnvVars sourceName fuel p _ properties r store h hok
    rename_i hnc
    rw [if_neg hnc]
    split at h
    · rename_i hbrace
      rw [if_pos hbrace]
      split at h
      · cases h; cases hok
      · rename_i hctx
        rw [if_neg hctx]
        have ih := parseLoop_ok_balanced w sub useEnvVars sourceName fuel p.endBlock_ _
          properties r store h hok
        refine ⟨?_, ih.2⟩
        have hlen : p.context_.length = p.endBlock_.context_.length + 1 := by
          rw [endBlock_context_length]
          cases hp : p.context_ with
          | nil => rw [hp] at hctx; exact absurd rfl hctx
          | cons a l => simp
        rw [hlen]
        exact ih.1
    rename_i hnbrace
    rw [if_neg hnbrace]
    split at h
    · cases h; cases hok
    rename_i hname
    rw [if_neg hname]
    split at h
    · rename_i hinc
      rw [if_pos hinc]
      cases hd : parseIncludeDirective_ w sub p sourceName lexer.next.2 properties with
      | none => rw [hd] at h; cases h
      | some a =>
        rw [hd] at h
        cases a with
        | error e => cases h; cases hok
        | ok r1 =>
          exact parseLoop_ok_balanced w sub useEnvVars sourceName fuel p _ _ r store h hok
    rename_i hninc
    rw [if_neg hninc]
    split at h
    · rename_i hlegal
      rw [if_pos hlegal]
      cases hd : parseAssignmentOrBlock_ w useEnvVars p sourceName lexer.next.1 lexer.next.2
          properties with
      | none => rw [hd] at h; cases h
      | some a =>
        rw [hd] at h
        cases a with
        | error e => cases h; cases hok
        | ok r1 =>
          have ih := parseLoop_ok_balanced w sub useEnvVars sourceName fuel r1.1 r1.2.1 r1.2.2
            r store h hok
          simp only []
          rcases parseAssignmentOrBlock_ok_cases hd with ⟨hb, hr⟩ | ⟨hb, -, hr, -⟩
          · rw [if_pos hb]
            refine ⟨?_, ih.2⟩
            have := ih.1
            rw [hr] at this ⊢
            simp only [beginBlock_context_length] at this
            rw [balancedFrom_true]
            exact this
          · rw [if_neg hb]
            refine ⟨?_, ih.2⟩
            have := ih.1
            rw [hr] at this ⊢
            exact this
    · cases h; cases hok

/-- Claim C33. A pass of the loop of `parse` that reads the end of the input
while a block is open throws "'\x7d' expected" at the place of the end, and
a pass that reads `\x7d` while no block is open throws "Syntax error
('\x7d' unexpected)" at the place of the brace.  Every call of `parseText`
returns or throws; when it returns a store, the block braces it has read are
balanced (counted from the blocks open before the call, none for a new
parser) and no block is open afterwards; when they are not balanced, it
throws. -/
theorem parseText_braces_balanced (w : World) (p : ConfigFileParser) (sourceName : Str) :
    (∀ (sub : SubParse) (useEnvVars : Bool) (fuel : Nat) (lexer : ConfigFileLexer)
        (properties : ConfigurationPropertyMap),
      lexer.next.1.type = .END_OF_FILE → p.context_ ≠ [] →
      parseLoop w sub useEnvVars sourceName (fuel + 1) p lexer properties =
        some ⟨p, .error ⟨sourceName, lexer.next.1.line, lexer.next.1.column,
          lit "'\x7d' expected"⟩⟩) ∧
    (∀ (sub : SubParse) (useEnvVars : Bool) (fuel : Nat) (lexer : ConfigFileLexer)
        (properties : ConfigurationPropertyMap),
      lexer.next.1.type = .PUNCTUATION → lexer.next.1.value = lit "\x7d" → p.context_ = [] →
      parseLoop w sub useEnvVars sourceName (fuel + 1) p lexer properties =
        some ⟨p, .error ⟨sourceName, lexer.next.1.line, lexer.next.1.column,
          lit "Syntax error ('\x7d' unexpected)"⟩⟩) ∧
    (∀ (text : Str) (initialLine initialColumn : Int),
      ∃ r, p.parseText w sourceName text initialLine initialColumn = some r ∧
        (∀ store, r.outcome = .ok store →
          balancedFrom p.context_.length
            (p.parseTextBraces w sourceName text initialLine initialColumn) = true ∧
          r.parser.context_ = []) ∧
        (balancedFrom p.context_.length
            (p.parseTextBraces w sourceName text initialLine initialColumn) = false →
          ∃ e, r.outcome = .error e)) := by
  refine ⟨?_, ?_, ?_⟩
  · intro sub useEnvVars fuel lexer properties heof hctx
    unfold parseLoop
    simp only []
    rw [if_pos heof, if_pos]
    cases hp : p.context_ with
    | nil => exact absurd hp hctx
    | cons a l => rfl
  · intro sub useEnvVars fuel lexer properties hty hval hctx
    unfold parseLoop
    simp only []
    rw [if_neg (by rw [hty]; intro h; cases h), if_neg (by rw [hty]; intro h; cases h),
      if_pos (by rw [hty, hval]; rfl), if_pos (by rw [hctx]; rfl)]
  · intro text initialLine initialColumn
    obtain ⟨r, hr⟩ := parseStreamWith_returns w (subParseAt w p.levels) p sourceName
      (IStream.ofText text) initialLine initialColumn (subParse_levels_returns w p)
    have hbal := parseLoop_ok_balanced w (subParseAt w p.levels) p.useEnvVars_ sourceName
      ((ConfigFileLexer.create (IStream.ofText text) initialLine initialColumn).budget + 1) p
      (ConfigFileLexer.create (IStream.ofText text) initialLine initialColumn) .empty r
    refine ⟨r, hr, ?_, ?_⟩
    · intro store hok
      exact hbal store hr hok
    · intro hf
      cases ho : r.outcome with
      | error e => exact ⟨e, rfl⟩
      | ok store =>
        have := (hbal store hr ho).1
        unfold ConfigFileParser.parseTextBraces at hf
        rw [hf] at this
        cases this

theorem parseText_braces_balanced_witness :
    ((ConfigFileLexer.create (IStream.ofText (lit "b=1\n")) 1 1).parseNextAsValue.next.2).next.1.type
        = TokenType.END_OF_FILE ∧
      (⟨true, .DUP_ERROR, .DUP_IGNORE, [lit "a"], lit "a.", []⟩ : ConfigFileParser).context_ ≠ [] ∧
      parseLoop (plainWorld noFiles) (subParseAt (plainWorld noFiles) 1) true (lit "app.cfg") (0 + 1)
        ⟨true, .DUP_ERROR, .DUP_IGNORE, [lit "a"], lit "a.", []⟩
        ((ConfigFileLexer.create (IStream.ofText (lit "b=1\n")) 1 1).parseNextAsValue.next.2)
        .empty =
      some ⟨⟨true, .DUP_ERROR, .DUP_IGNORE, [lit "a"], lit "a.", []⟩,
        .error ⟨lit "app.cfg",
          ((ConfigFileLexer.create (IStream.ofText (lit "b=1\n")) 1 1).parseNextAsValue.next.2).next.1.line,
          ((ConfigFileLexer.create (IStream.ofText (lit "b=1\n")) 1 1).parseNextAsValue.next.2).next.1.column,
          lit "'\x7d' expected"⟩⟩ :=
  ⟨by decide, by decide,
    (parseText_braces_balanced (plainWorld noFiles)
      ⟨true, .DUP_ERROR, .DUP_IGNORE, [lit "a"], lit "a.", []⟩ (lit "app.cfg")).1
      (subParseAt (plainWorld noFiles) 1) true 0
      ((ConfigFileLexer.create (IStream.ofText (lit "b=1\n")) 1 1).parseNextAsValue.next.2)
      .empty (by decide) (by decide)⟩

/-- The texts of an open block, of a closing brace too many and of two nested
blocks: the braces read and the outcome of `parseText` on a new parser. -/
theorem parseText_braces_examples :
    ((ConfigFileParser.create true .DUP_ERROR .DUP_IGNORE).parseTextBraces (plainWorld noFiles)
        (lit "app.cfg") (lit "a \x7b\n b=1\n") 1 1 = [true] ∧
      ((ConfigFileParser.create true .DUP_ERROR .DUP_IGNORE).parseText (plainWorld noFiles)
        (lit "app.cfg") (lit "a \x7b\n b=1\n") 1 1).map (fun r => r.outcome) =
        some (.error ⟨lit "app.cfg", 2, 5, lit "'\x7d' expected"⟩)) ∧
    ((ConfigFileParser.create true .DUP_ERROR .DUP_IGNORE).parseTextBraces (plainWorld noFiles)
        (lit "app.cfg") (lit "a \x7b\n\x7d\n\x7d\nb=1\n") 1 1 = [true, false, false] ∧
      ((ConfigFileParser.create true .DUP_ERROR .DUP_IGNORE).parseText (plainWorld noFiles)
        (lit "app.cfg") (lit "a \x7b\n\x7d\n\x7d\nb=1\n") 1 1).map (fun r => r.outcome) =
        some (.error ⟨lit "app.cfg", 3, 1, lit "Syntax error ('\x7d' unexpected)"⟩)) ∧
    ((ConfigFileParser.create true .DUP_ERROR .DUP_IGNORE).parseTextBraces (plainWorld noFiles)
        (lit "app.cfg") (lit "a \x7b\n b \x7b\n c=\x7bx\x7d\n \x7d\n\x7d\n") 1 1 =
          [true, true, false, false] ∧
      ((ConfigFileParser.create true .DUP_ERROR .DUP_IGNORE).parseText (plainWorld noFiles)
        (lit "app.cfg") (lit "a \x7b\n b \x7b\n c=\x7bx\x7d\n \x7d\n\x7d\n") 1 1).map
          (fun r => r.outcome) =
        some (.ok ⟨[(lit "a.b.c", ⟨lit "a.b.c", lit "\x7bx\x7d", lit "app.cfg", 3⟩)]⟩)) :=
  ⟨⟨by decide, by decide⟩, ⟨by decide, by decide⟩, ⟨by decide, by decide⟩⟩

/-! ## Legal names in the store of a parse -/

theorem legalNameRest_append_dot (c : Char) (cs : Str) (hc : isWordChar c = true)
    (hcs : legalNameRest cs = true) :
    ∀ ls : Str, legalNameRest ls = true → legalNameRest (ls ++ '.' :: c :: cs) = true
  | [], _ => by
    rw [List.nil_append, legalNameRest_cons, if_neg (by simp [dot_not_word])]
    rw [legalNameRest_cons, if_pos hc, hcs]
    simp [hc]
  | x :: xs, h => by
    by_cases hx : isWordChar x = true
    · rw [legalNameRest_cons, if_pos hx] at h
      rw [List.cons_append, legalNameRest_cons, if_pos hx]
      exact legalNameRest_append_dot c cs hc hcs xs h
    · rw [legalNameRest_cons, if_neg hx] at h
      cases xs with
      | nil => simp at h
      | cons d ds =>
        simp only [Bool.and_eq_true, decide_eq_true_eq] at h
        rw [List.cons_append, legalNameRest_cons, if_neg hx]
        simp only [List.cons_append, Bool.and_eq_true, decide_eq_true_eq]
        exact ⟨⟨h.1.1, h.1.2⟩, legalNameRest_append_dot c cs hc hcs (d :: ds) h.2⟩

theorem legalNameRest_before_dot (b : Str) :
    ∀ a : Str, legalNameRest (a ++ '.' :: b) = true → legalNameRest a = true
  | [], _ => rfl
  | x :: xs, h => by
    by_cases hx : isWordChar x = true
    · rw [List.cons_append, legalNameRest_cons, if_pos hx] at h
      rw [legalNameRest_cons, if_pos hx]
      exact legalNameRest_before_dot b xs h
    · rw [List.cons_append, legalNameRest_cons, if_neg hx] at h
      cases xs with
      | nil =>
        simp [dot_not_word] at h
      | cons d ds =>
        simp only [List.cons_append, Bool.and_eq_true, decide_eq_true_eq] at h
        rw [legalNameRest_cons, if_neg hx]
        simp only [Bool.and_eq_true, decide_eq_true_eq]
        exact ⟨⟨h.1.1, h.1.2⟩, legalNameRest_before_dot b (d :: ds) h.2⟩

theorem isLegalName_word_head {c : Char} {cs : Str} (h : isLegalName (c :: cs) = true) :
    isWordChar c = true ∧ legalNameRest (c :: cs) = true := by
  simp only [isLegalName, Bool.and_eq_true] at h
  have hw : isWordChar c = true := by
    simp only [isWordChar, Bool.or_eq_true]
    left
    unfold isAlnum
    simp only [Bool.or_eq_true]
    left
    exact h.1
  exact ⟨hw, by rw [legalNameRest_cons, if_pos hw]; exact h.2⟩

/-- A legal name, a dot and a legal name make a legal name. -/
theorem isLegalName_append_dot {L n : Str} (hL : isLegalName L = true)
    (hn : isLegalName n = true) : isLegalName (L ++ '.' :: n) = true := by
  cases L with
  | nil => cases hL
  | cons l ls =>
    cases n with
    | nil => cases hn
    | cons c cs =>
      have hc := isLegalName_word_head hn
      simp only [isLegalName, Bool.and_eq_true] at hL
      simp only [List.cons_append, isLegalName, Bool.and_eq_true]
      refine ⟨hL.1, legalNameRest_append_dot c cs hc.1 ?_ ls hL.2⟩
      have := hc.2
      rw [legalNameRest_cons, if_pos hc.1] at this
      exact this

/-- The part of a legal name before one of its dots is a legal name. -/
theorem isLegalName_before_dot {a b : Str} (h : isLegalName (a ++ '.' :: b) = true) :
    isLegalName a = true := by
  cases a with
  | nil =>
    simp only [List.nil_append, isLegalName, Bool.and_eq_true] at h
    exact absurd h.1 (by decide)
  | cons l ls =>
    simp only [List.cons_append, isLegalName, Bool.and_eq_true] at h ⊢
    exact ⟨h.1, legalNameRest_before_dot b ls h.2⟩

theorem eraseToDot_cases : ∀ r : Str, ConfigFileParser.eraseToDot r = [] ∨
    ∃ a b : Str, r = b ++ '.' :: a ∧ ConfigFileParser.eraseToDot r = '.' :: a
  | [] => Or.inl rfl
  | c :: cs => by
    by_cases hc : c = '.'
    · right
      refine ⟨cs, [], ?_, ?_⟩
      · rw [hc]; rfl
      · simp only [ConfigFileParser.eraseToDot, hc, if_true]
    · simp only [ConfigFileParser.eraseToDot, hc, if_false]
      rcases eraseToDot_cases cs with h | ⟨a, b, h1, h2⟩
      · exact Or.inl h
      · right
        exact ⟨a, c :: b, by rw [h1]; rfl, h2⟩

theorem prefixLegal_create (u : Bool) (d i : DuplicatePropertyMode) :
    (ConfigFileParser.create u d i).PrefixLegal := Or.inl rfl

theorem prefixLegal_createIncluded (u : Bool) (d i : DuplicatePropertyMode) (fs : List Str)
    (f : Str) : (ConfigFileParser.createIncluded u d i fs f).PrefixLegal := Or.inl rfl

theorem prefixLegal_beginBlock {p : ConfigFileParser} {name : Str} (hp : p.PrefixLegal)
    (hn : isLegalName name = true) : (p.beginBlock_ name).PrefixLegal := by
  right
  rcases hp with h | ⟨L, h, hL⟩
  · exact ⟨name, by simp [ConfigFileParser.beginBlock_, h], hn⟩
  · exact ⟨L ++ '.' :: name, by simp [ConfigFileParser.beginBlock_, h],
      isLegalName_append_dot hL hn⟩

theorem prefixLegal_endBlock {p : ConfigFileParser} (hp : p.PrefixLegal) :
    p.endBlock_.PrefixLegal := by
  rcases hp with h | ⟨L, h, hL⟩
  · left
    simp [ConfigFileParser.endBlock_, h, ConfigFileParser.eraseToDot]
  · have hd : p.contextPrefix_.dropLast = L := by rw [h]; simp
    rcases eraseToDot_cases L.reverse with he | ⟨a, b, h1, h2⟩
    · left
      simp [ConfigFileParser.endBlock_, hd, he]
    · right
      have hLeq : L = a.reverse ++ '.' :: b.reverse := by
        have := congrArg List.reverse h1
        simpa using this
      refine ⟨a.reverse, by simp [ConfigFileParser.endBlock_, hd, h2], ?_⟩
      rw [hLeq] at hL
      exact isLegalName_before_dot hL

theorem getFullName_legal {p : ConfigFileParser} {name : Str} (hp : p.PrefixLegal)
    (hn : isLegalName name = true) : isLegalName (p.getFullName_ name) = true := by
  rcases hp with h | ⟨L, h, hL⟩
  · simp [ConfigFileParser.getFullName_, h, hn]
  · have : p.getFullName_ name = L ++ '.' :: name := by
      simp [ConfigFileParser.getFullName_, h]
    rw [this]
    exact isLegalName_append_dot hL hn

theorem namesLegal_empty : ConfigurationPropertyMap.empty.NamesLegal := by
  intro e he
  cases he

theorem namesLegal_add {m : ConfigurationPropertyMap} {q : ConfigurationProperty}
    (hm : m.NamesLegal) (hq : isLegalName q.name = true) : (m.add q).NamesLegal := by
  intro e he
  rcases ConfigurationPropertyMap.mem_addEntries q m.properties_ e he with h | h
  · rw [h]; exact ⟨rfl, hq⟩
  · exact hm e h

theorem mergeIncluded_legal (act : DuplicatePropertyMode) :
    ∀ (inc : List ConfigurationProperty) (props m : ConfigurationPropertyMap),
      (∀ i ∈ inc, isLegalName i.name = true) → props.NamesLegal →
      mergeIncluded act inc props = .ok m → m.NamesLegal
  | [], props, m, _, hp, h => by
    simp only [mergeIncluded, Except.ok.injEq] at h
    rw [← h]; exact hp
  | i :: rest, props, m, hinc, hp, h => by
    have hi := hinc i (List.mem_cons_self _ _)
    have hrest : ∀ j ∈ rest, isLegalName j.name = true :=
      fun j hj => hinc j (List.mem_cons_of_mem _ hj)
    simp only [mergeIncluded] at h
    split at h
    · exact mergeIncluded_legal act rest _ m hrest (namesLegal_add hp hi) h
    · split_ifs at h
      · exact mergeIncluded_legal act rest _ m hrest (namesLegal_add hp hi) h
      · exact mergeIncluded_legal act rest _ m hrest hp h

theorem toList_legal {m : ConfigurationPropertyMap} (hm : m.NamesLegal) :
    ∀ i ∈ m.toList, isLegalName i.name = true := by
  intro i hi
  simp only [ConfigurationPropertyMap.toList, List.mem_map] at hi
  obtain ⟨e, he, rfl⟩ := hi
  exact (hm e he).2

theorem parseAssignment_legal {w : World} {useEnvVars : Bool} {p : ConfigFileParser}
    {sourceName : Str} {name : Token} {lexer : ConfigFileLexer}
    {properties : ConfigurationPropertyMap} {r : ConfigFileLexer × ConfigurationPropertyMap}
    (hp : p.PrefixLegal) (hn : isLegalName name.value = true) (hs : properties.NamesLegal)
    (h : parseAssignment_ w useEnvVars p sourceName name lexer properties = some (.ok r)) :
    r.2.NamesLegal := by
  have hfull := getFullName_legal hp hn
  unfold parseAssignment_ at h
  simp only [] at h
  split at h
  · cases h
  split at h
  · cases h
  · cases h
  split at h
  · simp only [Option.some.injEq, Except.ok.injEq] at h
    rw [← h]
    exact namesLegal_add hs hfull
  · split at h
    · simp only [Option.some.injEq, Except.ok.injEq] at h
      rw [← h]
      exact namesLegal_add hs hfull
    · simp only [Option.some.injEq, Except.ok.injEq] at h
      rw [← h]
      exact hs
    · cases h

/-- The loop of `parse` keeps the name prefix legal, and a store it returns
holds legal names under their own keys, when the stores of included files
do. -/
theorem parseLoop_legal (w : World) (sub : SubParse) (useEnvVars : Bool) (sourceName : Str)
    (hsub : ∀ q f store, q.PrefixLegal → sub q f = some (.ok store) → store.NamesLegal) :
    ∀ (fuel : Nat) (p : ConfigFileParser) (lexer : ConfigFileLexer)
      (properties : ConfigurationPropertyMap) (r : ParseResult),
      p.PrefixLegal → properties.NamesLegal →
      parseLoop w sub useEnvVars sourceName fuel p lexer properties = some r →
      r.parser.PrefixLegal ∧ ∀ store, r.outcome = .ok store → store.NamesLegal
  | 0, _, _, _, _, _, _, h => by cases h
  | fuel + 1, p, lexer, properties, r, hp, hs, h => by
    have herr : ∀ e, r = ⟨p, .error e⟩ →
        r.parser.PrefixLegal ∧ ∀ store, r.outcome = .ok store → store.NamesLegal := by
      intro e he
      rw [he]
      exact ⟨hp, fun store hc => by cases hc⟩
    unfold parseLoop at h
    simp only [] at h
    split at h
    · split at h
      · exact herr _ (Option.some.inj h).symm
      · rw [← Option.some.inj h]
        refine ⟨hp, ?_⟩
        intro store hc
        simp only [Except.ok.injEq] at hc
        rw [← hc]; exact hs
    split at h
    · exact parseLoop_legal w sub useEnvVars sourceName hsub fuel p _ properties r hp hs h
    split at h
    · split at h
      · exact herr _ (Option.some.inj h).symm
      · exact parseLoop_legal w sub useEnvVars sourceName hsub fuel p.endBlock_ _ properties r
          (prefixLegal_endBlock hp) hs h
    split at h
    · exact herr _ (Option.some.inj h).symm
    split at h
    · cases hd : parseIncludeDirective_ w sub p sourceName lexer.next.2 properties with
      | none => rw [hd] at h; cases h
      | some a =>
        rw [hd] at h
        cases a with
        | error e => exact herr _ (Option.some.inj h).symm
        | ok r1 =>
          obtain ⟨f, included, hinc, hmerge⟩ :=
            parseIncludeDirective_ok (show parseIncludeDirective_ w sub p sourceName lexer.next.2
              properties = some (.ok (r1.1, r1.2)) from hd)
          have hl := hsub _ f included (prefixLegal_createIncluded _ _ _ _ _) hinc
          exact parseLoop_legal w sub useEnvVars sourceName hsub fuel p r1.1 r1.2 r hp
            (mergeIncluded_legal _ _ _ _ (toList_legal hl) hs hmerge) h
    split at h
    · rename_i hlegal
      cases hd : parseAssignmentOrBlock_ w useEnvVars p sourceName lexer.next.1 lexer.next.2
          properties with
      | none => rw [hd] at h; cases h
      | some a =>
        rw [hd] at h
        cases a with
        | error e => exact herr _ (Option.some.inj h).symm
        | ok r1 =>
          rcases parseAssignmentOrBlock_ok_cases hd with ⟨-, hr⟩ | ⟨-, -, hr, ha⟩
          · have hr1 : r1.1 = p.beginBlock_ lexer.next.1.value := by rw [hr]
            have hr2 : r1.2.2 = properties := by rw [hr]
            exact parseLoop_legal w sub useEnvVars sourceName hsub fuel r1.1 r1.2.1 r1.2.2 r
              (by rw [hr1]; exact prefixLegal_beginBlock hp hlegal) (by rw [hr2]; exact hs) h
          · exact parseLoop_legal w sub useEnvVars sourceName hsub fuel r1.1 r1.2.1 r1.2.2 r
              (by rw [hr]; exact hp) (parseAssignment_legal hp hlegal hs ha) h
    · exact herr _ (Option.some.inj h).symm

theorem parseFileWith_legal (w : World) (sub : SubParse)
    (hsub : ∀ q f store, q.PrefixLegal → sub q f = some (.ok store) → store.NamesLegal)
    (p : ConfigFileParser) (filename : Str) (r : ParseResult) (hp : p.PrefixLegal)
    (h : parseFileWith w sub p filename = some r) :
    r.parser.PrefixLegal ∧ ∀ store, r.outcome = .ok store → store.NamesLegal := by
  unfold parseFileWith at h
  split at h
  · exact parseLoop_legal w sub p.useEnvVars_ filename hsub _ p _ _ r hp namesLegal_empty h
  · rw [← Option.some.inj h]
    exact ⟨hp, fun store hc => by cases hc⟩

theorem subParseAt_legal (w : World) : ∀ (d : Nat) (q : ConfigFileParser) (f : Str)
    (store : ConfigurationPropertyMap), q.PrefixLegal →
    subParseAt w d q f = some (.ok store) → store.NamesLegal
  | 0, _, _, _, _, h => by cases h
  | d + 1, q, f, store, hq, h => by
    simp only [subParseAt, Option.map_eq_some'] at h
    obtain ⟨r, hr, hout⟩ := h
    exact (parseFileWith_legal w (subParseAt w d) (subParseAt_legal w d) q f r hq hr).2 store hout

/-- Claim C32. Every property in the store that a successful `parse` or
`parseText` returns, the properties merged from included files among them,
has a name that satisfies `isLegalName`, and is held in the store under that
name.  The parser is one whose name prefix is empty or a legal name followed
by a dot: every parser that the constructors make is, and every parse leaves
the parser so. -/
theorem parse_store_names_legal (w : World) (p : ConfigFileParser) (hp : p.PrefixLegal) :
    (∀ (filename : Str) (r : ParseResult) (store : ConfigurationPropertyMap),
      p.parse w filename = some r → r.outcome = .ok store →
      ∀ e ∈ store.properties_, e.1 = e.2.name ∧ isLegalName e.2.name = true) ∧
    (∀ (sourceName text : Str) (initialLine initialColumn : Int) (r : ParseResult)
        (store : ConfigurationPropertyMap),
      p.parseText w sourceName text initialLine initialColumn = some r →
      r.outcome = .ok store →
      ∀ e ∈ store.properties_, e.1 = e.2.name ∧ isLegalName e.2.name = true) ∧
    (∀ (filename : Str) (r : ParseResult), p.parse w filename = some r →
      r.parser.PrefixLegal) ∧
    (∀ (sourceName text : Str) (initialLine initialColumn : Int) (r : ParseResult),
      p.parseText w sourceName text initialLine initialColumn = some r →
      r.parser.PrefixLegal) ∧
    (∀ (u : Bool) (d i : DuplicatePropertyMode), (ConfigFileParser.create u d i).PrefixLegal) ∧
    (∀ (u : Bool) (d i : DuplicatePropertyMode) (fs : List Str) (f : Str),
      (ConfigFileParser.createIncluded u d i fs f).PrefixLegal) := by
  have hfile := fun filename r h =>
    parseFileWith_legal w (subParseAt w p.levels) (subParseAt_legal w p.levels) p filename r hp h
  have htext := fun (sourceName text : Str) (initialLine initialColumn : Int) r
      (h : p.parseText w sourceName text initialLine initialColumn = some r) =>
    parseLoop_legal w (subParseAt w p.levels) p.useEnvVars_ sourceName
      (subParseAt_legal w p.levels) _ p _ _ r hp namesLegal_empty h
  exact ⟨fun filename r store h hok => (hfile filename r h).2 store hok,
    fun sourceName text l c r store h hok => (htext sourceName text l c r h).2 store hok,
    fun filename r h => (hfile filename r h).1,
    fun sourceName text l c r h => (htext sourceName text l c r h).1,
    prefixLegal_create, prefixLegal_createIncluded⟩

set_option maxRecDepth 100000 in
theorem parse_store_names_legal_witness :
    (ConfigFileParser.create true .DUP_ERROR .DUP_IGNORE).PrefixLegal ∧
    (ConfigFileParser.create true .DUP_ERROR .DUP_IGNORE).parseText
      (plainWorld (filesOf [(lit "sub.cfg", lit "a.c=2\n")])) (lit "main.cfg")
      (lit "include \"sub.cfg\"\nb.d \x7b\n e=1\n\x7d\n") 1 1 =
      some ⟨⟨true, .DUP_ERROR, .DUP_IGNORE, [], lit "b.", []⟩,
        .ok ⟨[(lit "a.c", ⟨lit "a.c", lit "2", lit "sub.cfg", 1⟩),
          (lit "b.d.e", ⟨lit "b.d.e", lit "1", lit "main.cfg", 3⟩)]⟩⟩ ∧
    ∀ e ∈ [(lit "a.c", (⟨lit "a.c", lit "2", lit "sub.cfg", 1⟩ : ConfigurationProperty)),
        (lit "b.d.e", ⟨lit "b.d.e", lit "1", lit "main.cfg", 3⟩)],
      e.1 = e.2.name ∧ isLegalName e.2.name = true :=
  ⟨Or.inl rfl, by decide,
    (parse_store_names_legal (plainWorld (filesOf [(lit "sub.cfg", lit "a.c=2\n")]))
      (ConfigFileParser.create true .DUP_ERROR .DUP_IGNORE) (Or.inl rfl)).2.1
      (lit "main.cfg") (lit "include \"sub.cfg\"\nb.d \x7b\n e=1\n\x7d\n") 1 1
      ⟨⟨true, .DUP_ERROR, .DUP_IGNORE, [], lit "b.", []⟩,
        .ok ⟨[(lit "a.c", ⟨lit "a.c", lit "2", lit "sub.cfg", 1⟩),
          (lit "b.d.e", ⟨lit "b.d.e", lit "1", lit "main.cfg", 3⟩)]⟩⟩
      ⟨[(lit "a.c", ⟨lit "a.c", lit "2", lit "sub.cfg", 1⟩),
          (lit "b.d.e", ⟨lit "b.d.e", lit "1", lit "main.cfg", 3⟩)]⟩
      (by decide) rfl⟩

/-! ## A parser object used for several parses -/

/-- Claim C31. A parse that throws inside a block leaves the block open in
the parser object, and the next parse on that object starts inside it.
`parseText` of `blk \x7b`, `=` on a new parser throws at the `=` and leaves
the context `blk` with the prefix `blk.`; on that object, the text `c=1`,
for which a new parser returns the store with `c`, throws "'\x7d' expected",
and the text `c=1`, `\x7d`, for which a new parser throws "Syntax error
('\x7d' unexpected)", returns a store that holds `blk.c`.  `parse` creates
the store anew at every call but never resets `context_` and
`contextPrefix_`. -/
theorem parseText_after_failed_parse_keeps_block :
    (ConfigFileParser.create true .DUP_ERROR .DUP_IGNORE).parseText (plainWorld noFiles)
      (lit "bad.cfg") (lit "blk \x7b\n=\n") 1 1 =
      some ⟨⟨true, .DUP_ERROR, .DUP_IGNORE, [lit "blk"], lit "blk.", []⟩,
        .error ⟨lit "bad.cfg", 2, 1, lit "Syntax error (property name expected)"⟩⟩ ∧
    (⟨true, .DUP_ERROR, .DUP_IGNORE, [lit "blk"], lit "blk.", []⟩ : ConfigFileParser).parseText
      (plainWorld noFiles) (lit "app.cfg") (lit "c=1\n") 1 1 =
      some ⟨⟨true, .DUP_ERROR, .DUP_IGNORE, [lit "blk"], lit "blk.", []⟩,
        .error ⟨lit "app.cfg", 1, 4, lit "'\x7d' expected"⟩⟩ ∧
    (ConfigFileParser.create true .DUP_ERROR .DUP_IGNORE).parseText (plainWorld noFiles)
      (lit "app.cfg") (lit "c=1\n") 1 1 =
      some ⟨ConfigFileParser.create true .DUP_ERROR .DUP_IGNORE,
        .ok ⟨[(lit "c", ⟨lit "c", lit "1", lit "app.cfg", 1⟩)]⟩⟩ ∧
    (⟨true, .DUP_ERROR, .DUP_IGNORE, [lit "blk"], lit "blk.", []⟩ : ConfigFileParser).parseText
      (plainWorld noFiles) (lit "app.cfg") (lit "c=1\n\x7d\n") 1 1 =
      some ⟨ConfigFileParser.create true .DUP_ERROR .DUP_IGNORE,
        .ok ⟨[(lit "blk.c", ⟨lit "blk.c", lit "1", lit "app.cfg", 1⟩)]⟩⟩ ∧
    (ConfigFileParser.create true .DUP_ERROR .DUP_IGNORE).parseText (plainWorld noFiles)
      (lit "app.cfg") (lit "c=1\n\x7d\n") 1 1 =
      some ⟨ConfigFileParser.create true .DUP_ERROR .DUP_IGNORE,
        .error ⟨lit "app.cfg", 2, 1, lit "Syntax error ('\x7d' unexpected)"⟩⟩ :=
  ⟨by decide, by decide, by decide, by decide, by decide⟩

/-! ## The passes of the loop of `parse` -/

/-- The loop of `parse` is its pass, repeated. -/
theorem parseLoop_succ (w : World) (sub : SubParse) (useEnvVars : Bool) (sourceName : Str)
    (fuel : Nat) (p : ConfigFileParser) (lexer : ConfigFileLexer)
    (properties : ConfigurationPropertyMap) :
    parseLoop w sub useEnvVars sourceName (fuel + 1) p lexer properties =
      match parsePass w sub useEnvVars sourceName p lexer properties with
      | none => none
      | some (.inl r) => some r
      | some (.inr s) => parseLoop w sub useEnvVars sourceName fuel s.1 s.2.1 s.2.2 := by
  rw [parseLoop]
  unfold parsePass
  simp only []
  split
  · split <;> rfl
  split
  · rfl
  split
  · split <;> rfl
  split
  · rfl
  split
  · generalize parseIncludeDirective_ w sub p sourceName lexer.next.2 properties = a
    rcases a with _ | a
    · rfl
    · cases a <;> rfl
  split
  · generalize parseAssignmentOrBlock_ w useEnvVars p sourceName lexer.next.1 lexer.next.2
      properties = a
    rcases a with _ | a
    · rfl
    · cases a <;> rfl
  · rfl

/-- The loop ends the way the pass ends that starts in one of its states. -/
theorem parseLoop_of_pass (w : World) (sub : SubParse) (useEnvVars : Bool) (sourceName : Str) :
    ∀ (fuel : Nat) (p : ConfigFileParser) (lexer : ConfigFileLexer)
      (properties : ConfigurationPropertyMap) (s : ParseState) (r : ParseResult),
      s ∈ parseLoopPasses w sub useEnvVars sourceName fuel p lexer properties →
      parsePass w sub useEnvVars sourceName s.1 s.2.1 s.2.2 = some (.inl r) →
      parseLoop w sub useEnvVars sourceName fuel p lexer properties = some r
  | 0, _, _, _, _, _, h, _ => by cases h
  | fuel + 1, p, lexer, properties, s, r, h, hp => by
    rw [parseLoop_succ]
    simp only [parseLoopPasses] at h
    rcases List.mem_cons.1 h with h | h
    · rw [h] at hp
      simp only [] at hp
      rw [hp]
    · cases hq : parsePass w sub useEnvVars sourceName p lexer properties with
      | none => rw [hq] at h; cases h
      | some a =>
        rw [hq] at h
        cases a with
        | inl r1 => cases h
        | inr s1 =>
          simp only [] at h ⊢
          exact parseLoop_of_pass w sub useEnvVars sourceName fuel s1.1 s1.2.1 s1.2.2 s r h hp

/-- A property of the states that the loop is entered with and that each
pass hands on holds for every state in which a pass starts. -/
theorem parseLoopPasses_invariant (w : World) (sub : SubParse) (useEnvVars : Bool)
    (sourceName : Str) (I : ParseState → Prop)
    (hstep : ∀ s s1 : ParseState, I s →
      parsePass w sub useEnvVars sourceName s.1 s.2.1 s.2.2 = some (.inr s1) → I s1) :
    ∀ (fuel : Nat) (p : ConfigFileParser) (lexer : ConfigFileLexer)
      (properties : ConfigurationPropertyMap), I (p, lexer, properties) →
      ∀ s ∈ parseLoopPasses w sub useEnvVars sourceName fuel p lexer properties, I s
  | 0, _, _, _, _ => by intro s hs; cases hs
  | fuel + 1, p, lexer, properties, h0 => by
    intro s hs
    simp only [parseLoopPasses] at hs
    rcases List.mem_cons.1 hs with hs | hs
    · rw [hs]; exact h0
    · cases hq : parsePass w sub useEnvVars sourceName p lexer properties with
      | none => rw [hq] at hs; cases hs
      | some a =>
        rw [hq] at hs
        cases a with
        | inl r1 => cases hs
        | inr s1 =>
          simp only [] at hs
          exact parseLoopPasses_invariant w sub useEnvVars sourceName I hstep fuel s1.1 s1.2.1
            s1.2.2 (hstep (p, lexer, properties) s1 h0 hq) s hs

/-! ## Positions of the lexer in the passes of `parse` -/

namespace ConfigFileLexer

/-- A NAME, COMMENT or PUNCTUATION token leaves the lexer in text mode with
its position within the line of the token. -/
theorem next_token_attached (l : ConfigFileLexer)
    (hl : l.next.1.type = .NAME ∨ l.next.1.type = .COMMENT ∨ l.next.1.type = .PUNCTUATION) :
    l.next.2.Attached ∧ l.next.2.state_ = .AT_TEXT := by
  have hne : l.next.1.type ≠ .END_OF_FILE ∧ l.next.1.type ≠ .VALUE := by
    rcases hl with h | h | h <;> rw [h] <;> exact ⟨by decide, by decide⟩
  have htext : l.next = parseText_ l := by
    unfold next at hne ⊢
    split
    · rfl
    · rfl
    · rename_i hst
      rw [hst] at hne
      exact absurd (parseValue_type l false) hne.2
    · rename_i hst
      rw [hst] at hne
      exact absurd rfl hne.2
    · rename_i hst
      rw [hst] at hne
      exact absurd rfl hne.1
  rw [htext]
  rw [htext] at hne
  exact ⟨parseText_attached l hne.1, (parseText_progress l hne.1).2.2.1⟩

theorem continueValue_attached : ∀ (lines : List Str) (value : Str) (lx : ConfigFileLexer),
    (continueValue lines value lx).2.Attached ∨ (continueValue lines value lx).2.state_ = .AT_EOF
  | [], value, lx => by
    rw [show continueValue [] value lx = (value, (readNextLine_ lx).2) from rfl]
    by_cases hr : (readNextLine_ lx).1 = true
    · left
      unfold Attached
      unfold readNextLine_ at hr ⊢
      simp only [] at hr ⊢
      by_cases hg : (getline lx.input_ lx.text_).1 = true
      · rw [if_pos hg]
        exact Nat.zero_le _
      · rw [if_neg hg] at hr
        cases hr
    · exact Or.inr ((readNextLine_state lx).1 (by simpa using hr))
  | _ :: lines, value, lx => by
    simp only [continueValue]
    by_cases hr : (readNextLine_ lx).1 = true
    · rw [if_neg (by rw [hr]; simp)]
      split
      · exact Or.inl (Nat.le_refl _)
      · exact continueValue_attached lines _ _
    · simp only [Bool.not_eq_true] at hr
      rw [if_pos (by rw [hr]; rfl)]
      exact Or.inr ((readNextLine_state lx).1 hr)

/-- The call `parseValue_()` leaves the position of the lexer within its
line, or the lexer at the end of the file. -/
theorem parseValue_attached (lx : ConfigFileLexer) (b : Bool) :
    (parseValue_ lx b).2.Attached ∨ (parseValue_ lx b).2.state_ = .AT_EOF := by
  unfold parseValue_
  simp only []
  split
  · exact Or.inl (Nat.le_refl _)
  · exact continueValue_attached _ _ _

theorem parseQuotedString_attached (lx : ConfigFileLexer) (h : lx.Attached) :
    (parseQuotedString_ lx).2.Attached ∧ (parseQuotedString_ lx).2.state_ = .AT_TEXT := by
  refine ⟨?_, rfl⟩
  have hn := takeWhile_length_le (fun c => decide (c ≠ '"')) lx.remaining
  rw [remaining_length] at hn
  unfold Attached at h ⊢
  show lx.current_ + (lx.remaining.takeWhile (fun c => decide (c ≠ '"'))).length ≤ lx.text_.length
  omega

/-- A lexer that is ready for a call of `next()` in the loop of `parse` is
ready again after it. -/
theorem next_ready (lx : ConfigFileLexer) (h : lx.Ready) : lx.next.2.Ready := by
  rcases h with ⟨_, hst⟩ | hst
  · rw [next_text lx hst]
    by_cases he : (parseText_ lx).1.type = .END_OF_FILE
    · exact Or.inr (parseText_eof lx he).1
    · exact Or.inl ⟨parseText_attached lx he, Or.inr (parseText_progress lx he).2.2.1⟩
  · rw [next_at_eof lx hst]
    exact Or.inr hst

theorem ready_create (input : IStream) (l c : Int) : (create input l c).Ready := by
  unfold create Ready Attached
  simp only []
  by_cases hg : (getline input []).1 = true
  · left
    rw [if_pos hg]
    exact ⟨Nat.zero_le _, Or.inl rfl⟩
  · right
    rw [if_neg hg]

end ConfigFileLexer

theorem next_parseNextAsValue (lx : ConfigFileLexer) :
    lx.parseNextAsValue.next = ConfigFileLexer.parseValue_ lx.parseNextAsValue false := rfl

theorem next_parseNextAsQuotedString (lx : ConfigFileLexer) :
    lx.parseNextAsQuotedString.next =
      ConfigFileLexer.parseQuotedString_ lx.parseNextAsQuotedString := rfl

theorem processValue_nil (getenv : Str → Option Str) (properties : ConfigurationPropertyMap)
    (useEnvVars_ : Bool) : processValue getenv properties useEnvVars_ [] = some (.ok []) := by
  rw [processValue_eq_processFrom, processFrom_nil]

theorem ne_of_head_ne {a b : Str} (h : a.head? ≠ b.head?) : a ≠ b := by
  intro e
  exact h (by rw [e])

theorem description_ne_value_expected (x y : Str) :
    lit "Invalid property value (" ++ x ++ y ≠ lit "Property value expected" := by
  intro h
  have := congrArg List.head? h
  simp [lit] at this

theorem duplicate_ne_value_expected (x : Str) :
    lit "Property \"" ++ x ≠ lit "Property value expected" := by
  intro h
  have := congrArg (fun s => s.take 10) h
  simp [lit] at this

/-- No exception of `parseAssignment_` has the description "Property value
expected": the token behind `parseNextAsValue()` is a VALUE. -/
theorem parseAssignment_error_ne (w : World) (useEnvVars : Bool) (p : ConfigFileParser)
    (sourceName : Str) (name : Token) (lx : ConfigFileLexer)
    (properties : ConfigurationPropertyMap) (e : ConfigFileParseError)
    (h : parseAssignment_ w useEnvVars p sourceName name lx properties = some (.error e)) :
    NotValueExpected e := by
  have htype := next_value_type lx
  unfold NotValueExpected
  unfold parseAssignment_ at h
  simp only [htype, ne_eq, not_true_eq_false, decide_False, if_false] at h
  cases hv : processValue w.getenv properties useEnvVars (lx.parseNextAsValue.next).1.value with
  | none => rw [hv] at h; cases h
  | some r =>
    rw [hv] at h
    cases r with
    | error pe =>
      simp only [Option.some.injEq, Except.error.injEq] at h
      rw [← h]
      exact description_ne_value_expected _ _
    | ok value =>
      simp only at h
      cases hf : properties.find (p.getFullName_ name.value) with
      | none => rw [hf] at h; simp at h
      | some original =>
        rw [hf] at h
        simp only at h
        split at h
        · simp at h
        · simp at h
        · simp only [Option.some.injEq, Except.error.injEq] at h
          rw [← h]
          simp only [List.append_assoc]
          exact duplicate_ne_value_expected _

/-- The lexer that `parseAssignment_` returns is the lexer behind the
value. -/
theorem parseAssignment_ok_lexer {w : World} {useEnvVars : Bool} {p : ConfigFileParser}
    {sourceName : Str} {name : Token} {lx : ConfigFileLexer}
    {properties : ConfigurationPropertyMap} {r : ConfigFileLexer × ConfigurationPropertyMap}
    (h : parseAssignment_ w useEnvVars p sourceName name lx properties = some (.ok r)) :
    r.1 = lx.parseNextAsValue.next.2 := by
  unfold parseAssignment_ at h
  simp only [] at h
  split at h
  · cases h
  split at h
  · cases h
  · cases h
  split at h
  · simp only [Option.some.injEq, Except.ok.injEq] at h
    rw [← h]
  · split at h
    · simp only [Option.some.injEq, Except.ok.injEq] at h
      rw [← h]
    · simp only [Option.some.injEq, Except.ok.injEq] at h
      rw [← h]
    · cases h

theorem parseAssignmentOrBlock_error_ne (w : World) (useEnvVars : Bool) (p : ConfigFileParser)
    (sourceName : Str) (name : Token) (lexer : ConfigFileLexer)
    (properties : ConfigurationPropertyMap) (e : ConfigFileParseError)
    (h : parseAssignmentOrBlock_ w useEnvVars p sourceName name lexer properties =
      some (.error e)) : NotValueExpected e := by
  have hq : NotValueExpected ⟨sourceName, name.line, lexer.column_, lit "'=' expected"⟩ :=
    ne_of_head_ne (by simp [lit])
  unfold parseAssignmentOrBlock_ at h
  simp only [] at h
  split at h
  · simp only [Option.some.injEq, Except.error.injEq] at h
    rw [← h]; exact hq
  split at h
  · cases h
  split at h
  · cases ha : parseAssignment_ w useEnvVars p sourceName name lexer.next.2 properties with
    | none => rw [ha] at h; cases h
    | some a =>
      rw [ha] at h
      cases a with
      | error e1 =>
        simp only [Option.some.injEq, Except.error.injEq] at h
        rw [← h]
        exact parseAssignment_error_ne _ _ _ _ _ _ _ _ ha
      | ok r1 => cases h
  · simp only [Option.some.injEq, Except.error.injEq] at h
    rw [← h]; exact hq

/-- A call of `parseAssignmentOrBlock_` that returns has read a PUNCTUATION
token behind the name. -/
theorem parseAssignmentOrBlock_ok_punctuation {w : World} {useEnvVars : Bool}
    {p : ConfigFileParser} {sourceName : Str} {name : Token} {lexer : ConfigFileLexer}
    {properties : ConfigurationPropertyMap}
    {r : ConfigFileParser × ConfigFileLexer × ConfigurationPropertyMap}
    (h : parseAssignmentOrBlock_ w useEnvVars p sourceName name lexer properties = some (.ok r)) :
    lexer.next.1.type = .PUNCTUATION := by
  unfold parseAssignmentOrBlock_ at h
  simp only [] at h
  split at h
  · cases h
  · rename_i hc
    simp only [ne_eq, Bool.or_eq_true, decide_eq_true_eq, not_or, not_not] at hc
    exact hc.1

theorem mergeIncluded_error_ne (act : DuplicatePropertyMode) :
    ∀ (inc : List ConfigurationProperty) (props : ConfigurationPropertyMap)
      (e : ConfigFileParseError), mergeIncluded act inc props = .error e → NotValueExpected e
  | [], props, e, h => by cases h
  | i :: rest, props, e, h => by
    simp only [mergeIncluded] at h
    split at h
    · exact mergeIncluded_error_ne act rest _ e h
    · split_ifs at h
      · exact mergeIncluded_error_ne act rest _ e h
      · simp only [Except.error.injEq] at h
        rw [← h]
        exact ne_of_head_ne (by simp [lit])
      · exact mergeIncluded_error_ne act rest _ e h

theorem parseIncludeDirective_error_ne (w : World) (sub : SubParse) (p : ConfigFileParser)
    (sourceName : Str) (lexer : ConfigFileLexer) (properties : ConfigurationPropertyMap)
    (e : ConfigFileParseError)
    (hsub : ∀ q f e1, sub q f = some (.error e1) → NotValueExpected e1)
    (h : parseIncludeDirective_ w sub p sourceName lexer properties = some (.error e)) :
    NotValueExpected e := by
  unfold parseIncludeDirective_ at h
  simp only [] at h
  split at h
  · simp only [Option.some.injEq, Except.error.injEq] at h
    rw [← h]; exact ne_of_head_ne (by simp [lit])
  split at h
  · simp only [Option.some.injEq, Except.error.injEq] at h
    rw [← h]; exact ne_of_head_ne (by simp [lit])
  split at h
  · simp only [Option.some.injEq, Except.error.injEq] at h
    rw [← h]; exact ne_of_head_ne (by simp [lit])
  split at h
  · simp only [Option.some.injEq, Except.error.injEq] at h
    rw [← h]; exact ne_of_head_ne (by simp [lit])
  split at h
  · simp only [Option.some.injEq, Except.error.injEq] at h
    rw [← h]; exact ne_of_head_ne (by simp [lit])
  split at h
  · simp only [Option.some.injEq, Except.error.injEq] at h
    rw [← h]; exact ne_of_head_ne (by simp [lit])
  split at h
  · cases h
  · rename_i e1 hs
    simp only [Option.some.injEq, Except.error.injEq] at h
    rw [← h]
    exact hsub _ _ _ hs
  · rename_i inc hs
    split at h
    · rename_i e1 hm
      simp only [Option.some.injEq, Except.error.injEq] at h
      rw [← h]
      exact mergeIncluded_error_ne _ _ _ _ hm
    · cases h

/-- The lexer that `parseIncludeDirective_` returns is the lexer behind the
closing quote, a PUNCTUATION token. -/
theorem parseIncludeDirective_ok_lexer {w : World} {sub : SubParse} {p : ConfigFileParser}
    {sourceName : Str} {lexer : ConfigFileLexer} {properties : ConfigurationPropertyMap}
    {r : ConfigFileLexer × ConfigurationPropertyMap}
    (h : parseIncludeDirective_ w sub p sourceName lexer properties = some (.ok r)) :
    r.1 = lexer.next.2.parseNextAsQuotedString.next.2.next.2 ∧
    lexer.next.1.type = .PUNCTUATION ∧
    lexer.next.2.parseNextAsQuotedString.next.2.next.1.type = .PUNCTUATION := by
  unfold parseIncludeDirective_ at h
  simp only [] at h
  split at h
  · cases h
  rename_i h1
  split at h
  · cases h
  split at h
  · cases h
  rename_i h3
  simp only [ne_eq, Bool.or_eq_true, decide_eq_true_eq, not_or, not_not] at h1 h3
  split at h
  · cases h
  split at h
  · cases h
  split at h
  · cases h
  split at h
  · cases h
  · cases h
  · split at h
    · cases h
    · simp only [Option.some.injEq, Except.ok.injEq] at h
      rw [← h]
      exact ⟨rfl, h1.1.1, h3.1.1⟩

/-- No pass of the loop of `parse` throws "Property value expected", if no
parse of an included file does. -/
theorem parsePass_error_ne (w : World) (sub : SubParse) (useEnvVars : Bool) (sourceName : Str)
    (hsub : ∀ q f e1, sub q f = some (.error e1) → NotValueExpected e1)
    (p : ConfigFileParser) (lexer : ConfigFileLexer) (properties : ConfigurationPropertyMap)
    (r : ParseResult) (e : ConfigFileParseError)
    (h : parsePass w sub useEnvVars sourceName p lexer properties = some (.inl r))
    (he : r.outcome = .error e) : NotValueExpected e := by
  unfold parsePass at h
  simp only [] at h
  split at h
  · split at h
    · simp only [Option.some.injEq, Sum.inl.injEq] at h
      rw [← h] at he
      simp only [Except.error.injEq] at he
      rw [← he]; exact ne_of_head_ne (by simp [lit])
    · simp only [Option.some.injEq, Sum.inl.injEq] at h
      rw [← h] at he
      cases he
  split at h
  · cases h
  split at h
  · split at h
    · simp only [Option.some.injEq, Sum.inl.injEq] at h
      rw [← h] at he
      simp only [Except.error.injEq] at he
      rw [← he]; exact ne_of_head_ne (by simp [lit])
    · cases h
  split at h
  · simp only [Option.some.injEq, Sum.inl.injEq] at h
    rw [← h] at he
    simp only [Except.error.injEq] at he
    rw [← he]; exact ne_of_head_ne (by simp [lit])
  split at h
  · split at h
    · cases h
    · rename_i e1 hi
      simp only [Option.some.injEq, Sum.inl.injEq] at h
      rw [← h] at he
      simp only [Except.error.injEq] at he
      rw [← he]
      exact parseIncludeDirective_error_ne w sub p sourceName _ properties e1 hsub hi
    · cases h
  split at h
  · split at h
    · cases h
    · rename_i e1 hi
      simp only [Option.some.injEq, Sum.inl.injEq] at h
      rw [← h] at he
      simp only [Except.error.injEq] at he
      rw [← he]
      exact parseAssignmentOrBlock_error_ne w useEnvVars p sourceName _ _ properties e1 hi
    · cases h
  · simp only [Option.some.injEq, Sum.inl.injEq] at h
    rw [← h] at he
    simp only [Except.error.injEq] at he
    rw [← he]; exact ne_of_head_ne (by simp [lit])

theorem parseLoop_error_ne (w : World) (sub : SubParse) (useEnvVars : Bool) (sourceName : Str)
    (hsub : ∀ q f e1, sub q f = some (.error e1) → NotValueExpected e1) :
    ∀ (fuel : Nat) (p : ConfigFileParser) (lexer : ConfigFileLexer)
      (properties : ConfigurationPropertyMap) (r : ParseResult) (e : ConfigFileParseError),
      parseLoop w sub useEnvVars sourceName fuel p lexer properties = some r →
      r.outcome = .error e → NotValueExpected e
  | 0, _, _, _, _, _, h, _ => by cases h
  | fuel + 1, p, lexer, properties, r, e, h, he => by
    rw [parseLoop_succ] at h
    cases hq : parsePass w sub useEnvVars sourceName p lexer properties with
    | none => rw [hq] at h; cases h
    | some a =>
      rw [hq] at h
      cases a with
      | inl r1 =>
        simp only [Option.some.injEq] at h
        rw [h] at hq
        exact parsePass_error_ne w sub useEnvVars sourceName hsub p lexer properties r e hq he
      | inr s1 =>
        simp only [] at h
        exact parseLoop_error_ne w sub useEnvVars sourceName hsub fuel _ _ _ r e h he

theorem parseFileWith_error_ne (w : World) (sub : SubParse)
    (hsub : ∀ q f e1, sub q f = some (.error e1) → NotValueExpected e1)
    (p : ConfigFileParser) (filename : Str) (r : ParseResult) (e : ConfigFileParseError)
    (h : parseFileWith w sub p filename = some r) (he : r.outcome = .error e) :
    NotValueExpected e := by
  unfold parseFileWith at h
  split at h
  · exact parseLoop_error_ne w sub _ _ hsub _ _ _ _ r e h he
  · simp only [Option.some.injEq] at h
    rw [← h] at he
    simp only [Except.error.injEq] at he
    rw [← he]; exact ne_of_head_ne (by simp [lit])

theorem subParseAt_error_ne (w : World) :
    ∀ (depth : Nat) (q : ConfigFileParser) (f : Str) (e : ConfigFileParseError),
      subParseAt w depth q f = some (.error e) → NotValueExpected e
  | 0, _, _, _, h => by
    simp only [subParseAt] at h
    cases h
  | depth + 1, q, f, e, h => by
    simp only [subParseAt] at h
    cases hp : parseFileWith w (subParseAt w depth) q f with
    | none => rw [hp] at h; cases h
    | some r =>
      rw [hp] at h
      simp only [Option.map_some', Option.some.injEq] at h
      exact parseFileWith_error_ne w _ (subParseAt_error_ne w depth) q f r e hp h

/-- The state that a pass of the loop of `parse` hands on has a lexer that
is ready for the next call of `next()`: each pass ends behind a COMMENT
or PUNCTUATION token or behind a value. -/
theorem parsePass_ready (w : World) (sub : SubParse) (useEnvVars : Bool) (sourceName : Str)
    (p : ConfigFileParser) (lexer : ConfigFileLexer) (properties : ConfigurationPropertyMap)
    (s : ParseState)
    (h : parsePass w sub useEnvVars sourceName p lexer properties = some (.inr s)) :
    s.2.1.Ready := by
  have hT : ∀ l : ConfigFileLexer,
      (l.next.1.type = .NAME ∨ l.next.1.type = .COMMENT ∨ l.next.1.type = .PUNCTUATION) →
      l.next.2.Ready := fun l hl =>
    Or.inl ⟨(ConfigFileLexer.next_token_attached l hl).1,
      Or.inr (ConfigFileLexer.next_token_attached l hl).2⟩
  unfold parsePass at h
  simp only [] at h
  split at h
  · split at h <;> cases h
  split at h
  · rename_i hc
    simp only [Option.some.injEq, Sum.inr.injEq] at h
    rw [← h]
    exact hT lexer (Or.inr (Or.inl hc))
  split at h
  · rename_i hc
    simp only [Bool.and_eq_true, decide_eq_true_eq] at hc
    split at h
    · cases h
    · simp only [Option.some.injEq, Sum.inr.injEq] at h
      rw [← h]
      exact hT lexer (Or.inr (Or.inr hc.1))
  split at h
  · cases h
  split at h
  · split at h
    · cases h
    · cases h
    · rename_i r1 hi
      simp only [Option.some.injEq, Sum.inr.injEq] at h
      rw [← h]
      have hl := parseIncludeDirective_ok_lexer hi
      show r1.1.Ready
      rw [hl.1]
      exact hT _ (Or.inr (Or.inr hl.2.2))
  split at h
  · split at h
    · cases h
    · cases h
    · rename_i r1 hi
      simp only [Option.some.injEq, Sum.inr.injEq] at h
      rw [← h]
      have hpu := parseAssignmentOrBlock_ok_punctuation hi
      unfold parseAssignmentOrBlock_ at hi
      simp only [] at hi
      split at hi
      · cases hi
      split at hi
      · simp only [Option.some.injEq, Except.ok.injEq] at hi
        rw [← hi]
        exact hT _ (Or.inr (Or.inr hpu))
      split at hi
      · split at hi
        · cases hi
        · cases hi
        · rename_i r2 ha
          simp only [Option.some.injEq, Except.ok.injEq] at hi
          rw [← hi]
          show r2.1.Ready
          rw [parseAssignment_ok_lexer ha, next_parseNextAsValue]
          rcases ConfigFileLexer.parseValue_attached lexer.next.2.next.2.parseNextAsValue false
            with ha1 | ha1
          · rcases ConfigFileLexer.parseValue_state lexer.next.2.next.2.parseNextAsValue false
              with hs | hs
            · exact Or.inl ⟨ha1, Or.inr hs⟩
            · exact Or.inr hs
          · exact Or.inr ha1
      · cases hi
  · cases h

/-- Every pass of `parse(sourceName, input, initialLine, initialColumn)`
starts with a lexer that is ready for a call of `next()`. -/
theorem parseLoopPasses_ready (w : World) (sub : SubParse) (useEnvVars : Bool)
    (sourceName : Str) (fuel : Nat) (p : ConfigFileParser) (lexer : ConfigFileLexer)
    (properties : ConfigurationPropertyMap) (h0 : lexer.Ready) :
    ∀ s ∈ parseLoopPasses w sub useEnvVars sourceName fuel p lexer properties, s.2.1.Ready :=
  parseLoopPasses_invariant w sub useEnvVars sourceName (fun s => s.2.1.Ready)
    (fun s s1 _ h => parsePass_ready w sub useEnvVars sourceName s.1 s.2.1 s.2.2 s1 h)
    fuel p lexer properties h0

/-- The call of `parseAssignment_` in `parseAssignmentOrBlock_`: it is made
when the token behind the name is the PUNCTUATION `=` on the line of the
name, with the lexer behind that token. -/
theorem parseAssignmentOrBlock_equals (w : World) (useEnvVars : Bool) (p : ConfigFileParser)
    (sourceName : Str) (name : Token) (l : ConfigFileLexer)
    (properties : ConfigurationPropertyMap) (ht : l.next.1.type = .PUNCTUATION)
    (hl : l.next.1.line = name.line) (hv : l.next.1.value = lit "=") :
    parseAssignmentOrBlock_ w useEnvVars p sourceName name l properties =
      (parseAssignment_ w useEnvVars p sourceName name l.next.2 properties).map
        (fun a => a.map (fun r => (p, r.1, r.2))) := by
  unfold parseAssignmentOrBlock_
  simp only []
  rw [if_neg (by simp [ht, hl]), if_neg (by rw [hv]; decide), if_pos hv]
  generalize parseAssignment_ w useEnvVars p sourceName name l.next.2 properties = a
  rcases a with _ | a
  · rfl
  · cases a <;> rfl

/-- Without the token `=` on the line of the name, `parseAssignmentOrBlock_`
does not call `parseAssignment_`: it throws "'=' expected" or begins a
block. -/
theorem parseAssignmentOrBlock_other (w : World) (useEnvVars : Bool) (p : ConfigFileParser)
    (sourceName : Str) (name : Token) (l : ConfigFileLexer)
    (properties : ConfigurationPropertyMap)
    (h : ¬ (l.next.1.type = .PUNCTUATION ∧ l.next.1.line = name.line ∧
      l.next.1.value = lit "=")) :
    parseAssignmentOrBlock_ w useEnvVars p sourceName name l properties =
      some (.error ⟨sourceName, name.line, l.column_, lit "'=' expected"⟩) ∨
    parseAssignmentOrBlock_ w useEnvVars p sourceName name l properties =
      some (.ok (p.beginBlock_ name.value, l.next.2, properties)) := by
  unfold parseAssignmentOrBlock_
  simp only []
  split
  · exact Or.inl rfl
  · rename_i hc
    simp only [ne_eq, Bool.or_eq_true, decide_eq_true_eq, not_or, not_not] at hc
    split
    · exact Or.inr rfl
    · rw [if_neg (fun hv => h ⟨hc.1, hc.2, hv⟩)]
      exact Or.inl rfl

/-! ## Include loops: claim C7 -/

/-- A pass of the loop of `parse` changes the block context of the parser
only. -/
theorem parsePass_settings (w : World) (sub : SubParse) (useEnvVars : Bool) (sourceName : Str)
    (p : ConfigFileParser) (lexer : ConfigFileLexer) (properties : ConfigurationPropertyMap)
    (s : ParseState)
    (h : parsePass w sub useEnvVars sourceName p lexer properties = some (.inr s)) :
    s.1.includedFrom_ = p.includedFrom_ ∧ s.1.useEnvVars_ = p.useEnvVars_ ∧
    s.1.duplicatePropertyAction_ = p.duplicatePropertyAction_ ∧
    s.1.includedPropertyAction_ = p.includedPropertyAction_ := by
  unfold parsePass at h
  simp only [] at h
  split at h
  · split at h <;> cases h
  split at h
  · simp only [Option.some.injEq, Sum.inr.injEq] at h
    rw [← h]
    exact ⟨rfl, rfl, rfl, rfl⟩
  split at h
  · split at h
    · cases h
    · simp only [Option.some.injEq, Sum.inr.injEq] at h
      rw [← h]
      exact ⟨rfl, rfl, rfl, rfl⟩
  split at h
  · cases h
  split at h
  · split at h
    · cases h
    · cases h
    · simp only [Option.some.injEq, Sum.inr.injEq] at h
      rw [← h]
      exact ⟨rfl, rfl, rfl, rfl⟩
  split at h
  · split at h
    · cases h
    · cases h
    · rename_i r1 hi
      simp only [Option.some.injEq, Sum.inr.injEq] at h
      rw [← h]
      unfold parseAssignmentOrBlock_ at hi
      simp only [] at hi
      split at hi
      · cases hi
      split at hi
      · simp only [Option.some.injEq, Except.ok.injEq] at hi
        rw [← hi]
        exact ⟨rfl, rfl, rfl, rfl⟩
      split at hi
      · split at hi
        · cases hi
        · cases hi
        · simp only [Option.some.injEq, Except.ok.injEq] at hi
          rw [← hi]
          exact ⟨rfl, rfl, rfl, rfl⟩
      · cases hi
  · cases h

/-- In every pass of a parse the parser has the settings and the ancestor
chain it was created with. -/
theorem parseLoopPasses_settings (w : World) (sub : SubParse) (useEnvVars : Bool)
    (sourceName : Str) (fuel : Nat) (p : ConfigFileParser) (lexer : ConfigFileLexer)
    (properties : ConfigurationPropertyMap) :
    ∀ s ∈ parseLoopPasses w sub useEnvVars sourceName fuel p lexer properties,
      s.1.includedFrom_ = p.includedFrom_ ∧ s.1.useEnvVars_ = p.useEnvVars_ ∧
      s.1.duplicatePropertyAction_ = p.duplicatePropertyAction_ ∧
      s.1.includedPropertyAction_ = p.includedPropertyAction_ :=
  parseLoopPasses_invariant w sub useEnvVars sourceName
    (fun s => s.1.includedFrom_ = p.includedFrom_ ∧ s.1.useEnvVars_ = p.useEnvVars_ ∧
      s.1.duplicatePropertyAction_ = p.duplicatePropertyAction_ ∧
      s.1.includedPropertyAction_ = p.includedPropertyAction_)
    (fun s s1 hI h => by
      have h1 := parsePass_settings w sub useEnvVars sourceName s.1 s.2.1 s.2.2 s1 h
      exact ⟨h1.1.trans hI.1, h1.2.1.trans hI.2.1, h1.2.2.1.trans hI.2.2.1,
        h1.2.2.2.trans hI.2.2.2⟩)
    fuel p lexer properties ⟨rfl, rfl, rfl, rfl⟩

/-- A well-formed include directive inside a block throws "Cannot include a
file from within a block", at the closing quote. -/
theorem parseIncludeDirective_in_block (w : World) (sub : SubParse) (p : ConfigFileParser)
    (sourceName : Str) (lexer : ConfigFileLexer) (properties : ConfigurationPropertyMap)
    (hwf : WellFormedInclude lexer) (hctx : p.context_ ≠ []) :
    parseIncludeDirective_ w sub p sourceName lexer properties =
      some (.error ⟨sourceName, lexer.next.2.parseNextAsQuotedString.next.2.next.1.line,
        lexer.next.2.parseNextAsQuotedString.next.2.next.1.column,
        lit "Cannot include a file from within a block"⟩) := by
  obtain ⟨⟨ho1, ho2, ho3⟩, ⟨hn1, hn2⟩, ⟨hc1, hc2, hc3⟩⟩ := hwf
  have hlen : p.context_.length ≠ 0 := fun h => hctx (List.length_eq_zero.1 h)
  unfold parseIncludeDirective_
  simp only [ho1, ho2, ho3, hn1, hn2, hc1, hc2, hc3, ne_eq, not_true_eq_false,
    decide_False, Bool.or_self, Bool.false_eq_true, if_false, hlen, not_false_eq_true, if_true]

/-- A well-formed include directive outside every block whose target is on
the ancestor chain throws the include-loop error, whatever the parse of
included files is. -/
theorem parseIncludeDirective_loop (w : World) (sub : SubParse) (p : ConfigFileParser)
    (sourceName : Str) (lexer : ConfigFileLexer) (properties : ConfigurationPropertyMap)
    (hwf : WellFormedInclude lexer) (hctx : p.context_ = [])
    (hloop : resolveIncludePath w sourceName
      lexer.next.2.parseNextAsQuotedString.next.1.value ∈ p.includedFrom_) :
    parseIncludeDirective_ w sub p sourceName lexer properties =
      some (.error ⟨sourceName, lexer.line_,
        lexer.next.2.parseNextAsQuotedString.next.2.column_,
        lit "Including \"" ++
          resolveIncludePath w sourceName lexer.next.2.parseNextAsQuotedString.next.1.value ++
          lit "\" would produce an include file loop.  The include file list is:" ++
          (join p.includedFrom_ (lit "\n  ") ++ lit "\n  " ++ sourceName)⟩) := by
  obtain ⟨⟨ho1, ho2, ho3⟩, ⟨hn1, hn2⟩, ⟨hc1, hc2, hc3⟩⟩ := hwf
  have hin : p.isIncludedFrom_ (resolveIncludePath w sourceName
      lexer.next.2.parseNextAsQuotedString.next.1.value) = true := by
    unfold ConfigFileParser.isIncludedFrom_
    simpa using hloop
  unfold parseIncludeDirective_
  simp only [ho1, ho2, ho3, hn1, hn2, hc1, hc2, hc3, hctx, hin, ne_eq, not_true_eq_false,
    decide_False, Bool.or_self, Bool.false_eq_true, if_false, List.length_nil, if_true,
    includeFileList]

/-- A pass whose token is the NAME `include` and whose directive throws ends
the loop of `parse` with that exception. -/
theorem parsePass_include_error (w : World) (sub : SubParse) (useEnvVars : Bool)
    (sourceName : Str) (p : ConfigFileParser) (lexer : ConfigFileLexer)
    (properties : ConfigurationPropertyMap) (e : ConfigFileParseError)
    (htype : lexer.next.1.type = .NAME) (hvalue : lexer.next.1.value = lit "include")
    (herr : parseIncludeDirective_ w sub p sourceName lexer.next.2 properties = some (.error e)) :
    parsePass w sub useEnvVars sourceName p lexer properties = some (.inl ⟨p, .error e⟩) := by
  unfold parsePass
  simp [htype, hvalue, herr]

/-- The parse of a file ends the way the pass ends that starts in one of
its states. -/
theorem parseFileWith_of_pass (w : World) (sub : SubParse) (p : ConfigFileParser)
    (filename : Str) (s : ParseState) (r : ParseResult)
    (hs : s ∈ parseFilePasses w sub p filename)
    (hp : parsePass w sub p.useEnvVars_ filename s.1 s.2.1 s.2.2 = some (.inl r)) :
    parseFileWith w sub p filename = some r := by
  unfold parseFilePasses at hs
  unfold parseFileWith parseStreamWith
  cases ho : w.openFile filename with
  | error m => rw [ho] at hs; cases hs
  | ok content =>
    rw [ho] at hs
    simp only [] at hs ⊢
    exact parseLoop_of_pass w sub p.useEnvVars_ filename _ p _ .empty s r hs hp

theorem parseFilePasses_settings (w : World) (sub : SubParse) (p : ConfigFileParser)
    (filename : Str) (s : ParseState) (hs : s ∈ parseFilePasses w sub p filename) :
    s.1.includedFrom_ = p.includedFrom_ ∧ s.1.useEnvVars_ = p.useEnvVars_ ∧
    s.1.duplicatePropertyAction_ = p.duplicatePropertyAction_ ∧
    s.1.includedPropertyAction_ = p.includedPropertyAction_ := by
  unfold parseFilePasses at hs
  cases ho : w.openFile filename with
  | error m => rw [ho] at hs; cases hs
  | ok content =>
    rw [ho] at hs
    exact parseLoopPasses_settings w sub p.useEnvVars_ filename _ p _ .empty s hs

/-- When the parse of `A` executes a well-formed include of `B` outside
every block, and the parse of `B` that this starts executes a well-formed
include outside every block whose target is `A`, the parse of `A` ends with
the include-loop error thrown in `B`. -/
theorem parse_include_loop (w : World) (p : ConfigFileParser) (A B : Str) (sA sB : ParseState)
    (hdepth : p.includedFrom_.length ≤ MAX_INCLUDE_DEPTH_) (hB : B ∉ p.includedFrom_)
    (hsA : sA ∈ p.parsePasses w A) (hincA : IncludesAt w A sA B)
    (hsB : sB ∈ (ConfigFileParser.createIncluded p.useEnvVars_ p.duplicatePropertyAction_
      p.includedPropertyAction_ p.includedFrom_ A).parsePasses w B)
    (hincB : IncludesAt w B sB A) :
    p.parse w A = some ⟨sA.1, .error ⟨B, sB.2.1.next.2.line_,
      sB.2.1.next.2.next.2.parseNextAsQuotedString.next.2.column_,
      lit "Including \"" ++ A ++
        lit "\" would produce an include file loop.  The include file list is:" ++
        (join (p.includedFrom_ ++ [A]) (lit "\n  ") ++ lit "\n  " ++ B)⟩⟩ := by
  obtain ⟨hA1, hA2, hA3, hA4, hA5⟩ := hincA
  obtain ⟨hB1, hB2, hB3, hB4, hB5⟩ := hincB
  have hpA := parseFilePasses_settings w _ p A sA hsA
  have hpB := parseFilePasses_settings w _ _ B sB hsB
  have hchain : sB.1.includedFrom_ = p.includedFrom_ ++ [A] := hpB.1
  have hlev : p.levels = (ConfigFileParser.createIncluded p.useEnvVars_
      p.duplicatePropertyAction_ p.includedPropertyAction_ p.includedFrom_ A).levels + 1 := by
    unfold ConfigFileParser.levels ConfigFileParser.createIncluded MAX_INCLUDE_DEPTH_
    unfold MAX_INCLUDE_DEPTH_ at hdepth
    simp only [List.length_append, List.length_singleton]
    omega
  have hdirB := parseIncludeDirective_loop w
    (subParseAt w (ConfigFileParser.createIncluded p.useEnvVars_ p.duplicatePropertyAction_
      p.includedPropertyAction_ p.includedFrom_ A).levels) sB.1 B sB.2.1.next.2 sB.2.2 hB3 hB4
    (by rw [hB5, hchain]; simp)
  rw [hB5, hchain] at hdirB
  have hpassB := parsePass_include_error w _ (ConfigFileParser.createIncluded p.useEnvVars_
      p.duplicatePropertyAction_ p.includedPropertyAction_ p.includedFrom_ A).useEnvVars_ B sB.1
    sB.2.1 sB.2.2 _ hB1 hB2 hdirB
  have hparseB := parseFileWith_of_pass w _ _ B sB _ hsB hpassB
  have hsub : subParseAt w p.levels (ConfigFileParser.createIncluded sA.1.useEnvVars_
      sA.1.duplicatePropertyAction_ sA.1.includedPropertyAction_ sA.1.includedFrom_ A)
      (resolveIncludePath w A sA.2.1.next.2.next.2.parseNextAsQuotedString.next.1.value) =
      some (.error ⟨B, sB.2.1.next.2.line_,
        sB.2.1.next.2.next.2.parseNextAsQuotedString.next.2.column_,
        lit "Including \"" ++ A ++
          lit "\" would produce an include file loop.  The include file list is:" ++
          (join (p.includedFrom_ ++ [A]) (lit "\n  ") ++ lit "\n  " ++ B)⟩) := by
    rw [hA5, hpA.1, hpA.2.1, hpA.2.2.1, hpA.2.2.2, hlev]
    simp only [subParseAt]
    rw [hparseB]
    rfl
  have hdirA := parseIncludeDirective_sub_error w (subParseAt w p.levels) sA.1 A sA.2.1.next.2
    sA.2.2 _ hA3.1 hA3.2.1 hA3.2.2 hA4 (by rw [hA5, hpA.1]; exact hB)
    (by rw [hpA.1]; exact hdepth) hsub
  have hpassA := parsePass_include_error w _ p.useEnvVars_ A sA.1 sA.2.1 sA.2.2 _ hA1 hA2 hdirA
  exact parseFileWith_of_pass w _ p A sA _ hsA hpassA

/-- Claim C7 as stated is refuted. `B` is parsed as an include of `A`
(ancestor chain `[A]`) and includes `A` from inside the block `blk`: the
directive's target is on the ancestor chain, yet the error is "Cannot include
a file from within a block", not the include-loop error. -/
theorem include_loop_in_block_counterexample :
    resolveIncludePath (plainWorld noFiles) (lit "B") (lit "A") ∈
      (ConfigFileParser.createIncluded true .DUP_ERROR .DUP_IGNORE [] (lit "A")).includedFrom_ ∧
    ((ConfigFileParser.create true .DUP_ERROR .DUP_IGNORE).parse
      (plainWorld (filesOf [(lit "A", lit "include \"B\"\n"),
                            (lit "B", lit "blk \x7b\ninclude \"A\"\n\x7d\n")]))
      (lit "A")).map (fun r => r.outcome) =
      some (.error ⟨lit "B", 2, 11, lit "Cannot include a file from within a block"⟩) := by
  decide

/-- Claim C7 as amended. For an include directive that is well formed (an
opening quote, a non-empty file name and a closing quote, all on the line of
the directive).  Outside every block: if its resolved target is an entry of
the parser's ancestor chain `includedFrom_`, it raises the include-loop
error whatever the parse of included files would do (so the target is not
opened), and the message ends with the ancestor chain followed by the
current source.  Inside a block it raises "Cannot include a file from within
a block" instead, whatever its target and the ancestor chain are.  Outside
every block with a target that is not on a chain of at most 128 entries, an
exception of the parse of the included file is the exception of the
directive; and an exception of an include directive ends the parse of the
including source with it.

So, for every parser, world and content of the files: when the parse of `A`
comes to a well-formed include of `B` outside every block, and the parse of
`B` that this starts comes to a well-formed include outside every block
whose target is `A`, then parsing `A` fails with the include-loop error
raised in `B`, whose message lists the ancestor chain of `A`, `A` and `B`.
Two cases are evaluated: each file consists of the include, and each file
has assignments and comments around it. -/
theorem include_loop_detected (w : World) (sub : SubParse) (p : ConfigFileParser)
    (sourceName : Str) (lexer : ConfigFileLexer) (properties : ConfigurationPropertyMap)
    (hwf : WellFormedInclude lexer) :
    (p.context_ = [] →
      resolveIncludePath w sourceName
        lexer.next.2.parseNextAsQuotedString.next.1.value ∈ p.includedFrom_ →
      parseIncludeDirective_ w sub p sourceName lexer properties =
        some (.error ⟨sourceName, lexer.line_,
          lexer.next.2.parseNextAsQuotedString.next.2.column_,
          lit "Including \"" ++
            resolveIncludePath w sourceName lexer.next.2.parseNextAsQuotedString.next.1.value ++
            lit "\" would produce an include file loop.  The include file list is:" ++
            (join p.includedFrom_ (lit "\n  ") ++ lit "\n  " ++ sourceName)⟩)) ∧
    (p.context_ ≠ [] →
      parseIncludeDirective_ w sub p sourceName lexer properties =
        some (.error ⟨sourceName, lexer.next.2.parseNextAsQuotedString.next.2.next.1.line,
          lexer.next.2.parseNextAsQuotedString.next.2.next.1.column,
          lit "Cannot include a file from within a block"⟩)) ∧
    (∀ e : ConfigFileParseError, p.context_ = [] →
      resolveIncludePath w sourceName
        lexer.next.2.parseNextAsQuotedString.next.1.value ∉ p.includedFrom_ →
      p.includedFrom_.length ≤ MAX_INCLUDE_DEPTH_ →
      sub (ConfigFileParser.createIncluded p.useEnvVars_ p.duplicatePropertyAction_
          p.includedPropertyAction_ p.includedFrom_ sourceName)
        (resolveIncludePath w sourceName lexer.next.2.parseNextAsQuotedString.next.1.value) =
          some (.error e) →
      parseIncludeDirective_ w sub p sourceName lexer properties = some (.error e)) ∧
    (∀ (useEnvVars : Bool) (fuel : Nat) (lexer0 : ConfigFileLexer) (e : ConfigFileParseError),
      lexer0.next.1.type = .NAME → lexer0.next.1.value = lit "include" →
      lexer0.next.2 = lexer →
      parseIncludeDirective_ w sub p sourceName lexer properties = some (.error e) →
      parseLoop w sub useEnvVars sourceName (fuel + 1) p lexer0 properties =
        some ⟨p, .error e⟩) ∧
    (∀ (w0 : World) (p0 : ConfigFileParser) (A B : Str) (sA sB : ParseState),
      p0.includedFrom_.length ≤ MAX_INCLUDE_DEPTH_ → B ∉ p0.includedFrom_ →
      sA ∈ p0.parsePasses w0 A → IncludesAt w0 A sA B →
      sB ∈ (ConfigFileParser.createIncluded p0.useEnvVars_ p0.duplicatePropertyAction_
        p0.includedPropertyAction_ p0.includedFrom_ A).parsePasses w0 B →
      IncludesAt w0 B sB A →
      (p0.parse w0 A).map (fun r => r.outcome) =
        some (.error ⟨B, sB.2.1.next.2.line_,
          sB.2.1.next.2.next.2.parseNextAsQuotedString.next.2.column_,
          lit "Including \"" ++ A ++
            lit "\" would produce an include file loop.  The include file list is:" ++
            (join (p0.includedFrom_ ++ [A]) (lit "\n  ") ++ lit "\n  " ++ B)⟩)) ∧
    ((ConfigFileParser.create true .DUP_ERROR .DUP_IGNORE).parse
      (plainWorld (filesOf [(lit "A", lit "include \"B\"\n"), (lit "B", lit "include \"A\"\n")]))
      (lit "A")).map (fun r => r.outcome) =
      some (.error ⟨lit "B", 1, 11,
        lit "Including \"A\" would produce an include file loop.  The include file list is:A\n  B"⟩) ∧
    ((ConfigFileParser.create true .DUP_ERROR .DUP_IGNORE).parse
      (plainWorld (filesOf [(lit "A", lit "x = 1\ninclude \"B\"\ny = 2\n"),
                            (lit "B", lit "# of A\nz = 3\ninclude \"A\"\n")]))
      (lit "A")).map (fun r => r.outcome) =
      some (.error ⟨lit "B", 3, 11,
        lit "Including \"A\" would produce an include file loop.  The include file list is:A\n  B"⟩) := by
  refine ⟨?_, ?_, ?_, ?_, ?_, by decide, by decide⟩
  · intro hctx hloop
    exact parseIncludeDirective_loop w sub p sourceName lexer properties hwf hctx hloop
  · intro hctx
    exact parseIncludeDirective_in_block w sub p sourceName lexer properties hwf hctx
  · intro e hctx hnot hdepth hsub
    exact parseIncludeDirective_sub_error w sub p sourceName lexer properties e hwf.1 hwf.2.1
      hwf.2.2 hctx hnot hdepth hsub
  · intro useEnvVars fuel lexer0 e htype hvalue hlex herr
    subst hlex
    exact parseLoop_include_error w sub useEnvVars sourceName fuel p lexer0 properties e htype
      hvalue herr
  · intro w0 p0 A B sA sB hdepth hB hsA hincA hsB hincB
    rw [parse_include_loop w0 p0 A B sA sB hdepth hB hsA hincA hsB hincB]
    rfl

/-- An instance of the theorem above: the directive `include "A"` in `B`,
parsed with ancestor chain `[A]`. -/
theorem include_loop_detected_witness :
    parseIncludeDirective_ (plainWorld noFiles) (fun _ _ => none)
      (ConfigFileParser.createIncluded true .DUP_ERROR .DUP_IGNORE [] (lit "A")) (lit "B")
      (ConfigFileLexer.create (IStream.ofText (lit "include \"A\"\n")) 1 1).next.2
      ConfigurationPropertyMap.empty =
    some (.error ⟨lit "B", 1, 11,
      lit "Including \"A\" would produce an include file loop.  The include file list is:A\n  B"⟩) :=
  ((include_loop_detected (plainWorld noFiles) (fun _ _ => none)
    (ConfigFileParser.createIncluded true .DUP_ERROR .DUP_IGNORE [] (lit "A")) (lit "B")
    (ConfigFileLexer.create (IStream.ofText (lit "include \"A\"\n")) 1 1).next.2
    ConfigurationPropertyMap.empty (by decide)).1 (by decide) (by decide)).trans (by decide)

/-- The files `A` and `B` with assignments and comments around their include
directives: the parse of `A` has a pass that executes the include of `B`,
the parse of `B` included from `A` has a pass that executes the include of
`A`, and the same directive inside a block of `B` is refused for the
block. -/
theorem include_loop_examples :
    (∃ sA ∈ (ConfigFileParser.create true .DUP_ERROR .DUP_IGNORE).parsePasses
        (plainWorld (filesOf [(lit "A", lit "x = 1\ninclude \"B\"\ny = 2\n"),
                              (lit "B", lit "# of A\nz = 3\ninclude \"A\"\n")])) (lit "A"),
      IncludesAt (plainWorld (filesOf [(lit "A", lit "x = 1\ninclude \"B\"\ny = 2\n"),
                                        (lit "B", lit "# of A\nz = 3\ninclude \"A\"\n")]))
        (lit "A") sA (lit "B")) ∧
    (∃ sB ∈ (ConfigFileParser.createIncluded true .DUP_ERROR .DUP_IGNORE [] (lit "A")).parsePasses
        (plainWorld (filesOf [(lit "A", lit "x = 1\ninclude \"B\"\ny = 2\n"),
                              (lit "B", lit "# of A\nz = 3\ninclude \"A\"\n")])) (lit "B"),
      IncludesAt (plainWorld (filesOf [(lit "A", lit "x = 1\ninclude \"B\"\ny = 2\n"),
                                        (lit "B", lit "# of A\nz = 3\ninclude \"A\"\n")]))
        (lit "B") sB (lit "A")) ∧
    parseIncludeDirective_ (plainWorld noFiles) (fun _ _ => none)
      ((ConfigFileParser.createIncluded true .DUP_ERROR .DUP_IGNORE [] (lit "A")).beginBlock_
        (lit "blk")) (lit "B")
      (ConfigFileLexer.create (IStream.ofText (lit "include \"C\"\n")) 1 1).next.2
      ConfigurationPropertyMap.empty =
    some (.error ⟨lit "B", 1, 11, lit "Cannot include a file from within a block"⟩) := by
  refine ⟨?_, ?_, by decide⟩
  · decide
  · decide

/-! ## Duplicate assignments in one source: claim C5 -/

/-- What `parseAssignment_` does for a value that is valid. A name that is
not yet in the store is stored; for a name that the store holds from the
same source `duplicatePropertyAction_` decides. -/
theorem parseAssignment_valid (w : World) (useEnvVars : Bool) (p : ConfigFileParser)
    (sourceName : Str) (name : Token) (lexer : ConfigFileLexer)
    (properties : ConfigurationPropertyMap) (value : Str)
    (hval : processValue w.getenv properties useEnvVars
      (lexer.parseNextAsValue.next).1.value = some (.ok value)) :
    (properties.find (p.getFullName_ name.value) = none →
      parseAssignment_ w useEnvVars p sourceName name lexer properties =
        some (.ok ((lexer.parseNextAsValue.next).2,
          properties.add ⟨p.getFullName_ name.value, value, sourceName, name.line⟩))) ∧
    (∀ original : ConfigurationProperty,
      properties.find (p.getFullName_ name.value) = some original →
      original.source = sourceName →
      (p.duplicatePropertyAction_ = .DUP_ERROR →
        parseAssignment_ w useEnvVars p sourceName name lexer properties =
          some (.error ⟨sourceName, name.line, name.column,
            lit "Property \"" ++ p.getFullName_ name.value ++
              lit "\" defined twice; original definition at " ++
              sourceName ++ lit ":" ++ showInt original.line⟩)) ∧
      (p.duplicatePropertyAction_ = .DUP_IGNORE →
        parseAssignment_ w useEnvVars p sourceName name lexer properties =
          some (.ok ((lexer.parseNextAsValue.next).2, properties))) ∧
      (p.duplicatePropertyAction_ = .DUP_OVERWRITE →
        parseAssignment_ w useEnvVars p sourceName name lexer properties =
          some (.ok ((lexer.parseNextAsValue.next).2,
            properties.add ⟨p.getFullName_ name.value, value, sourceName, name.line⟩)))) := by
  have htype := next_value_type lexer
  refine ⟨?_, ?_⟩
  · intro hnone
    unfold parseAssignment_
    simp only [htype, hval, hnone, ne_eq, not_true_eq_false, decide_False, if_false]
  · intro original horig hsrc
    refine ⟨?_, ?_, ?_⟩
    · intro hmode
      unfold parseAssignment_
      simp only [htype, hval, horig, hsrc, hmode, ne_eq, not_true_eq_false, decide_False,
        if_false, if_true]
    · intro hmode
      unfold parseAssignment_
      simp only [htype, hval, horig, hsrc, hmode, ne_eq, not_true_eq_false, decide_False,
        if_false, if_true]
    · intro hmode
      unfold parseAssignment_
      simp only [htype, hval, horig, hsrc, hmode, ne_eq, not_true_eq_false, decide_False,
        if_false, if_true]

/-- A call of `parseAssignment_` that returns had a valid value. -/
theorem parseAssignment_ok_value {w : World} {useEnvVars : Bool} {p : ConfigFileParser}
    {sourceName : Str} {name : Token} {lx : ConfigFileLexer}
    {properties : ConfigurationPropertyMap} {r : ConfigFileLexer × ConfigurationPropertyMap}
    (h : parseAssignment_ w useEnvVars p sourceName name lx properties = some (.ok r)) :
    ∃ value, processValue w.getenv properties useEnvVars
      (lx.parseNextAsValue.next).1.value = some (.ok value) := by
  unfold parseAssignment_ at h
  simp only [] at h
  split at h
  · cases h
  split at h
  · cases h
  · cases h
  · rename_i value hv
    exact ⟨value, hv⟩

theorem assignedName_some {s : ParseState} {n : Str} (h : assignedName s = some n) :
    (s.2.1.next.1.type = .NAME ∧ s.2.1.next.1.value ≠ lit "include" ∧
      isLegalName s.2.1.next.1.value = true ∧
      s.2.1.next.2.next.1.type = .PUNCTUATION ∧
      s.2.1.next.2.next.1.line = s.2.1.next.1.line ∧
      s.2.1.next.2.next.1.value = lit "=") ∧
    n = s.1.getFullName_ s.2.1.next.1.value := by
  unfold assignedName at h
  split at h
  · rename_i hc
    simp only [Option.some.injEq] at h
    exact ⟨hc, h.symm⟩
  · cases h

/-- An assignment pass is the call of `parseAssignment_` for its name token,
with the lexer behind `=`. -/
theorem parsePass_of_assignedName (w : World) (sub : SubParse) (useEnvVars : Bool)
    (sourceName : Str) (s : ParseState) (n : Str) (h : assignedName s = some n) :
    parsePass w sub useEnvVars sourceName s.1 s.2.1 s.2.2 =
      match parseAssignment_ w useEnvVars s.1 sourceName s.2.1.next.1 s.2.1.next.2.next.2
          s.2.2 with
      | none => none
      | some (.error e) => some (.inl ⟨s.1, .error e⟩)
      | some (.ok r) => some (.inr (s.1, r.1, r.2)) := by
  obtain ⟨⟨h1, h2, h3, h4, h5, h6⟩, _⟩ := assignedName_some h
  have hab := parseAssignmentOrBlock_equals w useEnvVars s.1 sourceName s.2.1.next.1
    s.2.1.next.2 s.2.2 h4 h5 h6
  unfold parsePass
  simp only [h1, h2, h3, hab, if_true, if_false, ne_eq, not_true_eq_false, reduceCtorEq,
    Bool.false_and, Bool.false_eq_true, decide_False]
  generalize parseAssignment_ w useEnvVars s.1 sourceName s.2.1.next.1 s.2.1.next.2.next.2
    s.2.2 = a
  rcases a with _ | a
  · rfl
  · cases a <;> rfl

/-- A pass that is neither an assignment nor an include directive hands on
the store as it is. -/
theorem parsePass_other_store (w : World) (sub : SubParse) (useEnvVars : Bool)
    (sourceName : Str) (s s1 : ParseState) (hn : assignedName s = none)
    (hinc : ¬ IsIncludePass s)
    (h : parsePass w sub useEnvVars sourceName s.1 s.2.1 s.2.2 = some (.inr s1)) :
    s1.2.2 = s.2.2 := by
  unfold parsePass at h
  simp only [] at h
  split at h
  · split at h <;> cases h
  split at h
  · simp only [Option.some.injEq, Sum.inr.injEq] at h
    rw [← h]
  split at h
  · split at h
    · cases h
    · simp only [Option.some.injEq, Sum.inr.injEq] at h
      rw [← h]
  split at h
  · cases h
  rename_i hname
  simp only [ne_eq, not_not] at hname
  split at h
  · rename_i hv
    exact absurd ⟨hname, hv⟩ hinc
  rename_i hv
  split at h
  · rename_i hlegal
    split at h
    · cases h
    · cases h
    · rename_i r1 hi
      simp only [Option.some.injEq, Sum.inr.injEq] at h
      rw [← h]
      unfold parseAssignmentOrBlock_ at hi
      simp only [] at hi
      split at hi
      · cases hi
      rename_i hc
      simp only [ne_eq, Bool.or_eq_true, decide_eq_true_eq, not_or, not_not] at hc
      split at hi
      · simp only [Option.some.injEq, Except.ok.injEq] at hi
        rw [← hi]
      split at hi
      · rename_i heq
        exfalso
        unfold assignedName at hn
        rw [if_pos ⟨hname, hv, hlegal, hc.1, hc.2, heq⟩] at hn
        cases hn
      · cases hi
  · cases h

theorem ownedBy_add {m : ConfigurationPropertyMap} {sourceName : Str}
    (h : m.OwnedBy sourceName) (q : ConfigurationProperty) (hq : q.source = sourceName) :
    (m.add q).OwnedBy sourceName := by
  intro e he
  rcases ConfigurationPropertyMap.mem_addEntries q _ e he with he | he
  · rw [he]; exact hq
  · exact h e he

theorem ownedBy_find {m : ConfigurationPropertyMap} {sourceName n : Str}
    {q : ConfigurationProperty} (h : m.OwnedBy sourceName) (hf : m.find n = some q) :
    q.source = sourceName :=
  h (n, q) (ConfigurationPropertyMap.find_some_mem hf)

theorem assignedProperty_eq (w : World) (useEnvVars : Bool) (sourceName : Str)
    (s : ParseState) (n value : Str) (hn : assignedName s = some n)
    (hval : processValue w.getenv s.2.2 useEnvVars
      (s.2.1.next.2.next.2.parseNextAsValue.next).1.value = some (.ok value)) :
    assignedProperty w useEnvVars sourceName s =
      some ⟨n, value, sourceName, s.2.1.next.1.line⟩ := by
  unfold assignedProperty
  rw [hn]
  simp only [hval]

theorem assignedProperty_some {w : World} {useEnvVars : Bool} {sourceName : Str}
    {s : ParseState} {q : ConfigurationProperty}
    (h : assignedProperty w useEnvVars sourceName s = some q) :
    assignedName s = some q.name ∧ q.source = sourceName ∧ q.line = s.2.1.next.1.line ∧
    processValue w.getenv s.2.2 useEnvVars
      (s.2.1.next.2.next.2.parseNextAsValue.next).1.value = some (.ok q.value) := by
  unfold assignedProperty at h
  cases hn : assignedName s with
  | none => rw [hn] at h; cases h
  | some n =>
    rw [hn] at h
    simp only [] at h
    split at h
    · rename_i value hv
      simp only [Option.some.injEq] at h
      rw [← h]
      exact ⟨rfl, rfl, rfl, hv⟩
    · cases h

/-- What a pass that is not an include directive does to the store of a
single source, for the name `n`: a pass that does not assign to `n` leaves
its entry; an assignment to `n` with a valid value stores the property when
`n` is new, and otherwise was made under `DUP_IGNORE`, which keeps the
entry, or under `DUP_OVERWRITE`, which replaces it. -/
theorem parsePass_step_store (w : World) (sub : SubParse) (useEnvVars : Bool)
    (sourceName : Str) (n : Str) (s s1 : ParseState)
    (hgood : s.2.2.WF ∧ s.2.2.OwnedBy sourceName) (hinc : ¬ IsIncludePass s)
    (h : parsePass w sub useEnvVars sourceName s.1 s.2.1 s.2.2 = some (.inr s1)) :
    (s1.2.2.WF ∧ s1.2.2.OwnedBy sourceName) ∧
    (assignedName s ≠ some n → s1.2.2.find n = s.2.2.find n) ∧
    (assignedName s = some n →
      ∃ q, assignedProperty w useEnvVars sourceName s = some q ∧
        (s.2.2.find n = none → s1.2.2.find n = some q) ∧
        (∀ o, s.2.2.find n = some o →
          (s.1.duplicatePropertyAction_ = .DUP_IGNORE ∧ s1.2.2.find n = some o) ∨
          (s.1.duplicatePropertyAction_ = .DUP_OVERWRITE ∧ s1.2.2.find n = some q))) := by
  cases hn : assignedName s with
  | none =>
    have hst := parsePass_other_store w sub useEnvVars sourceName s s1 hn hinc h
    rw [hst]
    exact ⟨hgood, fun _ => rfl, fun hc => by cases hc⟩
  | some m =>
    have hm := (assignedName_some hn).2
    rw [parsePass_of_assignedName w sub useEnvVars sourceName s m hn] at h
    cases ha : parseAssignment_ w useEnvVars s.1 sourceName s.2.1.next.1 s.2.1.next.2.next.2
        s.2.2 with
    | none => rw [ha] at h; cases h
    | some a =>
      rw [ha] at h
      cases a with
      | error e => cases h
      | ok r =>
        simp only [Option.some.injEq, Sum.inr.injEq] at h
        obtain ⟨value, hval⟩ := parseAssignment_ok_value ha
        have hq := assignedProperty_eq w useEnvVars sourceName s m value hn hval
        have hv := parseAssignment_valid w useEnvVars s.1 sourceName s.2.1.next.1
          s.2.1.next.2.next.2 s.2.2 value hval
        rw [← hm] at hv
        have hfa := ConfigurationPropertyMap.find_add s.2.2
          ⟨m, value, sourceName, s.2.1.next.1.line⟩
        simp only [] at hfa
        have hstore : (s1.2.2 = s.2.2.add ⟨m, value, sourceName, s.2.1.next.1.line⟩ ∧
            (s.2.2.find m = none ∨
              s.1.duplicatePropertyAction_ = .DUP_OVERWRITE)) ∨
            (s1.2.2 = s.2.2 ∧ (∃ o, s.2.2.find m = some o) ∧
              s.1.duplicatePropertyAction_ = .DUP_IGNORE) := by
          cases hf : s.2.2.find m with
          | none =>
            have := hv.1 hf
            rw [ha] at this
            simp only [Option.some.injEq, Except.ok.injEq] at this
            rw [← h, this]
            exact Or.inl ⟨rfl, Or.inl rfl⟩
          | some o =>
            have ho := hv.2 o hf (ownedBy_find hgood.2 hf)
            cases hmode : s.1.duplicatePropertyAction_ with
            | DUP_ERROR =>
              have := ho.1 hmode
              rw [ha] at this
              cases this
            | DUP_IGNORE =>
              have := ho.2.1 hmode
              rw [ha] at this
              simp only [Option.some.injEq, Except.ok.injEq] at this
              rw [← h, this]
              exact Or.inr ⟨rfl, ⟨o, rfl⟩, rfl⟩
            | DUP_OVERWRITE =>
              have := ho.2.2 hmode
              rw [ha] at this
              simp only [Option.some.injEq, Except.ok.injEq] at this
              rw [← h, this]
              exact Or.inl ⟨rfl, Or.inr rfl⟩
        rcases hstore with ⟨hs, hcase⟩ | ⟨hs, ⟨o1, ho1⟩, hmode⟩
        · rw [hs]
          refine ⟨⟨ConfigurationPropertyMap.wf_add hgood.1 _, ownedBy_add hgood.2 _ rfl⟩, ?_, ?_⟩
          · intro hne
            rw [hfa n, if_neg (fun e => hne (by rw [e]))]
          · intro he
            simp only [Option.some.injEq] at he
            refine ⟨_, hq, ?_, ?_⟩
            · intro _
              rw [hfa n, if_pos he.symm]
            · intro o ho
              rcases hcase with hc | hc
              · rw [← he, hc] at ho; cases ho
              · right
                refine ⟨hc, ?_⟩
                rw [hfa n, if_pos he.symm]
        · rw [hs]
          refine ⟨hgood, fun _ => rfl, ?_⟩
          intro he
          simp only [Option.some.injEq] at he
          refine ⟨_, hq, ?_, ?_⟩
          · intro hnone
            rw [← he, ho1] at hnone; cases hnone
          · intro o ho
            exact Or.inl ⟨hmode, ho⟩

/-- Along passes of a single source that do not assign to `n`, the store
keeps its entry for `n`. -/
theorem passes_segment (w : World) (sub : SubParse) (useEnvVars : Bool) (sourceName : Str)
    (n : Str) : ∀ (l : List ParseState) (b a : ParseState),
      List.Chain' (fun s s1 : ParseState =>
        parsePass w sub useEnvVars sourceName s.1 s.2.1 s.2.2 = some (.inr s1)) (l ++ [b]) →
      (l ++ [b]).head? = some a →
      (∀ s ∈ l, ¬ IsIncludePass s ∧ assignedName s ≠ some n) →
      (a.2.2.WF ∧ a.2.2.OwnedBy sourceName) →
      (b.2.2.WF ∧ b.2.2.OwnedBy sourceName) ∧ b.2.2.find n = a.2.2.find n
  | [], b, a, _, hh, _, hg => by
    simp only [List.nil_append, List.head?_cons, Option.some.injEq] at hh
    rw [hh]
    exact ⟨hg, rfl⟩
  | x :: l, b, a, hc, hh, hl, hg => by
    simp only [List.cons_append, List.head?_cons, Option.some.injEq] at hh
    rw [← hh] at hg ⊢
    rw [List.cons_append, List.chain'_cons'] at hc
    cases hy : (l ++ [b]).head? with
    | none =>
      exfalso
      cases l <;> simp at hy
    | some y =>
      have hstep := hc.1 y (by rw [hy]; exact rfl)
      have hx := hl x (List.mem_cons_self _ _)
      have hs := parsePass_step_store w sub useEnvVars sourceName n x y hg hx.1 hstep
      have ih := passes_segment w sub useEnvVars sourceName n l b y hc.2 hy
        (fun s hs1 => hl s (List.mem_cons_of_mem _ hs1)) hs.1
      exact ⟨ih.1, ih.2.trans (hs.2.1 hx.2)⟩

/-- Each pass of the loop of `parse` starts in the state that the pass
before it hands on, and the first in the state the loop is entered with. -/
theorem parseLoopPasses_chain (w : World) (sub : SubParse) (useEnvVars : Bool)
    (sourceName : Str) : ∀ (fuel : Nat) (p : ConfigFileParser) (lexer : ConfigFileLexer)
      (properties : ConfigurationPropertyMap),
      List.Chain' (fun s s1 : ParseState =>
        parsePass w sub useEnvVars sourceName s.1 s.2.1 s.2.2 = some (.inr s1))
        (parseLoopPasses w sub useEnvVars sourceName fuel p lexer properties) ∧
      (parseLoopPasses w sub useEnvVars sourceName fuel p lexer properties).head? =
        if fuel = 0 then none else some (p, lexer, properties)
  | 0, _, _, _ => ⟨List.chain'_nil, rfl⟩
  | fuel + 1, p, lexer, properties => by
    refine ⟨?_, rfl⟩
    simp only [parseLoopPasses]
    rw [List.chain'_cons']
    cases hq : parsePass w sub useEnvVars sourceName p lexer properties with
    | none => exact ⟨fun y hy => (by cases hy), List.chain'_nil⟩
    | some a =>
      cases a with
      | inl r => exact ⟨fun y hy => (by cases hy), List.chain'_nil⟩
      | inr s =>
        simp only []
        have ih := parseLoopPasses_chain w sub useEnvVars sourceName fuel s.1 s.2.1 s.2.2
        refine ⟨?_, ih.1⟩
        intro y hy
        rw [ih.2] at hy
        split at hy
        · cases hy
        · simp only [Option.mem_def, Option.some.injEq] at hy
          rw [← hy]

/-- The result of the loop of `parse` is the end of its last pass. -/
theorem parseLoop_last (w : World) (sub : SubParse) (useEnvVars : Bool) (sourceName : Str) :
    ∀ (fuel : Nat) (p : ConfigFileParser) (lexer : ConfigFileLexer)
      (properties : ConfigurationPropertyMap) (r : ParseResult),
      parseLoop w sub useEnvVars sourceName fuel p lexer properties = some r →
      ∃ sl, (parseLoopPasses w sub useEnvVars sourceName fuel p lexer properties).getLast? =
          some sl ∧
        parsePass w sub useEnvVars sourceName sl.1 sl.2.1 sl.2.2 = some (.inl r)
  | 0, _, _, _, _, h => by cases h
  | fuel + 1, p, lexer, properties, r, h => by
    rw [parseLoop_succ] at h
    simp only [parseLoopPasses]
    cases hq : parsePass w sub useEnvVars sourceName p lexer properties with
    | none => rw [hq] at h; cases h
    | some a =>
      rw [hq] at h
      cases a with
      | inl r1 =>
        simp only [Option.some.injEq] at h
        rw [h] at hq
        exact ⟨(p, lexer, properties), rfl, hq⟩
      | inr s =>
        simp only [] at h ⊢
        obtain ⟨sl, hl, hp⟩ := parseLoop_last w sub useEnvVars sourceName fuel _ _ _ r h
        refine ⟨sl, ?_, hp⟩
        cases hlist : parseLoopPasses w sub useEnvVars sourceName fuel s.1 s.2.1 s.2.2 with
        | nil => rw [hlist] at hl; cases hl
        | cons y ys =>
          rw [hlist] at hl
          rw [List.getLast?_cons_cons]
          exact hl

/-- A pass that ends the loop of `parse` with a store returns the store it
started with. -/
theorem parsePass_ok_store (w : World) (sub : SubParse) (useEnvVars : Bool)
    (sourceName : Str) (p : ConfigFileParser) (lexer : ConfigFileLexer)
    (properties store : ConfigurationPropertyMap) (r : ParseResult)
    (h : parsePass w sub useEnvVars sourceName p lexer properties = some (.inl r))
    (hr : r.outcome = .ok store) : store = properties := by
  unfold parsePass at h
  simp only [] at h
  split at h
  · split at h
    · simp only [Option.some.injEq, Sum.inl.injEq] at h
      rw [← h] at hr; cases hr
    · simp only [Option.some.injEq, Sum.inl.injEq] at h
      rw [← h] at hr
      simp only [Except.ok.injEq] at hr
      exact hr.symm
  split at h
  · cases h
  split at h
  · split at h
    · simp only [Option.some.injEq, Sum.inl.injEq] at h
      rw [← h] at hr; cases hr
    · cases h
  split at h
  · simp only [Option.some.injEq, Sum.inl.injEq] at h
    rw [← h] at hr; cases hr
  split at h
  · split at h
    · cases h
    · simp only [Option.some.injEq, Sum.inl.injEq] at h
      rw [← h] at hr; cases hr
    · cases h
  split at h
  · split at h
    · cases h
    · simp only [Option.some.injEq, Sum.inl.injEq] at h
      rw [← h] at hr; cases hr
    · cases h
  · simp only [Option.some.injEq, Sum.inl.injEq] at h
    rw [← h] at hr; cases hr

theorem getLast?_append_of_ne_nil {α : Type} : ∀ (l m : List α), m ≠ [] →
    (l ++ m).getLast? = m.getLast?
  | [], _, _ => rfl
  | x :: l, m, h => by
    have ih := getLast?_append_of_ne_nil l m h
    cases hlm : l ++ m with
    | nil =>
      exfalso
      cases l with
      | nil => exact h hlm
      | cons y ys => cases hlm
    | cons y ys =>
      rw [List.cons_append, hlm, List.getLast?_cons_cons, ← hlm]
      exact ih

theorem head?_append_cons {α : Type} (l : List α) (x : α) (m : List α) :
    (l ++ x :: m).head? = (l ++ [x]).head? := by
  cases l <;> rfl

/-- The state of a single source in the pass that assigns to `n` for the
second time: the store is well formed, every entry is from the source, and
the entry of `n` is the property of the first assignment. -/
theorem passes_second_assignment (w : World) (sub : SubParse) (p : ConfigFileParser)
    (sourceName : Str) (input : IStream) (initialLine initialColumn : Int)
    (pre mid post : List ParseState) (s1 s2 : ParseState) (prop1 : ConfigurationProperty)
    (hpasses : parseStreamPasses w sub p sourceName input initialLine initialColumn =
      pre ++ s1 :: (mid ++ s2 :: post))
    (hsingle : ∀ s ∈ pre ++ s1 :: (mid ++ s2 :: post), ¬ IsIncludePass s)
    (h1 : assignedProperty w p.useEnvVars_ sourceName s1 = some prop1)
    (hpre : ∀ s ∈ pre, assignedName s ≠ some prop1.name)
    (hmid : ∀ s ∈ mid, assignedName s ≠ some prop1.name) :
    (s2.2.2.WF ∧ s2.2.2.OwnedBy sourceName) ∧ s2.2.2.find prop1.name = some prop1 ∧
    List.Chain' (fun s s1 : ParseState =>
      parsePass w sub p.useEnvVars_ sourceName s.1 s.2.1 s.2.2 = some (.inr s1)) (s2 :: post) := by
  have hchain := parseLoopPasses_chain w sub p.useEnvVars_ sourceName
    ((ConfigFileLexer.create input initialLine initialColumn).budget + 1) p
    (ConfigFileLexer.create input initialLine initialColumn) .empty
  unfold parseStreamPasses at hpasses
  rw [hpasses, if_neg (Nat.succ_ne_zero _)] at hchain
  obtain ⟨hc, hhead⟩ := hchain
  rw [List.chain'_split] at hc
  obtain ⟨hc1, hc2⟩ := hc
  rw [head?_append_cons] at hhead
  have hseg1 := passes_segment w sub p.useEnvVars_ sourceName prop1.name pre s1 _ hc1 hhead
    (fun s hs => ⟨hsingle s (List.mem_append_left _ hs), hpre s hs⟩)
    ⟨ConfigurationPropertyMap.wf_empty, fun e he => by cases he⟩
  have hfind1 : s1.2.2.find prop1.name = none := by
    rw [hseg1.2]
    rfl
  rw [List.chain'_cons'] at hc2
  obtain ⟨hstep1, hc3⟩ := hc2
  rw [List.chain'_split] at hc3
  obtain ⟨hc4, hc5⟩ := hc3
  cases hy : (mid ++ [s2]).head? with
  | none =>
    exfalso
    cases mid <;> simp at hy
  | some y1 =>
    have hst := hstep1 y1 (by rw [head?_append_cons, hy]; exact rfl)
    have hs1 := parsePass_step_store w sub p.useEnvVars_ sourceName prop1.name s1 y1 hseg1.1
      (hsingle s1 (List.mem_append_right _ (List.mem_cons_self _ _))) hst
    obtain ⟨q, hq, hq1, _⟩ := hs1.2.2 (assignedProperty_some h1).1
    rw [h1] at hq
    simp only [Option.some.injEq] at hq
    have hfy := hq1 hfind1
    rw [← hq] at hfy
    have hseg2 := passes_segment w sub p.useEnvVars_ sourceName prop1.name mid s2 y1 hc4 hy
      (fun s hs => ⟨hsingle s (List.mem_append_right _ (List.mem_cons_of_mem _
        (List.mem_append_left _ hs))), hmid s hs⟩) hs1.1
    exact ⟨hseg2.1, hseg2.2.trans hfy, hc5⟩

/-- The store that the parse of a single source returns, after the pass
that assigns to `n` for the second time and with no further assignment to
`n`: under `DUP_IGNORE` it holds the property that the store held, under
`DUP_OVERWRITE` the property of this pass. -/
theorem passes_after_second (w : World) (sub : SubParse) (useEnvVars : Bool)
    (sourceName : Str) (n : Str) (s2 : ParseState) (post : List ParseState)
    (prop1 prop2 : ConfigurationProperty) (sl : ParseState) (r : ParseResult)
    (store : ConfigurationPropertyMap)
    (hgood : s2.2.2.WF ∧ s2.2.2.OwnedBy sourceName) (hfind : s2.2.2.find n = some prop1)
    (hc : List.Chain' (fun s s1 : ParseState =>
      parsePass w sub useEnvVars sourceName s.1 s.2.1 s.2.2 = some (.inr s1)) (s2 :: post))
    (h2 : assignedProperty w useEnvVars sourceName s2 = some prop2) (hname : prop2.name = n)
    (hsingle : ∀ s ∈ post, ¬ IsIncludePass s) (hpost : ∀ s ∈ post, assignedName s ≠ some n)
    (hl : (s2 :: post).getLast? = some sl)
    (hp : parsePass w sub useEnvVars sourceName sl.1 sl.2.1 sl.2.2 = some (.inl r))
    (hr : r.outcome = .ok store) :
    (s2.1.duplicatePropertyAction_ = .DUP_IGNORE → store.find n = some prop1) ∧
    (s2.1.duplicatePropertyAction_ = .DUP_OVERWRITE → store.find n = some prop2) ∧
    store.WF := by
  have hn2 : assignedName s2 = some n := by
    rw [← hname]; exact (assignedProperty_some h2).1
  have hinc2 : ¬ IsIncludePass s2 := fun hi => (assignedName_some hn2).1.2.1 hi.2
  cases post with
  | nil =>
    exfalso
    simp only [List.getLast?_singleton, Option.some.injEq] at hl
    rw [← hl, parsePass_of_assignedName w sub useEnvVars sourceName s2 n hn2] at hp
    split at hp
    · cases hp
    · simp only [Option.some.injEq, Sum.inl.injEq] at hp
      rw [← hp] at hr
      cases hr
    · cases hp
  | cons y2 post1 =>
    rw [List.chain'_cons'] at hc
    have hst := hc.1 y2 rfl
    have hs2 := parsePass_step_store w sub useEnvVars sourceName n s2 y2 hgood hinc2 hst
    obtain ⟨q, hq, _, hq2⟩ := hs2.2.2 hn2
    rw [h2] at hq
    simp only [Option.some.injEq] at hq
    rw [← hq] at hq2
    rw [List.getLast?_cons_cons] at hl
    have hpost1 := List.dropLast_append_getLast? sl hl
    have hseg := passes_segment w sub useEnvVars sourceName n (y2 :: post1).dropLast sl y2
      (by rw [hpost1]; exact hc.2)
      (by rw [hpost1]; rfl)
      (fun s hs => ⟨hsingle s (List.mem_of_mem_dropLast hs),
        hpost s (List.mem_of_mem_dropLast hs)⟩) hs2.1
    have hstore := parsePass_ok_store w sub useEnvVars sourceName sl.1 sl.2.1 sl.2.2 store r hp hr
    rw [hstore]
    refine ⟨?_, ?_, hseg.1.1⟩
    · intro hmode
      rcases hq2 prop1 hfind with h | h
      · exact hseg.2.trans h.2
      · rw [hmode] at h; cases h.1
    · intro hmode
      rcases hq2 prop1 hfind with h | h
      · rw [hmode] at h; cases h.1
      · exact hseg.2.trans h.2

/-- Claim C5. The parse of a single source: none of its passes is an include
directive. The passes `s1` and `s2` (in this order) are assignments with a
valid value to the same full name, and no pass before `s2` other than `s1`
assigns to that name; `prop1` and `prop2` are the properties that the two
passes build, with the source and the lines `l1` and `l2` of their name
tokens. Under `DUP_ERROR` the parse ends in the pass `s2` with a parse error
at the name token of `s2` whose message cites the source and `l1`. Under
`DUP_IGNORE`, and with no further assignment to the name, a store that the
parse returns holds `prop1` for the name (the value and line of the first
definition); under `DUP_OVERWRITE` it holds `prop2`; in both modes exactly
one entry has the name. The parse returns whenever the parse of included
files does. -/
theorem parse_duplicate_modes (w : World) (sub : SubParse) (p : ConfigFileParser)
    (sourceName : Str) (input : IStream) (initialLine initialColumn : Int)
    (pre mid post : List ParseState) (s1 s2 : ParseState)
    (prop1 prop2 : ConfigurationProperty)
    (hpasses : parseStreamPasses w sub p sourceName input initialLine initialColumn =
      pre ++ s1 :: (mid ++ s2 :: post))
    (hsingle : ∀ s ∈ pre ++ s1 :: (mid ++ s2 :: post), ¬ IsIncludePass s)
    (h1 : assignedProperty w p.useEnvVars_ sourceName s1 = some prop1)
    (h2 : assignedProperty w p.useEnvVars_ sourceName s2 = some prop2)
    (hname : prop2.name = prop1.name)
    (hpre : ∀ s ∈ pre, assignedName s ≠ some prop1.name)
    (hmid : ∀ s ∈ mid, assignedName s ≠ some prop1.name) :
    (prop1.source = sourceName ∧ prop1.line = s1.2.1.next.1.line ∧
      prop2.source = sourceName ∧ prop2.line = s2.2.1.next.1.line) ∧
    (p.duplicatePropertyAction_ = .DUP_ERROR →
      parseStreamWith w sub p sourceName input initialLine initialColumn =
        some ⟨s2.1, .error ⟨sourceName, prop2.line, s2.2.1.next.1.column,
          lit "Property \"" ++ prop1.name ++
            lit "\" defined twice; original definition at " ++
            sourceName ++ lit ":" ++ showInt prop1.line⟩⟩) ∧
    (p.duplicatePropertyAction_ = .DUP_IGNORE →
      (∀ s ∈ post, assignedName s ≠ some prop1.name) →
      ∀ (r : ParseResult) (store : ConfigurationPropertyMap),
        parseStreamWith w sub p sourceName input initialLine initialColumn = some r →
        r.outcome = .ok store →
        store.find prop1.name = some prop1 ∧
        (store.properties_.filter (fun e => e.1 = prop1.name)).length = 1) ∧
    (p.duplicatePropertyAction_ = .DUP_OVERWRITE →
      (∀ s ∈ post, assignedName s ≠ some prop1.name) →
      ∀ (r : ParseResult) (store : ConfigurationPropertyMap),
        parseStreamWith w sub p sourceName input initialLine initialColumn = some r →
        r.outcome = .ok store →
        store.find prop1.name = some prop2 ∧
        (store.properties_.filter (fun e => e.1 = prop1.name)).length = 1) ∧
    ((∀ q f, q.includedFrom_.length = p.includedFrom_.length + 1 →
        p.includedFrom_.length ≤ MAX_INCLUDE_DEPTH_ → ∃ r, sub q f = some r) →
      ∃ r, parseStreamWith w sub p sourceName input initialLine initialColumn = some r) := by
  have hp1 := assignedProperty_some h1
  have hp2 := assignedProperty_some h2
  obtain ⟨hgood, hfind, hc⟩ := passes_second_assignment w sub p sourceName input initialLine
    initialColumn pre mid post s1 s2 prop1 hpasses hsingle h1 hpre hmid
  have hmem2 : s2 ∈ parseLoopPasses w sub p.useEnvVars_ sourceName
      ((ConfigFileLexer.create input initialLine initialColumn).budget + 1) p
      (ConfigFileLexer.create input initialLine initialColumn) .empty := by
    unfold parseStreamPasses at hpasses
    rw [hpasses]
    exact List.mem_append_right _ (List.mem_cons_of_mem _
      (List.mem_append_right _ (List.mem_cons_self _ _)))
  have hmode2 := (parseLoopPasses_settings w sub p.useEnvVars_ sourceName _ p _ .empty s2
    hmem2).2.2.1
  have hn2 : assignedName s2 = some prop1.name := by rw [← hname]; exact hp2.1
  have hlast : ∀ r, parseStreamWith w sub p sourceName input initialLine initialColumn =
      some r → ∃ sl, (s2 :: post).getLast? = some sl ∧
        parsePass w sub p.useEnvVars_ sourceName sl.1 sl.2.1 sl.2.2 = some (.inl r) := by
    intro r hr
    obtain ⟨sl, hl, hp⟩ := parseLoop_last w sub p.useEnvVars_ sourceName _ p _ .empty r hr
    unfold parseStreamPasses at hpasses
    rw [hpasses, getLast?_append_of_ne_nil _ _ (List.cons_ne_nil _ _),
      show s1 :: (mid ++ s2 :: post) = (s1 :: mid) ++ s2 :: post from rfl,
      getLast?_append_of_ne_nil _ _ (List.cons_ne_nil _ _)] at hl
    exact ⟨sl, hl, hp⟩
  have hpost0 : ∀ s ∈ post, ¬ IsIncludePass s := fun s hs =>
    hsingle s (List.mem_append_right _ (List.mem_cons_of_mem _
      (List.mem_append_right _ (List.mem_cons_of_mem _ hs))))
  refine ⟨⟨hp1.2.1, hp1.2.2.1, hp2.2.1, hp2.2.2.1⟩, ?_, ?_, ?_, ?_⟩
  · intro hmode
    have hv := (parseAssignment_valid w p.useEnvVars_ s2.1 sourceName s2.2.1.next.1
      s2.2.1.next.2.next.2 s2.2.2 prop2.value hp2.2.2.2).2
    rw [← (assignedName_some hn2).2] at hv
    have herr := (hv prop1 hfind hp1.2.1).1 (hmode2.trans hmode)
    have hpass : parsePass w sub p.useEnvVars_ sourceName s2.1 s2.2.1 s2.2.2 =
        some (.inl ⟨s2.1, .error ⟨sourceName, prop2.line, s2.2.1.next.1.column,
          lit "Property \"" ++ prop1.name ++
            lit "\" defined twice; original definition at " ++
            sourceName ++ lit ":" ++ showInt prop1.line⟩⟩) := by
      rw [parsePass_of_assignedName w sub p.useEnvVars_ sourceName s2 _ hn2, herr, hp2.2.2.1]
    exact parseLoop_of_pass w sub p.useEnvVars_ sourceName _ p _ .empty s2 _ hmem2 hpass
  · intro hmode hpost r store hr hok
    obtain ⟨sl, hl, hp⟩ := hlast r hr
    have h := passes_after_second w sub p.useEnvVars_ sourceName prop1.name s2 post prop1
      prop2 sl r store hgood hfind hc h2 hname hpost0 hpost hl hp hok
    have hf := h.1 (hmode2.trans hmode)
    exact ⟨hf, ConfigurationPropertyMap.count_of_find h.2.2 hf⟩
  · intro hmode hpost r store hr hok
    obtain ⟨sl, hl, hp⟩ := hlast r hr
    have h := passes_after_second w sub p.useEnvVars_ sourceName prop1.name s2 post prop1
      prop2 sl r store hgood hfind hc h2 hname hpost0 hpost hl hp hok
    have hf := h.2.1 (hmode2.trans hmode)
    exact ⟨hf, ConfigurationPropertyMap.count_of_find h.2.2 hf⟩
  · intro hsub
    exact parseStreamWith_returns w sub p sourceName input initialLine initialColumn hsub

/-- An instance of the theorem above: the text `p=1`, `q=3`, `p=2` (three
lines) of the source `dup.cfg` under `DUP_IGNORE` has four passes, the first
and the third assign to `p`, and the store returned holds `p` with the value
`1` of line 1 in exactly one entry. -/
theorem parse_duplicate_modes_witness :
    assignedProperty (plainWorld noFiles) true (lit "dup.cfg") (dupPass 0) =
      some ⟨lit "p", lit "1", lit "dup.cfg", 1⟩ ∧
    assignedProperty (plainWorld noFiles) true (lit "dup.cfg") (dupPass 2) =
      some ⟨lit "p", lit "2", lit "dup.cfg", 3⟩ ∧
    (ConfigurationPropertyMap.find ⟨[(lit "p", ⟨lit "p", lit "1", lit "dup.cfg", 1⟩),
        (lit "q", ⟨lit "q", lit "3", lit "dup.cfg", 2⟩)]⟩ (lit "p") =
      some ⟨lit "p", lit "1", lit "dup.cfg", 1⟩ ∧
    ((ConfigurationPropertyMap.mk [(lit "p", ⟨lit "p", lit "1", lit "dup.cfg", 1⟩),
        (lit "q", ⟨lit "q", lit "3", lit "dup.cfg", 2⟩)]).properties_.filter
      (fun e => e.1 = lit "p")).length = 1) :=
  ⟨by decide, by decide,
    (parse_duplicate_modes (plainWorld noFiles) (fun _ _ => none)
      (ConfigFileParser.create true .DUP_IGNORE .DUP_IGNORE) (lit "dup.cfg")
      (IStream.ofText (lit "p=1\nq=3\np=2\n")) 1 1 [] [dupPass 1] [dupPass 3] (dupPass 0)
      (dupPass 2) ⟨lit "p", lit "1", lit "dup.cfg", 1⟩ ⟨lit "p", lit "2", lit "dup.cfg", 3⟩
      (by decide) (by decide) (by decide) (by decide) rfl (by decide) (by decide)).2.2.1 rfl
      (by decide)
      ⟨ConfigFileParser.create true .DUP_IGNORE .DUP_IGNORE,
        .ok ⟨[(lit "p", ⟨lit "p", lit "1", lit "dup.cfg", 1⟩),
              (lit "q", ⟨lit "q", lit "3", lit "dup.cfg", 2⟩)]⟩⟩
      ⟨[(lit "p", ⟨lit "p", lit "1", lit "dup.cfg", 1⟩),
        (lit "q", ⟨lit "q", lit "3", lit "dup.cfg", 2⟩)]⟩ (by decide) rfl⟩

/-- The file of the duplicate-assignment test, `p=1` then `p=2`, parsed in
the three modes, and the assignments `a.b = 1` in a block and `a.b = 2`
outside it. -/
theorem parseText_duplicate_modes :
    ((ConfigFileParser.create true .DUP_ERROR .DUP_IGNORE).parseText (plainWorld noFiles)
      (lit "dup.cfg") (lit "p=1\np=2\n") 1 1).map (fun r => r.outcome) =
      some (.error ⟨lit "dup.cfg", 2, 1,
        lit "Property \"p\" defined twice; original definition at dup.cfg:1"⟩) ∧
    ((ConfigFileParser.create true .DUP_IGNORE .DUP_IGNORE).parseText (plainWorld noFiles)
      (lit "dup.cfg") (lit "p=1\np=2\n") 1 1).map (fun r => r.outcome) =
      some (.ok ⟨[(lit "p", ⟨lit "p", lit "1", lit "dup.cfg", 1⟩)]⟩) ∧
    ((ConfigFileParser.create true .DUP_OVERWRITE .DUP_IGNORE).parseText (plainWorld noFiles)
      (lit "dup.cfg") (lit "p=1\np=2\n") 1 1).map (fun r => r.outcome) =
      some (.ok ⟨[(lit "p", ⟨lit "p", lit "2", lit "dup.cfg", 2⟩)]⟩) ∧
    ((ConfigFileParser.create true .DUP_ERROR .DUP_IGNORE).parseText (plainWorld noFiles)
      (lit "dup.cfg") (lit "a \x7b\nb = 1\n\x7d\n# twice\na.b = 2\n") 1 1).map
        (fun r => r.outcome) =
      some (.error ⟨lit "dup.cfg", 5, 1,
        lit "Property \"a.b\" defined twice; original definition at dup.cfg:2"⟩) := by
  decide

/-! ## The value behind `=`: claim C37 -/

/-- The pass of `parse` for an assignment with nothing but whitespace behind
`=` on the line, to a name that the store does not hold: the property is
stored with the empty string, and the lexer stands at the end of the
line. -/
theorem parsePass_empty_assignment (w : World) (sub : SubParse) (useEnvVars : Bool)
    (sourceName : Str) (s : ParseState) (n : Str) (hn : assignedName s = some n)
    (hb : s.2.1.next.2.next.2.remaining.all isSpace = true) (hfind : s.2.2.find n = none) :
    parsePass w sub useEnvVars sourceName s.1 s.2.1 s.2.2 =
      some (.inr (s.1,
        { s.2.1.next.2.next.2 with current_ := s.2.1.next.2.next.2.text_.length, column_ := wrapInt (s.2.1.next.2.next.2.text_.length + 1), state_ := .AT_TEXT },
        s.2.2.add ⟨n, [], sourceName, s.2.1.next.1.line⟩)) := by
  obtain ⟨⟨_, _, _, h4, _, _⟩, hname⟩ := assignedName_some hn
  have hatt := (ConfigFileLexer.next_token_attached s.2.1.next.2 (Or.inr (Or.inr h4))).1
  have hnext : s.2.1.next.2.next.2.parseNextAsValue.next =
      (⟨.VALUE, [], s.2.1.next.2.next.2.line_,
          incInt s.2.1.next.2.next.2.column_ s.2.1.next.2.next.2.remaining.length⟩,
        { s.2.1.next.2.next.2 with current_ := s.2.1.next.2.next.2.text_.length, column_ := wrapInt (s.2.1.next.2.next.2.text_.length + 1), state_ := .AT_TEXT }) := by
    rw [next_parseNextAsValue]
    exact ConfigFileLexer.parseValue_blank s.2.1.next.2.next.2.parseNextAsValue
      (Or.inl hatt) hb
  have hval : processValue w.getenv s.2.2 useEnvVars
      (s.2.1.next.2.next.2.parseNextAsValue.next).1.value = some (.ok []) := by
    rw [hnext]
    exact processValue_nil _ _ _
  have hv := (parseAssignment_valid w useEnvVars s.1 sourceName s.2.1.next.1
    s.2.1.next.2.next.2 s.2.2 [] hval).1
  rw [← hname] at hv
  rw [parsePass_of_assignedName w sub useEnvVars sourceName s n hn, hv hfind, hnext]

/-- Claim C37 as stated is refuted, for its clause on the end of the input.
The text is the line `a=b\` and the line `c\` without a newline behind it.
The value of `a` is continued to the end of the input, the next call of
`next()` returns END_OF_FILE, and yet a call of `parseNextAsValue()` and
`next()` after that returns a VALUE whose text is `c`, not the empty text:
the last line read is still the current line of the lexer, and the position
of the lexer is its begin. -/
theorem value_after_end_of_input_counterexample :
    ((ConfigFileLexer.create (IStream.ofText (lit "a=b\\\nc\\")) 1
        1).next.2.next.2.parseNextAsValue.next).1 = ⟨.VALUE, lit "b\nc", 1, 3⟩ ∧
    ((ConfigFileLexer.create (IStream.ofText (lit "a=b\\\nc\\")) 1
        1).next.2.next.2.parseNextAsValue.next).2.state_ = .AT_EOF ∧
    ((ConfigFileLexer.create (IStream.ofText (lit "a=b\\\nc\\")) 1
        1).next.2.next.2.parseNextAsValue.next).2.text_ = lit "c" ∧
    ((ConfigFileLexer.create (IStream.ofText (lit "a=b\\\nc\\")) 1
        1).next.2.next.2.parseNextAsValue.next).2.current_ = 0 ∧
    ((ConfigFileLexer.create (IStream.ofText (lit "a=b\\\nc\\")) 1
        1).next.2.next.2.parseNextAsValue.next).2.next.1 = ⟨.END_OF_FILE, [], 2, 1⟩ ∧
    ((ConfigFileLexer.create (IStream.ofText (lit "a=b\\\nc\\")) 1
        1).next.2.next.2.parseNextAsValue.next).2.next.2.parseNextAsValue.next.1 =
      ⟨.VALUE, lit "c", 2, 1⟩ :=
  ⟨by decide, by decide, by decide, by decide, by decide, by decide⟩

/-- Claim C37 as amended. The lexer `lx` has its position within its current
line (`Attached`: the states in which the behaviour of the code is defined;
after END_OF_FILE on an input that ends in a newline the position is
outside the cleared line, and the claim says nothing). After
`parseNextAsValue()` the next call of `next()` returns a VALUE token and
leaves the lexer in text mode or at the end of the file, never in value
mode, and ready for the next call of `next()` in the loop of `parse`. With
nothing but whitespace left on the current line (at the end of a line, and
at the end of an input before END_OF_FILE has been returned) the VALUE has
the empty text and the lexer stays on that line. No exception of
`parseAssignment_` is "Property value expected", and an assignment with
nothing behind `=` stores the property with the empty string: so does the
call of `parseAssignment_`, and so does the pass of `parse` that reads a
legal name, `=` and nothing but whitespace up to the end of the line, for a
name that is new.

The parser calls `parseAssignment_` in such a state only: behind a
PUNCTUATION token the position is within the line of the token;
`parseAssignmentOrBlock_` hands on the lexer behind the token `=` and
makes no call otherwise; every pass of `parse`, whatever the parse of
included files does, starts with a lexer that is ready for `next()`. No
exception of `parseText(...)` or `parse(filename)`, included files with
it, is "Property value expected". -/
theorem next_after_parseNextAsValue_is_value (lx : ConfigFileLexer) (hatt : lx.Attached) :
    (lx.parseNextAsValue.next).1.type = .VALUE ∧
    ((lx.parseNextAsValue.next).2.state_ = .AT_TEXT ∨
      (lx.parseNextAsValue.next).2.state_ = .AT_EOF) ∧
    (lx.parseNextAsValue.next).2.Ready ∧
    (lx.remaining.all isSpace = true →
      lx.parseNextAsValue.next =
        (⟨.VALUE, [], lx.line_, incInt lx.column_ lx.remaining.length⟩,
         { lx with current_ := lx.text_.length, column_ := wrapInt (lx.text_.length + 1),
                   state_ := .AT_TEXT })) ∧
    (∀ (w : World) (useEnvVars : Bool) (p : ConfigFileParser) (sourceName : Str)
      (name : Token) (properties : ConfigurationPropertyMap) (e : ConfigFileParseError),
      parseAssignment_ w useEnvVars p sourceName name lx properties = some (.error e) →
      NotValueExpected e) ∧
    (∀ (w : World) (useEnvVars : Bool) (p : ConfigFileParser) (sourceName : Str)
      (name : Token) (properties : ConfigurationPropertyMap),
      lx.remaining.all isSpace = true →
      properties.find (p.getFullName_ name.value) = none →
      parseAssignment_ w useEnvVars p sourceName name lx properties =
        some (.ok ({ lx with current_ := lx.text_.length, column_ := wrapInt (lx.text_.length + 1),
                             state_ := .AT_TEXT },
          properties.add ⟨p.getFullName_ name.value, [], sourceName, name.line⟩))) ∧
    (∀ l : ConfigFileLexer, l.next.1.type = .PUNCTUATION →
      l.next.2.Attached ∧ l.next.2.state_ = .AT_TEXT) ∧
    (∀ (w : World) (sub : SubParse) (useEnvVars : Bool) (sourceName : Str) (s : ParseState)
      (n : Str), assignedName s = some n →
      s.2.1.next.2.next.2.remaining.all isSpace = true → s.2.2.find n = none →
      parsePass w sub useEnvVars sourceName s.1 s.2.1 s.2.2 =
        some (.inr (s.1,
          { s.2.1.next.2.next.2 with current_ := s.2.1.next.2.next.2.text_.length, column_ := wrapInt (s.2.1.next.2.next.2.text_.length + 1), state_ := .AT_TEXT },
          s.2.2.add ⟨n, [], sourceName, s.2.1.next.1.line⟩))) ∧
    (∀ (w : World) (useEnvVars : Bool) (p : ConfigFileParser) (sourceName : Str)
      (name : Token) (l : ConfigFileLexer) (properties : ConfigurationPropertyMap),
      (l.next.1.type = .PUNCTUATION ∧ l.next.1.line = name.line ∧ l.next.1.value = lit "=" →
        parseAssignmentOrBlock_ w useEnvVars p sourceName name l properties =
          (parseAssignment_ w useEnvVars p sourceName name l.next.2 properties).map
            (fun a => a.map (fun r => (p, r.1, r.2)))) ∧
      (¬ (l.next.1.type = .PUNCTUATION ∧ l.next.1.line = name.line ∧
          l.next.1.value = lit "=") →
        parseAssignmentOrBlock_ w useEnvVars p sourceName name l properties =
          some (.error ⟨sourceName, name.line, l.column_, lit "'=' expected"⟩) ∨
        parseAssignmentOrBlock_ w useEnvVars p sourceName name l properties =
          some (.ok (p.beginBlock_ name.value, l.next.2, properties)))) ∧
    (∀ (w : World) (sub : SubParse) (useEnvVars : Bool) (sourceName : Str) (fuel : Nat)
      (p : ConfigFileParser) (input : IStream) (initialLine initialColumn : Int),
      ∀ s ∈ parseLoopPasses w sub useEnvVars sourceName fuel p
        (ConfigFileLexer.create input initialLine initialColumn) .empty, s.2.1.Ready) ∧
    (∀ (w : World) (p : ConfigFileParser) (sourceName text : Str)
      (initialLine initialColumn : Int) (r : ParseResult) (e : ConfigFileParseError),
      p.parseText w sourceName text initialLine initialColumn = some r →
      r.outcome = .error e → NotValueExpected e) ∧
    (∀ (w : World) (p : ConfigFileParser) (filename : Str) (r : ParseResult)
      (e : ConfigFileParseError),
      p.parse w filename = some r → r.outcome = .error e → NotValueExpected e) := by
  have htype := next_value_type lx
  have hblank : lx.remaining.all isSpace = true →
      lx.parseNextAsValue.next =
        (⟨.VALUE, [], lx.line_, incInt lx.column_ lx.remaining.length⟩,
         { lx with current_ := lx.text_.length, column_ := wrapInt (lx.text_.length + 1),
                   state_ := .AT_TEXT }) := by
    intro hb
    rw [next_parseNextAsValue]
    exact ConfigFileLexer.parseValue_blank lx.parseNextAsValue (Or.inl hatt) hb
  have hstate : (lx.parseNextAsValue.next).2.state_ = .AT_TEXT ∨
      (lx.parseNextAsValue.next).2.state_ = .AT_EOF := by
    rw [next_parseNextAsValue]
    exact ConfigFileLexer.parseValue_state _ _
  refine ⟨htype, hstate, ?_, hblank, ?_, ?_, ?_, ?_, ?_, ?_, ?_, ?_⟩
  · rcases hstate with hs | hs
    · rw [next_parseNextAsValue] at hs ⊢
      rcases ConfigFileLexer.parseValue_attached lx.parseNextAsValue false with ha | ha
      · exact Or.inl ⟨ha, Or.inr hs⟩
      · exact Or.inr ha
    · exact Or.inr hs
  · intro w useEnvVars p sourceName name properties e h
    exact parseAssignment_error_ne w useEnvVars p sourceName name lx properties e h
  · intro w useEnvVars p sourceName name properties hb hfind
    have hn := hblank hb
    unfold parseAssignment_
    simp only [htype, ne_eq, not_true_eq_false, decide_False, if_false]
    rw [hn]
    simp only [processValue_nil, hfind]
  · intro l hl
    exact ConfigFileLexer.next_token_attached l (Or.inr (Or.inr hl))
  · intro w sub useEnvVars sourceName s n hn hb hfind
    exact parsePass_empty_assignment w sub useEnvVars sourceName s n hn hb hfind
  · intro w useEnvVars p sourceName name l properties
    exact ⟨fun h => parseAssignmentOrBlock_equals w useEnvVars p sourceName name l properties
        h.1 h.2.1 h.2.2,
      parseAssignmentOrBlock_other w useEnvVars p sourceName name l properties⟩
  · intro w sub useEnvVars sourceName fuel p input initialLine initialColumn
    exact parseLoopPasses_ready w sub useEnvVars sourceName fuel p _ .empty
      (ConfigFileLexer.ready_create input initialLine initialColumn)
  · intro w p sourceName text initialLine initialColumn r e h he
    exact parseLoop_error_ne w _ _ _ (subParseAt_error_ne w _) _ _ _ _ r e h he
  · intro w p filename r e h he
    exact parseFileWith_error_ne w _ (subParseAt_error_ne w _) p filename r e h he

/-- An instance of the theorem above: behind the `=` of the line `a =` the
value is empty, at line 1, column 4. -/
theorem next_after_parseNextAsValue_is_value_witness :
    (ConfigFileLexer.create (IStream.ofText (lit "a =\n")) 1
      1).next.2.next.2.parseNextAsValue.next.1 = ⟨.VALUE, [], 1, 4⟩ :=
  (congrArg Prod.fst ((next_after_parseNextAsValue_is_value
    (ConfigFileLexer.create (IStream.ofText (lit "a =\n")) 1 1).next.2.next.2
    (by show _ ≤ _; decide)).2.2.2.1 (by decide))).trans (by decide)

/-- The assignments of the lexer unit test and of a last line without a
newline, parsed: a name with nothing behind `=` is stored with the empty
string. -/
theorem parseText_empty_value :
    ((ConfigFileParser.create true .DUP_ERROR .DUP_IGNORE).parseText (plainWorld noFiles)
        (lit "app.cfg") (lit "a =\nb = 1\n") 1 1).map (fun r => r.outcome) =
      some (.ok ⟨[(lit "a", ⟨lit "a", [], lit "app.cfg", 1⟩),
                  (lit "b", ⟨lit "b", lit "1", lit "app.cfg", 2⟩)]⟩) ∧
    ((ConfigFileParser.create true .DUP_ERROR .DUP_IGNORE).parseText (plainWorld noFiles)
        (lit "app.cfg") (lit "a=") 1 1).map (fun r => r.outcome) =
      some (.ok ⟨[(lit "a", ⟨lit "a", [], lit "app.cfg", 1⟩)]⟩) :=
  ⟨by decide, by decide⟩

end Pistis
